import Mathlib

/-!
# MetaDEx order matching (omnicore, `src/omnicore/mdex.cpp`)

A shallow embedding of the MetaDEx order book and its matching engine.

* Amounts (`int64_t`) and 128-bit intermediates are unbounded integers; the
  range assertion of `xToInt64` is modelled explicitly, and theorems state the
  64-bit range of their inputs where the source relies on it.
* Prices (`rational_t`, a normalised `boost::rational`) are exact rationals.
* A failing `assert` aborts the node: every operation containing one returns an
  `Except Abort`, the error naming the assertion that failed.
* `std::set` / `std::map` are lists kept in key order; the ordering invariant of
  the price levels is the predicate `BookWF`.
-/

namespace Omni

/-! ## Balance ledger -/

/-- Modelled from the spec: the tally kinds are declared outside the two source
files. `BALANCE` and `METADEX_RESERVE` are the two kinds the MetaDEx uses
(section 3, Tally); `OTHER_TALLY` stands for the remaining kinds of the
ledger. -/
inductive TallyType
  | BALANCE
  | METADEX_RESERVE
  | OTHER_TALLY
  deriving DecidableEq, Repr

/-- Modelled from the spec: the tally map `mp_tally_map` is declared outside
the two source files; section 3 describes it as a mapping from address and
property to the amounts of each tally kind. -/
abbrev Ledger := String → Nat → TallyType → Int

/-- Modelled from the spec: `getMPbalance`, the `get` of section 4.2, reads a
tally. -/
def getMPbalance (L : Ledger) (who : String) (propertyId : Nat) (ttype : TallyType) : Int :=
  L who propertyId ttype

/-- Modelled from the spec: `update_tally_map` is defined outside the two source
files; section 4.2 of the specification gives its contract: it adds `amount`
to the tally and fails (here `none`, the ledger being left as it was) when the
result would be negative. -/
def update_tally_map (L : Ledger) (who : String) (propertyId : Nat) (amount : Int)
    (ttype : TallyType) : Option Ledger :=
  if L who propertyId ttype + amount < 0 then none
  else some (fun a p t =>
    if a = who ∧ p = propertyId ∧ t = ttype then L a p t + amount else L a p t)

/-! ## Orders and prices -/

/-- Sub-action tags of a MetaDEx transaction (`CMPTransaction::ADD`, ...). -/
inductive Subaction
  | INVALID
  | ADD
  | CANCEL_AT_PRICE
  | CANCEL_ALL_FOR_PAIR
  | CANCEL_EVERYTHING
  deriving DecidableEq, Repr

/-- A MetaDEx order (`CMPMetaDEx`), with the fields `saveOffer` writes. -/
structure CMPMetaDEx where
  addr : String
  block : Int
  txid : Nat
  idx : Nat
  property : Nat
  amount_forsale : Int
  desired_property : Nat
  amount_desired : Int
  amount_remaining : Int
  subaction : Subaction
  deriving DecidableEq, Repr

/-- Modelled from the spec: the constructor of `CMPMetaDEx` used by
`MetaDEx_ADD` and `MetaDEx_CANCEL_AT_PRICE` is declared outside the two source
files; the arguments are in the order of the calls, and `amount_remaining`,
the unfilled portion of `amount_forsale` (section 3), starts as the amount for
sale. -/
def CMPMetaDEx.create (addr : String) (b : Int) (c : Nat) (nValue : Int) (cd : Nat)
    (ad : Int) (tx : Nat) (i : Nat) (suba : Subaction) : CMPMetaDEx :=
  { addr := addr, block := b, txid := tx, idx := i, property := c, amount_forsale := nValue,
    desired_property := cd, amount_desired := ad, amount_remaining := nValue,
    subaction := suba }

/-- `CMPMetaDEx::unitPrice`: desired amount per unit for sale. -/
def CMPMetaDEx.unitPrice (o : CMPMetaDEx) : ℚ :=
  if o.amount_forsale ≠ 0 then (o.amount_desired : ℚ) / (o.amount_forsale : ℚ) else 0

/-- `CMPMetaDEx::inversePrice`: amount for sale per unit desired. -/
def CMPMetaDEx.inversePrice (o : CMPMetaDEx) : ℚ :=
  if o.amount_desired ≠ 0 then (o.amount_forsale : ℚ) / (o.amount_desired : ℚ) else 0

/-- `CMPMetaDEx::setAmountRemaining`. -/
def CMPMetaDEx.setAmountRemaining (o : CMPMetaDEx) (amount : Int) : CMPMetaDEx :=
  { o with amount_remaining := amount }

/-! ## Exact price arithmetic -/

/-- `rangeInt64` on an integer. -/
def rangeInt64 (value : Int) : Bool :=
  decide (-(2 : Int) ^ 63 ≤ value) && decide (value ≤ (2 : Int) ^ 63 - 1)

/-- `xToInt128`: truncating division of numerator by denominator, or
`1 + (num - 1) / denom` when rounding up. -/
def xToInt128 (value : ℚ) (fRoundUp : Bool) : Int :=
  if !fRoundUp then value.num.tdiv (value.den : Int)
  else 1 + (value.num - 1).tdiv (value.den : Int)

/-- `xToInt64`: as `xToInt128`, with the assertion that the result is in the
signed 64-bit range (`none` when the assertion fails). -/
def xToInt64 (value : ℚ) (fRoundUp : Bool) : Option Int :=
  let result := xToInt128 value fRoundUp
  if rangeInt64 result then some result else none

/-- `CMPMetaDEx::getAmountToFill`. -/
def CMPMetaDEx.getAmountToFill (o : CMPMetaDEx) : Option Int :=
  xToInt64 ((o.amount_remaining : ℚ) * o.unitPrice) true

/-! ## Order book containers -/

/-- `MetaDEx_compare::operator()`: time priority by block, then index. -/
def MetaDEx_compare (lhs rhs : CMPMetaDEx) : Bool :=
  if lhs.block = rhs.block then decide (lhs.idx < rhs.idx) else decide (lhs.block < rhs.block)

/-- `md_Set`, a `std::set` of orders with the comparator `MetaDEx_compare`: the
orders of one price level, in the order of the comparator. -/
abbrev md_Set := List CMPMetaDEx

/-- `md_PricesMap`, a `std::map` from price to level: the price levels of one
property, in ascending price. -/
abbrev md_PricesMap := List (ℚ × md_Set)

/-- `md_PropertiesMap`, a `std::map` from property to price map: the book,
keyed by the property for sale. -/
abbrev md_PropertiesMap := List (Nat × md_PricesMap)

/-- `std::set::insert`: place the order at the position given by the
comparator; refuse it (second component `false`) when an equivalent element,
one that compares in neither direction, is present. -/
def md_Set_insert (o : CMPMetaDEx) : md_Set → md_Set × Bool
  | [] => ([o], true)
  | x :: xs =>
    if MetaDEx_compare o x then (o :: x :: xs, true)
    else if MetaDEx_compare x o then ((md_Set_insert o xs).1.cons x, (md_Set_insert o xs).2)
    else (x :: xs, false)

/-- `std::set::erase` at an iterator: remove that element. -/
def md_Set_erase (s : md_Set) (o : CMPMetaDEx) : md_Set :=
  s.erase o

/-- `std::map::find`. -/
def mapFind {κ β : Type} [DecidableEq κ] (k : κ) : List (κ × β) → Option β
  | [] => none
  | (k1, v) :: rest => if k1 = k then some v else mapFind k rest

/-- Writing through a pointer obtained from `find`: the value stored under the
key is replaced in place. -/
def mapReplace {κ β : Type} [DecidableEq κ] (k : κ) (v : β) : List (κ × β) → List (κ × β)
  | [] => []
  | (k1, v1) :: rest => if k1 = k then (k1, v) :: rest else (k1, v1) :: mapReplace k v rest

/-- Insertion of a key that is not in the map, at its place in the key
order. -/
def mapInsert {κ β : Type} [LT κ] [DecidableRel (fun (a b : κ) => a < b)]
    (k : κ) (v : β) : List (κ × β) → List (κ × β)
  | [] => [(k, v)]
  | (k1, v1) :: rest =>
    if k < k1 then (k, v) :: (k1, v1) :: rest
    else (k1, v1) :: mapInsert k v rest

/-- The map assignment `m[k] = v`: `operator[]` finds the entry of the key, or
inserts one when the key is absent, and the value is written to it. -/
def mapAssign {κ β : Type} [DecidableEq κ] [LT κ] [DecidableRel (fun (a b : κ) => a < b)]
    (k : κ) (v : β) (m : List (κ × β)) : List (κ × β) :=
  match mapFind k m with
  | some _ => mapReplace k v m
  | none => mapInsert k v m

/-- `get_Prices`. -/
def get_Prices (metadex : md_PropertiesMap) (prop : Nat) : Option md_PricesMap :=
  mapFind prop metadex

/-- `get_Indexes`. -/
def get_Indexes (p : md_PricesMap) (price : ℚ) : Option md_Set :=
  mapFind price p

/-! ## Global state -/

/-- One row of the trade log (`recordMatchedTrade`). -/
structure MatchedTrade where
  txid1 : Nat
  txid2 : Nat
  address1 : String
  address2 : String
  prop1 : Nat
  prop2 : Nat
  amount1 : Int
  amount2 : Int
  blockNum : Int
  deriving DecidableEq, Repr

/-- One row of the cancel log (`recordMetaDExCancelTX`). -/
structure CancelTX where
  txidMaster : Nat
  txidSub : Nat
  fValid : Bool
  nBlock : Int
  propertyId : Nat
  nValue : Int
  deriving DecidableEq, Repr

/-- The process-wide state touched by the MetaDEx. -/
structure State where
  metadex : md_PropertiesMap
  mp_tally_map : Ledger
  t_tradelistdb : List MatchedTrade
  p_txlistdb : List CancelTX

/-! ## Matching -/

/-- The assertions of `mdex.cpp`, by kind. A failing assertion aborts the
node; the operations below return the kind of the assertion that failed. -/
inductive Abort
  /-- `assert(pold->unitPrice() == sellersPrice)` -/
  | priceKey
  /-- one of the seven assertions under `// preconditions` -/
  | precondition
  /-- `assert(rangeInt64(result))` in `xToInt64` -/
  | range
  /-- one of the six assertions under `// postconditions` -/
  | postcondition
  /-- `assert(update_tally_map(...))` -/
  | tally
  /-- `assert(buyer_amountLeft == 0)` -/
  | satisfied
  deriving DecidableEq, Repr

/-- Return values of `x_Trade`. -/
inductive MatchReturnType
  | NOTHING
  | TRADED
  | TRADED_MOREINSELLER
  | TRADED_MOREINBUYER
  | ADDED
  | CANCELLED
  deriving DecidableEq, Repr

/-- The quantity `nCouldBuy` of `x_Trade`: the whole units of the maker's
property the taker can buy at the maker's price, capped by what the maker has
left. -/
def nCouldBuy (pold pnew : CMPMetaDEx) : Int :=
  let rCouldBuy : ℚ := (pnew.amount_remaining : ℚ) * pold.inversePrice
  let iCouldBuy : Int := xToInt128 rCouldBuy false
  if iCouldBuy < pold.amount_remaining then iCouldBuy else pold.amount_remaining

/-- The quantity `nWouldPay` of `x_Trade`: what the taker pays for `nCouldBuy`
units at the maker's unit price, rounded up (`none`: the range assertion of
`xToInt64` fails). -/
def nWouldPay (pold pnew : CMPMetaDEx) : Option Int :=
  let rWouldPay : ℚ := (nCouldBuy pold pnew : ℚ) * pold.unitPrice
  xToInt64 rWouldPay true

/-- What the body of the inner loop of `x_Trade` decides for one resting
order: an assertion fails, the order is passed over (`++offerIt; continue`),
or a fill of the given amounts is executed. -/
inductive MatchOutcome
  | assertFailed (a : Abort)
  | nextOffer
  | fill (buyer_amountGot seller_amountGot : Int)
  deriving DecidableEq, Repr

/-- The decision part of the inner loop body of `x_Trade` (from the assertion
on the price key down to the postconditions), for the resting order `pold` at
the level `sellersPrice` and the incoming order `pnew`. -/
def x_Trade_outcome (sellersPrice : ℚ) (pold pnew : CMPMetaDEx) : MatchOutcome :=
  if pold.unitPrice ≠ sellersPrice then .assertFailed .priceKey
  else if pold.desired_property ≠ pnew.property then .nextOffer
  else if ¬ (0 < pold.amount_remaining) then .assertFailed .precondition
  else if ¬ (0 < pnew.amount_remaining) then .assertFailed .precondition
  else if ¬ (pnew.property ≠ pnew.desired_property) then .assertFailed .precondition
  else if ¬ (pnew.property = pold.desired_property) then .assertFailed .precondition
  else if ¬ (pold.property = pnew.desired_property) then .assertFailed .precondition
  else if ¬ (pold.unitPrice ≤ pnew.inversePrice) then .assertFailed .precondition
  else if ¬ (pnew.unitPrice ≤ pold.inversePrice) then .assertFailed .precondition
  else if nCouldBuy pold pnew = 0 then .nextOffer
  else
    match nWouldPay pold pnew with
    | none => .assertFailed .range
    | some nWouldPay =>
      let xEffectivePrice : ℚ := (nWouldPay : ℚ) / (nCouldBuy pold pnew : ℚ)
      if xEffectivePrice > pnew.inversePrice then .nextOffer
      else
        let buyer_amountGot := nCouldBuy pold pnew
        let seller_amountGot := nWouldPay
        let buyer_amountLeft := pnew.amount_remaining - seller_amountGot
        let seller_amountLeft := pold.amount_remaining - buyer_amountGot
        if ¬ (xEffectivePrice ≥ pold.unitPrice) then .assertFailed .postcondition
        else if ¬ (xEffectivePrice ≤ pnew.inversePrice) then .assertFailed .postcondition
        else if ¬ (0 ≤ seller_amountLeft) then .assertFailed .postcondition
        else if ¬ (0 ≤ buyer_amountLeft) then .assertFailed .postcondition
        else if ¬ (pold.amount_remaining = seller_amountLeft + buyer_amountGot) then
          .assertFailed .postcondition
        else if ¬ (pnew.amount_remaining = buyer_amountLeft + seller_amountGot) then
          .assertFailed .postcondition
        else .fill buyer_amountGot seller_amountGot

/-- The state threaded through the loops of `x_Trade`: the incoming order, the
ledger, the trade log, and the locals `NewReturn` and `bBuyerSatisfied`. -/
structure TradeState where
  pnew : CMPMetaDEx
  tally : Ledger
  tradelist : List MatchedTrade
  NewReturn : MatchReturnType
  bBuyerSatisfied : Bool

/-- The four ledger updates of a fill, in the order of the source (`none`: one
of them returns `false`). -/
def x_Trade_transfer (L : Ledger) (pold pnew : CMPMetaDEx)
    (buyer_amountGot seller_amountGot : Int) : Option Ledger :=
  match update_tally_map L pnew.addr pnew.property (-seller_amountGot) .BALANCE with
  | none => none
  | some L1 =>
    match update_tally_map L1 pold.addr pold.desired_property seller_amountGot .BALANCE with
    | none => none
    | some L2 =>
      match update_tally_map L2 pold.addr pold.property (-buyer_amountGot) .METADEX_RESERVE with
      | none => none
      | some L3 => update_tally_map L3 pnew.addr pnew.desired_property buyer_amountGot .BALANCE

/-- The value of `NewReturn` after a fill. -/
def x_Trade_return (buyer_amountLeft seller_amountLeft : Int) : MatchReturnType :=
  let r0 := MatchReturnType.TRADED
  let r1 := if 0 < buyer_amountLeft then MatchReturnType.TRADED_MOREINBUYER else r0
  if 0 < seller_amountLeft then MatchReturnType.TRADED_MOREINSELLER else r1

/-- The row written to the trade log for a fill. -/
def x_Trade_row (pold pnew : CMPMetaDEx) (buyer_amountGot seller_amountGot : Int) :
    MatchedTrade :=
  { txid1 := pold.txid, txid2 := pnew.txid, address1 := pold.addr, address2 := pnew.addr,
    prop1 := pold.desired_property, prop2 := pnew.desired_property,
    amount1 := seller_amountGot, amount2 := buyer_amountGot, blockNum := pnew.block }

/-- The loop state after a fill whose ledger updates gave `L`. -/
def x_Trade_after (L : Ledger) (pold : CMPMetaDEx) (st : TradeState)
    (buyer_amountGot seller_amountGot : Int) : TradeState :=
  { pnew := st.pnew.setAmountRemaining (st.pnew.amount_remaining - seller_amountGot),
    tally := L,
    tradelist := st.tradelist ++ [x_Trade_row pold st.pnew buyer_amountGot seller_amountGot],
    NewReturn := x_Trade_return (st.pnew.amount_remaining - seller_amountGot)
      (pold.amount_remaining - buyer_amountGot),
    bBuyerSatisfied :=
      st.bBuyerSatisfied || decide (0 = st.pnew.amount_remaining - seller_amountGot) }

/-- The replacement of the resting order in its level after a fill: the order
is erased, and its copy with the reduced remaining amount is inserted when
something is left. -/
def x_Trade_replace (pofferSet : md_Set) (pold : CMPMetaDEx) (buyer_amountGot : Int) : md_Set :=
  let seller_replacement := pold.setAmountRemaining (pold.amount_remaining - buyer_amountGot)
  let erased := md_Set_erase pofferSet pold
  if 0 < seller_replacement.amount_remaining then (md_Set_insert seller_replacement erased).1
  else erased

/-- The inner loop of `x_Trade` over one price level. The second argument is
the part of the level from the iterator to the end, the third the level as it
currently stands. A fill erases the visited order and may insert its
replacement; the replacement carries the key of the erased order and is not
visited again. -/
def x_Trade_offers (sellersPrice : ℚ) :
    List CMPMetaDEx → md_Set → TradeState → Except Abort (md_Set × TradeState)
  | [], pofferSet, st => .ok (pofferSet, st)
  | pold :: rest, pofferSet, st =>
    match x_Trade_outcome sellersPrice pold st.pnew with
    | .assertFailed a => .error a
    | .nextOffer => x_Trade_offers sellersPrice rest pofferSet st
    | .fill buyer_amountGot seller_amountGot =>
      match x_Trade_transfer st.tally pold st.pnew buyer_amountGot seller_amountGot with
      | none => .error .tally
      | some L =>
        let st1 := x_Trade_after L pold st buyer_amountGot seller_amountGot
        let newSet := x_Trade_replace pofferSet pold buyer_amountGot
        if st1.bBuyerSatisfied then
          if st1.pnew.amount_remaining = 0 then .ok (newSet, st1) else .error .satisfied
        else x_Trade_offers sellersPrice rest newSet st1

/-- The outer loop of `x_Trade` over the price levels of the desired property,
in ascending price. -/
def x_Trade_prices : md_PricesMap → TradeState → Except Abort (md_PricesMap × TradeState)
  | [], st => .ok ([], st)
  | (sellersPrice, pofferSet) :: rest, st =>
    if st.pnew.inversePrice < sellersPrice then
      match x_Trade_prices rest st with
      | .error a => .error a
      | .ok (rest1, st1) => .ok ((sellersPrice, pofferSet) :: rest1, st1)
    else
      match x_Trade_offers sellersPrice pofferSet pofferSet st with
      | .error a => .error a
      | .ok (newSet, st1) =>
        if st1.bBuyerSatisfied then .ok ((sellersPrice, newSet) :: rest, st1)
        else
          match x_Trade_prices rest st1 with
          | .error a => .error a
          | .ok (rest1, st2) => .ok ((sellersPrice, newSet) :: rest1, st2)

/-- The result of `x_Trade`: its return value, the incoming order as it
leaves the function, and the new global state. -/
structure TradeResult where
  ret : MatchReturnType
  pnew : CMPMetaDEx
  state : State

/-- The loop state at the start of `x_Trade`. -/
def x_Trade_init (s : State) (pnew : CMPMetaDEx) : TradeState :=
  { pnew := pnew, tally := s.mp_tally_map, tradelist := s.t_tradelistdb,
    NewReturn := .NOTHING, bBuyerSatisfied := false }

/-- `x_Trade`: match the incoming order against the book of its desired
property. -/
def x_Trade (s : State) (pnew : CMPMetaDEx) : Except Abort TradeResult :=
  match get_Prices s.metadex pnew.desired_property with
  | none => .ok { ret := .NOTHING, pnew := pnew, state := s }
  | some ppriceMap =>
    match x_Trade_prices ppriceMap (x_Trade_init s pnew) with
    | .error a => .error a
    | .ok (newMap, st) =>
      .ok { ret := st.NewReturn, pnew := st.pnew,
            state := { s with metadex := mapReplace pnew.desired_property newMap s.metadex,
                              mp_tally_map := st.tally,
                              t_tradelistdb := st.tradelist } }

/-- `MetaDEx_INSERT`: the new book and `true`, or the book as it was and
`false` when the level already holds an equivalent order. -/
def MetaDEx_INSERT (metadex : md_PropertiesMap) (objMetaDEx : CMPMetaDEx) :
    md_PropertiesMap × Bool :=
  let p_prices := get_Prices metadex objMetaDEx.property
  let p_indexes : Option md_Set :=
    match p_prices with
    | some prices => get_Indexes prices objMetaDEx.unitPrice
    | none => none
  let indexes : md_Set := p_indexes.getD []
  let ret := md_Set_insert objMetaDEx indexes
  if ret.2 = false then (metadex, false)
  else
    let prices : md_PricesMap := p_prices.getD []
    let prices1 := mapAssign objMetaDEx.unitPrice ret.1 prices
    (mapAssign objMetaDEx.property prices1 metadex, true)

/-- `MetaDEx_ADD`: the return code and the new state, or the assertion that
failed. `METADEX_ERROR` is the base of the error codes, a constant defined
outside the two source files. -/
def MetaDEx_ADD (METADEX_ERROR : Int) (s : State) (sender_addr : String) (prop : Nat)
    (amount : Int) (block : Int) (property_desired : Nat) (amount_desired : Int)
    (txid : Nat) (idx : Nat) : Except Abort (Int × State) :=
  let new_mdex := CMPMetaDEx.create sender_addr block prop amount property_desired
    amount_desired txid idx .ADD
  if 0 ≥ new_mdex.unitPrice then .ok (METADEX_ERROR - 66, s)
  else
    match x_Trade s new_mdex with
    | .error a => .error a
    | .ok r =>
      if 0 < r.pnew.amount_remaining then
        if (MetaDEx_INSERT r.state.metadex r.pnew).2 = false then
          .ok (METADEX_ERROR - 70, r.state)
        else
          match update_tally_map r.state.mp_tally_map sender_addr prop
              (-r.pnew.amount_remaining) .BALANCE with
          | none => .error .tally
          | some L1 =>
            match update_tally_map L1 sender_addr prop r.pnew.amount_remaining
                .METADEX_RESERVE with
            | none => .error .tally
            | some L2 =>
              .ok (0, { r.state with metadex := (MetaDEx_INSERT r.state.metadex r.pnew).1,
                                     mp_tally_map := L2 })
      else .ok (0, r.state)

/-! ## Cancellation -/

/-- The state threaded through the loops of the cancel operations: the ledger,
the cancel log and the return code `rc`. -/
structure CancelState where
  tally : Ledger
  txlist : List CancelTX
  rc : Int

/-- The row written to the cancel log for a removed order. -/
def cancel_row (txid : Nat) (block : Int) (o : CMPMetaDEx) : CancelTX :=
  { txidMaster := txid, txidSub := o.txid, fValid := true, nBlock := block,
    propertyId := o.property, nValue := o.amount_remaining }

/-- The inner loop shared by the three cancel operations, over one price
level: an order for which `skip` holds is passed over; any other order has its
remaining amount moved from `METADEX_RESERVE` to `BALANCE` (both updates under
`assert`), is recorded in the cancel log, and is erased. The result is the
level that remains. -/
def MetaDEx_cancel_offers (txid : Nat) (block : Int) (skip : CMPMetaDEx → Bool) :
    List CMPMetaDEx → CancelState → Except Abort (md_Set × CancelState)
  | [], st => .ok ([], st)
  | o :: rest, st =>
    if skip o then
      match MetaDEx_cancel_offers txid block skip rest st with
      | .error a => .error a
      | .ok (kept, st1) => .ok (o :: kept, st1)
    else
      match update_tally_map st.tally o.addr o.property (-o.amount_remaining)
          .METADEX_RESERVE with
      | none => .error .tally
      | some L1 =>
        match update_tally_map L1 o.addr o.property o.amount_remaining .BALANCE with
        | none => .error .tally
        | some L2 =>
          MetaDEx_cancel_offers txid block skip rest
            { tally := L2, txlist := st.txlist ++ [cancel_row txid block o], rc := 0 }

/-- The loop over the price levels of one property shared by the cancel
operations: a level for which `skipLevel` holds is passed over, any other is
scanned by `MetaDEx_cancel_offers`. -/
def MetaDEx_cancel_prices (txid : Nat) (block : Int) (skipLevel : ℚ → Bool)
    (skip : CMPMetaDEx → Bool) :
    md_PricesMap → CancelState → Except Abort (md_PricesMap × CancelState)
  | [], st => .ok ([], st)
  | (price, indexes) :: rest, st =>
    if skipLevel price then
      match MetaDEx_cancel_prices txid block skipLevel skip rest st with
      | .error a => .error a
      | .ok (rest1, st1) => .ok ((price, indexes) :: rest1, st1)
    else
      match MetaDEx_cancel_offers txid block skip indexes st with
      | .error a => .error a
      | .ok (kept, st1) =>
        match MetaDEx_cancel_prices txid block skipLevel skip rest st1 with
        | .error a => .error a
        | .ok (rest1, st2) => .ok ((price, kept) :: rest1, st2)

/-- `MetaDEx_CANCEL_AT_PRICE`. -/
def MetaDEx_CANCEL_AT_PRICE (METADEX_ERROR : Int) (s : State) (txid : Nat) (block : Int)
    (sender_addr : String) (prop : Nat) (amount : Int) (property_desired : Nat)
    (amount_desired : Int) : Except Abort (Int × State) :=
  let rc := METADEX_ERROR - 20
  let mdex := CMPMetaDEx.create sender_addr 0 prop amount property_desired amount_desired
    0 0 .CANCEL_AT_PRICE
  match get_Prices s.metadex prop with
  | none => .ok (rc - 1, s)
  | some prices =>
    match MetaDEx_cancel_prices txid block
        (fun sellers_price => decide (mdex.unitPrice ≠ sellers_price))
        (fun o => decide (o.desired_property ≠ property_desired) || decide (o.addr ≠ sender_addr))
        prices { tally := s.mp_tally_map, txlist := s.p_txlistdb, rc := rc } with
    | .error a => .error a
    | .ok (prices1, st) =>
      .ok (st.rc, { s with metadex := mapReplace prop prices1 s.metadex,
                           mp_tally_map := st.tally, p_txlistdb := st.txlist })

/-- `MetaDEx_CANCEL_ALL_FOR_PAIR`. -/
def MetaDEx_CANCEL_ALL_FOR_PAIR (METADEX_ERROR : Int) (s : State) (txid : Nat) (block : Int)
    (sender_addr : String) (prop : Nat) (property_desired : Nat) : Except Abort (Int × State) :=
  let rc := METADEX_ERROR - 30
  match get_Prices s.metadex prop with
  | none => .ok (rc - 1, s)
  | some prices =>
    match MetaDEx_cancel_prices txid block (fun _ => false)
        (fun o => decide (o.desired_property ≠ property_desired) || decide (o.addr ≠ sender_addr))
        prices { tally := s.mp_tally_map, txlist := s.p_txlistdb, rc := rc } with
    | .error a => .error a
    | .ok (prices1, st) =>
      .ok (st.rc, { s with metadex := mapReplace prop prices1 s.metadex,
                           mp_tally_map := st.tally, p_txlistdb := st.txlist })

/-- The loop of `MetaDEx_CANCEL_EVERYTHING` over the properties of the book.
The two ecosystem tests are defined outside the two source files and are
parameters. -/
def MetaDEx_cancel_properties (isMainEcosystemProperty isTestEcosystemProperty : Nat → Bool)
    (txid : Nat) (block : Int) (sender_addr : String) (ecosystem : Nat) :
    md_PropertiesMap → CancelState → Except Abort (md_PropertiesMap × CancelState)
  | [], st => .ok ([], st)
  | (prop, prices) :: rest, st =>
    if (isMainEcosystemProperty ecosystem && !isMainEcosystemProperty prop)
        || (isTestEcosystemProperty ecosystem && !isTestEcosystemProperty prop) then
      match MetaDEx_cancel_properties isMainEcosystemProperty isTestEcosystemProperty
          txid block sender_addr ecosystem rest st with
      | .error a => .error a
      | .ok (rest1, st1) => .ok ((prop, prices) :: rest1, st1)
    else
      match MetaDEx_cancel_prices txid block (fun _ => false)
          (fun o => decide (o.addr ≠ sender_addr)) prices st with
      | .error a => .error a
      | .ok (prices1, st1) =>
        match MetaDEx_cancel_properties isMainEcosystemProperty isTestEcosystemProperty
            txid block sender_addr ecosystem rest st1 with
        | .error a => .error a
        | .ok (rest1, st2) => .ok ((prop, prices1) :: rest1, st2)

/-- `MetaDEx_CANCEL_EVERYTHING`. -/
def MetaDEx_CANCEL_EVERYTHING (isMainEcosystemProperty isTestEcosystemProperty : Nat → Bool)
    (METADEX_ERROR : Int) (s : State) (txid : Nat) (block : Int) (sender_addr : String)
    (ecosystem : Nat) : Except Abort (Int × State) :=
  let rc := METADEX_ERROR - 40
  match MetaDEx_cancel_properties isMainEcosystemProperty isTestEcosystemProperty
      txid block sender_addr ecosystem s.metadex
      { tally := s.mp_tally_map, txlist := s.p_txlistdb, rc := rc } with
  | .error a => .error a
  | .ok (metadex1, st) =>
    .ok (st.rc, { s with metadex := metadex1, mp_tally_map := st.tally,
                         p_txlistdb := st.txlist })

/-! ## Predicates and auxiliary functions used by the theorems -/

/-- The situation in which the inner loop of `x_Trade` looks at the resting
order `pold` for the incoming order `pnew`: `pold` rests at the level
`sellersPrice` of the book of the property `pnew` desires, the level passed the
price test against the limit of `pnew`, `pold` wants the property `pnew` sells,
and all amounts are positive, the taker's remaining amount within the signed
64-bit range. -/
def Candidate (sellersPrice : ℚ) (pold pnew : CMPMetaDEx) : Prop :=
  pold.unitPrice = sellersPrice ∧ sellersPrice ≤ pnew.inversePrice ∧
  pnew.property ≠ pnew.desired_property ∧ pold.property = pnew.desired_property ∧
  pold.desired_property = pnew.property ∧
  0 < pold.amount_forsale ∧ 0 < pold.amount_desired ∧ 0 < pold.amount_remaining ∧
  0 < pnew.amount_forsale ∧ 0 < pnew.amount_desired ∧ 0 < pnew.amount_remaining ∧
  pnew.amount_remaining ≤ 2 ^ 63 - 1

instance (sellersPrice : ℚ) (pold pnew : CMPMetaDEx) :
    Decidable (Candidate sellersPrice pold pnew) := by
  unfold Candidate; infer_instance

/-- The sum of `BALANCE` and `METADEX_RESERVE` of a property over a finite set
of addresses. -/
def totalTokens (S : Finset String) (L : Ledger) (p : Nat) : Int :=
  Finset.sum S (fun a => L a p .BALANCE + L a p .METADEX_RESERVE)

/-- All orders of a property's price map, level by level. -/
def pricesOrders (pm : md_PricesMap) : List CMPMetaDEx :=
  pm.flatMap (fun e => e.2)

/-- All resting orders of the book. -/
def allOrders (metadex : md_PropertiesMap) : List CMPMetaDEx :=
  metadex.flatMap (fun e => pricesOrders e.2)

/-- The sum of `amount_remaining` over the orders of a list that belong to the
address `a` and sell the property `p`. -/
def reserved (l : List CMPMetaDEx) (a : String) (p : Nat) : Int :=
  ((l.filter (fun o => decide (o.addr = a ∧ o.property = p))).map
    (fun o => o.amount_remaining)).sum

/-- The reserve invariant: every `METADEX_RESERVE` tally equals the sum of
`amount_remaining` over the resting orders of that address selling that
property. -/
def ReserveInv (s : State) : Prop :=
  ∀ a p, s.mp_tally_map a p .METADEX_RESERVE = reserved (allOrders s.metadex) a p

/-- The ordering invariant of `md_Set`: strictly ascending in
`MetaDEx_compare`. -/
def SetSorted (s : md_Set) : Prop :=
  s.Pairwise (fun a b => MetaDEx_compare a b = true)

/-- The ordering invariant of a `std::map`: keys strictly ascending. -/
def KeysSorted {κ β : Type} [LT κ] (m : List (κ × β)) : Prop :=
  m.Pairwise (fun a b => a.1 < b.1)

/-- The ordering invariant of the levels of a price map. -/
def PricesWF (pm : md_PricesMap) : Prop :=
  ∀ lvl ∈ pm, SetSorted lvl.2

/-- The ordering invariant of the levels of the book: every level is in
`MetaDEx_compare` order, as a `std::set` with that comparator is. -/
def BookWF (metadex : md_PropertiesMap) : Prop :=
  ∀ e ∈ metadex, PricesWF e.2

/-- The states the node reaches from an empty book without reserves, by the
four MetaDEx operations and by changes of the ledger that leave every
`METADEX_RESERVE` as it is (the other transaction families). -/
inductive Reachable (isMain isTest : Nat → Bool) (ME : Int) : State → Prop
  | init (L : Ledger) (tl : List MatchedTrade) (cl : List CancelTX)
      (h : ∀ a p, L a p .METADEX_RESERVE = 0) :
      Reachable isMain isTest ME
        { metadex := [], mp_tally_map := L, t_tradelistdb := tl, p_txlistdb := cl }
  | other (s : State) (L : Ledger) (hs : Reachable isMain isTest ME s)
      (h : ∀ a p, L a p .METADEX_RESERVE = s.mp_tally_map a p .METADEX_RESERVE) :
      Reachable isMain isTest ME { s with mp_tally_map := L }
  | add (s : State) (sender : String) (prop : Nat) (amount : Int) (block : Int) (pd : Nat)
      (ad : Int) (txid idx : Nat) (res : Int × State) (hs : Reachable isMain isTest ME s)
      (h : MetaDEx_ADD ME s sender prop amount block pd ad txid idx = .ok res) :
      Reachable isMain isTest ME res.2
  | cancelAtPrice (s : State) (txid : Nat) (block : Int) (sender : String) (prop : Nat)
      (amount : Int) (pd : Nat) (ad : Int) (res : Int × State)
      (hs : Reachable isMain isTest ME s)
      (h : MetaDEx_CANCEL_AT_PRICE ME s txid block sender prop amount pd ad = .ok res) :
      Reachable isMain isTest ME res.2
  | cancelAllForPair (s : State) (txid : Nat) (block : Int) (sender : String) (prop : Nat)
      (pd : Nat) (res : Int × State) (hs : Reachable isMain isTest ME s)
      (h : MetaDEx_CANCEL_ALL_FOR_PAIR ME s txid block sender prop pd = .ok res) :
      Reachable isMain isTest ME res.2
  | cancelEverything (s : State) (txid : Nat) (block : Int) (sender : String)
      (ecosystem : Nat) (res : Int × State) (hs : Reachable isMain isTest ME s)
      (h : MetaDEx_CANCEL_EVERYTHING isMain isTest ME s txid block sender ecosystem = .ok res) :
      Reachable isMain isTest ME res.2

/-- The inner loop of `x_Trade` with the replacement written at the place of
the visited order: the function returns what the part of the level from the
iterator on has become. On a level in `MetaDEx_compare` order it computes what
`x_Trade_offers` computes (`x_Trade_offers_eq_level`). -/
def x_Trade_level (sellersPrice : ℚ) :
    List CMPMetaDEx → TradeState → Except Abort (List CMPMetaDEx × TradeState)
  | [], st => .ok ([], st)
  | pold :: rest, st =>
    match x_Trade_outcome sellersPrice pold st.pnew with
    | .assertFailed a => .error a
    | .nextOffer =>
      match x_Trade_level sellersPrice rest st with
      | .error a => .error a
      | .ok (rest1, st1) => .ok (pold :: rest1, st1)
    | .fill buyer_amountGot seller_amountGot =>
      match x_Trade_transfer st.tally pold st.pnew buyer_amountGot seller_amountGot with
      | none => .error .tally
      | some L =>
        let st1 := x_Trade_after L pold st buyer_amountGot seller_amountGot
        let repl : List CMPMetaDEx :=
          if 0 < pold.amount_remaining - buyer_amountGot then
            [pold.setAmountRemaining (pold.amount_remaining - buyer_amountGot)]
          else []
        if st1.bBuyerSatisfied then
          if st1.pnew.amount_remaining = 0 then .ok (repl ++ rest, st1) else .error .satisfied
        else
          match x_Trade_level sellersPrice rest st1 with
          | .error a => .error a
          | .ok (rest1, st2) => .ok (repl ++ rest1, st2)

/-! ## Example data

The first concrete scenario of the specification: a maker sells 100 of
property 3 for 200 of property 1, a taker sells 200 of property 1 for 100 of
property 3. -/

/-- The resting order of the scenario. -/
def exMaker : CMPMetaDEx := CMPMetaDEx.create "maker" 10 3 100 1 200 77 1 .ADD

/-- The incoming order of the scenario, as `MetaDEx_ADD` builds it. -/
def exTaker : CMPMetaDEx := CMPMetaDEx.create "taker" 11 1 200 3 100 78 1 .ADD

/-- A ledger for the scenario: the maker has 100 of property 3 in reserve, the
taker a balance of 1000 of property 1. -/
def exLedger : Ledger := fun a p t =>
  if a = "maker" ∧ p = 3 ∧ t = .METADEX_RESERVE then 100
  else if a = "taker" ∧ p = 1 ∧ t = .BALANCE then 1000
  else 0

/-- The state of the scenario: the maker is the only resting order. -/
def exState : State :=
  { metadex := [(3, [(2, [exMaker])])], mp_tally_map := exLedger,
    t_tradelistdb := [], p_txlistdb := [] }

/-- The loop state of `x_Trade` when the taker of the scenario arrives. -/
def exTradeState : TradeState := x_Trade_init exState exTaker

/-- The orders a cancel loop removes from a level: those for which `skip`
does not hold. -/
def cancelledOffers (skip : CMPMetaDEx → Bool) (l : List CMPMetaDEx) : List CMPMetaDEx :=
  l.filter (fun o => !skip o)

/-- The orders a cancel loop removes from a price map. -/
def cancelledPrices (skipLevel : ℚ → Bool) (skip : CMPMetaDEx → Bool) (pm : md_PricesMap) :
    List CMPMetaDEx :=
  pm.flatMap (fun lvl => if skipLevel lvl.1 then [] else cancelledOffers skip lvl.2)

/-- The price map a cancel loop leaves. -/
def keptPrices (skipLevel : ℚ → Bool) (skip : CMPMetaDEx → Bool) (pm : md_PricesMap) :
    md_PricesMap :=
  pm.map (fun lvl => if skipLevel lvl.1 then lvl else (lvl.1, lvl.2.filter skip))

/-- The orders `MetaDEx_CANCEL_EVERYTHING` removes from the book, `skipProp`
being the ecosystem test on the property key. -/
def cancelledProperties (skipProp : Nat → Bool) (skip : CMPMetaDEx → Bool)
    (metadex : md_PropertiesMap) : List CMPMetaDEx :=
  metadex.flatMap (fun e =>
    if skipProp e.1 then [] else cancelledPrices (fun _ => false) skip e.2)

/-- The book `MetaDEx_CANCEL_EVERYTHING` leaves. -/
def keptProperties (skipProp : Nat → Bool) (skip : CMPMetaDEx → Bool)
    (metadex : md_PropertiesMap) : md_PropertiesMap :=
  metadex.map (fun e =>
    if skipProp e.1 then e else (e.1, keptPrices (fun _ => false) skip e.2))

/-- The change of a tally caused by cancelling the orders of a list: their
remaining amounts leave `METADEX_RESERVE` and enter `BALANCE`. -/
def cancelDelta (removed : List CMPMetaDEx) (a : String) (q : Nat) (k : TallyType) : Int :=
  match k with
  | .METADEX_RESERVE => -(reserved removed a q)
  | .BALANCE => reserved removed a q
  | .OTHER_TALLY => 0

/-- The time-priority key of an order. -/
def keyOf (o : CMPMetaDEx) : Int × Nat := (o.block, o.idx)

/-- The condition under which the ledger updates of the matching loops cannot
fail, for a loop state and the resting orders the loops have still to visit:
no tally is negative, every `METADEX_RESERVE` tally covers the remaining
amounts of those orders, the taker's `BALANCE` of the property it sells covers
its remaining amount, and the taker's unit price is positive. -/
def TallyOK (st : TradeState) (unvisited : List CMPMetaDEx) : Prop :=
  (∀ a p k, 0 ≤ st.tally a p k) ∧
  (∀ a p, reserved unvisited a p ≤ st.tally a p .METADEX_RESERVE) ∧
  st.pnew.amount_remaining ≤ st.tally st.pnew.addr st.pnew.property .BALANCE ∧
  0 < st.pnew.unitPrice

/-! The second concrete scenario of the specification: a maker sells 50 of
property 3 for 100 of property 1, a taker sells 200 of property 1 for 100 of
property 3. -/

/-- The resting order of the second scenario. -/
def ex2Maker : CMPMetaDEx := CMPMetaDEx.create "maker" 10 3 50 1 100 77 1 .ADD

/-- A ledger for the second scenario: the maker has 50 of property 3 in
reserve, the taker a balance of 1000 of property 1. -/
def ex2Ledger : Ledger := fun a p t =>
  if a = "maker" ∧ p = 3 ∧ t = .METADEX_RESERVE then 50
  else if a = "taker" ∧ p = 1 ∧ t = .BALANCE then 1000
  else 0

/-- The state of the second scenario: the maker is the only resting order. -/
def ex2State : State :=
  { metadex := [(3, [(2, [ex2Maker])])], mp_tally_map := ex2Ledger,
    t_tradelistdb := [], p_txlistdb := [] }

/-- The residual order of the taker of the second scenario: 100 of its 200
remain. -/
def ex2Residual : CMPMetaDEx :=
  (CMPMetaDEx.create "taker" 11 1 200 3 100 78 1 .ADD).setAmountRemaining 100

/-! A book in which a later order of a level is filled while an earlier one
rests. Alice sells 2 of property 3 for 3 of property 1; Carol, selling 2 of
property 1 for 1 of property 3, buys one unit from her; Bob then posts the same
offer as Alice; Dave sells 16 of property 1 for 10 of property 3. -/

/-- The state of an operation that returned, or the given state when it
aborted. -/
def stateOf (x : Except Abort (Int × State)) (dflt : State) : State :=
  match x with
  | .ok r => r.2
  | .error _ => dflt

/-- The ledger at the start: no reserves, each party holding what it will
offer. -/
def ex6Ledger : Ledger := fun a p t =>
  if a = "alice" ∧ p = 3 ∧ t = .BALANCE then 2
  else if a = "bob" ∧ p = 3 ∧ t = .BALANCE then 2
  else if a = "carol" ∧ p = 1 ∧ t = .BALANCE then 2
  else if a = "dave" ∧ p = 1 ∧ t = .BALANCE then 16
  else 0

/-- The empty book. -/
def ex6State0 : State :=
  { metadex := [], mp_tally_map := ex6Ledger, t_tradelistdb := [], p_txlistdb := [] }

/-- After the order of Alice. -/
def ex6State1 : State :=
  stateOf (MetaDEx_ADD (-80000) ex6State0 "alice" 3 2 10 1 3 70 1) ex6State0

/-- After the order of Carol. -/
def ex6State2 : State :=
  stateOf (MetaDEx_ADD (-80000) ex6State1 "carol" 1 2 10 3 1 71 2) ex6State1

/-- After the order of Bob. -/
def ex6State3 : State :=
  stateOf (MetaDEx_ADD (-80000) ex6State2 "bob" 3 2 10 1 3 72 3) ex6State2

/-- The order of Alice as it rests after Carol's purchase: one unit left. -/
def ex6A : CMPMetaDEx := (CMPMetaDEx.create "alice" 10 3 2 1 3 70 1 .ADD).setAmountRemaining 1

/-- The order of Bob as it rests. -/
def ex6B : CMPMetaDEx := CMPMetaDEx.create "bob" 10 3 2 1 3 72 3 .ADD

/-- The order of Dave as `MetaDEx_ADD` builds it. -/
def ex6Taker : CMPMetaDEx := CMPMetaDEx.create "dave" 11 1 16 3 10 73 1 .ADD

/-- What the inner loop of `x_Trade` can do when its iterator stands at the
order `A` of a level `pre ++ A :: rest`, with result `res`: pass over the whole
rest of the level because the taker cannot buy one unit; fill `A` in part and
touch nothing after it; fill `A` completely, erase it and then go on; or pass
over `A` by the effective-price check and go on. -/
def PriorityCases (sellersPrice : ℚ) (pre rest : List CMPMetaDEx) (A : CMPMetaDEx)
    (st : TradeState) (res : md_Set × TradeState) : Prop :=
  (nCouldBuy A st.pnew = 0 ∧ res = (pre ++ A :: rest, st)) ∨
  (∃ bg sg L, x_Trade_outcome sellersPrice A st.pnew = .fill bg sg ∧
    0 < A.amount_remaining - bg ∧
    x_Trade_transfer st.tally A st.pnew bg sg = some L ∧
    res = (pre ++ A.setAmountRemaining (A.amount_remaining - bg) :: rest,
           x_Trade_after L A st bg sg)) ∨
  (∃ sg L, x_Trade_outcome sellersPrice A st.pnew = .fill A.amount_remaining sg ∧
    x_Trade_transfer st.tally A st.pnew A.amount_remaining sg = some L ∧
    (((x_Trade_after L A st A.amount_remaining sg).bBuyerSatisfied = true ∧
        res = (pre ++ rest, x_Trade_after L A st A.amount_remaining sg)) ∨
     ((x_Trade_after L A st A.amount_remaining sg).bBuyerSatisfied = false ∧
        x_Trade_offers sellersPrice rest (pre ++ rest)
          (x_Trade_after L A st A.amount_remaining sg) = .ok res))) ∨
  (nCouldBuy A st.pnew ≠ 0 ∧
    ((⌈((nCouldBuy A st.pnew : Int) : ℚ) * (A.amount_desired : ℚ)
        / (A.amount_forsale : ℚ)⌉ : Int) : ℚ) / ((nCouldBuy A st.pnew : Int) : ℚ)
      > st.pnew.inversePrice ∧
    x_Trade_offers sellersPrice rest (pre ++ A :: rest) st = .ok res)

/-- The level of the book under a property for sale and a price key, empty
when the book has no such level. -/
def levelAt (metadex : md_PropertiesMap) (prop : Nat) (price : ℚ) : md_Set :=
  ((get_Prices metadex prop).bind (fun pm => get_Indexes pm price)).getD []

/-! The third and fourth concrete scenarios of the specification: a maker
sells 3 of property 3 for 10 of property 1, or 7 for 22; a taker sells 3 of
property 1 for 1 of property 3. -/

/-- The resting order of the third scenario. -/
def ex3Maker : CMPMetaDEx := CMPMetaDEx.create "maker" 10 3 3 1 10 77 1 .ADD

/-- The resting order of the fourth scenario. -/
def ex4Maker : CMPMetaDEx := CMPMetaDEx.create "maker" 10 3 7 1 22 77 1 .ADD

/-- The incoming order of both scenarios, as `MetaDEx_ADD` builds it. -/
def ex3Taker : CMPMetaDEx := CMPMetaDEx.create "taker" 11 1 3 3 1 78 1 .ADD

/-- A ledger for the two scenarios: the maker has `r` of property 3 in
reserve, the taker a balance of 1000 of property 1. -/
def ex3Ledger (r : Int) : Ledger := fun a p t =>
  if a = "maker" ∧ p = 3 ∧ t = .METADEX_RESERVE then r
  else if a = "taker" ∧ p = 1 ∧ t = .BALANCE then 1000
  else 0

/-- The state of the third scenario. -/
def ex3State : State :=
  { metadex := [(3, [(10 / 3, [ex3Maker])])], mp_tally_map := ex3Ledger 3,
    t_tradelistdb := [], p_txlistdb := [] }

/-- The state of the fourth scenario. -/
def ex4State : State :=
  { metadex := [(3, [(22 / 7, [ex4Maker])])], mp_tally_map := ex3Ledger 7,
    t_tradelistdb := [], p_txlistdb := [] }

/-! The fifth concrete scenario of the specification: one sender has two
resting orders selling property 3 for property 1, at the unit prices 2 and 3. -/

/-- The order at the unit price 2: 100 of property 3 for 200 of property 1. -/
def ex5Low : CMPMetaDEx := CMPMetaDEx.create "alice" 10 3 100 1 200 80 1 .ADD

/-- The order at the unit price 3: 100 of property 3 for 300 of property 1. -/
def ex5High : CMPMetaDEx := CMPMetaDEx.create "alice" 10 3 100 1 300 81 2 .ADD

/-- The ledger of the fifth scenario: 200 of property 3 in reserve. -/
def ex5Ledger : Ledger := fun a p t =>
  if a = "alice" ∧ p = 3 ∧ t = .METADEX_RESERVE then 200 else 0

/-- The state of the fifth scenario. -/
def ex5State : State :=
  { metadex := [(3, [(2, [ex5Low]), (3, [ex5High])])], mp_tally_map := ex5Ledger,
    t_tradelistdb := [], p_txlistdb := [] }

/-! The sixth concrete scenario of the specification: one sender has three
resting orders selling properties of the main ecosystem and two selling
properties of the test ecosystem; another address has one order in the main
ecosystem. -/

/-- An instance of the test-ecosystem test, which is a parameter of the
model: property 2 and the properties from 2147483651 on. -/
def exIsTest (p : Nat) : Bool := decide (p = 2) || decide (2147483651 ≤ p)

/-- An instance of the main-ecosystem test, which is a parameter of the
model: the other properties except 0. -/
def exIsMain (p : Nat) : Bool := decide (p ≠ 0) && !exIsTest p

/-- Alice sells 10 of property 1 for 20 of property 3. -/
def exEcoM1 : CMPMetaDEx := CMPMetaDEx.create "alice" 10 1 10 3 20 60 1 .ADD

/-- Alice sells 30 of property 3 for 60 of property 1. -/
def exEcoM2 : CMPMetaDEx := CMPMetaDEx.create "alice" 10 3 30 1 60 61 2 .ADD

/-- Alice sells 50 of property 5 for 100 of property 1. -/
def exEcoM3 : CMPMetaDEx := CMPMetaDEx.create "alice" 10 5 50 1 100 62 3 .ADD

/-- Alice sells 7 of property 2 for 14 of property 2147483651. -/
def exEcoT1 : CMPMetaDEx := CMPMetaDEx.create "alice" 10 2 7 2147483651 14 63 4 .ADD

/-- Alice sells 9 of property 2147483651 for 18 of property 2. -/
def exEcoT2 : CMPMetaDEx := CMPMetaDEx.create "alice" 10 2147483651 9 2 18 64 5 .ADD

/-- Bob sells 4 of property 3 for 8 of property 1, at the level of the second
order of Alice. -/
def exEcoB : CMPMetaDEx := CMPMetaDEx.create "bob" 10 3 4 1 8 65 6 .ADD

/-- The ledger of the sixth scenario: the reserves of the six orders. -/
def exEcoLedger : Ledger := fun a p t =>
  if a = "alice" ∧ p = 1 ∧ t = .METADEX_RESERVE then 10
  else if a = "alice" ∧ p = 3 ∧ t = .METADEX_RESERVE then 30
  else if a = "alice" ∧ p = 5 ∧ t = .METADEX_RESERVE then 50
  else if a = "alice" ∧ p = 2 ∧ t = .METADEX_RESERVE then 7
  else if a = "alice" ∧ p = 2147483651 ∧ t = .METADEX_RESERVE then 9
  else if a = "bob" ∧ p = 3 ∧ t = .METADEX_RESERVE then 4
  else 0

/-- The state of the sixth scenario. -/
def exEcoState : State :=
  { metadex := [(1, [(2, [exEcoM1])]), (2, [(2, [exEcoT1])]),
                (3, [(2, [exEcoM2, exEcoB])]), (5, [(2, [exEcoM3])]),
                (2147483651, [(2, [exEcoT2])])],
    mp_tally_map := exEcoLedger, t_tradelistdb := [], p_txlistdb := [] }

/-- Whether a property belongs to the ecosystem named by `ecosystem`, in
terms of the two ecosystem tests: for a main `ecosystem` the property passes
the main test, otherwise it passes the test-ecosystem test. -/
def inEcosystem (isMainEcosystemProperty isTestEcosystemProperty : Nat → Bool)
    (ecosystem : Nat) (prop : Nat) : Bool :=
  if isMainEcosystemProperty ecosystem then isMainEcosystemProperty prop
  else isTestEcosystemProperty prop

/-! ## The MetaDEx transactions of `tx.cpp` -/

/-- What `tx.cpp` uses in the four MetaDEx transactions and is declared
outside the two source files: the functions `IsTransactionTypeAllowed` (its
fifth argument `bAllowNullProperty` is passed only by the ecosystem cancel; the
four-argument calls are taken with `false`), `isTestEcosystemProperty`,
`isMainEcosystemProperty`, the registry lookup `_my_sps->hasSP`, and the
constants `MAX_INT_8_BYTES`, `OMNI_PROPERTY_MSC`, `OMNI_PROPERTY_TMSC`,
`PKT_ERROR_METADEX` and `METADEX_ERROR`. -/
structure TxEnv where
  IsTransactionTypeAllowed : Int → Nat → Nat → Nat → Bool → Bool
  isTestEcosystemProperty : Nat → Bool
  isMainEcosystemProperty : Nat → Bool
  hasSP : Nat → Bool
  MAX_INT_8_BYTES : Int
  OMNI_PROPERTY_MSC : Nat
  OMNI_PROPERTY_TMSC : Nat
  PKT_ERROR_METADEX : Int
  METADEX_ERROR : Int

/-- The members of `CMPTransaction` read by the four MetaDEx transactions,
followed by the members the packet parsing reads (`pkt`, `pkt_size`) and by the
other members it writes; these have a default value, so that a transaction can
be given by the members of the first group alone. The class is declared
outside the two source files. The packet buffer `pkt` is a list of bytes, the
character arrays are lists of bytes, the amounts are unsigned 64-bit members
(the source casts them with `(int64_t)` where it compares them with balances)
and are held as integers. -/
structure CMPTransaction where
  sender : String
  block : Int
  tx_idx : Nat
  txid : Nat
  type : Nat
  version : Nat
  property : Nat
  desired_property : Nat
  nNewValue : Int
  desired_value : Int
  ecosystem : Nat
  pkt : List Nat := []
  pkt_size : Nat := 0
  nValue : Int := 0
  amount_desired : Int := 0
  blocktimelimit : Nat := 0
  min_fee : Int := 0
  subaction : Nat := 0
  action : Subaction := .INVALID
  prop_type : Nat := 0
  prev_prop_id : Nat := 0
  category : List Nat := []
  subcategory : List Nat := []
  name : List Nat := []
  url : List Nat := []
  data : List Nat := []
  deadline : Int := 0
  early_bird : Nat := 0
  percentage : Nat := 0
  alertString : List Nat := []

/-- Modelled from the spec: `recordNewTrade` is defined outside the two source
files; section 4.6 has the trade transaction record the trade intent once its
checks have passed. A row holds the arguments of the call. -/
structure NewTrade where
  txid : Nat
  address : String
  propertyIdForSale : Nat
  propertyIdDesired : Nat
  blockNum : Int
  blockIndex : Nat
  deriving DecidableEq, Repr

/-- Modelled from the spec: the state the MetaDEx transactions act on is the
state of the MetaDEx together with the rows `recordNewTrade` has written to
the trade database (the trade intents of section 4.6), which are kept apart
from the rows of the matched trades. -/
structure TxState where
  mdex : State
  newTrades : List NewTrade

/-- The end of a MetaDEx transaction that passed its checks: the return code
of the MetaDEx operation and the state it left, the rows of `recordNewTrade`
being `newTrades`. -/
def logicMath_return (newTrades : List NewTrade) (x : Except Abort (Int × State)) :
    Except Abort (Int × TxState) :=
  match x with
  | .error a => .error a
  | .ok (rc, s) => .ok (rc, { mdex := s, newTrades := newTrades })

/-- `CMPTransaction::logicMath_MetaDExTrade` (transaction type 25). -/
def logicMath_MetaDExTrade (env : TxEnv) (tx : CMPTransaction) (st : TxState) :
    Except Abort (Int × TxState) :=
  if !env.IsTransactionTypeAllowed tx.block tx.property tx.type tx.version false then
    .ok (env.PKT_ERROR_METADEX - 22, st)
  else if tx.property = tx.desired_property then
    .ok (env.PKT_ERROR_METADEX - 29, st)
  else if env.isTestEcosystemProperty tx.property
      ≠ env.isTestEcosystemProperty tx.desired_property then
    .ok (env.PKT_ERROR_METADEX - 30, st)
  else if !env.hasSP tx.property then
    .ok (env.PKT_ERROR_METADEX - 31, st)
  else if !env.hasSP tx.desired_property then
    .ok (env.PKT_ERROR_METADEX - 32, st)
  else if tx.nNewValue ≤ 0 ∨ env.MAX_INT_8_BYTES < tx.nNewValue then
    .ok (env.PKT_ERROR_METADEX - 33, st)
  else if tx.desired_value ≤ 0 ∨ env.MAX_INT_8_BYTES < tx.desired_value then
    .ok (env.PKT_ERROR_METADEX - 34, st)
  else if tx.property ≠ env.OMNI_PROPERTY_MSC ∧ tx.desired_property ≠ env.OMNI_PROPERTY_MSC ∧
      tx.property ≠ env.OMNI_PROPERTY_TMSC ∧ tx.desired_property ≠ env.OMNI_PROPERTY_TMSC then
    .ok (env.PKT_ERROR_METADEX - 35, st)
  else if getMPbalance st.mdex.mp_tally_map tx.sender tx.property .BALANCE < tx.nNewValue then
    .ok (env.PKT_ERROR_METADEX - 25, st)
  else
    logicMath_return
      (st.newTrades ++ [{ txid := tx.txid, address := tx.sender,
                          propertyIdForSale := tx.property,
                          propertyIdDesired := tx.desired_property,
                          blockNum := tx.block, blockIndex := tx.tx_idx }])
      (MetaDEx_ADD env.METADEX_ERROR st.mdex tx.sender tx.property tx.nNewValue tx.block
        tx.desired_property tx.desired_value tx.txid tx.tx_idx)

/-- `CMPTransaction::logicMath_MetaDExCancelPrice` (transaction type 26). -/
def logicMath_MetaDExCancelPrice (env : TxEnv) (tx : CMPTransaction) (st : TxState) :
    Except Abort (Int × TxState) :=
  if !env.IsTransactionTypeAllowed tx.block tx.property tx.type tx.version false then
    .ok (env.PKT_ERROR_METADEX - 22, st)
  else if tx.property = tx.desired_property then
    .ok (env.PKT_ERROR_METADEX - 29, st)
  else if env.isTestEcosystemProperty tx.property
      ≠ env.isTestEcosystemProperty tx.desired_property then
    .ok (env.PKT_ERROR_METADEX - 30, st)
  else if !env.hasSP tx.property then
    .ok (env.PKT_ERROR_METADEX - 31, st)
  else if !env.hasSP tx.desired_property then
    .ok (env.PKT_ERROR_METADEX - 32, st)
  else if tx.nNewValue ≤ 0 ∨ env.MAX_INT_8_BYTES < tx.nNewValue then
    .ok (env.PKT_ERROR_METADEX - 33, st)
  else if tx.desired_value ≤ 0 ∨ env.MAX_INT_8_BYTES < tx.desired_value then
    .ok (env.PKT_ERROR_METADEX - 34, st)
  else
    logicMath_return st.newTrades
      (MetaDEx_CANCEL_AT_PRICE env.METADEX_ERROR st.mdex tx.txid tx.block tx.sender tx.property
        tx.nNewValue tx.desired_property tx.desired_value)

/-- `CMPTransaction::logicMath_MetaDExCancelPair` (transaction type 27). -/
def logicMath_MetaDExCancelPair (env : TxEnv) (tx : CMPTransaction) (st : TxState) :
    Except Abort (Int × TxState) :=
  if !env.IsTransactionTypeAllowed tx.block tx.property tx.type tx.version false then
    .ok (env.PKT_ERROR_METADEX - 22, st)
  else if tx.property = tx.desired_property then
    .ok (env.PKT_ERROR_METADEX - 29, st)
  else if env.isTestEcosystemProperty tx.property
      ≠ env.isTestEcosystemProperty tx.desired_property then
    .ok (env.PKT_ERROR_METADEX - 30, st)
  else if !env.hasSP tx.property then
    .ok (env.PKT_ERROR_METADEX - 31, st)
  else if !env.hasSP tx.desired_property then
    .ok (env.PKT_ERROR_METADEX - 32, st)
  else
    logicMath_return st.newTrades
      (MetaDEx_CANCEL_ALL_FOR_PAIR env.METADEX_ERROR st.mdex tx.txid tx.block tx.sender
        tx.property tx.desired_property)

/-- `CMPTransaction::logicMath_MetaDExCancelEcosystem` (transaction type
28). -/
def logicMath_MetaDExCancelEcosystem (env : TxEnv) (tx : CMPTransaction) (st : TxState) :
    Except Abort (Int × TxState) :=
  if !env.IsTransactionTypeAllowed tx.block tx.ecosystem tx.type tx.version true then
    .ok (env.PKT_ERROR_METADEX - 22, st)
  else
    logicMath_return st.newTrades
      (MetaDEx_CANCEL_EVERYTHING env.isMainEcosystemProperty env.isTestEcosystemProperty
        env.METADEX_ERROR st.mdex tx.txid tx.block tx.sender tx.ecosystem)

/-- The first entry of a table of checks whose condition holds: the code it
carries, or `none` when every check passes. -/
def firstFailing : List (Bool × Int) → Option Int
  | [] => none
  | (failed, code) :: rest => if failed then some code else firstFailing rest

/-- The first seven rows of the validation table of the trade transaction, as
the specification lists it: the condition under which a check fails and the
code it returns, relative to `PKT_ERROR_METADEX`. -/
def validationTable7 (env : TxEnv) (tx : CMPTransaction) : List (Bool × Int) :=
  [ (!env.IsTransactionTypeAllowed tx.block tx.property tx.type tx.version false, -22),
    (decide (tx.property = tx.desired_property), -29),
    (decide (env.isTestEcosystemProperty tx.property
      ≠ env.isTestEcosystemProperty tx.desired_property), -30),
    (!env.hasSP tx.property, -31),
    (!env.hasSP tx.desired_property, -32),
    (decide (tx.nNewValue ≤ 0 ∨ 2 ^ 63 - 1 < tx.nNewValue), -33),
    (decide (tx.desired_value ≤ 0 ∨ 2 ^ 63 - 1 < tx.desired_value), -34) ]

/-- The validation table of the trade transaction, as the specification lists
it: the seven rows above, then the check that one side is MSC or TMSC and the
check of the sender's balance. -/
def tradeValidationTable (env : TxEnv) (tx : CMPTransaction) (st : TxState) :
    List (Bool × Int) :=
  validationTable7 env tx ++
  [ (decide (¬ (tx.property = env.OMNI_PROPERTY_MSC ∨ tx.property = env.OMNI_PROPERTY_TMSC ∨
        tx.desired_property = env.OMNI_PROPERTY_MSC ∨
        tx.desired_property = env.OMNI_PROPERTY_TMSC)), -35),
    (decide (st.mdex.mp_tally_map tx.sender tx.property .BALANCE < tx.nNewValue), -25) ]

/-- What the trade transaction does once every check has passed:
`recordNewTrade`, then `MetaDEx_ADD`. -/
def tradeAction (env : TxEnv) (tx : CMPTransaction) (st : TxState) :
    Except Abort (Int × TxState) :=
  logicMath_return
    (st.newTrades ++ [{ txid := tx.txid, address := tx.sender,
                        propertyIdForSale := tx.property,
                        propertyIdDesired := tx.desired_property,
                        blockNum := tx.block, blockIndex := tx.tx_idx }])
    (MetaDEx_ADD env.METADEX_ERROR st.mdex tx.sender tx.property tx.nNewValue tx.block
      tx.desired_property tx.desired_value tx.txid tx.tx_idx)

/-- What the cancel-at-price transaction does once every check has passed:
`MetaDEx_CANCEL_AT_PRICE`. -/
def cancelPriceAction (env : TxEnv) (tx : CMPTransaction) (st : TxState) :
    Except Abort (Int × TxState) :=
  logicMath_return st.newTrades
    (MetaDEx_CANCEL_AT_PRICE env.METADEX_ERROR st.mdex tx.txid tx.block tx.sender tx.property
      tx.nNewValue tx.desired_property tx.desired_value)

/-- An instance of the surroundings of `tx.cpp` for the examples: every type
and version is allowed, the registry holds the properties 1, 2, 3 and 5, the
ecosystem tests are `exIsTest` and `exIsMain`, MSC is property 1 and TMSC
property 2, the amounts are bounded by `2^63 - 1`, and the bases of the error
codes are -80000 and -81000. -/
def exEnv : TxEnv :=
  { IsTransactionTypeAllowed := fun _ _ _ _ _ => true,
    isTestEcosystemProperty := exIsTest,
    isMainEcosystemProperty := exIsMain,
    hasSP := fun p => decide (p = 1) || decide (p = 2) || decide (p = 3) || decide (p = 5),
    MAX_INT_8_BYTES := 2 ^ 63 - 1,
    OMNI_PROPERTY_MSC := 1,
    OMNI_PROPERTY_TMSC := 2,
    PKT_ERROR_METADEX := -80000,
    METADEX_ERROR := -81000 }

/-- The first scenario as a state of the transactions: no row of
`recordNewTrade` yet. -/
def exTxState : TxState := { mdex := exState, newTrades := [] }

/-- A transaction of the taker of the first scenario offering 10 of property
3 for 20 of property 5: neither property is MSC or TMSC. -/
def exTx35 : CMPTransaction :=
  { sender := "taker", block := 11, tx_idx := 1, txid := 78, type := 25, version := 0,
    property := 3, desired_property := 5, nNewValue := 10, desired_value := 20,
    ecosystem := 1 }

/-- A transaction of the maker of the first scenario with the terms of its
resting order, 100 of property 3 for 200 of property 1. The maker's balance
of property 3 is 0: all 100 units are in reserve. -/
def exTxMaker : CMPTransaction :=
  { sender := "maker", block := 12, tx_idx := 1, txid := 79, type := 26, version := 0,
    property := 3, desired_property := 1, nNewValue := 100, desired_value := 200,
    ecosystem := 1 }

/-- The validation codes of the four MetaDEx transactions, as offsets below
`PKT_ERROR_METADEX`. -/
def validationOffsets : List Int := [22, 29, 30, 31, 32, 33, 34, 35, 25]

/-- The return codes of the four MetaDEx operations: 0, and the offsets 66
and 70 (`MetaDEx_ADD`), 20 and 21 (`MetaDEx_CANCEL_AT_PRICE`), 30 and 31
(`MetaDEx_CANCEL_ALL_FOR_PAIR`), 40 (`MetaDEx_CANCEL_EVERYTHING`) below
`METADEX_ERROR`. -/
def operationCodes (METADEX_ERROR : Int) : List Int :=
  [0, METADEX_ERROR - 66, METADEX_ERROR - 70, METADEX_ERROR - 20, METADEX_ERROR - 20 - 1,
   METADEX_ERROR - 30, METADEX_ERROR - 30 - 1, METADEX_ERROR - 40]

/-- The state of the second scenario after the taker's `MetaDEx_ADD`: the
maker's 50 units are bought, the taker's residual of 100 rests. -/
def ex2State1 : State :=
  stateOf (MetaDEx_ADD (-80000) ex2State "taker" 1 200 11 3 100 78 1) ex2State

/-! A book in which an incoming order trades and is then refused as a
duplicate. Dora sells 200 of property 1 for 100 of property 5 (block 11, index
1) and rests at the unit price 1/2 under property 1; the maker sells 50 of
property 3 for 100 of property 1. The taker then sells 200 of property 1 for
100 of property 3 with the same block and index as Dora's order. -/

/-- The ledger before the three orders. -/
def ex7Ledger : Ledger := fun a p t =>
  if a = "dora" ∧ p = 1 ∧ t = .BALANCE then 200
  else if a = "maker" ∧ p = 3 ∧ t = .BALANCE then 50
  else if a = "taker" ∧ p = 1 ∧ t = .BALANCE then 1000
  else 0

/-- The empty book. -/
def ex7State0 : State :=
  { metadex := [], mp_tally_map := ex7Ledger, t_tradelistdb := [], p_txlistdb := [] }

/-- After the order of Dora. -/
def ex7State1 : State :=
  stateOf (MetaDEx_ADD (-80000) ex7State0 "dora" 1 200 11 5 100 76 1) ex7State0

/-- After the order of the maker. -/
def ex7State2 : State :=
  stateOf (MetaDEx_ADD (-80000) ex7State1 "maker" 3 50 10 1 100 77 1) ex7State1

/-- The order of Dora as it rests. -/
def ex7Dora : CMPMetaDEx := CMPMetaDEx.create "dora" 11 1 200 5 100 76 1 .ADD

/-! A self-trade: the maker of the first scenario, with a balance of 200 of
property 1, sends the taker's order of that scenario itself. -/

/-- The incoming order of the self-trade. -/
def exSelfTaker : CMPMetaDEx := CMPMetaDEx.create "maker" 11 1 200 3 100 78 1 .ADD

/-- The ledger of the self-trade: 100 of property 3 in reserve, a balance of
200 of property 1. -/
def exSelfLedger : Ledger := fun a p t =>
  if a = "maker" ∧ p = 3 ∧ t = .METADEX_RESERVE then 100
  else if a = "maker" ∧ p = 1 ∧ t = .BALANCE then 200
  else 0

/-- A property of the resting orders that may depend on where an order rests:
it holds for every order of every level, given the property key and the price
key under which the order is stored. -/
def EveryOrder (P : Nat → ℚ → CMPMetaDEx → Prop) (metadex : md_PropertiesMap) : Prop :=
  ∀ e ∈ metadex, ∀ lvl ∈ e.2, ∀ o ∈ lvl.2, P e.1 lvl.1 o

/-- The remaining-amount invariant of the book: every resting order has
`0 < amount_remaining ≤ amount_forsale`. -/
def RemainingInv (metadex : md_PropertiesMap) : Prop :=
  ∀ o ∈ allOrders metadex, 0 < o.amount_remaining ∧ o.amount_remaining ≤ o.amount_forsale

/-- The price-key invariant of the book: an order stored under
`metadex[prop][p]` sells `prop` and has the unit price `p`. -/
def PriceKeyInv (metadex : md_PropertiesMap) : Prop :=
  EveryOrder (fun prop p o => o.property = prop ∧ o.unitPrice = p) metadex

/-! ## Packet parsing of `tx.cpp` -/

/-- What the packet parsing uses and is defined outside the two source files:
the transaction type constants and the sizes of the character arrays of
`CMPTransaction`. -/
structure PktEnv where
  MSC_TYPE_SIMPLE_SEND : Nat
  MSC_TYPE_SEND_TO_OWNERS : Nat
  MSC_TYPE_TRADE_OFFER : Nat
  MSC_TYPE_ACCEPT_OFFER_BTC : Nat
  MSC_TYPE_METADEX_TRADE : Nat
  MSC_TYPE_METADEX_CANCEL_PRICE : Nat
  MSC_TYPE_METADEX_CANCEL_PAIR : Nat
  MSC_TYPE_METADEX_CANCEL_ECOSYSTEM : Nat
  MSC_TYPE_CREATE_PROPERTY_FIXED : Nat
  MSC_TYPE_CREATE_PROPERTY_VARIABLE : Nat
  MSC_TYPE_CLOSE_CROWDSALE : Nat
  MSC_TYPE_CREATE_PROPERTY_MANUAL : Nat
  MSC_TYPE_GRANT_PROPERTY_TOKENS : Nat
  MSC_TYPE_REVOKE_PROPERTY_TOKENS : Nat
  MSC_TYPE_CHANGE_ISSUER_ADDRESS : Nat
  OMNICORE_MESSAGE_TYPE_ALERT : Nat
  sizeof_category : Nat
  sizeof_subcategory : Nat
  sizeof_name : Nat
  sizeof_url : Nat
  sizeof_data : Nat
  sizeof_alertString : Nat

/-- The byte of the packet buffer at an offset. A position past the end of
the list reads as 0, the buffer being longer than any payload and cleared
before the payload is copied into it. -/
def pktByte (pkt : List Nat) (i : Nat) : Nat :=
  (pkt.getD i 0) % 256

/-- Modelled from the spec: `memcpy` of `n` bytes of the packet, from the
offset `off`, into an unsigned integer member, followed by `swapByteOrder16`,
`swapByteOrder32` or `swapByteOrder64`, which are defined outside the two
source files. By section 6 all multi-byte integers of the payload are
big-endian, so the member receives the big-endian value of the bytes. -/
def readBE (pkt : List Nat) (off : Nat) : Nat → Nat
  | 0 => 0
  | n + 1 => readBE pkt off n * 256 + pktByte pkt (off + n)

/-- `std::string(p)` for a pointer into the packet buffer: the bytes from the
offset up to the first NUL, or to the end of the buffer. -/
def readString (pkt : List Nat) (off : Nat) : List Nat :=
  ((pkt.drop off).map (fun b => b % 256)).takeWhile (fun b => decide (b ≠ 0))

/-- The loop `spstr.push_back(std::string(p)); p += spstr.back().size() + 1;`
run `n` times from the offset `off`: the strings and the final offset. -/
def readStrings (pkt : List Nat) : Nat → Nat → List (List Nat) × Nat
  | 0, off => ([], off)
  | n + 1, off =>
    let s := readString pkt off
    let r := readStrings pkt n (off + s.length + 1)
    (s :: r.1, r.2)

/-- `memcpy(dst, src.c_str(), std::min(src.length(), size - 1))` into a
character array of the given size: the first bytes of the array are
overwritten, the others stay. -/
def memcpyString (dst src : List Nat) (size : Nat) : List Nat :=
  src.take (min src.length (size - 1)) ++ dst.drop (min src.length (size - 1))

/-- `CMPTransaction::isOverrun`, for the pointer at the offset `pos` of the
packet buffer. -/
def isOverrun (tx : CMPTransaction) (pos : Nat) : Bool :=
  decide (pos > tx.pkt_size)

/-- `CMPTransaction::interpret_TransactionType`: the return value and the
transaction afterwards. -/
def interpret_TransactionType (tx : CMPTransaction) : Bool × CMPTransaction :=
  if tx.pkt_size < 4 then (false, tx)
  else (true, { tx with version := readBE tx.pkt 0 2, type := readBE tx.pkt 2 2 })

/-- The body shared by `interpret_SimpleSend`, `interpret_SendToOwners`,
`interpret_AcceptOfferBTC`, `interpret_GrantTokens` and
`interpret_RevokeTokens`, which are the same function text. -/
def interpret_propertyValue (tx : CMPTransaction) : Bool × CMPTransaction :=
  if tx.pkt_size < 16 then (false, tx)
  else (true, { tx with property := readBE tx.pkt 4 4,
                        nValue := (readBE tx.pkt 8 8 : Nat),
                        nNewValue := (readBE tx.pkt 8 8 : Nat) })

/-- `CMPTransaction::interpret_SimpleSend`. -/
def interpret_SimpleSend (tx : CMPTransaction) : Bool × CMPTransaction :=
  interpret_propertyValue tx

/-- `CMPTransaction::interpret_SendToOwners`. -/
def interpret_SendToOwners (tx : CMPTransaction) : Bool × CMPTransaction :=
  interpret_propertyValue tx

/-- `CMPTransaction::interpret_TradeOffer`. -/
def interpret_TradeOffer (tx : CMPTransaction) : Bool × CMPTransaction :=
  if tx.pkt_size < 34 then (false, tx)
  else (true, { tx with property := readBE tx.pkt 4 4,
                        nValue := (readBE tx.pkt 8 8 : Nat),
                        nNewValue := (readBE tx.pkt 8 8 : Nat),
                        amount_desired := (readBE tx.pkt 16 8 : Nat),
                        blocktimelimit := pktByte tx.pkt 24,
                        min_fee := (readBE tx.pkt 25 8 : Nat),
                        subaction := pktByte tx.pkt 33 })

/-- `CMPTransaction::interpret_AcceptOfferBTC`. -/
def interpret_AcceptOfferBTC (tx : CMPTransaction) : Bool × CMPTransaction :=
  interpret_propertyValue tx

/-- `CMPTransaction::interpret_MetaDExTrade`. -/
def interpret_MetaDExTrade (tx : CMPTransaction) : Bool × CMPTransaction :=
  if tx.pkt_size < 28 then (false, tx)
  else (true, { tx with property := readBE tx.pkt 4 4,
                        nValue := (readBE tx.pkt 8 8 : Nat),
                        nNewValue := (readBE tx.pkt 8 8 : Nat),
                        desired_property := readBE tx.pkt 16 4,
                        desired_value := (readBE tx.pkt 20 8 : Nat),
                        action := .ADD })

/-- `CMPTransaction::interpret_MetaDExCancelPrice`. -/
def interpret_MetaDExCancelPrice (tx : CMPTransaction) : Bool × CMPTransaction :=
  if tx.pkt_size < 28 then (false, tx)
  else (true, { tx with property := readBE tx.pkt 4 4,
                        nValue := (readBE tx.pkt 8 8 : Nat),
                        nNewValue := (readBE tx.pkt 8 8 : Nat),
                        desired_property := readBE tx.pkt 16 4,
                        desired_value := (readBE tx.pkt 20 8 : Nat),
                        action := .CANCEL_AT_PRICE })

/-- `CMPTransaction::interpret_MetaDExCancelPair`. -/
def interpret_MetaDExCancelPair (tx : CMPTransaction) : Bool × CMPTransaction :=
  if tx.pkt_size < 12 then (false, tx)
  else (true, { tx with property := readBE tx.pkt 4 4,
                        desired_property := readBE tx.pkt 8 4,
                        nValue := 0, nNewValue := 0, desired_value := 0,
                        action := .CANCEL_ALL_FOR_PAIR })

/-- `CMPTransaction::interpret_MetaDExCancelEcosystem`. -/
def interpret_MetaDExCancelEcosystem (tx : CMPTransaction) : Bool × CMPTransaction :=
  if tx.pkt_size < 5 then (false, tx)
  else (true, { tx with ecosystem := pktByte tx.pkt 4,
                        property := pktByte tx.pkt 4,
                        desired_property := pktByte tx.pkt 4,
                        nValue := 0, nNewValue := 0, desired_value := 0,
                        action := .CANCEL_EVERYTHING })

/-- The part shared by the three property creations: the fixed fields at the
offsets 4 to 10 and the five strings from the offset 11 on. The result is the
transaction with these members written and the offset after the strings. -/
def interpret_propertyHeader (env : PktEnv) (tx : CMPTransaction) : CMPTransaction × Nat :=
  let r := readStrings tx.pkt 5 11
  ({ tx with ecosystem := pktByte tx.pkt 4,
             prop_type := readBE tx.pkt 5 2,
             prev_prop_id := readBE tx.pkt 7 4,
             category := memcpyString tx.category (r.1.getD 0 []) env.sizeof_category,
             subcategory := memcpyString tx.subcategory (r.1.getD 1 []) env.sizeof_subcategory,
             name := memcpyString tx.name (r.1.getD 2 []) env.sizeof_name,
             url := memcpyString tx.url (r.1.getD 3 []) env.sizeof_url,
             data := memcpyString tx.data (r.1.getD 4 []) env.sizeof_data }, r.2)

/-- `CMPTransaction::interpret_CreatePropertyFixed`. -/
def interpret_CreatePropertyFixed (env : PktEnv) (tx : CMPTransaction) :
    Bool × CMPTransaction :=
  if tx.pkt_size < 25 then (false, tx)
  else
    let h := interpret_propertyHeader env tx
    let p := h.2
    let tx1 := { h.1 with nValue := (readBE tx.pkt p 8 : Nat),
                          nNewValue := (readBE tx.pkt p 8 : Nat) }
    if isOverrun tx1 (p + 8) then (false, tx1) else (true, tx1)

/-- `CMPTransaction::interpret_CreatePropertyVariable`. -/
def interpret_CreatePropertyVariable (env : PktEnv) (tx : CMPTransaction) :
    Bool × CMPTransaction :=
  if tx.pkt_size < 39 then (false, tx)
  else
    let h := interpret_propertyHeader env tx
    let p := h.2
    let tx1 := { h.1 with property := readBE tx.pkt p 4,
                          nValue := (readBE tx.pkt (p + 4) 8 : Nat),
                          nNewValue := (readBE tx.pkt (p + 4) 8 : Nat),
                          deadline := (readBE tx.pkt (p + 12) 8 : Nat),
                          early_bird := pktByte tx.pkt (p + 20),
                          percentage := pktByte tx.pkt (p + 21) }
    if isOverrun tx1 (p + 22) then (false, tx1) else (true, tx1)

/-- `CMPTransaction::interpret_CloseCrowdsale`. -/
def interpret_CloseCrowdsale (tx : CMPTransaction) : Bool × CMPTransaction :=
  if tx.pkt_size < 8 then (false, tx)
  else (true, { tx with property := readBE tx.pkt 4 4 })

/-- `CMPTransaction::interpret_CreatePropertyManaged`. -/
def interpret_CreatePropertyManaged (env : PktEnv) (tx : CMPTransaction) :
    Bool × CMPTransaction :=
  if tx.pkt_size < 17 then (false, tx)
  else
    let h := interpret_propertyHeader env tx
    if isOverrun h.1 h.2 then (false, h.1) else (true, h.1)

/-- `CMPTransaction::interpret_GrantTokens`. -/
def interpret_GrantTokens (tx : CMPTransaction) : Bool × CMPTransaction :=
  interpret_propertyValue tx

/-- `CMPTransaction::interpret_RevokeTokens`. -/
def interpret_RevokeTokens (tx : CMPTransaction) : Bool × CMPTransaction :=
  interpret_propertyValue tx

/-- `CMPTransaction::interpret_ChangeIssuer`. -/
def interpret_ChangeIssuer (tx : CMPTransaction) : Bool × CMPTransaction :=
  if tx.pkt_size < 8 then (false, tx)
  else (true, { tx with property := readBE tx.pkt 4 4 })

/-- `CMPTransaction::interpret_Alert`. The pointer `p` stays at the offset 4:
it is the pointer `isOverrun` is called with. -/
def interpret_Alert (env : PktEnv) (tx : CMPTransaction) : Bool × CMPTransaction :=
  if tx.pkt_size < 5 then (false, tx)
  else
    let p := 4
    let spstr := readString tx.pkt p
    let tx1 := { tx with alertString := memcpyString tx.alertString spstr
                          env.sizeof_alertString }
    if isOverrun tx1 p then (false, tx1) else (true, tx1)

/-- `CMPTransaction::interpret_Transaction`: the `switch` over the type, the
case labels in the order of the source. -/
def interpret_Transaction (env : PktEnv) (tx : CMPTransaction) : Bool × CMPTransaction :=
  let r := interpret_TransactionType tx
  if !r.1 then (false, r.2)
  else
    let tx1 := r.2
    if tx1.type = env.MSC_TYPE_SIMPLE_SEND then interpret_SimpleSend tx1
    else if tx1.type = env.MSC_TYPE_SEND_TO_OWNERS then interpret_SendToOwners tx1
    else if tx1.type = env.MSC_TYPE_TRADE_OFFER then interpret_TradeOffer tx1
    else if tx1.type = env.MSC_TYPE_ACCEPT_OFFER_BTC then interpret_AcceptOfferBTC tx1
    else if tx1.type = env.MSC_TYPE_METADEX_TRADE then interpret_MetaDExTrade tx1
    else if tx1.type = env.MSC_TYPE_METADEX_CANCEL_PRICE then interpret_MetaDExCancelPrice tx1
    else if tx1.type = env.MSC_TYPE_METADEX_CANCEL_PAIR then interpret_MetaDExCancelPair tx1
    else if tx1.type = env.MSC_TYPE_METADEX_CANCEL_ECOSYSTEM then
      interpret_MetaDExCancelEcosystem tx1
    else if tx1.type = env.MSC_TYPE_CREATE_PROPERTY_FIXED then
      interpret_CreatePropertyFixed env tx1
    else if tx1.type = env.MSC_TYPE_CREATE_PROPERTY_VARIABLE then
      interpret_CreatePropertyVariable env tx1
    else if tx1.type = env.MSC_TYPE_CLOSE_CROWDSALE then interpret_CloseCrowdsale tx1
    else if tx1.type = env.MSC_TYPE_CREATE_PROPERTY_MANUAL then
      interpret_CreatePropertyManaged env tx1
    else if tx1.type = env.MSC_TYPE_GRANT_PROPERTY_TOKENS then interpret_GrantTokens tx1
    else if tx1.type = env.MSC_TYPE_REVOKE_PROPERTY_TOKENS then interpret_RevokeTokens tx1
    else if tx1.type = env.MSC_TYPE_CHANGE_ISSUER_ADDRESS then interpret_ChangeIssuer tx1
    else if tx1.type = env.OMNICORE_MESSAGE_TYPE_ALERT then interpret_Alert env tx1
    else (false, tx1)

/-- The types `interpret_Transaction` handles. -/
def handledTypes (env : PktEnv) : List Nat :=
  [env.MSC_TYPE_SIMPLE_SEND, env.MSC_TYPE_SEND_TO_OWNERS, env.MSC_TYPE_TRADE_OFFER,
   env.MSC_TYPE_ACCEPT_OFFER_BTC, env.MSC_TYPE_METADEX_TRADE,
   env.MSC_TYPE_METADEX_CANCEL_PRICE, env.MSC_TYPE_METADEX_CANCEL_PAIR,
   env.MSC_TYPE_METADEX_CANCEL_ECOSYSTEM, env.MSC_TYPE_CREATE_PROPERTY_FIXED,
   env.MSC_TYPE_CREATE_PROPERTY_VARIABLE, env.MSC_TYPE_CLOSE_CROWDSALE,
   env.MSC_TYPE_CREATE_PROPERTY_MANUAL, env.MSC_TYPE_GRANT_PROPERTY_TOKENS,
   env.MSC_TYPE_REVOKE_PROPERTY_TOKENS, env.MSC_TYPE_CHANGE_ISSUER_ADDRESS,
   env.OMNICORE_MESSAGE_TYPE_ALERT]

/-- An instance of the surroundings of the packet parsing for the examples:
the type numbers the source names in its comments (`Tx 1`, `Tx 3`, ...) and
arrays of 256 bytes. -/
def exPktEnv : PktEnv :=
  { MSC_TYPE_SIMPLE_SEND := 1, MSC_TYPE_SEND_TO_OWNERS := 3, MSC_TYPE_TRADE_OFFER := 20,
    MSC_TYPE_ACCEPT_OFFER_BTC := 22, MSC_TYPE_METADEX_TRADE := 25,
    MSC_TYPE_METADEX_CANCEL_PRICE := 26, MSC_TYPE_METADEX_CANCEL_PAIR := 27,
    MSC_TYPE_METADEX_CANCEL_ECOSYSTEM := 28, MSC_TYPE_CREATE_PROPERTY_FIXED := 50,
    MSC_TYPE_CREATE_PROPERTY_VARIABLE := 51, MSC_TYPE_CLOSE_CROWDSALE := 53,
    MSC_TYPE_CREATE_PROPERTY_MANUAL := 54, MSC_TYPE_GRANT_PROPERTY_TOKENS := 55,
    MSC_TYPE_REVOKE_PROPERTY_TOKENS := 56, MSC_TYPE_CHANGE_ISSUER_ADDRESS := 70,
    OMNICORE_MESSAGE_TYPE_ALERT := 65535,
    sizeof_category := 256, sizeof_subcategory := 256, sizeof_name := 256,
    sizeof_url := 256, sizeof_data := 256, sizeof_alertString := 256 }

/-- A transaction that holds the given payload and nothing else yet. -/
def exPacket (payload : List Nat) : CMPTransaction :=
  { sender := "taker", block := 11, tx_idx := 1, txid := 78, type := 0, version := 0,
    property := 0, desired_property := 0, nNewValue := 0, desired_value := 0,
    ecosystem := 0, pkt := payload, pkt_size := payload.length }

/-- The payload of a MetaDEx trade: version 0, type 25, 200 of property 1 for
100 of property 3. -/
def exTradePayload : List Nat :=
  [0, 0, 0, 25, 0, 0, 0, 1, 0, 0, 0, 0, 0, 0, 0, 200, 0, 0, 0, 3, 0, 0, 0, 0, 0, 0, 0, 100]

/-- The payload of a fixed property creation: version 0, type 50, ecosystem 1,
property type 1, no previous property, the strings "a", "b", "c", "" and "",
and the value 1000. -/
def exFixedPayload : List Nat :=
  [0, 0, 0, 50, 1, 0, 1, 0, 0, 0, 0, 97, 0, 98, 0, 99, 0, 0, 0, 0, 0, 0, 0, 0, 0, 3, 232]

/-- The big-endian value of a list of bytes, the first byte the most
significant: the reading of an unsigned integer that section 6 of the
specification gives for the payload. -/
def bigEndian (bytes : List Nat) : Nat :=
  bytes.foldl (fun acc b => acc * 256 + b) 0

/-- The `n` payload bytes from the offset `off` on. -/
def payloadBytes (pkt : List Nat) (off n : Nat) : List Nat :=
  (List.range n).map (fun i => pktByte pkt (off + i))

/-- A payload of three bytes, too short for the version and the type. -/
def exShortPayload : List Nat := [0, 0, 0]

/-- A payload of version 0 and of the type 2, which is not handled. -/
def exUnhandledPayload : List Nat := [0, 0, 0, 2, 0, 0, 0, 1]

/-- A payload of the type 50 and of 25 bytes whose first string is not
terminated inside the payload. -/
def exFixedOverrunPayload : List Nat :=
  [0, 0, 0, 50, 1, 0, 1, 0, 0, 0, 0,
   97, 98, 99, 100, 101, 102, 103, 104, 105, 106, 107, 108, 109, 110]

/-- An alert payload of seven bytes (version and type 65535) whose string has
no NUL byte inside the payload. -/
def exAlertOverrunPayload : List Nat := [255, 255, 255, 255, 97, 98, 99]

/-! ## Status of a trade (`mdex.cpp`) -/

/-- `MetaDEx_isOpen`: whether an order with the transaction hash `txid` rests
in the book, the search being restricted to the price map of
`propertyIdForSale` when that is not 0. The hash of an order is its `txid`. -/
def MetaDEx_isOpen (metadex : md_PropertiesMap) (txid : Nat) (propertyIdForSale : Nat) : Bool :=
  metadex.any (fun my_it =>
    if propertyIdForSale ≠ 0 ∧ propertyIdForSale ≠ my_it.1 then false
    else my_it.2.any (fun it => it.2.any (fun obj => decide (obj.txid = txid))))

/-- `MetaDEx_getStatus`. `getMatchingTrades` is defined outside the two source
files; it is a parameter that gives the two totals it leaves in `totalSold`
and `totalReceived`, from the hash, the property and the totals passed in. -/
def MetaDEx_getStatus (getMatchingTrades : Nat → Nat → Int → Int → Int × Int)
    (metadex : md_PropertiesMap) (txid : Nat) (propertyIdForSale : Nat)
    (amountForSale totalSold totalReceived : Int) : String :=
  let totals : Int × Int :=
    if totalSold = -1 ∨ totalReceived = -1 then
      getMatchingTrades txid propertyIdForSale totalSold totalReceived
    else (totalSold, totalReceived)
  let totalSold := totals.1
  let orderOpen := MetaDEx_isOpen metadex txid propertyIdForSale
  let partialFilled : Bool := if totalSold > 0 then true else false
  let filled : Bool := if totalSold ≥ amountForSale then true else false
  let statusText := "unknown"
  let statusText := if !orderOpen && !partialFilled then "cancelled" else statusText
  let statusText := if !orderOpen && partialFilled then "cancelled part filled" else statusText
  let statusText := if !orderOpen && filled then "filled" else statusText
  let statusText := if orderOpen && !partialFilled then "open" else statusText
  let statusText := if orderOpen && partialFilled then "open part filled" else statusText
  statusText

/-- The status label as the specification gives it, from the three facts it
combines: the order is present in the book, the cumulative amount sold is
positive, the cumulative amount sold has reached the amount for sale. -/
def statusLabel (present sold reached : Bool) : String :=
  if present then (if sold then "open part filled" else "open")
  else if reached then "filled"
  else if sold then "cancelled part filled"
  else "cancelled"

/-- The five status labels. -/
def statusLabels : List String :=
  ["open", "open part filled", "filled", "cancelled", "cancelled part filled"]

/-- A reading of the trade database for the examples. -/
def exGetMatchingTrades : Nat → Nat → Int → Int → Int × Int := fun _ _ _ _ => (0, 0)

/-! ## Variants of the two price scans, and the book after a write to a level -/

/-- The ordering invariant of the two maps of the book, as `std::map` keeps
it: the property keys are strictly ascending, and so are the price keys of
every price map. -/
def BookKeysSorted (metadex : md_PropertiesMap) : Prop :=
  KeysSorted metadex ∧ ∀ e ∈ metadex, KeysSorted e.2

/-- The outer loop of `x_Trade` in the variant the specification describes:
the walk over the price levels stops at the first level the taker's limit does
not reach, instead of continuing with the next level. -/
def x_Trade_prices_stop : md_PricesMap → TradeState → Except Abort (md_PricesMap × TradeState)
  | [], st => .ok ([], st)
  | (sellersPrice, pofferSet) :: rest, st =>
    if st.pnew.inversePrice < sellersPrice then .ok ((sellersPrice, pofferSet) :: rest, st)
    else
      match x_Trade_offers sellersPrice pofferSet pofferSet st with
      | .error a => .error a
      | .ok (newSet, st1) =>
        if st1.bBuyerSatisfied then .ok ((sellersPrice, newSet) :: rest, st1)
        else
          match x_Trade_prices_stop rest st1 with
          | .error a => .error a
          | .ok (rest1, st2) => .ok ((sellersPrice, newSet) :: rest1, st2)

/-- The variant of `x_Trade` whose walk is `x_Trade_prices_stop`. -/
def x_Trade_stop (s : State) (pnew : CMPMetaDEx) : Except Abort TradeResult :=
  match get_Prices s.metadex pnew.desired_property with
  | none => .ok { ret := .NOTHING, pnew := pnew, state := s }
  | some ppriceMap =>
    match x_Trade_prices_stop ppriceMap (x_Trade_init s pnew) with
    | .error a => .error a
    | .ok (newMap, st) =>
      .ok { ret := st.NewReturn, pnew := st.pnew,
            state := { s with metadex := mapReplace pnew.desired_property newMap s.metadex,
                              mp_tally_map := st.tally,
                              t_tradelistdb := st.tradelist } }

/-- The variant of `MetaDEx_CANCEL_AT_PRICE` the specification describes: the
level of the cancel price is found by exact lookup, that level alone is
scanned, and no other level is looked at. -/
def MetaDEx_CANCEL_AT_PRICE_lookup (METADEX_ERROR : Int) (s : State) (txid : Nat)
    (block : Int) (sender_addr : String) (prop : Nat) (amount : Int) (property_desired : Nat)
    (amount_desired : Int) : Except Abort (Int × State) :=
  let rc := METADEX_ERROR - 20
  let mdex := CMPMetaDEx.create sender_addr 0 prop amount property_desired amount_desired
    0 0 .CANCEL_AT_PRICE
  match get_Prices s.metadex prop with
  | none => .ok (rc - 1, s)
  | some prices =>
    match get_Indexes prices mdex.unitPrice with
    | none => .ok (rc, s)
    | some indexes =>
      match MetaDEx_cancel_offers txid block
          (fun o => decide (o.desired_property ≠ property_desired) ||
            decide (o.addr ≠ sender_addr))
          indexes { tally := s.mp_tally_map, txlist := s.p_txlistdb, rc := rc } with
      | .error a => .error a
      | .ok (kept, st) =>
        .ok (st.rc, { s with metadex :=
                               mapReplace prop (mapReplace mdex.unitPrice kept prices) s.metadex,
                             mp_tally_map := st.tally, p_txlistdb := st.txlist })

/-- The book after a write to the level `metadex[prop][price]` through the
pointer `pofferSet` of `x_Trade`: that level has the new value, everything
else is as it was. -/
def bookWithLevel (metadex : md_PropertiesMap) (prop : Nat) (price : ℚ) (newSet : md_Set) :
    md_PropertiesMap :=
  mapReplace prop (mapReplace price newSet ((get_Prices metadex prop).getD [])) metadex

/-! A taker against the book of the fifth scenario: it sells 300 of property 1
for 150 of property 3 (limit price 2), so that the level 2 is within its limit
and the level 3 is beyond it. -/

/-- The incoming order. -/
def ex8Taker : CMPMetaDEx := CMPMetaDEx.create "taker" 11 1 300 3 150 78 1 .ADD

/-- The ledger: the reserve of the fifth scenario, and 300 of property 1 for
the taker. -/
def ex8Ledger : Ledger := fun a p t =>
  if a = "alice" ∧ p = 3 ∧ t = .METADEX_RESERVE then 200
  else if a = "taker" ∧ p = 1 ∧ t = .BALANCE then 300 else 0

/-- The book of the fifth scenario with that ledger. -/
def ex8State : State := { ex5State with mp_tally_map := ex8Ledger }

/-- A taker that fills the maker of the first scenario in part: it sells 100
of property 1 for 50 of property 3. -/
def ex9Taker : CMPMetaDEx := CMPMetaDEx.create "taker" 11 1 100 3 50 78 1 .ADD

/-! A maker that sells more than the taker asks for, at a better price than the
taker's limit: the maker sells 300 of property 3 for 300 of property 1, the
taker of the first scenario sells 200 of property 1 for 100 of property 3. -/

/-- The resting order. -/
def ex10Maker : CMPMetaDEx := CMPMetaDEx.create "maker" 10 3 300 1 300 77 1 .ADD

/-- The ledger: the maker's 300 in reserve, 200 of property 1 for the taker. -/
def ex10Ledger : Ledger := fun a p t =>
  if a = "maker" ∧ p = 3 ∧ t = .METADEX_RESERVE then 300
  else if a = "taker" ∧ p = 1 ∧ t = .BALANCE then 200 else 0

/-- The state before the taker's order. -/
def ex10State : State :=
  { metadex := [(3, [(1, [ex10Maker])])], mp_tally_map := ex10Ledger,
    t_tradelistdb := [], p_txlistdb := [] }

/-- The condition on the taker in the matching loops: its two amounts are
positive and its remaining amount is in the range 0 to 2^63 - 1. -/
def TakerOK (pnew : CMPMetaDEx) : Prop :=
  0 < pnew.amount_forsale ∧ 0 < pnew.amount_desired ∧
  0 ≤ pnew.amount_remaining ∧ pnew.amount_remaining ≤ 2 ^ 63 - 1

/-- At most one maker is left partially filled, and its fill is the last one:
for the resting orders `old` before a run of the matching loops, the resting
orders `new` after it, the taker `pnew` after it and the trade log after it,
either every order of `new` is an order of `old` (orders may have left, none
has changed), or there is one maker `pold` of `old` such that `new` is within
`old` with `pold` replaced by its copy with the smaller remaining amount `x`,
the taker's remaining amount is below the unit price of `pold`, and the last
row of the trade log is the fill of `pold`. -/
def OnePartial (old new : List CMPMetaDEx) (pnew : CMPMetaDEx)
    (tradelist : List MatchedTrade) : Prop :=
  (new : Multiset CMPMetaDEx) ≤ (old : Multiset CMPMetaDEx) ∨
  ∃ pold ∈ old, ∃ x : Int, 0 < x ∧ x < pold.amount_remaining ∧
    (new : Multiset CMPMetaDEx) ≤
      Multiset.cons (pold.setAmountRemaining x) ((old : Multiset CMPMetaDEx).erase pold) ∧
    0 ≤ pnew.amount_remaining ∧ (pnew.amount_remaining : ℚ) < pold.unitPrice ∧
    ∃ init pn sg, tradelist = init ++ [x_Trade_row pold pn (pold.amount_remaining - x) sg]

/-! # Theorems -/

/-! ## Rounding -/

theorem xToInt128_floor (q : ℚ) (hq : 0 ≤ q) : xToInt128 q false = ⌊q⌋ := by
  have hnum : 0 ≤ q.num := Rat.num_nonneg.mpr hq
  have hden : (0 : Int) ≤ (q.den : Int) := Int.natCast_nonneg _
  simp only [xToInt128, Bool.not_false, if_true]
  rw [Int.tdiv_eq_ediv hnum hden, Rat.floor_def]

theorem xToInt128_ceil (q : ℚ) (hq : 0 < q) : xToInt128 q true = ⌈q⌉ := by
  have hnum : 0 < q.num := Rat.num_pos.mpr hq
  have hden : (0 : Int) < (q.den : Int) := by exact_mod_cast q.den_pos
  have h1 : (0 : Int) ≤ q.num - 1 := by omega
  simp only [xToInt128, Bool.not_true, Bool.false_eq_true, if_false]
  rw [Int.tdiv_eq_ediv h1 hden.le]
  symm
  rw [Int.ceil_eq_iff]
  have hq' : q = (q.num : ℚ) / (q.den : ℚ) := (Rat.num_div_den q).symm
  have hdq : (0 : ℚ) < (q.den : ℚ) := by exact_mod_cast q.den_pos
  set k : Int := (q.num - 1) / (q.den : Int) with hk
  have hlo : k * (q.den : Int) ≤ q.num - 1 := Int.ediv_mul_le _ hden.ne'
  have hhi : q.num - 1 < (k + 1) * (q.den : Int) := by
    have := Int.lt_ediv_add_one_mul_self (q.num - 1) hden
    simpa [hk] using this
  constructor
  · rw [hq', lt_div_iff₀ hdq]
    have : k * (q.den : Int) < q.num := by omega
    have h2 : ((k * (q.den : Int) : Int) : ℚ) < (q.num : ℚ) := by exact_mod_cast this
    push_cast at h2 ⊢
    linarith
  · rw [hq', div_le_iff₀ hdq]
    have : q.num ≤ (k + 1) * (q.den : Int) := by omega
    have h2 : ((q.num : Int) : ℚ) ≤ (((k + 1) * (q.den : Int) : Int) : ℚ) := by exact_mod_cast this
    push_cast at h2 ⊢
    linarith

theorem unitPrice_pos_eq (o : CMPMetaDEx) (hF : 0 < o.amount_forsale) :
    o.unitPrice = (o.amount_desired : ℚ) / (o.amount_forsale : ℚ) := by
  simp [CMPMetaDEx.unitPrice, hF.ne']

theorem inversePrice_pos_eq (o : CMPMetaDEx) (hD : 0 < o.amount_desired) :
    o.inversePrice = (o.amount_forsale : ℚ) / (o.amount_desired : ℚ) := by
  simp [CMPMetaDEx.inversePrice, hD.ne']

/-- The units the taker can buy: the floor of its remaining amount times the
maker's inverse price, capped by the maker's remaining amount. -/
theorem nCouldBuy_eq (pold pnew : CMPMetaDEx) (hF : 0 < pold.amount_forsale)
    (hD : 0 < pold.amount_desired) (hrn : 0 ≤ pnew.amount_remaining) :
    nCouldBuy pold pnew =
      min ⌊((pnew.amount_remaining : ℚ) * (pold.amount_forsale : ℚ)) / (pold.amount_desired : ℚ)⌋
        pold.amount_remaining := by
  have hFq : (0 : ℚ) < (pold.amount_forsale : ℚ) := by exact_mod_cast hF
  have hDq : (0 : ℚ) < (pold.amount_desired : ℚ) := by exact_mod_cast hD
  have hrq : (0 : ℚ) ≤ (pnew.amount_remaining : ℚ) := by exact_mod_cast hrn
  have hnn : (0 : ℚ) ≤ (pnew.amount_remaining : ℚ) * pold.inversePrice := by
    rw [inversePrice_pos_eq pold hD]; positivity
  simp only [nCouldBuy]
  rw [xToInt128_floor _ hnn, inversePrice_pos_eq pold hD, mul_div_assoc]
  by_cases h : ⌊(pnew.amount_remaining : ℚ) * ((pold.amount_forsale : ℚ) / (pold.amount_desired : ℚ))⌋
      < pold.amount_remaining
  · rw [if_pos h, min_eq_left h.le]
  · rw [if_neg h, min_eq_right (not_lt.mp h)]

theorem nCouldBuy_nonneg (pold pnew : CMPMetaDEx) (hF : 0 < pold.amount_forsale)
    (hD : 0 < pold.amount_desired) (hro : 0 ≤ pold.amount_remaining)
    (hrn : 0 ≤ pnew.amount_remaining) : 0 ≤ nCouldBuy pold pnew := by
  rw [nCouldBuy_eq pold pnew hF hD hrn]
  have hFq : (0 : ℚ) < (pold.amount_forsale : ℚ) := by exact_mod_cast hF
  have hDq : (0 : ℚ) < (pold.amount_desired : ℚ) := by exact_mod_cast hD
  have hrq : (0 : ℚ) ≤ (pnew.amount_remaining : ℚ) := by exact_mod_cast hrn
  exact le_min (Int.floor_nonneg.mpr (by positivity)) hro

theorem nCouldBuy_le_remaining (pold pnew : CMPMetaDEx) :
    nCouldBuy pold pnew ≤ pold.amount_remaining := by
  simp only [nCouldBuy]
  split
  · omega
  · exact le_refl _

/-- What the taker would pay for the units it can buy never exceeds what it
has left. -/
theorem nCouldBuy_cost_le (pold pnew : CMPMetaDEx) (hF : 0 < pold.amount_forsale)
    (hD : 0 < pold.amount_desired) (hrn : 0 ≤ pnew.amount_remaining) :
    ((nCouldBuy pold pnew : Int) : ℚ) * (pold.amount_desired : ℚ) / (pold.amount_forsale : ℚ)
      ≤ (pnew.amount_remaining : ℚ) := by
  have hFq : (0 : ℚ) < (pold.amount_forsale : ℚ) := by exact_mod_cast hF
  have hDq : (0 : ℚ) < (pold.amount_desired : ℚ) := by exact_mod_cast hD
  have h1 : ((nCouldBuy pold pnew : Int) : ℚ) ≤
      ((pnew.amount_remaining : ℚ) * (pold.amount_forsale : ℚ)) / (pold.amount_desired : ℚ) := by
    rw [nCouldBuy_eq pold pnew hF hD hrn]
    calc ((min ⌊((pnew.amount_remaining : ℚ) * (pold.amount_forsale : ℚ))
              / (pold.amount_desired : ℚ)⌋ pold.amount_remaining : Int) : ℚ)
        ≤ ((⌊((pnew.amount_remaining : ℚ) * (pold.amount_forsale : ℚ))
              / (pold.amount_desired : ℚ)⌋ : Int) : ℚ) := by exact_mod_cast min_le_left _ _
      _ ≤ _ := Int.floor_le _
  rw [le_div_iff₀ hDq] at h1
  rw [div_le_iff₀ hFq]
  exact h1

/-- The amount the taker pays: the ceiling of the units bought times the
maker's unit price; it is positive and at most the taker's remaining amount, so
the range assertion of `xToInt64` holds. -/
theorem nWouldPay_eq (pold pnew : CMPMetaDEx) (hF : 0 < pold.amount_forsale)
    (hD : 0 < pold.amount_desired) (hrn : 0 ≤ pnew.amount_remaining)
    (hrange : pnew.amount_remaining ≤ 2 ^ 63 - 1) (hn : 0 < nCouldBuy pold pnew) :
    nWouldPay pold pnew =
      some ⌈((nCouldBuy pold pnew : Int) : ℚ) * (pold.amount_desired : ℚ)
        / (pold.amount_forsale : ℚ)⌉ ∧
    0 < ⌈((nCouldBuy pold pnew : Int) : ℚ) * (pold.amount_desired : ℚ)
        / (pold.amount_forsale : ℚ)⌉ ∧
    ⌈((nCouldBuy pold pnew : Int) : ℚ) * (pold.amount_desired : ℚ)
        / (pold.amount_forsale : ℚ)⌉ ≤ pnew.amount_remaining := by
  have hFq : (0 : ℚ) < (pold.amount_forsale : ℚ) := by exact_mod_cast hF
  have hDq : (0 : ℚ) < (pold.amount_desired : ℚ) := by exact_mod_cast hD
  have hnq : (0 : ℚ) < ((nCouldBuy pold pnew : Int) : ℚ) := by exact_mod_cast hn
  have hpos : (0 : ℚ) < ((nCouldBuy pold pnew : Int) : ℚ) * (pold.amount_desired : ℚ)
      / (pold.amount_forsale : ℚ) := by positivity
  have hc0 : 0 < ⌈((nCouldBuy pold pnew : Int) : ℚ) * (pold.amount_desired : ℚ)
      / (pold.amount_forsale : ℚ)⌉ := Int.ceil_pos.mpr hpos
  have hc1 : ⌈((nCouldBuy pold pnew : Int) : ℚ) * (pold.amount_desired : ℚ)
      / (pold.amount_forsale : ℚ)⌉ ≤ pnew.amount_remaining :=
    Int.ceil_le.mpr (nCouldBuy_cost_le pold pnew hF hD hrn)
  refine ⟨?_, hc0, hc1⟩
  simp only [nWouldPay, xToInt64]
  rw [unitPrice_pos_eq pold hF, ← mul_div_assoc, xToInt128_ceil _ hpos]
  have hr : rangeInt64 ⌈((nCouldBuy pold pnew : Int) : ℚ) * (pold.amount_desired : ℚ)
      / (pold.amount_forsale : ℚ)⌉ = true := by
    simp only [rangeInt64, Bool.and_eq_true, decide_eq_true_eq]
    constructor <;> omega
  rw [if_pos hr]

/-- Crossing is symmetric: if the maker's unit price is within the taker's
inverse price, the taker's unit price is within the maker's inverse price. -/
theorem cross_symm (pold pnew : CMPMetaDEx) (hF : 0 < pold.amount_forsale)
    (hD : 0 < pold.amount_desired) (hFn : 0 < pnew.amount_forsale)
    (hDn : 0 < pnew.amount_desired) (h : pold.unitPrice ≤ pnew.inversePrice) :
    pnew.unitPrice ≤ pold.inversePrice := by
  have hFq : (0 : ℚ) < (pold.amount_forsale : ℚ) := by exact_mod_cast hF
  have hDq : (0 : ℚ) < (pold.amount_desired : ℚ) := by exact_mod_cast hD
  have hFnq : (0 : ℚ) < (pnew.amount_forsale : ℚ) := by exact_mod_cast hFn
  have hDnq : (0 : ℚ) < (pnew.amount_desired : ℚ) := by exact_mod_cast hDn
  rw [unitPrice_pos_eq pold hF, inversePrice_pos_eq pnew hDn, div_le_div_iff₀ hFq hDnq] at h
  rw [unitPrice_pos_eq pnew hFn, inversePrice_pos_eq pold hD, div_le_div_iff₀ hFnq hDq]
  linarith

/-- For a candidate pair no assertion of the loop body fails: the outcome is a
pass-over when no whole unit can be bought or when the rounded price exceeds the
taker's limit, and otherwise the fill of `nCouldBuy` units for the rounded-up
cost. -/
theorem x_Trade_outcome_candidate (sellersPrice : ℚ) (pold pnew : CMPMetaDEx)
    (hc : Candidate sellersPrice pold pnew) :
    x_Trade_outcome sellersPrice pold pnew =
      if nCouldBuy pold pnew = 0 then .nextOffer
      else if ((⌈((nCouldBuy pold pnew : Int) : ℚ) * (pold.amount_desired : ℚ)
                / (pold.amount_forsale : ℚ)⌉ : Int) : ℚ) / ((nCouldBuy pold pnew : Int) : ℚ)
              > pnew.inversePrice then .nextOffer
      else .fill (nCouldBuy pold pnew)
        ⌈((nCouldBuy pold pnew : Int) : ℚ) * (pold.amount_desired : ℚ)
          / (pold.amount_forsale : ℚ)⌉ := by
  obtain ⟨hkey, hcross, hne, hprop, hdes, hF, hD, hro, hFn, hDn, hrn, hrange⟩ := hc
  have hcross' : pold.unitPrice ≤ pnew.inversePrice := hkey ▸ hcross
  have hsymm := cross_symm pold pnew hF hD hFn hDn hcross'
  have hn0 := nCouldBuy_nonneg pold pnew hF hD hro.le hrn.le
  have hnle := nCouldBuy_le_remaining pold pnew
  unfold x_Trade_outcome
  rw [if_neg (not_not.mpr hkey), if_neg (not_not.mpr hdes), if_neg (not_not.mpr hro),
    if_neg (not_not.mpr hrn), if_neg (not_not.mpr hne), if_neg (not_not.mpr hdes.symm),
    if_neg (not_not.mpr hprop), if_neg (not_not.mpr hcross'), if_neg (not_not.mpr hsymm)]
  by_cases hz : nCouldBuy pold pnew = 0
  · rw [if_pos hz, if_pos hz]
  · rw [if_neg hz, if_neg hz]
    have hn : 0 < nCouldBuy pold pnew := lt_of_le_of_ne hn0 (Ne.symm hz)
    obtain ⟨hpay, hc0, hc1⟩ := nWouldPay_eq pold pnew hF hD hrn.le hrange hn
    rw [hpay]
    simp only
    by_cases he : ((⌈((nCouldBuy pold pnew : Int) : ℚ) * (pold.amount_desired : ℚ)
                / (pold.amount_forsale : ℚ)⌉ : Int) : ℚ) / ((nCouldBuy pold pnew : Int) : ℚ)
              > pnew.inversePrice
    · rw [if_pos he, if_pos he]
    · rw [if_neg he, if_neg he]
      have hFq : (0 : ℚ) < (pold.amount_forsale : ℚ) := by exact_mod_cast hF
      have hnq : (0 : ℚ) < ((nCouldBuy pold pnew : Int) : ℚ) := by exact_mod_cast hn
      have hlow : ((⌈((nCouldBuy pold pnew : Int) : ℚ) * (pold.amount_desired : ℚ)
                / (pold.amount_forsale : ℚ)⌉ : Int) : ℚ) / ((nCouldBuy pold pnew : Int) : ℚ)
              ≥ pold.unitPrice := by
        rw [unitPrice_pos_eq pold hF, ge_iff_le, le_div_iff₀ hnq]
        calc (pold.amount_desired : ℚ) / (pold.amount_forsale : ℚ) * ((nCouldBuy pold pnew : Int) : ℚ)
            = ((nCouldBuy pold pnew : Int) : ℚ) * (pold.amount_desired : ℚ)
                / (pold.amount_forsale : ℚ) := by ring
          _ ≤ _ := Int.le_ceil _
      rw [if_neg (not_not.mpr hlow), if_neg (not_not.mpr (not_lt.mp he)),
        if_neg (not_not.mpr (by omega)), if_neg (not_not.mpr (by omega)),
        if_neg (not_not.mpr (by omega)), if_neg (not_not.mpr (by omega))]

/-- Facts the loop body has checked when it decides for a fill. -/
theorem x_Trade_outcome_fill (sellersPrice : ℚ) (pold pnew : CMPMetaDEx) (bg sg : Int)
    (h : x_Trade_outcome sellersPrice pold pnew = .fill bg sg) :
    pold.unitPrice = sellersPrice ∧ pold.desired_property = pnew.property ∧
    0 < pold.amount_remaining ∧ 0 < pnew.amount_remaining ∧
    pnew.property ≠ pnew.desired_property ∧ pold.property = pnew.desired_property ∧
    bg = nCouldBuy pold pnew ∧ bg ≠ 0 ∧ nWouldPay pold pnew = some sg ∧
    pold.unitPrice ≤ (sg : ℚ) / (bg : ℚ) ∧ (sg : ℚ) / (bg : ℚ) ≤ pnew.inversePrice ∧
    0 ≤ pold.amount_remaining - bg ∧ 0 ≤ pnew.amount_remaining - sg ∧
    pold.unitPrice ≤ pnew.inversePrice ∧ pnew.unitPrice ≤ pold.inversePrice := by
  unfold x_Trade_outcome at h
  by_cases h1 : pold.unitPrice ≠ sellersPrice
  · rw [if_pos h1] at h; cases h
  rw [if_neg h1] at h
  by_cases h2 : pold.desired_property ≠ pnew.property
  · rw [if_pos h2] at h; cases h
  rw [if_neg h2] at h
  by_cases h3 : ¬ (0 < pold.amount_remaining)
  · rw [if_pos h3] at h; cases h
  rw [if_neg h3] at h
  by_cases h4 : ¬ (0 < pnew.amount_remaining)
  · rw [if_pos h4] at h; cases h
  rw [if_neg h4] at h
  by_cases h5 : ¬ (pnew.property ≠ pnew.desired_property)
  · rw [if_pos h5] at h; cases h
  rw [if_neg h5] at h
  by_cases h6 : ¬ (pnew.property = pold.desired_property)
  · rw [if_pos h6] at h; cases h
  rw [if_neg h6] at h
  by_cases h7 : ¬ (pold.property = pnew.desired_property)
  · rw [if_pos h7] at h; cases h
  rw [if_neg h7] at h
  by_cases h8 : ¬ (pold.unitPrice ≤ pnew.inversePrice)
  · rw [if_pos h8] at h; cases h
  rw [if_neg h8] at h
  by_cases h9 : ¬ (pnew.unitPrice ≤ pold.inversePrice)
  · rw [if_pos h9] at h; cases h
  rw [if_neg h9] at h
  by_cases h10 : nCouldBuy pold pnew = 0
  · rw [if_pos h10] at h; cases h
  rw [if_neg h10] at h
  cases hw : nWouldPay pold pnew with
  | none => rw [hw] at h; cases h
  | some w =>
    rw [hw] at h
    simp only at h
    by_cases g1 : (w : ℚ) / (nCouldBuy pold pnew : ℚ) > pnew.inversePrice
    · rw [if_pos g1] at h; cases h
    rw [if_neg g1] at h
    by_cases g2 : ¬ ((w : ℚ) / (nCouldBuy pold pnew : ℚ) ≥ pold.unitPrice)
    · rw [if_pos g2] at h; cases h
    rw [if_neg g2] at h
    by_cases g3 : ¬ ((w : ℚ) / (nCouldBuy pold pnew : ℚ) ≤ pnew.inversePrice)
    · rw [if_pos g3] at h; cases h
    rw [if_neg g3] at h
    by_cases g4 : ¬ (0 ≤ pold.amount_remaining - nCouldBuy pold pnew)
    · rw [if_pos g4] at h; cases h
    rw [if_neg g4] at h
    by_cases g5 : ¬ (0 ≤ pnew.amount_remaining - w)
    · rw [if_pos g5] at h; cases h
    rw [if_neg g5] at h
    by_cases g6 : ¬ (pold.amount_remaining =
        pold.amount_remaining - nCouldBuy pold pnew + nCouldBuy pold pnew)
    · rw [if_pos g6] at h; cases h
    rw [if_neg g6] at h
    by_cases g7 : ¬ (pnew.amount_remaining = pnew.amount_remaining - w + w)
    · rw [if_pos g7] at h; cases h
    rw [if_neg g7] at h
    simp only [MatchOutcome.fill.injEq] at h
    obtain ⟨hb, hs⟩ := h
    subst hb; subst hs
    push_neg at h1 h2 h3 h4 h5 h6 h7 h8 h9 g2 g3 g4 g5
    exact ⟨h1, h2, h3, h4, h5, h7, rfl, h10, rfl, g2, g3, g4, g5, h8, h9⟩

/-- C1: for every fill the loop body of `x_Trade` decides on (a candidate pair
with positive amounts), the amounts are `buyer_got = nCouldBuy` and
`seller_got = nWouldPay`, and the realised price `seller_got / buyer_got` lies
between the unit price of the maker and the inverse price of the taker, as
exact rationals; in particular it is at least
`amount_desired / amount_forsale` of the maker. -/
theorem C1_fill_price_between_limits (sellersPrice : ℚ) (pold pnew : CMPMetaDEx) (bg sg : Int)
    (hc : Candidate sellersPrice pold pnew)
    (hfill : x_Trade_outcome sellersPrice pold pnew = .fill bg sg) :
    bg = nCouldBuy pold pnew ∧ nWouldPay pold pnew = some sg ∧ 0 < bg ∧
    pold.unitPrice ≤ (sg : ℚ) / (bg : ℚ) ∧ (sg : ℚ) / (bg : ℚ) ≤ pnew.inversePrice ∧
    (pold.amount_desired : ℚ) / (pold.amount_forsale : ℚ) ≤ (sg : ℚ) / (bg : ℚ) := by
  obtain ⟨_, _, _, _, _, _, hbg, hne, hpay, hlo, hhi, _, _⟩ :=
    x_Trade_outcome_fill sellersPrice pold pnew bg sg hfill
  obtain ⟨_, _, _, _, _, hF, hD, hro, _, _, hrn, _⟩ := hc
  have hnn : 0 ≤ bg := hbg ▸ nCouldBuy_nonneg pold pnew hF hD hro.le hrn.le
  refine ⟨hbg, hpay, lt_of_le_of_ne hnn (Ne.symm hne), hlo, hhi, ?_⟩
  rw [← unitPrice_pos_eq pold hF]
  exact hlo

/-- C1, at the orders of the first scenario: the fill of 100 for 200. -/
theorem C1_fill_price_between_limits_witness :
    Candidate 2 exMaker exTaker ∧ x_Trade_outcome 2 exMaker exTaker = .fill 100 200 ∧
    exMaker.unitPrice ≤ ((200 : Int) : ℚ) / ((100 : Int) : ℚ) ∧
    ((200 : Int) : ℚ) / ((100 : Int) : ℚ) ≤ exTaker.inversePrice :=
  have h := C1_fill_price_between_limits 2 exMaker exTaker 100 200 (by decide!) (by decide!)
  ⟨by decide!, by decide!, h.2.2.2.1, h.2.2.2.2.1⟩

/-- C5: for a candidate pair with positive amounts, the quantity delivered to
the taker is `nCouldBuy = min (floor (new.amount_remaining * old.amount_forsale
/ old.amount_desired)) old.amount_remaining`, the quantity paid to the maker is
`nWouldPay = ceil (nCouldBuy * old.amount_desired / old.amount_forsale)`, these
are the amounts of every fill, and when `nCouldBuy = 0` the loop passes over
the maker with the level, the taker, the ledger and the trade log unchanged. -/
theorem C5_fill_amounts (sellersPrice : ℚ) (pold : CMPMetaDEx) (st : TradeState)
    (rest : List CMPMetaDEx) (pofferSet : md_Set)
    (hc : Candidate sellersPrice pold st.pnew) :
    nCouldBuy pold st.pnew =
      min ⌊((st.pnew.amount_remaining : ℚ) * (pold.amount_forsale : ℚ))
            / (pold.amount_desired : ℚ)⌋ pold.amount_remaining ∧
    (nCouldBuy pold st.pnew ≠ 0 →
      nWouldPay pold st.pnew =
        some ⌈((nCouldBuy pold st.pnew : Int) : ℚ) * (pold.amount_desired : ℚ)
          / (pold.amount_forsale : ℚ)⌉) ∧
    (∀ bg sg, x_Trade_outcome sellersPrice pold st.pnew = .fill bg sg →
      bg = min ⌊((st.pnew.amount_remaining : ℚ) * (pold.amount_forsale : ℚ))
            / (pold.amount_desired : ℚ)⌋ pold.amount_remaining ∧
      sg = ⌈((bg : Int) : ℚ) * (pold.amount_desired : ℚ) / (pold.amount_forsale : ℚ)⌉) ∧
    (nCouldBuy pold st.pnew = 0 →
      x_Trade_outcome sellersPrice pold st.pnew = .nextOffer ∧
      x_Trade_offers sellersPrice (pold :: rest) pofferSet st =
        x_Trade_offers sellersPrice rest pofferSet st) := by
  have hc' := hc
  obtain ⟨_, _, _, _, _, hF, hD, hro, _, _, hrn, hrange⟩ := hc'
  have hn0 := nCouldBuy_nonneg pold st.pnew hF hD hro.le hrn.le
  have hpay : nCouldBuy pold st.pnew ≠ 0 →
      nWouldPay pold st.pnew =
        some ⌈((nCouldBuy pold st.pnew : Int) : ℚ) * (pold.amount_desired : ℚ)
          / (pold.amount_forsale : ℚ)⌉ := fun hne =>
    (nWouldPay_eq pold st.pnew hF hD hrn.le hrange (lt_of_le_of_ne hn0 (Ne.symm hne))).1
  refine ⟨nCouldBuy_eq pold st.pnew hF hD hrn.le, hpay, ?_, ?_⟩
  · intro bg sg hfill
    obtain ⟨_, _, _, _, _, _, hbg, hne, hsg, _⟩ :=
      x_Trade_outcome_fill sellersPrice pold st.pnew bg sg hfill
    refine ⟨hbg.trans (nCouldBuy_eq pold st.pnew hF hD hrn.le), ?_⟩
    have h2 := hpay (hbg ▸ hne)
    rw [hsg] at h2
    rw [hbg]
    exact Option.some.inj h2
  · intro hz
    have ho : x_Trade_outcome sellersPrice pold st.pnew = .nextOffer := by
      rw [x_Trade_outcome_candidate sellersPrice pold st.pnew hc, if_pos hz]
    refine ⟨ho, ?_⟩
    rw [x_Trade_offers, ho]

/-- C5, at the orders of the first scenario. -/
theorem C5_fill_amounts_witness :
    Candidate 2 exMaker exTradeState.pnew ∧
    nCouldBuy exMaker exTradeState.pnew =
      min ⌊((exTradeState.pnew.amount_remaining : ℚ) * (exMaker.amount_forsale : ℚ))
            / (exMaker.amount_desired : ℚ)⌋ exMaker.amount_remaining :=
  ⟨by decide!, (C5_fill_amounts 2 exMaker exTradeState [] [exMaker] (by decide!)).1⟩

/-! ## Ledger updates -/

theorem update_tally_map_some {L L1 : Ledger} {who : String} {p : Nat} {amt : Int}
    {t : TallyType} (h : update_tally_map L who p amt t = some L1) :
    0 ≤ L who p t + amt ∧
    ∀ a q k, L1 a q k = L a q k + (if a = who ∧ q = p ∧ k = t then amt else 0) := by
  unfold update_tally_map at h
  by_cases hneg : L who p t + amt < 0
  · rw [if_pos hneg] at h; cases h
  · rw [if_neg hneg] at h
    cases h
    refine ⟨not_lt.mp hneg, fun a q k => ?_⟩
    by_cases hc : a = who ∧ q = p ∧ k = t
    · simp only [if_pos hc]
    · simp only [if_neg hc, add_zero]

theorem update_tally_map_ok {L : Ledger} {who : String} {p : Nat} {amt : Int}
    {t : TallyType} (h : 0 ≤ L who p t + amt) :
    ∃ L1, update_tally_map L who p amt t = some L1 := by
  unfold update_tally_map
  rw [if_neg (not_lt.mpr h)]
  exact ⟨_, rfl⟩

/-- The net effect of the four ledger updates of a fill on every tally. -/
theorem x_Trade_transfer_apply {L L1 : Ledger} {pold pnew : CMPMetaDEx} {bg sg : Int}
    (h : x_Trade_transfer L pold pnew bg sg = some L1) (a : String) (q : Nat) (k : TallyType) :
    L1 a q k = L a q k
      + (if a = pnew.addr ∧ q = pnew.property ∧ k = .BALANCE then -sg else 0)
      + (if a = pold.addr ∧ q = pold.desired_property ∧ k = .BALANCE then sg else 0)
      + (if a = pold.addr ∧ q = pold.property ∧ k = .METADEX_RESERVE then -bg else 0)
      + (if a = pnew.addr ∧ q = pnew.desired_property ∧ k = .BALANCE then bg else 0) := by
  unfold x_Trade_transfer at h
  cases h1 : update_tally_map L pnew.addr pnew.property (-sg) .BALANCE with
  | none => rw [h1] at h; cases h
  | some La =>
    rw [h1] at h
    simp only at h
    cases h2 : update_tally_map La pold.addr pold.desired_property sg .BALANCE with
    | none => rw [h2] at h; cases h
    | some Lb =>
      rw [h2] at h
      simp only at h
      cases h3 : update_tally_map Lb pold.addr pold.property (-bg) .METADEX_RESERVE with
      | none => rw [h3] at h; cases h
      | some Lc =>
        rw [h3] at h
        simp only at h
        rw [(update_tally_map_some h).2, (update_tally_map_some h3).2,
          (update_tally_map_some h2).2, (update_tally_map_some h1).2]

/-- C7 (as amended): in a fill, with the taker selling `P_s` for `P_d`, the
`METADEX_RESERVE` of the maker for `P_d`, the property the maker sells,
decreases by `buyer_got`, and the `BALANCE` of the maker for `P_s`, the property
the maker desires, is credited with `seller_got`: it increases by `seller_got`
when the maker is not the taker. -/
theorem C7_maker_ledger_updates (sellersPrice : ℚ) (L L1 : Ledger) (pold pnew : CMPMetaDEx)
    (bg sg : Int) (hfill : x_Trade_outcome sellersPrice pold pnew = .fill bg sg)
    (h : x_Trade_transfer L pold pnew bg sg = some L1) :
    L1 pold.addr pnew.desired_property .METADEX_RESERVE
      = L pold.addr pnew.desired_property .METADEX_RESERVE - bg ∧
    (pold.addr ≠ pnew.addr →
      L1 pold.addr pnew.property .BALANCE = L pold.addr pnew.property .BALANCE + sg) := by
  obtain ⟨_, hdes, _, _, hne, hprop, _⟩ := x_Trade_outcome_fill sellersPrice pold pnew bg sg hfill
  constructor
  · rw [x_Trade_transfer_apply h]
    simp [hprop]
    ring
  · intro hadr
    rw [x_Trade_transfer_apply h]
    simp [hdes, hadr, hne]

/-- C7 (as amended), at the fill of the first scenario. -/
theorem C7_maker_ledger_updates_witness :
    x_Trade_outcome 2 exMaker exTaker = .fill 100 200 ∧
    ∀ L1, x_Trade_transfer exLedger exMaker exTaker 100 200 = some L1 →
      L1 exMaker.addr exTaker.desired_property .METADEX_RESERVE
        = exLedger exMaker.addr exTaker.desired_property .METADEX_RESERVE - 100 :=
  ⟨by decide!, fun L1 h =>
    (C7_maker_ledger_updates 2 exLedger L1 exMaker exTaker 100 200 (by decide!) h).1⟩

/-- C7 as stated fails: in the fill of the first scenario (the taker sells
`P_s = 1` for `P_d = 3`, `buyer_got = 100`, `seller_got = 200`) the ledger
updates succeed, and it is not the case that the `BALANCE` of the maker for
`P_d` has grown by `seller_got` and its `METADEX_RESERVE` for `P_s` has shrunk
by `buyer_got`: both are unchanged. -/
theorem C7_counterexample :
    x_Trade_outcome 2 exMaker exTaker = .fill 100 200 ∧
    ∃ L1, x_Trade_transfer exLedger exMaker exTaker 100 200 = some L1 ∧
      L1 "maker" 3 .BALANCE = exLedger "maker" 3 .BALANCE ∧
      L1 "maker" 1 .METADEX_RESERVE = exLedger "maker" 1 .METADEX_RESERVE ∧
      ¬ (L1 "maker" 3 .BALANCE = exLedger "maker" 3 .BALANCE + 200 ∧
         L1 "maker" 1 .METADEX_RESERVE = exLedger "maker" 1 .METADEX_RESERVE - 100) := by
  refine ⟨by decide!, ?_⟩
  have hv : (x_Trade_transfer exLedger exMaker exTaker 100 200).map (fun L1 =>
      (L1 "maker" 3 .BALANCE, L1 "maker" 1 .METADEX_RESERVE)) = some (0, 0) := by decide!
  have h0 : exLedger "maker" 3 .BALANCE = 0 ∧ exLedger "maker" 1 .METADEX_RESERVE = 0 := by
    decide!
  cases h : x_Trade_transfer exLedger exMaker exTaker 100 200 with
  | none => rw [h] at hv; cases hv
  | some L1 =>
    rw [h] at hv
    simp only [Option.map_some', Option.some.injEq, Prod.mk.injEq] at hv
    refine ⟨L1, rfl, by rw [hv.1, h0.1], by rw [hv.2, h0.2], ?_⟩
    rw [hv.1, hv.2, h0.1, h0.2]
    decide

/-! ## Token conservation -/

theorem totalTokens_update (S : Finset String) {L L1 : Ledger} {who : String} {p : Nat}
    {amt : Int} {t : TallyType} (hw : who ∈ S) (ht : t = .BALANCE ∨ t = .METADEX_RESERVE)
    (h : update_tally_map L who p amt t = some L1) (q : Nat) :
    totalTokens S L1 q = totalTokens S L q + (if q = p then amt else 0) := by
  unfold totalTokens
  simp only [(update_tally_map_some h).2]
  by_cases hq : q = p
  · subst hq
    rcases ht with rfl | rfl
    · simp [Finset.sum_add_distrib, Finset.sum_ite_eq', hw]
      ring
    · simp [Finset.sum_add_distrib, Finset.sum_ite_eq', hw]
      ring
  · simp [hq]

/-- The four ledger updates of a fill between matching orders leave the total
of every property unchanged. -/
theorem totalTokens_transfer (S : Finset String) {L L1 : Ledger} {pold pnew : CMPMetaDEx}
    {bg sg : Int} (hn : pnew.addr ∈ S) (ho : pold.addr ∈ S)
    (hdes : pold.desired_property = pnew.property)
    (hprop : pold.property = pnew.desired_property)
    (h : x_Trade_transfer L pold pnew bg sg = some L1) (q : Nat) :
    totalTokens S L1 q = totalTokens S L q := by
  unfold x_Trade_transfer at h
  cases h1 : update_tally_map L pnew.addr pnew.property (-sg) .BALANCE with
  | none => rw [h1] at h; cases h
  | some La =>
    rw [h1] at h
    simp only at h
    cases h2 : update_tally_map La pold.addr pold.desired_property sg .BALANCE with
    | none => rw [h2] at h; cases h
    | some Lb =>
      rw [h2] at h
      simp only at h
      cases h3 : update_tally_map Lb pold.addr pold.property (-bg) .METADEX_RESERVE with
      | none => rw [h3] at h; cases h
      | some Lc =>
        rw [h3] at h
        simp only at h
        rw [totalTokens_update S hn (Or.inl rfl) h, totalTokens_update S ho (Or.inr rfl) h3,
          totalTokens_update S ho (Or.inl rfl) h2, totalTokens_update S hn (Or.inl rfl) h1,
          hdes, hprop]
        split_ifs <;> ring

/-- A property of the loop state that every fill preserves holds when the
inner loop of `x_Trade` ends. -/
theorem x_Trade_offers_inv (I : TradeState → Prop) (sellersPrice : ℚ) :
    ∀ (rest : List CMPMetaDEx) (pofferSet : md_Set) (st : TradeState)
      (res : md_Set × TradeState),
      (∀ pold ∈ rest, ∀ st0 bg sg L, I st0 →
        x_Trade_outcome sellersPrice pold st0.pnew = .fill bg sg →
        x_Trade_transfer st0.tally pold st0.pnew bg sg = some L →
        I (x_Trade_after L pold st0 bg sg)) →
      I st → x_Trade_offers sellersPrice rest pofferSet st = .ok res → I res.2 := by
  intro rest
  induction rest with
  | nil =>
    intro pofferSet st res _ hI h
    simp only [x_Trade_offers] at h
    cases h
    exact hI
  | cons pold rest ih =>
    intro pofferSet st res hstep hI h
    have hstep' : ∀ o ∈ rest, ∀ st0 bg sg L, I st0 →
        x_Trade_outcome sellersPrice o st0.pnew = .fill bg sg →
        x_Trade_transfer st0.tally o st0.pnew bg sg = some L →
        I (x_Trade_after L o st0 bg sg) :=
      fun o ho => hstep o (List.mem_cons_of_mem _ ho)
    rw [x_Trade_offers] at h
    cases ho : x_Trade_outcome sellersPrice pold st.pnew with
    | assertFailed a => rw [ho] at h; cases h
    | nextOffer =>
      rw [ho] at h
      exact ih pofferSet st res hstep' hI h
    | fill bg sg =>
      rw [ho] at h
      simp only at h
      cases ht : x_Trade_transfer st.tally pold st.pnew bg sg with
      | none => rw [ht] at h; cases h
      | some L =>
        rw [ht] at h
        simp only at h
        have hI1 := hstep pold (List.mem_cons_self _ _) st bg sg L hI ho ht
        by_cases hs : (x_Trade_after L pold st bg sg).bBuyerSatisfied = true
        · rw [if_pos hs] at h
          by_cases hz : (x_Trade_after L pold st bg sg).pnew.amount_remaining = 0
          · rw [if_pos hz] at h
            cases h
            exact hI1
          · rw [if_neg hz] at h; cases h
        · rw [if_neg hs] at h
          exact ih _ _ res hstep' hI1 h

/-- A property of the loop state that every fill preserves holds when the
outer loop of `x_Trade` ends. -/
theorem x_Trade_prices_inv (I : TradeState → Prop) :
    ∀ (pm : md_PricesMap) (st : TradeState) (res : md_PricesMap × TradeState),
      (∀ lvl ∈ pm, ∀ pold ∈ lvl.2, ∀ st0 bg sg L, I st0 →
        x_Trade_outcome lvl.1 pold st0.pnew = .fill bg sg →
        x_Trade_transfer st0.tally pold st0.pnew bg sg = some L →
        I (x_Trade_after L pold st0 bg sg)) →
      I st → x_Trade_prices pm st = .ok res → I res.2 := by
  intro pm
  induction pm with
  | nil =>
    intro st res _ hI h
    simp only [x_Trade_prices] at h
    cases h
    exact hI
  | cons lvl rest ih =>
    intro st res hstep hI h
    obtain ⟨sellersPrice, pofferSet⟩ := lvl
    have hstep' : ∀ l ∈ rest, ∀ pold ∈ l.2, ∀ st0 bg sg L, I st0 →
        x_Trade_outcome l.1 pold st0.pnew = .fill bg sg →
        x_Trade_transfer st0.tally pold st0.pnew bg sg = some L →
        I (x_Trade_after L pold st0 bg sg) :=
      fun l hl => hstep l (List.mem_cons_of_mem _ hl)
    rw [x_Trade_prices] at h
    by_cases hp : st.pnew.inversePrice < sellersPrice
    · rw [if_pos hp] at h
      cases hr : x_Trade_prices rest st with
      | error a => rw [hr] at h; cases h
      | ok r =>
        rw [hr] at h
        cases h
        exact ih st r hstep' hI hr
    · rw [if_neg hp] at h
      cases hl : x_Trade_offers sellersPrice pofferSet pofferSet st with
      | error a => rw [hl] at h; cases h
      | ok r1 =>
        rw [hl] at h
        simp only at h
        have hI1 : I r1.2 :=
          x_Trade_offers_inv I sellersPrice pofferSet pofferSet st r1
            (hstep (sellersPrice, pofferSet) (List.mem_cons_self _ _)) hI hl
        by_cases hs : r1.2.bBuyerSatisfied = true
        · rw [if_pos hs] at h
          cases h
          exact hI1
        · rw [if_neg hs] at h
          cases hr : x_Trade_prices rest r1.2 with
          | error a => rw [hr] at h; cases h
          | ok r =>
            rw [hr] at h
            cases h
            exact ih r1.2 r hstep' hI1 hr

theorem mapFind_mem {κ β : Type} [DecidableEq κ] {k : κ} {v : β} :
    ∀ {l : List (κ × β)}, mapFind k l = some v → (k, v) ∈ l := by
  intro l
  induction l with
  | nil => intro h; simp [mapFind] at h
  | cons e rest ih =>
    obtain ⟨k1, v1⟩ := e
    intro h
    rw [mapFind] at h
    by_cases hk : k1 = k
    · rw [if_pos hk] at h
      cases h
      subst hk
      exact List.mem_cons_self _ _
    · rw [if_neg hk] at h
      exact List.mem_cons_of_mem _ (ih h)

theorem mem_allOrders {metadex : md_PropertiesMap} {prop : Nat} {pm : md_PricesMap}
    {lvl : ℚ × md_Set} {o : CMPMetaDEx} (hpm : (prop, pm) ∈ metadex) (hl : lvl ∈ pm)
    (ho : o ∈ lvl.2) : o ∈ allOrders metadex := by
  unfold allOrders pricesOrders
  rw [List.mem_flatMap]
  refine ⟨(prop, pm), hpm, ?_⟩
  rw [List.mem_flatMap]
  exact ⟨lvl, hl, ho⟩

/-- The static fields of the incoming order are the same after a fill. -/
theorem x_Trade_after_pnew (L : Ledger) (pold : CMPMetaDEx) (st : TradeState) (bg sg : Int) :
    (x_Trade_after L pold st bg sg).pnew
      = st.pnew.setAmountRemaining (st.pnew.amount_remaining - sg) := rfl

/-- The loops of `x_Trade` change nothing of the incoming order but its
remaining amount. -/
theorem x_Trade_prices_pnew (pm : md_PricesMap) (st : TradeState)
    (res : md_PricesMap × TradeState) (h : x_Trade_prices pm st = .ok res) :
    res.2.pnew = st.pnew.setAmountRemaining res.2.pnew.amount_remaining := by
  have key := x_Trade_prices_inv
    (fun s0 => s0.pnew = st.pnew.setAmountRemaining s0.pnew.amount_remaining) pm st res
    (by
      intro lvl _ pold _ st0 bg sg L hI _ _
      simp only [x_Trade_after_pnew]
      rw [hI]
      rfl)
    rfl h
  exact key

/-- Token conservation across `x_Trade`. -/
theorem totalTokens_x_Trade (S : Finset String) (s : State) (pnew : CMPMetaDEx)
    (r : TradeResult) (hS : ∀ o ∈ allOrders s.metadex, o.addr ∈ S) (hn : pnew.addr ∈ S)
    (h : x_Trade s pnew = .ok r) (q : Nat) :
    totalTokens S r.state.mp_tally_map q = totalTokens S s.mp_tally_map q := by
  unfold x_Trade at h
  cases hg : get_Prices s.metadex pnew.desired_property with
  | none =>
    rw [hg] at h
    cases h
    rfl
  | some pm =>
    rw [hg] at h
    simp only at h
    cases hp : x_Trade_prices pm (x_Trade_init s pnew) with
    | error a => rw [hp] at h; cases h
    | ok res =>
      rw [hp] at h
      cases h
      have key := x_Trade_prices_inv
        (fun s0 => totalTokens S s0.tally q = totalTokens S s.mp_tally_map q ∧ s0.pnew.addr ∈ S)
        pm (x_Trade_init s pnew) res
        (by
          intro lvl hl pold hpo st0 bg sg L hI ho ht
          obtain ⟨_, hdes, _, _, _, hprop, _⟩ := x_Trade_outcome_fill _ _ _ _ _ ho
          have hoS : pold.addr ∈ S := hS pold (mem_allOrders (mapFind_mem hg) hl hpo)
          refine ⟨?_, hI.2⟩
          show totalTokens S L q = _
          rw [totalTokens_transfer S hI.2 hoS hdes hprop ht q]
          exact hI.1)
        ⟨rfl, hn⟩ hp
      exact key.1

/-- Token conservation across `MetaDEx_ADD`. -/
theorem totalTokens_MetaDEx_ADD (S : Finset String) (ME : Int) (s : State) (sender : String)
    (prop : Nat) (amount : Int) (block : Int) (pd : Nat) (ad : Int) (txid idx : Nat)
    (res : Int × State) (hS : ∀ o ∈ allOrders s.metadex, o.addr ∈ S) (hn : sender ∈ S)
    (h : MetaDEx_ADD ME s sender prop amount block pd ad txid idx = .ok res) (q : Nat) :
    totalTokens S res.2.mp_tally_map q = totalTokens S s.mp_tally_map q := by
  unfold MetaDEx_ADD at h
  simp only at h
  split_ifs at h with h0
  · cases h; rfl
  · cases hx : x_Trade s (CMPMetaDEx.create sender block prop amount pd ad txid idx .ADD) with
    | error a => rw [hx] at h; cases h
    | ok r =>
      rw [hx] at h
      simp only at h
      have hr := totalTokens_x_Trade S s _ r hS hn hx q
      split_ifs at h with h1 h2
      · cases h; exact hr
      · cases h3 : update_tally_map r.state.mp_tally_map sender prop
            (-r.pnew.amount_remaining) .BALANCE with
        | none => rw [h3] at h; cases h
        | some L1 =>
          rw [h3] at h
          simp only at h
          cases h4 : update_tally_map L1 sender prop r.pnew.amount_remaining
              .METADEX_RESERVE with
          | none => rw [h4] at h; cases h
          | some L2 =>
            rw [h4] at h
            cases h
            show totalTokens S L2 q = _
            rw [totalTokens_update S hn (Or.inr rfl) h4, totalTokens_update S hn (Or.inl rfl) h3,
              hr]
            split_ifs <;> ring
      · cases h; exact hr

/-! ## The effect of the cancel loops -/

theorem reserved_nil (a : String) (p : Nat) : reserved [] a p = 0 := rfl

theorem reserved_cons (o : CMPMetaDEx) (l : List CMPMetaDEx) (a : String) (p : Nat) :
    reserved (o :: l) a p
      = (if o.addr = a ∧ o.property = p then o.amount_remaining else 0) + reserved l a p := by
  unfold reserved
  by_cases h : o.addr = a ∧ o.property = p
  · rw [List.filter_cons_of_pos (by simpa using h), if_pos h]
    simp
  · rw [List.filter_cons_of_neg (by simpa using h), if_neg h]
    simp

theorem reserved_append (l1 l2 : List CMPMetaDEx) (a : String) (p : Nat) :
    reserved (l1 ++ l2) a p = reserved l1 a p + reserved l2 a p := by
  unfold reserved
  simp [List.filter_append]

theorem cancelDelta_nil (a : String) (q : Nat) (k : TallyType) : cancelDelta [] a q k = 0 := by
  cases k <;> simp [cancelDelta, reserved_nil]

theorem cancelDelta_append (l1 l2 : List CMPMetaDEx) (a : String) (q : Nat) (k : TallyType) :
    cancelDelta (l1 ++ l2) a q k = cancelDelta l1 a q k + cancelDelta l2 a q k := by
  cases k <;> simp [cancelDelta, reserved_append]
  ring

theorem cancelDelta_cons (o : CMPMetaDEx) (l : List CMPMetaDEx) (a : String) (q : Nat)
    (k : TallyType) :
    cancelDelta (o :: l) a q k
      = (if a = o.addr ∧ q = o.property ∧ k = .METADEX_RESERVE then -o.amount_remaining else 0)
        + (if a = o.addr ∧ q = o.property ∧ k = .BALANCE then o.amount_remaining else 0)
        + cancelDelta l a q k := by
  by_cases h : o.addr = a ∧ o.property = q
  · obtain ⟨h1, h2⟩ := h
    subst h1; subst h2
    cases k <;> simp [cancelDelta, reserved_cons]
    ring
  · have h' : ¬ (a = o.addr ∧ q = o.property) := fun hc => h ⟨hc.1.symm, hc.2.symm⟩
    have e1 : ¬ (a = o.addr ∧ q = o.property ∧ k = .METADEX_RESERVE) :=
      fun hc => h' ⟨hc.1, hc.2.1⟩
    have e2 : ¬ (a = o.addr ∧ q = o.property ∧ k = .BALANCE) := fun hc => h' ⟨hc.1, hc.2.1⟩
    rw [if_neg e1, if_neg e2]
    cases k <;> simp [cancelDelta, reserved_cons, h]

theorem ite_append_nil (l1 l2 : List CMPMetaDEx) (x : Int) :
    (if l2 = [] then (if l1 = [] then x else 0) else 0) = if l1 ++ l2 = [] then x else 0 := by
  cases l1 <;> cases l2 <;> simp

/-- The effect of the inner cancel loop: the level keeps the orders for which
`skip` holds, every tally changes by the amounts of the removed orders, one
row per removed order is logged, and `rc` becomes 0 when an order is
removed. -/
theorem MetaDEx_cancel_offers_effect (txid : Nat) (block : Int) (skip : CMPMetaDEx → Bool) :
    ∀ (rest : List CMPMetaDEx) (st : CancelState) (res : md_Set × CancelState),
      MetaDEx_cancel_offers txid block skip rest st = .ok res →
      res.1 = rest.filter skip ∧
      (∀ a q k, res.2.tally a q k = st.tally a q k + cancelDelta (cancelledOffers skip rest) a q k) ∧
      res.2.txlist = st.txlist ++ (cancelledOffers skip rest).map (cancel_row txid block) ∧
      res.2.rc = if cancelledOffers skip rest = [] then st.rc else 0 := by
  intro rest
  induction rest with
  | nil =>
    intro st res h
    simp only [MetaDEx_cancel_offers] at h
    cases h
    simp [cancelledOffers, cancelDelta_nil]
  | cons o rest ih =>
    intro st res h
    rw [MetaDEx_cancel_offers] at h
    by_cases hs : skip o = true
    · rw [if_pos hs] at h
      cases hr : MetaDEx_cancel_offers txid block skip rest st with
      | error a => rw [hr] at h; cases h
      | ok r =>
        rw [hr] at h
        cases h
        obtain ⟨h1, h2, h3, h4⟩ := ih st r hr
        have hc : cancelledOffers skip (o :: rest) = cancelledOffers skip rest := by
          simp [cancelledOffers, hs]
        rw [hc]
        refine ⟨?_, h2, h3, h4⟩
        simp [List.filter_cons, hs, h1]
    · rw [if_neg hs] at h
      cases h1 : update_tally_map st.tally o.addr o.property (-o.amount_remaining)
          .METADEX_RESERVE with
      | none => rw [h1] at h; cases h
      | some L1 =>
        rw [h1] at h
        simp only at h
        cases h2 : update_tally_map L1 o.addr o.property o.amount_remaining .BALANCE with
        | none => rw [h2] at h; cases h
        | some L2 =>
          rw [h2] at h
          simp only at h
          obtain ⟨e1, e2, e3, e4⟩ := ih _ res h
          have hc : cancelledOffers skip (o :: rest) = o :: cancelledOffers skip rest := by
            simp [cancelledOffers, hs]
          rw [hc]
          refine ⟨?_, ?_, ?_, ?_⟩
          · simp [List.filter_cons, hs, e1]
          · intro a q k
            rw [e2 a q k, cancelDelta_cons]
            show L2 a q k + _ = _
            rw [(update_tally_map_some h2).2, (update_tally_map_some h1).2]
            ring
          · rw [e3]
            simp
          · rw [e4]
            simp

/-- The effect of the cancel loop over the price levels of a property. -/
theorem MetaDEx_cancel_prices_effect (txid : Nat) (block : Int) (skipLevel : ℚ → Bool)
    (skip : CMPMetaDEx → Bool) :
    ∀ (pm : md_PricesMap) (st : CancelState) (res : md_PricesMap × CancelState),
      MetaDEx_cancel_prices txid block skipLevel skip pm st = .ok res →
      res.1 = keptPrices skipLevel skip pm ∧
      (∀ a q k, res.2.tally a q k
        = st.tally a q k + cancelDelta (cancelledPrices skipLevel skip pm) a q k) ∧
      res.2.txlist
        = st.txlist ++ (cancelledPrices skipLevel skip pm).map (cancel_row txid block) ∧
      res.2.rc = if cancelledPrices skipLevel skip pm = [] then st.rc else 0 := by
  intro pm
  induction pm with
  | nil =>
    intro st res h
    simp only [MetaDEx_cancel_prices] at h
    cases h
    simp [cancelledPrices, keptPrices, cancelDelta_nil]
  | cons lvl rest ih =>
    obtain ⟨price, indexes⟩ := lvl
    intro st res h
    rw [MetaDEx_cancel_prices] at h
    by_cases hs : skipLevel price = true
    · rw [if_pos hs] at h
      cases hr : MetaDEx_cancel_prices txid block skipLevel skip rest st with
      | error a => rw [hr] at h; cases h
      | ok r =>
        rw [hr] at h
        cases h
        obtain ⟨h1, h2, h3, h4⟩ := ih st r hr
        have hc : cancelledPrices skipLevel skip ((price, indexes) :: rest)
            = cancelledPrices skipLevel skip rest := by
          simp [cancelledPrices, hs]
        rw [hc]
        refine ⟨?_, h2, h3, h4⟩
        simp [keptPrices, hs, h1]
    · rw [if_neg hs] at h
      cases hl : MetaDEx_cancel_offers txid block skip indexes st with
      | error a => rw [hl] at h; cases h
      | ok r1 =>
        rw [hl] at h
        simp only at h
        cases hr : MetaDEx_cancel_prices txid block skipLevel skip rest r1.2 with
        | error a => rw [hr] at h; cases h
        | ok r =>
          rw [hr] at h
          cases h
          obtain ⟨a1, a2, a3, a4⟩ := MetaDEx_cancel_offers_effect txid block skip indexes st r1 hl
          obtain ⟨b1, b2, b3, b4⟩ := ih r1.2 r hr
          have hc : cancelledPrices skipLevel skip ((price, indexes) :: rest)
              = cancelledOffers skip indexes ++ cancelledPrices skipLevel skip rest := by
            simp [cancelledPrices, hs]
          rw [hc]
          refine ⟨?_, ?_, ?_, ?_⟩
          · simp [keptPrices, hs, a1, b1]
          · intro a q k
            show r.2.tally a q k = _
            rw [b2 a q k, a2 a q k, cancelDelta_append]
            ring
          · show r.2.txlist = _
            rw [b3, a3]
            simp
          · show r.2.rc = _
            rw [b4, a4]
            exact ite_append_nil _ _ _

/-- The effect of the cancel loop over the properties of the book. -/
theorem MetaDEx_cancel_properties_effect (isMain isTest : Nat → Bool) (txid : Nat)
    (block : Int) (sender : String) (ecosystem : Nat) :
    ∀ (metadex : md_PropertiesMap) (st : CancelState) (res : md_PropertiesMap × CancelState),
      MetaDEx_cancel_properties isMain isTest txid block sender ecosystem metadex st = .ok res →
      res.1 = keptProperties
        (fun prop => (isMain ecosystem && !isMain prop) || (isTest ecosystem && !isTest prop))
        (fun o => decide (o.addr ≠ sender)) metadex ∧
      (∀ a q k, res.2.tally a q k = st.tally a q k + cancelDelta (cancelledProperties
        (fun prop => (isMain ecosystem && !isMain prop) || (isTest ecosystem && !isTest prop))
        (fun o => decide (o.addr ≠ sender)) metadex) a q k) ∧
      res.2.txlist = st.txlist ++ (cancelledProperties
        (fun prop => (isMain ecosystem && !isMain prop) || (isTest ecosystem && !isTest prop))
        (fun o => decide (o.addr ≠ sender)) metadex).map (cancel_row txid block) ∧
      res.2.rc = if cancelledProperties
        (fun prop => (isMain ecosystem && !isMain prop) || (isTest ecosystem && !isTest prop))
        (fun o => decide (o.addr ≠ sender)) metadex = [] then st.rc else 0 := by
  intro metadex
  induction metadex with
  | nil =>
    intro st res h
    simp only [MetaDEx_cancel_properties] at h
    cases h
    simp [cancelledProperties, keptProperties, cancelDelta_nil]
  | cons e rest ih =>
    obtain ⟨prop, prices⟩ := e
    intro st res h
    rw [MetaDEx_cancel_properties] at h
    by_cases hs : ((isMain ecosystem && !isMain prop) || (isTest ecosystem && !isTest prop))
        = true
    · rw [if_pos hs] at h
      cases hr : MetaDEx_cancel_properties isMain isTest txid block sender ecosystem rest st with
      | error a => rw [hr] at h; cases h
      | ok r =>
        rw [hr] at h
        cases h
        obtain ⟨h1, h2, h3, h4⟩ := ih st r hr
        have hc : cancelledProperties
            (fun prop => (isMain ecosystem && !isMain prop) || (isTest ecosystem && !isTest prop))
            (fun o => decide (o.addr ≠ sender)) ((prop, prices) :: rest)
            = cancelledProperties
            (fun prop => (isMain ecosystem && !isMain prop) || (isTest ecosystem && !isTest prop))
            (fun o => decide (o.addr ≠ sender)) rest := by
          simp only [cancelledProperties, List.flatMap_cons, hs, if_true, List.nil_append]
        rw [hc]
        refine ⟨?_, h2, h3, h4⟩
        simp only [keptProperties, List.map_cons, hs, if_true]
        rw [h1]
        rfl
    · rw [if_neg hs] at h
      cases hl : MetaDEx_cancel_prices txid block (fun _ => false)
          (fun o => decide (o.addr ≠ sender)) prices st with
      | error a => rw [hl] at h; cases h
      | ok r1 =>
        rw [hl] at h
        simp only at h
        cases hr : MetaDEx_cancel_properties isMain isTest txid block sender ecosystem rest
            r1.2 with
        | error a => rw [hr] at h; cases h
        | ok r =>
          rw [hr] at h
          cases h
          obtain ⟨a1, a2, a3, a4⟩ := MetaDEx_cancel_prices_effect txid block (fun _ => false)
            (fun o => decide (o.addr ≠ sender)) prices st r1 hl
          obtain ⟨b1, b2, b3, b4⟩ := ih r1.2 r hr
          have hc : cancelledProperties
              (fun prop => (isMain ecosystem && !isMain prop) || (isTest ecosystem && !isTest prop))
              (fun o => decide (o.addr ≠ sender)) ((prop, prices) :: rest)
              = cancelledPrices (fun _ => false) (fun o => decide (o.addr ≠ sender)) prices
                ++ cancelledProperties
              (fun prop => (isMain ecosystem && !isMain prop) || (isTest ecosystem && !isTest prop))
              (fun o => decide (o.addr ≠ sender)) rest := by
            simp only [cancelledProperties, List.flatMap_cons, hs]
            rfl
          rw [hc]
          refine ⟨?_, ?_, ?_, ?_⟩
          · simp only [keptProperties, List.map_cons, hs]
            show (prop, r1.1) :: r.1 = _
            rw [a1, b1]
            rfl
          · intro a q k
            show r.2.tally a q k = _
            rw [b2 a q k, a2 a q k, cancelDelta_append]
            ring
          · show r.2.txlist = _
            rw [b3, a3]
            simp
          · show r.2.rc = _
            rw [b4, a4]
            exact ite_append_nil _ _ _

theorem totalTokens_cancelDelta (S : Finset String) (L L1 : Ledger) (removed : List CMPMetaDEx)
    (h : ∀ a q k, L1 a q k = L a q k + cancelDelta removed a q k) (q : Nat) :
    totalTokens S L1 q = totalTokens S L q := by
  unfold totalTokens
  apply Finset.sum_congr rfl
  intro a _
  rw [h a q .BALANCE, h a q .METADEX_RESERVE]
  simp only [cancelDelta]
  ring

/-- The effect of `MetaDEx_CANCEL_AT_PRICE`: without a price map for the
property nothing changes; otherwise the price map is scanned with the level
test and the order test of the operation. -/
theorem MetaDEx_CANCEL_AT_PRICE_effect (ME : Int) (s : State) (txid : Nat) (block : Int)
    (sender : String) (prop : Nat) (amount : Int) (pd : Nat) (ad : Int) (res : Int × State)
    (h : MetaDEx_CANCEL_AT_PRICE ME s txid block sender prop amount pd ad = .ok res) :
    (get_Prices s.metadex prop = none ∧ res = (ME - 20 - 1, s)) ∨
    ∃ pm removed, get_Prices s.metadex prop = some pm ∧
      removed = cancelledPrices
        (fun sellers_price => decide
          ((CMPMetaDEx.create sender 0 prop amount pd ad 0 0 .CANCEL_AT_PRICE).unitPrice
            ≠ sellers_price))
        (fun o => decide (o.desired_property ≠ pd) || decide (o.addr ≠ sender)) pm ∧
      res.2.metadex = mapReplace prop (keptPrices
        (fun sellers_price => decide
          ((CMPMetaDEx.create sender 0 prop amount pd ad 0 0 .CANCEL_AT_PRICE).unitPrice
            ≠ sellers_price))
        (fun o => decide (o.desired_property ≠ pd) || decide (o.addr ≠ sender)) pm) s.metadex ∧
      (∀ a q k, res.2.mp_tally_map a q k = s.mp_tally_map a q k + cancelDelta removed a q k) ∧
      res.2.p_txlistdb = s.p_txlistdb ++ removed.map (cancel_row txid block) ∧
      res.2.t_tradelistdb = s.t_tradelistdb ∧
      res.1 = if removed = [] then ME - 20 else 0 := by
  unfold MetaDEx_CANCEL_AT_PRICE at h
  simp only at h
  cases hg : get_Prices s.metadex prop with
  | none =>
    rw [hg] at h
    cases h
    exact Or.inl ⟨rfl, rfl⟩
  | some pm =>
    rw [hg] at h
    simp only at h
    right
    cases hc : MetaDEx_cancel_prices txid block
        (fun sellers_price => decide
          ((CMPMetaDEx.create sender 0 prop amount pd ad 0 0 .CANCEL_AT_PRICE).unitPrice
            ≠ sellers_price))
        (fun o => decide (o.desired_property ≠ pd) || decide (o.addr ≠ sender)) pm
        ⟨s.mp_tally_map, s.p_txlistdb, ME - 20⟩ with
    | error a => rw [hc] at h; cases h
    | ok r =>
      rw [hc] at h
      cases h
      obtain ⟨e1, e2, e3, e4⟩ := MetaDEx_cancel_prices_effect _ _ _ _ _ _ _ hc
      exact ⟨pm, _, rfl, rfl, by rw [← e1], e2, e3, rfl, e4⟩

/-- The effect of `MetaDEx_CANCEL_ALL_FOR_PAIR`. -/
theorem MetaDEx_CANCEL_ALL_FOR_PAIR_effect (ME : Int) (s : State) (txid : Nat) (block : Int)
    (sender : String) (prop : Nat) (pd : Nat) (res : Int × State)
    (h : MetaDEx_CANCEL_ALL_FOR_PAIR ME s txid block sender prop pd = .ok res) :
    (get_Prices s.metadex prop = none ∧ res = (ME - 30 - 1, s)) ∨
    ∃ pm removed, get_Prices s.metadex prop = some pm ∧
      removed = cancelledPrices (fun _ => false)
        (fun o => decide (o.desired_property ≠ pd) || decide (o.addr ≠ sender)) pm ∧
      res.2.metadex = mapReplace prop (keptPrices (fun _ => false)
        (fun o => decide (o.desired_property ≠ pd) || decide (o.addr ≠ sender)) pm) s.metadex ∧
      (∀ a q k, res.2.mp_tally_map a q k = s.mp_tally_map a q k + cancelDelta removed a q k) ∧
      res.2.p_txlistdb = s.p_txlistdb ++ removed.map (cancel_row txid block) ∧
      res.2.t_tradelistdb = s.t_tradelistdb ∧
      res.1 = if removed = [] then ME - 30 else 0 := by
  unfold MetaDEx_CANCEL_ALL_FOR_PAIR at h
  simp only at h
  cases hg : get_Prices s.metadex prop with
  | none =>
    rw [hg] at h
    cases h
    exact Or.inl ⟨rfl, rfl⟩
  | some pm =>
    rw [hg] at h
    simp only at h
    right
    cases hc : MetaDEx_cancel_prices txid block (fun _ => false)
        (fun o => decide (o.desired_property ≠ pd) || decide (o.addr ≠ sender)) pm
        ⟨s.mp_tally_map, s.p_txlistdb, ME - 30⟩ with
    | error a => rw [hc] at h; cases h
    | ok r =>
      rw [hc] at h
      cases h
      obtain ⟨e1, e2, e3, e4⟩ := MetaDEx_cancel_prices_effect _ _ _ _ _ _ _ hc
      exact ⟨pm, _, rfl, rfl, by rw [← e1], e2, e3, rfl, e4⟩

/-- The effect of `MetaDEx_CANCEL_EVERYTHING`. -/
theorem MetaDEx_CANCEL_EVERYTHING_effect (isMain isTest : Nat → Bool) (ME : Int) (s : State)
    (txid : Nat) (block : Int) (sender : String) (ecosystem : Nat) (res : Int × State)
    (h : MetaDEx_CANCEL_EVERYTHING isMain isTest ME s txid block sender ecosystem = .ok res) :
    ∃ removed,
      removed = cancelledProperties
        (fun prop => (isMain ecosystem && !isMain prop) || (isTest ecosystem && !isTest prop))
        (fun o => decide (o.addr ≠ sender)) s.metadex ∧
      res.2.metadex = keptProperties
        (fun prop => (isMain ecosystem && !isMain prop) || (isTest ecosystem && !isTest prop))
        (fun o => decide (o.addr ≠ sender)) s.metadex ∧
      (∀ a q k, res.2.mp_tally_map a q k = s.mp_tally_map a q k + cancelDelta removed a q k) ∧
      res.2.p_txlistdb = s.p_txlistdb ++ removed.map (cancel_row txid block) ∧
      res.2.t_tradelistdb = s.t_tradelistdb ∧
      res.1 = if removed = [] then ME - 40 else 0 := by
  unfold MetaDEx_CANCEL_EVERYTHING at h
  simp only at h
  cases hc : MetaDEx_cancel_properties isMain isTest txid block sender ecosystem s.metadex
      ⟨s.mp_tally_map, s.p_txlistdb, ME - 40⟩ with
  | error a => rw [hc] at h; cases h
  | ok r =>
    rw [hc] at h
    cases h
    obtain ⟨e1, e2, e3, e4⟩ := MetaDEx_cancel_properties_effect _ _ _ _ _ _ _ _ _ hc
    exact ⟨_, rfl, e1, e2, e3, rfl, e4⟩

theorem except_ok_of_isSome {ε α : Type} (x : Except ε α) (h : x.toOption.isSome = true) :
    ∃ r, x = .ok r := by
  cases x with
  | error e => simp [Except.toOption] at h
  | ok r => exact ⟨r, rfl⟩

/-- C2: token conservation. For every state, every property `q` and every
finite set `S` of addresses that holds the owners of all resting orders (and
the sender), the sum over `S` of `BALANCE + METADEX_RESERVE` of `q` is the same
after `MetaDEx_ADD`, `MetaDEx_CANCEL_AT_PRICE`, `MetaDEx_CANCEL_ALL_FOR_PAIR`
and `MetaDEx_CANCEL_EVERYTHING` as before the call. -/
theorem C2_token_conservation (isMain isTest : Nat → Bool) (ME : Int) (S : Finset String)
    (s : State) (q : Nat) (hS : ∀ o ∈ allOrders s.metadex, o.addr ∈ S) :
    (∀ sender prop amount block pd ad txid idx res, sender ∈ S →
      MetaDEx_ADD ME s sender prop amount block pd ad txid idx = .ok res →
      totalTokens S res.2.mp_tally_map q = totalTokens S s.mp_tally_map q) ∧
    (∀ txid block sender prop amount pd ad res, sender ∈ S →
      MetaDEx_CANCEL_AT_PRICE ME s txid block sender prop amount pd ad = .ok res →
      totalTokens S res.2.mp_tally_map q = totalTokens S s.mp_tally_map q) ∧
    (∀ txid block sender prop pd res, sender ∈ S →
      MetaDEx_CANCEL_ALL_FOR_PAIR ME s txid block sender prop pd = .ok res →
      totalTokens S res.2.mp_tally_map q = totalTokens S s.mp_tally_map q) ∧
    (∀ txid block sender ecosystem res, sender ∈ S →
      MetaDEx_CANCEL_EVERYTHING isMain isTest ME s txid block sender ecosystem = .ok res →
      totalTokens S res.2.mp_tally_map q = totalTokens S s.mp_tally_map q) := by
  refine ⟨?_, ?_, ?_, ?_⟩
  · intro sender prop amount block pd ad txid idx res hn h
    exact totalTokens_MetaDEx_ADD S ME s sender prop amount block pd ad txid idx res hS hn h q
  · intro txid block sender prop amount pd ad res _ h
    rcases MetaDEx_CANCEL_AT_PRICE_effect ME s txid block sender prop amount pd ad res h with
      ⟨_, hr⟩ | ⟨pm, removed, _, _, _, ht, _⟩
    · rw [hr]
    · exact totalTokens_cancelDelta S _ _ removed ht q
  · intro txid block sender prop pd res _ h
    rcases MetaDEx_CANCEL_ALL_FOR_PAIR_effect ME s txid block sender prop pd res h with
      ⟨_, hr⟩ | ⟨pm, removed, _, _, _, ht, _⟩
    · rw [hr]
    · exact totalTokens_cancelDelta S _ _ removed ht q
  · intro txid block sender ecosystem res _ h
    obtain ⟨removed, _, _, ht, _⟩ :=
      MetaDEx_CANCEL_EVERYTHING_effect isMain isTest ME s txid block sender ecosystem res h
    exact totalTokens_cancelDelta S _ _ removed ht q

/-- C2, at the first scenario: the taker's `MetaDEx_ADD` returns 0 and the
total of property 1 over the two addresses is unchanged. -/
theorem C2_token_conservation_witness :
    (∀ o ∈ allOrders exState.metadex, o.addr ∈ ({"maker", "taker"} : Finset String)) ∧
    "taker" ∈ ({"maker", "taker"} : Finset String) ∧
    ∃ res, MetaDEx_ADD (-80000) exState "taker" 1 200 11 3 100 78 1 = .ok res ∧
      totalTokens {"maker", "taker"} res.2.mp_tally_map 1
        = totalTokens {"maker", "taker"} exState.mp_tally_map 1 := by
  have hS : ∀ o ∈ allOrders exState.metadex, o.addr ∈ ({"maker", "taker"} : Finset String) := by
    decide!
  have hn : "taker" ∈ ({"maker", "taker"} : Finset String) := by decide!
  obtain ⟨res, hres⟩ := except_ok_of_isSome
    (MetaDEx_ADD (-80000) exState "taker" 1 200 11 3 100 78 1) (by decide!)
  exact ⟨hS, hn, res, hres,
    (C2_token_conservation (fun _ => true) (fun _ => false) (-80000) {"maker", "taker"}
      exState 1 hS).1 "taker" 1 200 11 3 100 78 1 res hn hres⟩

/-! ## The level as an ordered set -/

theorem MetaDEx_compare_irrefl (a : CMPMetaDEx) : MetaDEx_compare a a = false := by
  simp [MetaDEx_compare]

theorem MetaDEx_compare_iff (a b : CMPMetaDEx) :
    MetaDEx_compare a b = true ↔
      a.block < b.block ∨ (a.block = b.block ∧ a.idx < b.idx) := by
  unfold MetaDEx_compare
  by_cases hb : a.block = b.block
  · rw [if_pos hb]
    simp only [decide_eq_true_eq]
    constructor
    · intro h; exact Or.inr ⟨hb, h⟩
    · rintro (h | h)
      · omega
      · exact h.2
  · rw [if_neg hb]
    simp only [decide_eq_true_eq]
    constructor
    · intro h; exact Or.inl h
    · rintro (h | h)
      · exact h
      · exact absurd h.1 hb

theorem MetaDEx_compare_asymm {a b : CMPMetaDEx} (h : MetaDEx_compare a b = true) :
    MetaDEx_compare b a = false := by
  rw [MetaDEx_compare_iff] at h
  rw [← Bool.not_eq_true, MetaDEx_compare_iff]
  omega

theorem MetaDEx_compare_trans {a b c : CMPMetaDEx} (h1 : MetaDEx_compare a b = true)
    (h2 : MetaDEx_compare b c = true) : MetaDEx_compare a c = true := by
  rw [MetaDEx_compare_iff] at h1 h2 ⊢
  omega

theorem MetaDEx_compare_key_left {r c : CMPMetaDEx} (hb : r.block = c.block)
    (hi : r.idx = c.idx) (x : CMPMetaDEx) : MetaDEx_compare r x = MetaDEx_compare c x := by
  unfold MetaDEx_compare
  rw [hb, hi]

theorem MetaDEx_compare_key_right {r c : CMPMetaDEx} (hb : r.block = c.block)
    (hi : r.idx = c.idx) (x : CMPMetaDEx) : MetaDEx_compare x r = MetaDEx_compare x c := by
  unfold MetaDEx_compare
  rw [hb, hi]

/-- In an ordered level, erasing the visited order removes exactly it. -/
theorem md_Set_erase_mid (pre post : List CMPMetaDEx) (c : CMPMetaDEx)
    (hs : SetSorted (pre ++ c :: post)) : md_Set_erase (pre ++ c :: post) c = pre ++ post := by
  unfold md_Set_erase
  have hnot : c ∉ pre := by
    intro hc
    unfold SetSorted at hs
    rw [List.pairwise_append] at hs
    have := hs.2.2 c hc c (List.mem_cons_self _ _)
    rw [MetaDEx_compare_irrefl] at this
    cases this
  rw [List.erase_append_right _ hnot, List.erase_cons_head]

/-- In an ordered level from which the visited order was erased, an order with
the key of the erased one is inserted at the place of the erased one. -/
theorem md_Set_insert_mid (r c : CMPMetaDEx) (hb : r.block = c.block) (hi : r.idx = c.idx) :
    ∀ (pre post : List CMPMetaDEx), SetSorted (pre ++ c :: post) →
      md_Set_insert r (pre ++ post) = (pre ++ r :: post, true) := by
  intro pre
  induction pre with
  | nil =>
    intro post hs
    cases post with
    | nil => rfl
    | cons y ys =>
      have hcy : MetaDEx_compare c y = true := by
        unfold SetSorted at hs
        simp only [List.nil_append, List.pairwise_cons] at hs
        exact hs.1 y (List.mem_cons_self _ _)
      simp only [List.nil_append, md_Set_insert]
      rw [MetaDEx_compare_key_left hb hi, if_pos hcy]
  | cons x xs ih =>
    intro post hs
    have hxc : MetaDEx_compare x c = true := by
      unfold SetSorted at hs
      simp only [List.cons_append, List.pairwise_cons] at hs
      exact hs.1 c (by simp)
    have hs' : SetSorted (xs ++ c :: post) := by
      unfold SetSorted at hs ⊢
      simp only [List.cons_append, List.pairwise_cons] at hs
      exact hs.2
    have hxr : MetaDEx_compare x r = true := by
      rw [MetaDEx_compare_key_right hb hi]; exact hxc
    have hrx : MetaDEx_compare r x = false := MetaDEx_compare_asymm hxr
    show md_Set_insert r (x :: (xs ++ post)) = _
    rw [md_Set_insert, hrx, hxr, ih post hs']
    simp

/-- Replacing an order of an ordered level by one with the same key keeps the
level ordered. -/
theorem SetSorted_replace (r c : CMPMetaDEx) (hb : r.block = c.block) (hi : r.idx = c.idx)
    (pre post : List CMPMetaDEx) (hs : SetSorted (pre ++ c :: post)) :
    SetSorted (pre ++ r :: post) := by
  unfold SetSorted at hs ⊢
  rw [List.pairwise_append] at hs ⊢
  obtain ⟨h1, h2, h3⟩ := hs
  rw [List.pairwise_cons] at h2 ⊢
  refine ⟨h1, ⟨?_, h2.2⟩, ?_⟩
  · intro y hy
    rw [MetaDEx_compare_key_left hb hi]
    exact h2.1 y hy
  · intro x hx y hy
    rcases List.mem_cons.mp hy with rfl | hy
    · rw [MetaDEx_compare_key_right hb hi]
      exact h3 x hx c (List.mem_cons_self _ _)
    · exact h3 x hx y (List.mem_cons_of_mem _ hy)

theorem SetSorted_remove (c : CMPMetaDEx) (pre post : List CMPMetaDEx)
    (hs : SetSorted (pre ++ c :: post)) : SetSorted (pre ++ post) := by
  unfold SetSorted at hs ⊢
  exact hs.sublist (List.Sublist.append_left (List.sublist_cons_self c post) pre)

/-- What the replacement of the visited order does to an ordered level. -/
theorem x_Trade_replace_mid (pre post : List CMPMetaDEx) (c : CMPMetaDEx) (bg : Int)
    (hs : SetSorted (pre ++ c :: post)) :
    x_Trade_replace (pre ++ c :: post) c bg
      = pre ++ (if 0 < c.amount_remaining - bg then
                  [c.setAmountRemaining (c.amount_remaining - bg)] else []) ++ post := by
  unfold x_Trade_replace
  simp only [md_Set_erase_mid pre post c hs]
  by_cases hl : 0 < c.amount_remaining - bg
  · have hl' : 0 < (c.setAmountRemaining (c.amount_remaining - bg)).amount_remaining := hl
    rw [if_pos hl', if_pos hl,
      md_Set_insert_mid (c.setAmountRemaining (c.amount_remaining - bg)) c rfl rfl pre post hs]
    simp
  · have hl' : ¬ 0 < (c.setAmountRemaining (c.amount_remaining - bg)).amount_remaining := hl
    rw [if_neg hl', if_neg hl]
    simp

theorem SetSorted_repl (pre post : List CMPMetaDEx) (c : CMPMetaDEx) (bg : Int)
    (hs : SetSorted (pre ++ c :: post)) :
    SetSorted ((pre ++ (if 0 < c.amount_remaining - bg then
                  [c.setAmountRemaining (c.amount_remaining - bg)] else [])) ++ post) := by
  by_cases hl : 0 < c.amount_remaining - bg
  · rw [if_pos hl]
    simpa using SetSorted_replace (c.setAmountRemaining (c.amount_remaining - bg)) c rfl rfl
      pre post hs
  · rw [if_neg hl]
    simpa using SetSorted_remove c pre post hs

/-- On a level in `MetaDEx_compare` order the inner loop of `x_Trade`, with
its `erase` and `insert`, computes the level that `x_Trade_level` describes:
the orders before the iterator, followed by what the orders from the iterator
on have become. -/
theorem x_Trade_offers_eq_level (sellersPrice : ℚ) :
    ∀ (rest pre : List CMPMetaDEx) (st : TradeState), SetSorted (pre ++ rest) →
      x_Trade_offers sellersPrice rest (pre ++ rest) st
        = match x_Trade_level sellersPrice rest st with
          | .error a => .error a
          | .ok (r, s1) => .ok (pre ++ r, s1) := by
  intro rest
  induction rest with
  | nil =>
    intro pre st _
    simp [x_Trade_offers, x_Trade_level]
  | cons c rest ih =>
    intro pre st hs
    rw [x_Trade_offers, x_Trade_level]
    cases ho : x_Trade_outcome sellersPrice c st.pnew with
    | assertFailed a => rfl
    | nextOffer =>
      simp only
      have hs' : SetSorted ((pre ++ [c]) ++ rest) := by simpa using hs
      have := ih (pre ++ [c]) st hs'
      simp only [List.append_assoc, List.singleton_append] at this
      rw [this]
      cases x_Trade_level sellersPrice rest st with
      | error a => rfl
      | ok r => rfl
    | fill bg sg =>
      simp only
      cases ht : x_Trade_transfer st.tally c st.pnew bg sg with
      | none => rfl
      | some L =>
        simp only
        rw [x_Trade_replace_mid pre rest c bg hs]
        by_cases hsat : (x_Trade_after L c st bg sg).bBuyerSatisfied = true
        · rw [if_pos hsat, if_pos hsat]
          by_cases hz : (x_Trade_after L c st bg sg).pnew.amount_remaining = 0
          · rw [if_pos hz, if_pos hz]
            simp
          · rw [if_neg hz, if_neg hz]
        · rw [if_neg hsat, if_neg hsat]
          have hs' := SetSorted_repl pre rest c bg hs
          rw [ih _ _ hs']
          cases x_Trade_level sellersPrice rest (x_Trade_after L c st bg sg) with
          | error a => rfl
          | ok r => simp

/-! ## The reserve invariant across `x_Trade` -/

theorem reserved_flatMap {α : Type} (f : α → List CMPMetaDEx) (a : String) (p : Nat) :
    ∀ l : List α, reserved (l.flatMap f) a p = (l.map (fun x => reserved (f x) a p)).sum := by
  intro l
  induction l with
  | nil => rfl
  | cons x xs ih =>
    rw [List.flatMap_cons, reserved_append, ih]
    simp

theorem SetSorted_iff_keys (l : List CMPMetaDEx) :
    SetSorted l ↔ (l.map keyOf).Pairwise
      (fun x y => x.1 < y.1 ∨ (x.1 = y.1 ∧ x.2 < y.2)) := by
  unfold SetSorted
  rw [List.pairwise_map]
  constructor
  · intro h
    exact h.imp (fun {a b} hab => (MetaDEx_compare_iff a b).mp hab)
  · intro h
    exact h.imp (fun {a b} hab => (MetaDEx_compare_iff a b).mpr hab)

theorem SetSorted_of_keys_sublist {l1 l2 : List CMPMetaDEx}
    (h : (l1.map keyOf).Sublist (l2.map keyOf)) (hs : SetSorted l2) : SetSorted l1 := by
  rw [SetSorted_iff_keys] at hs ⊢
  exact hs.sublist h

/-- The `METADEX_RESERVE` tallies after the ledger updates of a fill. -/
theorem x_Trade_transfer_reserve {L L1 : Ledger} {pold pnew : CMPMetaDEx} {bg sg : Int}
    (h : x_Trade_transfer L pold pnew bg sg = some L1) (a : String) (p : Nat) :
    L1 a p .METADEX_RESERVE = L a p .METADEX_RESERVE
      + (if pold.addr = a ∧ pold.property = p then -bg else 0) := by
  rw [x_Trade_transfer_apply h]
  by_cases hc : pold.addr = a ∧ pold.property = p
  · obtain ⟨h1, h2⟩ := hc
    subst h1; subst h2
    simp
  · have hc' : ¬ (a = pold.addr ∧ p = pold.property ∧
        TallyType.METADEX_RESERVE = TallyType.METADEX_RESERVE) :=
      fun hx => hc ⟨hx.1.symm, hx.2.1.symm⟩
    rw [if_neg hc, if_neg hc']
    simp

/-- Across the inner loop, for every address and property the difference
between the `METADEX_RESERVE` tally and the remaining amounts resting in the
level is unchanged; the keys of the level that results are keys of the level
before, in the same order. -/
theorem x_Trade_level_reserved (sellersPrice : ℚ) :
    ∀ (rest : List CMPMetaDEx) (st : TradeState) (res : List CMPMetaDEx × TradeState),
      x_Trade_level sellersPrice rest st = .ok res →
      (∀ a p, res.2.tally a p .METADEX_RESERVE - reserved res.1 a p
        = st.tally a p .METADEX_RESERVE - reserved rest a p) ∧
      (res.1.map keyOf).Sublist (rest.map keyOf) := by
  intro rest
  induction rest with
  | nil =>
    intro st res h
    simp only [x_Trade_level] at h
    cases h
    exact ⟨fun _ _ => rfl, List.Sublist.refl _⟩
  | cons c rest ih =>
    intro st res h
    rw [x_Trade_level] at h
    cases ho : x_Trade_outcome sellersPrice c st.pnew with
    | assertFailed a => rw [ho] at h; cases h
    | nextOffer =>
      rw [ho] at h
      simp only at h
      cases hr : x_Trade_level sellersPrice rest st with
      | error a => rw [hr] at h; cases h
      | ok r =>
        rw [hr] at h
        cases h
        obtain ⟨h1, h2⟩ := ih st r hr
        refine ⟨fun a p => ?_, ?_⟩
        · show r.2.tally a p .METADEX_RESERVE - reserved (c :: r.1) a p = _
          rw [reserved_cons, reserved_cons]
          have := h1 a p
          omega
        · show ((c :: r.1).map keyOf).Sublist _
          simp only [List.map_cons]
          exact h2.cons₂ _
    | fill bg sg =>
      rw [ho] at h
      simp only at h
      obtain ⟨_, _, _, _, _, _, _, _, _, _, _, hleft, _⟩ := x_Trade_outcome_fill _ _ _ _ _ ho
      cases ht : x_Trade_transfer st.tally c st.pnew bg sg with
      | none => rw [ht] at h; cases h
      | some L =>
        rw [ht] at h
        simp only at h
        have hrepl : ∀ a p, reserved (if 0 < c.amount_remaining - bg then
              [c.setAmountRemaining (c.amount_remaining - bg)] else []) a p
            = if c.addr = a ∧ c.property = p then c.amount_remaining - bg else 0 := by
          intro a p
          by_cases hl : 0 < c.amount_remaining - bg
          · rw [if_pos hl, reserved_cons, reserved_nil]
            simp [CMPMetaDEx.setAmountRemaining]
          · rw [if_neg hl, reserved_nil]
            have : c.amount_remaining - bg = 0 := by omega
            rw [this]
            simp
        have hkeys : ∀ l : List CMPMetaDEx, (l.map keyOf).Sublist (rest.map keyOf) →
            (((if 0 < c.amount_remaining - bg then
              [c.setAmountRemaining (c.amount_remaining - bg)] else []) ++ l).map keyOf).Sublist
              ((c :: rest).map keyOf) := by
          intro l hl
          by_cases hlt : 0 < c.amount_remaining - bg
          · rw [if_pos hlt]
            simp only [List.singleton_append, List.map_cons]
            exact hl.cons₂ _
          · rw [if_neg hlt]
            simp only [List.nil_append, List.map_cons]
            exact hl.cons _
        have hL : ∀ a p, L a p .METADEX_RESERVE = st.tally a p .METADEX_RESERVE
            + (if c.addr = a ∧ c.property = p then -bg else 0) :=
          fun a p => x_Trade_transfer_reserve ht a p
        by_cases hsat : (x_Trade_after L c st bg sg).bBuyerSatisfied = true
        · rw [if_pos hsat] at h
          by_cases hz : (x_Trade_after L c st bg sg).pnew.amount_remaining = 0
          · rw [if_pos hz] at h
            cases h
            refine ⟨fun a p => ?_, hkeys rest (List.Sublist.refl _)⟩
            show L a p .METADEX_RESERVE - reserved (_ ++ rest) a p = _
            rw [reserved_append, hrepl, reserved_cons, hL]
            split_ifs <;> omega
          · rw [if_neg hz] at h; cases h
        · rw [if_neg hsat] at h
          cases hr : x_Trade_level sellersPrice rest (x_Trade_after L c st bg sg) with
          | error a => rw [hr] at h; cases h
          | ok r =>
            rw [hr] at h
            cases h
            obtain ⟨h1, h2⟩ := ih _ r hr
            refine ⟨fun a p => ?_, hkeys r.1 h2⟩
            show r.2.tally a p .METADEX_RESERVE - reserved (_ ++ r.1) a p = _
            have e1 := h1 a p
            have e2 : (x_Trade_after L c st bg sg).tally a p .METADEX_RESERVE
                = L a p .METADEX_RESERVE := rfl
            rw [e2, hL] at e1
            rw [reserved_append, hrepl, reserved_cons]
            split_ifs at e1 ⊢ <;> omega

theorem pricesOrders_cons (lvl : ℚ × md_Set) (pm : md_PricesMap) :
    pricesOrders (lvl :: pm) = lvl.2 ++ pricesOrders pm := by
  simp [pricesOrders]

theorem allOrders_cons (e : Nat × md_PricesMap) (b : md_PropertiesMap) :
    allOrders (e :: b) = pricesOrders e.2 ++ allOrders b := by
  simp [allOrders]

theorem x_Trade_offers_level (sellersPrice : ℚ) (pofferSet : md_Set) (st : TradeState)
    (hs : SetSorted pofferSet) :
    x_Trade_offers sellersPrice pofferSet pofferSet st
      = x_Trade_level sellersPrice pofferSet st := by
  have := x_Trade_offers_eq_level sellersPrice pofferSet [] st (by simpa using hs)
  simp only [List.nil_append] at this
  rw [this]
  cases x_Trade_level sellersPrice pofferSet st with
  | error a => rfl
  | ok r => rfl

/-- Across the outer loop, the difference between every `METADEX_RESERVE` tally
and the remaining amounts resting in the price map is unchanged, the levels
stay ordered, and the price keys are the same. -/
theorem x_Trade_prices_reserved :
    ∀ (pm : md_PricesMap) (st : TradeState) (res : md_PricesMap × TradeState),
      PricesWF pm → x_Trade_prices pm st = .ok res →
      (∀ a p, res.2.tally a p .METADEX_RESERVE - reserved (pricesOrders res.1) a p
        = st.tally a p .METADEX_RESERVE - reserved (pricesOrders pm) a p) ∧
      PricesWF res.1 ∧ res.1.map Prod.fst = pm.map Prod.fst := by
  intro pm
  induction pm with
  | nil =>
    intro st res _ h
    simp only [x_Trade_prices] at h
    cases h
    exact ⟨fun _ _ => rfl, fun _ hl => absurd hl (List.not_mem_nil _), rfl⟩
  | cons lvl rest ih =>
    obtain ⟨sellersPrice, pofferSet⟩ := lvl
    intro st res hwf h
    have hwf0 : SetSorted pofferSet := hwf (sellersPrice, pofferSet) (List.mem_cons_self _ _)
    have hwf' : PricesWF rest := fun l hl => hwf l (List.mem_cons_of_mem _ hl)
    rw [x_Trade_prices] at h
    by_cases hp : st.pnew.inversePrice < sellersPrice
    · rw [if_pos hp] at h
      cases hr : x_Trade_prices rest st with
      | error a => rw [hr] at h; cases h
      | ok r =>
        rw [hr] at h
        cases h
        obtain ⟨h1, h2, h3⟩ := ih st r hwf' hr
        refine ⟨fun a p => ?_, ?_, ?_⟩
        · show r.2.tally a p .METADEX_RESERVE
            - reserved (pricesOrders ((sellersPrice, pofferSet) :: r.1)) a p = _
          rw [pricesOrders_cons, pricesOrders_cons, reserved_append, reserved_append]
          have := h1 a p
          omega
        · intro l hl
          rcases List.mem_cons.mp hl with rfl | hl
          · exact hwf0
          · exact h2 l hl
        · show ((sellersPrice, pofferSet) :: r.1).map Prod.fst = _
          simp [h3]
    · rw [if_neg hp] at h
      rw [x_Trade_offers_level sellersPrice pofferSet st hwf0] at h
      cases hl : x_Trade_level sellersPrice pofferSet st with
      | error a => rw [hl] at h; cases h
      | ok r1 =>
        rw [hl] at h
        simp only at h
        obtain ⟨a1, a2⟩ := x_Trade_level_reserved sellersPrice pofferSet st r1 hl
        have hsorted1 : SetSorted r1.1 := SetSorted_of_keys_sublist a2 hwf0
        by_cases hs : r1.2.bBuyerSatisfied = true
        · rw [if_pos hs] at h
          cases h
          refine ⟨fun a p => ?_, ?_, ?_⟩
          · show r1.2.tally a p .METADEX_RESERVE
              - reserved (pricesOrders ((sellersPrice, r1.1) :: rest)) a p = _
            rw [pricesOrders_cons, pricesOrders_cons, reserved_append, reserved_append]
            have := a1 a p
            simp only at this ⊢
            omega
          · intro l hl
            rcases List.mem_cons.mp hl with rfl | hl
            · exact hsorted1
            · exact hwf' l hl
          · rfl
        · rw [if_neg hs] at h
          cases hr : x_Trade_prices rest r1.2 with
          | error a => rw [hr] at h; cases h
          | ok r =>
            rw [hr] at h
            cases h
            obtain ⟨h1, h2, h3⟩ := ih r1.2 r hwf' hr
            refine ⟨fun a p => ?_, ?_, ?_⟩
            · show r.2.tally a p .METADEX_RESERVE
                - reserved (pricesOrders ((sellersPrice, r1.1) :: r.1)) a p = _
              rw [pricesOrders_cons, pricesOrders_cons, reserved_append, reserved_append]
              have e1 := a1 a p
              have e2 := h1 a p
              simp only at e1 e2 ⊢
              omega
            · intro l hl
              rcases List.mem_cons.mp hl with rfl | hl
              · exact hsorted1
              · exact h2 l hl
            · show ((sellersPrice, r1.1) :: r.1).map Prod.fst = _
              simp [h3]

theorem mapReplace_mem {κ β : Type} [DecidableEq κ] (k : κ) (v : β) :
    ∀ (l : List (κ × β)) (e : κ × β), e ∈ mapReplace k v l → e ∈ l ∨ e = (k, v) := by
  intro l
  induction l with
  | nil => intro e he; simp [mapReplace] at he
  | cons x xs ih =>
    obtain ⟨k1, v1⟩ := x
    intro e he
    rw [mapReplace] at he
    by_cases hk : k1 = k
    · rw [if_pos hk] at he
      rcases List.mem_cons.mp he with rfl | he
      · right; rw [hk]
      · left; exact List.mem_cons_of_mem _ he
    · rw [if_neg hk] at he
      rcases List.mem_cons.mp he with rfl | he
      · left; exact List.mem_cons_self _ _
      · rcases ih e he with h | h
        · left; exact List.mem_cons_of_mem _ h
        · right; exact h

/-- Writing a price map back to the book changes the resting amounts by the
difference between the new and the old price map. -/
theorem reserved_mapReplace (k : Nat) (pm1 : md_PricesMap) (a : String) (p : Nat) :
    ∀ (b : md_PropertiesMap) (pm : md_PricesMap), mapFind k b = some pm →
      reserved (allOrders (mapReplace k pm1 b)) a p
        = reserved (allOrders b) a p - reserved (pricesOrders pm) a p
          + reserved (pricesOrders pm1) a p := by
  intro b
  induction b with
  | nil => intro pm h; simp [mapFind] at h
  | cons e rest ih =>
    obtain ⟨k1, v1⟩ := e
    intro pm h
    rw [mapFind] at h
    rw [mapReplace]
    by_cases hk : k1 = k
    · rw [if_pos hk] at h
      cases h
      rw [if_pos hk, allOrders_cons, allOrders_cons, reserved_append, reserved_append]
      simp only
      omega
    · rw [if_neg hk] at h
      rw [if_neg hk, allOrders_cons, allOrders_cons, reserved_append, reserved_append,
        ih pm h]
      omega

theorem BookWF_mapReplace (k : Nat) (pm1 : md_PricesMap) (b : md_PropertiesMap)
    (hb : BookWF b) (h1 : PricesWF pm1) : BookWF (mapReplace k pm1 b) := by
  intro e he
  rcases mapReplace_mem k pm1 b e he with h | h
  · exact hb e h
  · rw [h]; exact h1

/-- Across `x_Trade`, the difference between every `METADEX_RESERVE` tally and
the remaining amounts resting in the book is unchanged, and the levels stay
ordered. -/
theorem x_Trade_reserved (s : State) (pnew : CMPMetaDEx) (r : TradeResult)
    (hwf : BookWF s.metadex) (h : x_Trade s pnew = .ok r) :
    (∀ a p, r.state.mp_tally_map a p .METADEX_RESERVE - reserved (allOrders r.state.metadex) a p
      = s.mp_tally_map a p .METADEX_RESERVE - reserved (allOrders s.metadex) a p) ∧
    BookWF r.state.metadex := by
  unfold x_Trade at h
  cases hg : get_Prices s.metadex pnew.desired_property with
  | none =>
    rw [hg] at h
    cases h
    exact ⟨fun _ _ => rfl, hwf⟩
  | some pm =>
    rw [hg] at h
    simp only at h
    have hpm : PricesWF pm := hwf (pnew.desired_property, pm) (mapFind_mem hg)
    cases hp : x_Trade_prices pm (x_Trade_init s pnew) with
    | error a => rw [hp] at h; cases h
    | ok res =>
      rw [hp] at h
      cases h
      obtain ⟨h1, h2, _⟩ := x_Trade_prices_reserved pm _ res hpm hp
      refine ⟨fun a p => ?_, BookWF_mapReplace _ _ _ hwf h2⟩
      show res.2.tally a p .METADEX_RESERVE
        - reserved (allOrders (mapReplace pnew.desired_property res.1 s.metadex)) a p = _
      rw [reserved_mapReplace _ _ a p s.metadex pm hg]
      have := h1 a p
      have e : (x_Trade_init s pnew).tally a p .METADEX_RESERVE
          = s.mp_tally_map a p .METADEX_RESERVE := rfl
      rw [e] at this
      omega

/-! ## Insertion into the book -/

theorem md_Set_insert_mem (o : CMPMetaDEx) :
    ∀ (s : md_Set) (y : CMPMetaDEx), y ∈ (md_Set_insert o s).1 → y = o ∨ y ∈ s := by
  intro s
  induction s with
  | nil =>
    intro y hy
    simp [md_Set_insert] at hy
    exact Or.inl hy
  | cons x xs ih =>
    intro y hy
    rw [md_Set_insert] at hy
    by_cases h1 : MetaDEx_compare o x = true
    · rw [if_pos h1] at hy
      rcases List.mem_cons.mp hy with rfl | hy
      · exact Or.inl rfl
      · exact Or.inr hy
    · rw [if_neg h1] at hy
      by_cases h2 : MetaDEx_compare x o = true
      · rw [if_pos h2] at hy
        rcases List.mem_cons.mp hy with rfl | hy
        · exact Or.inr (List.mem_cons_self _ _)
        · rcases ih y hy with h | h
          · exact Or.inl h
          · exact Or.inr (List.mem_cons_of_mem _ h)
      · rw [if_neg h2] at hy
        exact Or.inr hy

/-- Insertion keeps a level in `MetaDEx_compare` order. -/
theorem md_Set_insert_sorted (o : CMPMetaDEx) :
    ∀ (s : md_Set), SetSorted s → SetSorted (md_Set_insert o s).1 := by
  intro s
  induction s with
  | nil =>
    intro _
    simp [md_Set_insert, SetSorted]
  | cons x xs ih =>
    intro hs
    have hs' := hs
    unfold SetSorted at hs'
    rw [List.pairwise_cons] at hs'
    rw [md_Set_insert]
    by_cases h1 : MetaDEx_compare o x = true
    · rw [if_pos h1]
      unfold SetSorted
      rw [List.pairwise_cons]
      refine ⟨fun y hy => ?_, hs⟩
      rcases List.mem_cons.mp hy with rfl | hy
      · exact h1
      · exact MetaDEx_compare_trans h1 (hs'.1 y hy)
    · rw [if_neg h1]
      by_cases h2 : MetaDEx_compare x o = true
      · rw [if_pos h2]
        unfold SetSorted
        rw [List.pairwise_cons]
        refine ⟨fun y hy => ?_, ih hs'.2⟩
        rcases md_Set_insert_mem o xs y hy with rfl | hy
        · exact h2
        · exact hs'.1 y hy
      · rw [if_neg h2]
        exact hs

/-- A successful insertion adds the order to the level; a refused one leaves
the level as it was. -/
theorem md_Set_insert_perm (o : CMPMetaDEx) :
    ∀ (s : md_Set), ((md_Set_insert o s).2 = true → ((md_Set_insert o s).1).Perm (o :: s)) ∧
      ((md_Set_insert o s).2 = false → (md_Set_insert o s).1 = s) := by
  intro s
  induction s with
  | nil => simp [md_Set_insert]
  | cons x xs ih =>
    rw [md_Set_insert]
    by_cases h1 : MetaDEx_compare o x = true
    · rw [if_pos h1]
      simp
    · rw [if_neg h1]
      by_cases h2 : MetaDEx_compare x o = true
      · rw [if_pos h2]
        refine ⟨fun h => ?_, fun h => ?_⟩
        · exact ((ih.1 h).cons x).trans (List.Perm.swap o x xs)
        · show x :: (md_Set_insert o xs).1 = x :: xs
          rw [ih.2 h]
      · rw [if_neg h2]
        simp

theorem reserved_perm {l1 l2 : List CMPMetaDEx} (h : l1.Perm l2) (a : String) (p : Nat) :
    reserved l1 a p = reserved l2 a p := by
  unfold reserved
  exact ((h.filter _).map _).sum_eq

theorem mapFind_mapReplace {κ β : Type} [DecidableEq κ] (k : κ) (v : β) :
    ∀ (l : List (κ × β)) (k2 : κ), mapFind k2 (mapReplace k v l)
      = if k2 = k then (mapFind k l).map (fun _ => v) else mapFind k2 l := by
  intro l
  induction l with
  | nil => intro k2; simp [mapFind, mapReplace]
  | cons e rest ih =>
    obtain ⟨k1, v1⟩ := e
    intro k2
    rw [mapReplace]
    by_cases hk : k1 = k
    · rw [if_pos hk]
      subst hk
      by_cases h2 : k2 = k1
      · subst h2
        simp [mapFind]
      · have h2' : ¬ k1 = k2 := fun h => h2 h.symm
        simp [mapFind, h2, h2']
    · rw [if_neg hk]
      by_cases h2 : k2 = k
      · subst h2
        simp only [mapFind, if_neg hk, if_true]
        rw [ih k2]
        simp
      · simp only [mapFind, if_neg h2]
        by_cases h3 : k1 = k2
        · simp [h3]
        · simp only [if_neg h3]
          rw [ih k2, if_neg h2]

theorem mapFind_mapInsert {κ β : Type} [DecidableEq κ] [LT κ]
    [DecidableRel (fun (a b : κ) => a < b)] (k : κ) (v : β) :
    ∀ (l : List (κ × β)) (k2 : κ), mapFind k l = none →
      mapFind k2 (mapInsert k v l) = if k2 = k then some v else mapFind k2 l := by
  intro l
  induction l with
  | nil =>
    intro k2 _
    by_cases h : k2 = k
    · subst h; simp [mapFind, mapInsert]
    · have h' : ¬ k = k2 := fun hx => h hx.symm
      simp [mapFind, mapInsert, h, h']
  | cons e rest ih =>
    obtain ⟨k1, v1⟩ := e
    intro k2 hnone
    rw [mapFind] at hnone
    by_cases hk : k1 = k
    · rw [if_pos hk] at hnone; cases hnone
    · rw [if_neg hk] at hnone
      rw [mapInsert]
      by_cases hlt : k < k1
      · rw [if_pos hlt]
        by_cases h2 : k2 = k
        · subst h2; simp [mapFind]
        · have h2' : ¬ k = k2 := fun hx => h2 hx.symm
          simp only [mapFind, if_neg h2, if_neg h2']
      · rw [if_neg hlt]
        by_cases h2 : k2 = k
        · subst h2
          simp only [mapFind, if_neg hk, if_true]
          rw [ih k2 hnone]
          simp
        · simp only [mapFind, if_neg h2]
          by_cases h3 : k1 = k2
          · simp [h3]
          · simp only [if_neg h3]
            rw [ih k2 hnone, if_neg h2]

/-- After `m[k] = v` the key `k` holds `v` and every other key holds what it
held. -/
theorem mapFind_mapAssign {κ β : Type} [DecidableEq κ] [LT κ]
    [DecidableRel (fun (a b : κ) => a < b)] (k : κ) (v : β) (l : List (κ × β)) (k2 : κ) :
    mapFind k2 (mapAssign k v l) = if k2 = k then some v else mapFind k2 l := by
  unfold mapAssign
  cases hf : mapFind k l with
  | none => exact mapFind_mapInsert k v l k2 hf
  | some old =>
    simp only
    rw [mapFind_mapReplace, hf]
    simp

theorem mapInsert_mem {κ β : Type} [LT κ] [DecidableRel (fun (a b : κ) => a < b)]
    (k : κ) (v : β) :
    ∀ (l : List (κ × β)) (e : κ × β), e ∈ mapInsert k v l → e ∈ l ∨ e = (k, v) := by
  intro l
  induction l with
  | nil =>
    intro e he
    simp [mapInsert] at he
    exact Or.inr he
  | cons x xs ih =>
    obtain ⟨k1, v1⟩ := x
    intro e he
    rw [mapInsert] at he
    by_cases hlt : k < k1
    · rw [if_pos hlt] at he
      rcases List.mem_cons.mp he with rfl | he
      · exact Or.inr rfl
      · exact Or.inl he
    · rw [if_neg hlt] at he
      rcases List.mem_cons.mp he with rfl | he
      · exact Or.inl (List.mem_cons_self _ _)
      · rcases ih e he with h | h
        · exact Or.inl (List.mem_cons_of_mem _ h)
        · exact Or.inr h

theorem mapAssign_mem {κ β : Type} [DecidableEq κ] [LT κ]
    [DecidableRel (fun (a b : κ) => a < b)] (k : κ) (v : β) (l : List (κ × β)) (e : κ × β)
    (he : e ∈ mapAssign k v l) : e ∈ l ∨ e = (k, v) := by
  unfold mapAssign at he
  cases hf : mapFind k l with
  | none => rw [hf] at he; exact mapInsert_mem k v l e he
  | some old => rw [hf] at he; exact mapReplace_mem k v l e he

/-- The sum of a measure over the values of a map after `m[k] = v`. -/
theorem sum_mapAssign {κ β : Type} [DecidableEq κ] [LT κ]
    [DecidableRel (fun (a b : κ) => a < b)] (f : β → Int) (k : κ) (v : β) (l : List (κ × β)) :
    ((mapAssign k v l).map (fun e => f e.2)).sum
      = (l.map (fun e => f e.2)).sum - ((mapFind k l).map f).getD 0 + f v := by
  have hrep : ∀ (l : List (κ × β)) (old : β), mapFind k l = some old →
      ((mapReplace k v l).map (fun e => f e.2)).sum
        = (l.map (fun e => f e.2)).sum - f old + f v := by
    intro l
    induction l with
    | nil => intro old h; simp [mapFind] at h
    | cons e rest ih =>
      obtain ⟨k1, v1⟩ := e
      intro old h
      rw [mapFind] at h
      rw [mapReplace]
      by_cases hk : k1 = k
      · rw [if_pos hk] at h
        cases h
        rw [if_pos hk]
        simp only [List.map_cons, List.sum_cons]
        omega
      · rw [if_neg hk] at h
        rw [if_neg hk]
        simp only [List.map_cons, List.sum_cons]
        rw [ih old h]
        omega
  have hins : ∀ (l : List (κ × β)),
      ((mapInsert k v l).map (fun e => f e.2)).sum = (l.map (fun e => f e.2)).sum + f v := by
    intro l
    induction l with
    | nil => simp [mapInsert]
    | cons e rest ih =>
      obtain ⟨k1, v1⟩ := e
      rw [mapInsert]
      by_cases hlt : k < k1
      · rw [if_pos hlt]
        simp only [List.map_cons, List.sum_cons]
        omega
      · rw [if_neg hlt]
        simp only [List.map_cons, List.sum_cons]
        rw [ih]
        omega
  unfold mapAssign
  cases hf : mapFind k l with
  | none =>
    simp only [Option.map_none', Option.getD_none]
    rw [hins]
    omega
  | some old =>
    simp only [Option.map_some', Option.getD_some]
    exact hrep l old hf

theorem reserved_pricesOrders (pm : md_PricesMap) (a : String) (p : Nat) :
    reserved (pricesOrders pm) a p = (pm.map (fun e => reserved e.2 a p)).sum :=
  reserved_flatMap (fun e : ℚ × md_Set => e.2) a p pm

theorem reserved_allOrders (b : md_PropertiesMap) (a : String) (p : Nat) :
    reserved (allOrders b) a p = (b.map (fun e => reserved (pricesOrders e.2) a p)).sum :=
  reserved_flatMap (fun e : Nat × md_PricesMap => pricesOrders e.2) a p b

/-- The level `MetaDEx_INSERT` inserts into: the level of the order's unit
price under its property, or the empty level when there is none. -/
theorem MetaDEx_INSERT_eq (b : md_PropertiesMap) (o : CMPMetaDEx) :
    MetaDEx_INSERT b o =
      if (md_Set_insert o (((get_Prices b o.property).bind
            (fun pm => get_Indexes pm o.unitPrice)).getD [])).2 = false then (b, false)
      else (mapAssign o.property (mapAssign o.unitPrice
            (md_Set_insert o (((get_Prices b o.property).bind
              (fun pm => get_Indexes pm o.unitPrice)).getD [])).1
            ((get_Prices b o.property).getD [])) b, true) := by
  unfold MetaDEx_INSERT
  cases hg : get_Prices b o.property with
  | none => rfl
  | some pm => rfl

/-- The effect of a successful `MetaDEx_INSERT` on the resting amounts and on
the ordering of the levels; a refused insertion leaves the book as it was. -/
theorem MetaDEx_INSERT_effect (b : md_PropertiesMap) (o : CMPMetaDEx) :
    ((MetaDEx_INSERT b o).2 = false → (MetaDEx_INSERT b o).1 = b) ∧
    ((MetaDEx_INSERT b o).2 = true →
      (∀ a p, reserved (allOrders (MetaDEx_INSERT b o).1) a p
        = reserved (allOrders b) a p
          + (if o.addr = a ∧ o.property = p then o.amount_remaining else 0)) ∧
      (BookWF b → BookWF (MetaDEx_INSERT b o).1)) := by
  rw [MetaDEx_INSERT_eq]
  by_cases hins : (md_Set_insert o (((get_Prices b o.property).bind
            (fun pm => get_Indexes pm o.unitPrice)).getD [])).2 = false
  · rw [if_pos hins]
    constructor
    · intro _; rfl
    · intro h; cases h
  · rw [if_neg hins]
    constructor
    · intro h; cases h
    intro _
    refine ⟨fun a p => ?_, fun hwf => ?_⟩
    · have hins' : (md_Set_insert o (((get_Prices b o.property).bind
            (fun pm => get_Indexes pm o.unitPrice)).getD [])).2 = true := by
        simpa using hins
      have hperm := (md_Set_insert_perm o _).1 hins'
      show reserved (allOrders (mapAssign _ _ b)) a p = _
      rw [reserved_allOrders, sum_mapAssign (fun pm => reserved (pricesOrders pm) a p),
        ← reserved_allOrders]
      rw [reserved_pricesOrders (mapAssign _ _ _), sum_mapAssign (fun lvl => reserved lvl a p),
        ← reserved_pricesOrders, reserved_perm hperm, reserved_cons]
      cases hg : get_Prices b o.property with
      | none =>
        have hg' : mapFind o.property b = none := hg
        simp [hg', mapFind, pricesOrders, reserved_nil]
      | some pm =>
        have hg' : mapFind o.property b = some pm := hg
        simp only [hg', Option.getD_some, Option.map_some', Option.some_bind]
        cases hi : get_Indexes pm o.unitPrice with
        | none =>
          have hi' : mapFind o.unitPrice pm = none := hi
          simp only [hi', Option.map_none', Option.getD_none, reserved_nil]
          omega
        | some lvl =>
          have hi' : mapFind o.unitPrice pm = some lvl := hi
          simp only [hi', Option.map_some', Option.getD_some]
          omega
    · show BookWF (mapAssign _ _ b)
      intro e he
      rcases mapAssign_mem _ _ _ e he with h | h
      · exact hwf e h
      · rw [h]
        intro lvl hl
        rcases mapAssign_mem _ _ _ lvl hl with h2 | h2
        · cases hg : get_Prices b o.property with
          | none => rw [hg] at h2; simp at h2
          | some pm =>
            rw [hg] at h2
            exact hwf (o.property, pm) (mapFind_mem hg) lvl h2
        · rw [h2]
          apply md_Set_insert_sorted
          cases hg : get_Prices b o.property with
          | none => simp [SetSorted]
          | some pm =>
            simp only [Option.some_bind]
            cases hi : get_Indexes pm o.unitPrice with
            | none => simp [SetSorted]
            | some lvl0 =>
              exact hwf (o.property, pm) (mapFind_mem hg) (o.unitPrice, lvl0) (mapFind_mem hi)

/-! ## The reserve invariant across the operations -/

/-- The incoming order leaves `x_Trade` with only its remaining amount
changed. -/
theorem x_Trade_pnew (s : State) (pnew : CMPMetaDEx) (r : TradeResult)
    (h : x_Trade s pnew = .ok r) :
    r.pnew = pnew.setAmountRemaining r.pnew.amount_remaining := by
  unfold x_Trade at h
  cases hg : get_Prices s.metadex pnew.desired_property with
  | none =>
    rw [hg] at h
    cases h
    rfl
  | some pm =>
    rw [hg] at h
    simp only at h
    cases hp : x_Trade_prices pm (x_Trade_init s pnew) with
    | error a => rw [hp] at h; cases h
    | ok res =>
      rw [hp] at h
      cases h
      exact x_Trade_prices_pnew pm _ res hp

/-- `MetaDEx_ADD` keeps the reserve invariant and the ordering of the levels. -/
theorem MetaDEx_ADD_reserve (ME : Int) (s : State) (sender : String) (prop : Nat)
    (amount : Int) (block : Int) (pd : Nat) (ad : Int) (txid idx : Nat) (res : Int × State)
    (hwf : BookWF s.metadex) (hinv : ReserveInv s)
    (h : MetaDEx_ADD ME s sender prop amount block pd ad txid idx = .ok res) :
    ReserveInv res.2 ∧ BookWF res.2.metadex := by
  unfold MetaDEx_ADD at h
  simp only at h
  split_ifs at h with h0
  · cases h; exact ⟨hinv, hwf⟩
  · cases hx : x_Trade s (CMPMetaDEx.create sender block prop amount pd ad txid idx .ADD) with
    | error a => rw [hx] at h; cases h
    | ok r =>
      rw [hx] at h
      simp only at h
      obtain ⟨hd, hwf1⟩ := x_Trade_reserved s _ r hwf hx
      have hinv1 : ReserveInv r.state := by
        intro a p
        have := hd a p
        have := hinv a p
        omega
      have hp := x_Trade_pnew s _ r hx
      have haddr : r.pnew.addr = sender := by rw [hp]; rfl
      have hprop : r.pnew.property = prop := by rw [hp]; rfl
      split_ifs at h with h1 h2
      · cases h; exact ⟨hinv1, hwf1⟩
      · cases h3 : update_tally_map r.state.mp_tally_map sender prop
            (-r.pnew.amount_remaining) .BALANCE with
        | none => rw [h3] at h; cases h
        | some L1 =>
          rw [h3] at h
          simp only at h
          cases h4 : update_tally_map L1 sender prop r.pnew.amount_remaining
              .METADEX_RESERVE with
          | none => rw [h4] at h; cases h
          | some L2 =>
            rw [h4] at h
            cases h
            have hins : (MetaDEx_INSERT r.state.metadex r.pnew).2 = true := by
              simpa using h2
            obtain ⟨e1, e2⟩ := (MetaDEx_INSERT_effect r.state.metadex r.pnew).2 hins
            refine ⟨fun a p => ?_, e2 hwf1⟩
            show L2 a p .METADEX_RESERVE
              = reserved (allOrders (MetaDEx_INSERT r.state.metadex r.pnew).1) a p
            rw [e1 a p, (update_tally_map_some h4).2, (update_tally_map_some h3).2,
              ← hinv1 a p, haddr, hprop]
            by_cases hc : sender = a ∧ prop = p
            · obtain ⟨rfl, rfl⟩ := hc
              simp
            · have hc' : ¬ (a = sender ∧ p = prop ∧
                  TallyType.METADEX_RESERVE = TallyType.METADEX_RESERVE) :=
                fun hx => hc ⟨hx.1.symm, hx.2.1.symm⟩
              rw [if_neg hc, if_neg hc']
              simp
      · cases h; exact ⟨hinv1, hwf1⟩

theorem reserved_filter_split (skip : CMPMetaDEx → Bool) (a : String) (p : Nat) :
    ∀ l : List CMPMetaDEx,
      reserved (l.filter skip) a p + reserved (cancelledOffers skip l) a p = reserved l a p := by
  intro l
  induction l with
  | nil => simp [cancelledOffers, reserved_nil]
  | cons o rest ih =>
    unfold cancelledOffers at ih ⊢
    by_cases hs : skip o = true
    · rw [List.filter_cons_of_pos hs, List.filter_cons_of_neg (by simp [hs]), reserved_cons,
        reserved_cons]
      omega
    · rw [List.filter_cons_of_neg hs, List.filter_cons_of_pos (by simpa using hs),
        reserved_cons, reserved_cons]
      omega

theorem reserved_keptPrices (skipLevel : ℚ → Bool) (skip : CMPMetaDEx → Bool) (a : String)
    (p : Nat) :
    ∀ pm : md_PricesMap,
      reserved (pricesOrders (keptPrices skipLevel skip pm)) a p
        + reserved (cancelledPrices skipLevel skip pm) a p = reserved (pricesOrders pm) a p := by
  intro pm
  induction pm with
  | nil => simp [keptPrices, cancelledPrices, pricesOrders, reserved_nil]
  | cons lvl rest ih =>
    have hk : keptPrices skipLevel skip (lvl :: rest)
        = (if skipLevel lvl.1 then lvl else (lvl.1, lvl.2.filter skip))
          :: keptPrices skipLevel skip rest := rfl
    have hc : cancelledPrices skipLevel skip (lvl :: rest)
        = (if skipLevel lvl.1 then [] else cancelledOffers skip lvl.2)
          ++ cancelledPrices skipLevel skip rest := by
      simp [cancelledPrices]
    rw [hk, hc, pricesOrders_cons, pricesOrders_cons, reserved_append, reserved_append,
      reserved_append]
    by_cases hs : skipLevel lvl.1 = true
    · rw [if_pos hs, if_pos hs, reserved_nil]
      omega
    · rw [if_neg hs, if_neg hs]
      have := reserved_filter_split skip a p lvl.2
      simp only at this ⊢
      omega

theorem reserved_keptProperties (skipProp : Nat → Bool) (skip : CMPMetaDEx → Bool)
    (a : String) (p : Nat) :
    ∀ b : md_PropertiesMap,
      reserved (allOrders (keptProperties skipProp skip b)) a p
        + reserved (cancelledProperties skipProp skip b) a p = reserved (allOrders b) a p := by
  intro b
  induction b with
  | nil => simp [keptProperties, cancelledProperties, allOrders, reserved_nil]
  | cons e rest ih =>
    have hk : keptProperties skipProp skip (e :: rest)
        = (if skipProp e.1 then e else (e.1, keptPrices (fun _ => false) skip e.2))
          :: keptProperties skipProp skip rest := rfl
    have hc : cancelledProperties skipProp skip (e :: rest)
        = (if skipProp e.1 then [] else cancelledPrices (fun _ => false) skip e.2)
          ++ cancelledProperties skipProp skip rest := by
      simp [cancelledProperties]
    rw [hk, hc, allOrders_cons, allOrders_cons, reserved_append, reserved_append,
      reserved_append]
    by_cases hs : skipProp e.1 = true
    · rw [if_pos hs, if_pos hs, reserved_nil]
      omega
    · rw [if_neg hs, if_neg hs]
      have := reserved_keptPrices (fun _ => false) skip a p e.2
      simp only at this ⊢
      omega

theorem PricesWF_keptPrices (skipLevel : ℚ → Bool) (skip : CMPMetaDEx → Bool)
    (pm : md_PricesMap) (h : PricesWF pm) : PricesWF (keptPrices skipLevel skip pm) := by
  intro lvl hl
  unfold keptPrices at hl
  rw [List.mem_map] at hl
  obtain ⟨l0, hl0, rfl⟩ := hl
  by_cases hs : skipLevel l0.1 = true
  · rw [if_pos hs]; exact h l0 hl0
  · rw [if_neg hs]
    have := h l0 hl0
    unfold SetSorted at this ⊢
    exact this.sublist (List.filter_sublist _)

theorem BookWF_keptProperties (skipProp : Nat → Bool) (skip : CMPMetaDEx → Bool)
    (b : md_PropertiesMap) (h : BookWF b) : BookWF (keptProperties skipProp skip b) := by
  intro e he
  unfold keptProperties at he
  rw [List.mem_map] at he
  obtain ⟨e0, he0, rfl⟩ := he
  by_cases hs : skipProp e0.1 = true
  · rw [if_pos hs]; exact h e0 he0
  · rw [if_neg hs]
    exact PricesWF_keptPrices (fun _ => false) skip e0.2 (h e0 he0)

theorem cancelDelta_reserve (removed : List CMPMetaDEx) (a : String) (p : Nat) :
    cancelDelta removed a p .METADEX_RESERVE = -(reserved removed a p) := rfl

/-- The three cancel operations keep the reserve invariant and the ordering of
the levels. -/
theorem MetaDEx_CANCEL_reserve (isMain isTest : Nat → Bool) (ME : Int) (s : State)
    (hwf : BookWF s.metadex) (hinv : ReserveInv s) :
    (∀ txid block sender prop amount pd ad res,
      MetaDEx_CANCEL_AT_PRICE ME s txid block sender prop amount pd ad = .ok res →
      ReserveInv res.2 ∧ BookWF res.2.metadex) ∧
    (∀ txid block sender prop pd res,
      MetaDEx_CANCEL_ALL_FOR_PAIR ME s txid block sender prop pd = .ok res →
      ReserveInv res.2 ∧ BookWF res.2.metadex) ∧
    (∀ txid block sender ecosystem res,
      MetaDEx_CANCEL_EVERYTHING isMain isTest ME s txid block sender ecosystem = .ok res →
      ReserveInv res.2 ∧ BookWF res.2.metadex) := by
  refine ⟨?_, ?_, ?_⟩
  · intro txid block sender prop amount pd ad res h
    rcases MetaDEx_CANCEL_AT_PRICE_effect ME s txid block sender prop amount pd ad res h with
      ⟨_, hr⟩ | ⟨pm, removed, hg, hrem, hbook, ht, _⟩
    · rw [hr]; exact ⟨hinv, hwf⟩
    · have hpm : PricesWF pm := hwf (prop, pm) (mapFind_mem hg)
      refine ⟨fun a p => ?_, ?_⟩
      · rw [ht a p .METADEX_RESERVE, hbook, reserved_mapReplace _ _ a p s.metadex pm hg,
          cancelDelta_reserve, hinv a p, hrem]
        have := reserved_keptPrices
          (fun sellers_price => decide
            ((CMPMetaDEx.create sender 0 prop amount pd ad 0 0 .CANCEL_AT_PRICE).unitPrice
              ≠ sellers_price))
          (fun o => decide (o.desired_property ≠ pd) || decide (o.addr ≠ sender)) a p pm
        omega
      · rw [hbook]
        exact BookWF_mapReplace _ _ _ hwf (PricesWF_keptPrices _ _ _ hpm)
  · intro txid block sender prop pd res h
    rcases MetaDEx_CANCEL_ALL_FOR_PAIR_effect ME s txid block sender prop pd res h with
      ⟨_, hr⟩ | ⟨pm, removed, hg, hrem, hbook, ht, _⟩
    · rw [hr]; exact ⟨hinv, hwf⟩
    · have hpm : PricesWF pm := hwf (prop, pm) (mapFind_mem hg)
      refine ⟨fun a p => ?_, ?_⟩
      · rw [ht a p .METADEX_RESERVE, hbook, reserved_mapReplace _ _ a p s.metadex pm hg,
          cancelDelta_reserve, hinv a p, hrem]
        have := reserved_keptPrices (fun _ => false)
          (fun o => decide (o.desired_property ≠ pd) || decide (o.addr ≠ sender)) a p pm
        omega
      · rw [hbook]
        exact BookWF_mapReplace _ _ _ hwf (PricesWF_keptPrices _ _ _ hpm)
  · intro txid block sender ecosystem res h
    obtain ⟨removed, hrem, hbook, ht, _⟩ :=
      MetaDEx_CANCEL_EVERYTHING_effect isMain isTest ME s txid block sender ecosystem res h
    refine ⟨fun a p => ?_, ?_⟩
    · rw [ht a p .METADEX_RESERVE, hbook, cancelDelta_reserve, hinv a p, hrem]
      have := reserved_keptProperties
        (fun prop => (isMain ecosystem && !isMain prop) || (isTest ecosystem && !isTest prop))
        (fun o => decide (o.addr ≠ sender)) a p s.metadex
      omega
    · rw [hbook]
      exact BookWF_keptProperties _ _ _ hwf

/-- Every reachable state has its levels ordered and satisfies the reserve
invariant. -/
theorem Reachable_inv (isMain isTest : Nat → Bool) (ME : Int) (s : State)
    (h : Reachable isMain isTest ME s) : BookWF s.metadex ∧ ReserveInv s := by
  induction h with
  | init L tl cl h0 =>
    refine ⟨fun e he => absurd he (List.not_mem_nil _), fun a p => ?_⟩
    show L a p .METADEX_RESERVE = reserved (allOrders []) a p
    rw [h0 a p]
    rfl
  | other s L _ h0 ih =>
    refine ⟨ih.1, fun a p => ?_⟩
    show L a p .METADEX_RESERVE = _
    rw [h0 a p]
    exact ih.2 a p
  | add s sender prop amount block pd ad txid idx res _ h0 ih =>
    have := MetaDEx_ADD_reserve ME s sender prop amount block pd ad txid idx res ih.1 ih.2 h0
    exact ⟨this.2, this.1⟩
  | cancelAtPrice s txid block sender prop amount pd ad res _ h0 ih =>
    have := (MetaDEx_CANCEL_reserve isMain isTest ME s ih.1 ih.2).1 _ _ _ _ _ _ _ _ h0
    exact ⟨this.2, this.1⟩
  | cancelAllForPair s txid block sender prop pd res _ h0 ih =>
    have := (MetaDEx_CANCEL_reserve isMain isTest ME s ih.1 ih.2).2.1 _ _ _ _ _ _ h0
    exact ⟨this.2, this.1⟩
  | cancelEverything s txid block sender ecosystem res _ h0 ih =>
    have := (MetaDEx_CANCEL_reserve isMain isTest ME s ih.1 ih.2).2.2 _ _ _ _ _ h0
    exact ⟨this.2, this.1⟩

/-- C3: the reserve invariant (every `METADEX_RESERVE` tally equals the sum of
`amount_remaining` over the resting orders of that address selling that
property) is kept by `MetaDEx_ADD`, `MetaDEx_CANCEL_AT_PRICE`,
`MetaDEx_CANCEL_ALL_FOR_PAIR` and `MetaDEx_CANCEL_EVERYTHING` on every book
whose levels are in `MetaDEx_compare` order; it holds in the empty book with
zero reserves, and in every reachable state. -/
theorem C3_reserve_invariant (isMain isTest : Nat → Bool) (ME : Int) :
    (∀ s : State, BookWF s.metadex → ReserveInv s →
      (∀ sender prop amount block pd ad txid idx res,
        MetaDEx_ADD ME s sender prop amount block pd ad txid idx = .ok res →
        ReserveInv res.2) ∧
      (∀ txid block sender prop amount pd ad res,
        MetaDEx_CANCEL_AT_PRICE ME s txid block sender prop amount pd ad = .ok res →
        ReserveInv res.2) ∧
      (∀ txid block sender prop pd res,
        MetaDEx_CANCEL_ALL_FOR_PAIR ME s txid block sender prop pd = .ok res →
        ReserveInv res.2) ∧
      (∀ txid block sender ecosystem res,
        MetaDEx_CANCEL_EVERYTHING isMain isTest ME s txid block sender ecosystem = .ok res →
        ReserveInv res.2)) ∧
    (∀ (L : Ledger) (tl : List MatchedTrade) (cl : List CancelTX),
      (∀ a p, L a p .METADEX_RESERVE = 0) →
      ReserveInv { metadex := [], mp_tally_map := L, t_tradelistdb := tl, p_txlistdb := cl }) ∧
    (∀ s : State, Reachable isMain isTest ME s → ReserveInv s) := by
  refine ⟨fun s hwf hinv => ⟨?_, ?_, ?_, ?_⟩, ?_, ?_⟩
  · intro sender prop amount block pd ad txid idx res h
    exact (MetaDEx_ADD_reserve ME s sender prop amount block pd ad txid idx res hwf hinv h).1
  · intro txid block sender prop amount pd ad res h
    exact ((MetaDEx_CANCEL_reserve isMain isTest ME s hwf hinv).1 _ _ _ _ _ _ _ _ h).1
  · intro txid block sender prop pd res h
    exact ((MetaDEx_CANCEL_reserve isMain isTest ME s hwf hinv).2.1 _ _ _ _ _ _ h).1
  · intro txid block sender ecosystem res h
    exact ((MetaDEx_CANCEL_reserve isMain isTest ME s hwf hinv).2.2 _ _ _ _ _ h).1
  · intro L tl cl h0
    exact (Reachable_inv isMain isTest ME _ (Reachable.init L tl cl h0)).2
  · intro s hs
    exact (Reachable_inv isMain isTest ME s hs).2

theorem exState_BookWF : BookWF exState.metadex := by
  intro e he lvl hl
  simp only [exState, List.mem_singleton] at he
  subst he
  simp only [List.mem_singleton] at hl
  subst hl
  simp [SetSorted]

theorem exState_ReserveInv : ReserveInv exState := by
  intro a p
  simp only [exState, allOrders, pricesOrders, List.flatMap_cons, List.flatMap_nil,
    List.append_nil, reserved_cons, reserved_nil, exLedger, exMaker, CMPMetaDEx.create]
  by_cases h : a = "maker" ∧ p = 3
  · obtain ⟨rfl, rfl⟩ := h
    simp
  · have h' : ¬ ("maker" = a ∧ 3 = p) := fun hx => h ⟨hx.1.symm, hx.2.symm⟩
    have h2 : ¬ (a = "maker" ∧ p = 3 ∧ TallyType.METADEX_RESERVE = TallyType.METADEX_RESERVE) :=
      fun hx => h ⟨hx.1, hx.2.1⟩
    simp [h', h2]
    exact fun ha hp => h ⟨ha, hp⟩

/-- C3, at the first scenario: the state before the taker arrives satisfies
the reserve invariant, and so does the state after its `MetaDEx_ADD`. -/
theorem C3_reserve_invariant_witness :
    BookWF exState.metadex ∧ ReserveInv exState ∧
    ∃ res, MetaDEx_ADD (-80000) exState "taker" 1 200 11 3 100 78 1 = .ok res ∧
      ReserveInv res.2 := by
  obtain ⟨res, hres⟩ := except_ok_of_isSome
    (MetaDEx_ADD (-80000) exState "taker" 1 200 11 3 100 78 1) (by decide!)
  exact ⟨exState_BookWF, exState_ReserveInv, res, hres,
    ((C3_reserve_invariant (fun _ => true) (fun _ => false) (-80000)).1 exState
      exState_BookWF exState_ReserveInv).1 "taker" 1 200 11 3 100 78 1 res hres⟩

/-! ## Ledger updates never fail -/

theorem reserved_nonneg (l : List CMPMetaDEx) (h : ∀ o ∈ l, 0 ≤ o.amount_remaining)
    (a : String) (p : Nat) : 0 ≤ reserved l a p := by
  induction l with
  | nil => simp [reserved_nil]
  | cons o rest ih =>
    rw [reserved_cons]
    have h1 := h o (List.mem_cons_self _ _)
    have h2 := ih (fun x hx => h x (List.mem_cons_of_mem _ hx))
    split_ifs <;> omega

theorem inversePrice_pos_unitPrice_pos (o : CMPMetaDEx) (h : 0 < o.inversePrice) :
    0 < o.unitPrice := by
  unfold CMPMetaDEx.inversePrice at h
  unfold CMPMetaDEx.unitPrice
  by_cases hD : o.amount_desired ≠ 0
  · rw [if_pos hD] at h
    have hF : o.amount_forsale ≠ 0 := by
      intro hF
      rw [hF] at h
      simp at h
    rw [if_pos hF]
    have : (o.amount_desired : ℚ) / (o.amount_forsale : ℚ)
        = ((o.amount_forsale : ℚ) / (o.amount_desired : ℚ))⁻¹ := by
      rw [inv_div]
    rw [this]
    exact inv_pos.mpr h
  · rw [if_neg hD] at h
    exact absurd h (lt_irrefl _)

/-- The amounts of a fill are positive when the taker has a positive unit
price. -/
theorem x_Trade_outcome_fill_pos (sellersPrice : ℚ) (pold pnew : CMPMetaDEx) (bg sg : Int)
    (hu : 0 < pnew.unitPrice) (h : x_Trade_outcome sellersPrice pold pnew = .fill bg sg) :
    0 < bg ∧ 0 < sg := by
  obtain ⟨_, _, hro, hrn, _, _, hbg, hne, _, hlo, _, _, _, _, hsymm⟩ :=
    x_Trade_outcome_fill sellersPrice pold pnew bg sg h
  have hinv : 0 < pold.inversePrice := lt_of_lt_of_le hu hsymm
  have hunit : 0 < pold.unitPrice := inversePrice_pos_unitPrice_pos pold hinv
  have hrq : (0 : ℚ) < (pnew.amount_remaining : ℚ) := by exact_mod_cast hrn
  have hnn : (0 : ℚ) ≤ (pnew.amount_remaining : ℚ) * pold.inversePrice := by positivity
  have hb0 : 0 ≤ bg := by
    rw [hbg]
    simp only [nCouldBuy]
    rw [xToInt128_floor _ hnn]
    split
    · exact Int.floor_nonneg.mpr hnn
    · exact hro.le
  have hb : 0 < bg := lt_of_le_of_ne hb0 (Ne.symm hne)
  refine ⟨hb, ?_⟩
  have hbq : (0 : ℚ) < (bg : ℚ) := by exact_mod_cast hb
  have h1 : (0 : ℚ) < (sg : ℚ) / (bg : ℚ) := lt_of_lt_of_le hunit hlo
  have h2 : (0 : ℚ) < (sg : ℚ) := by
    have := mul_pos h1 hbq
    rwa [div_mul_cancel₀ _ hbq.ne'] at this
  exact_mod_cast h2

/-- The four ledger updates of a fill succeed when the taker holds what it
pays, the maker's reserve covers what it delivers, and no tally is negative. -/
theorem x_Trade_transfer_ok (L : Ledger) (pold pnew : CMPMetaDEx) (bg sg : Int)
    (hnn : ∀ a p k, 0 ≤ L a p k) (hbg : 0 ≤ bg) (hsg : 0 ≤ sg)
    (hpay : sg ≤ L pnew.addr pnew.property .BALANCE)
    (hres : bg ≤ L pold.addr pold.property .METADEX_RESERVE) :
    ∃ L1, x_Trade_transfer L pold pnew bg sg = some L1 ∧ ∀ a p k, 0 ≤ L1 a p k := by
  unfold x_Trade_transfer
  have n0 : 0 ≤ L pnew.addr pnew.property .BALANCE + -sg := by omega
  obtain ⟨La, ha⟩ := update_tally_map_ok n0
  have hLa := (update_tally_map_some ha).2
  have nna : ∀ a p k, 0 ≤ La a p k := by
    intro a p k
    rw [hLa]
    have := hnn a p k
    split_ifs with hc
    · obtain ⟨rfl, rfl, rfl⟩ := hc; omega
    · omega
  rw [ha]
  simp only
  have n1 : 0 ≤ La pold.addr pold.desired_property .BALANCE + sg := by
    have := nna pold.addr pold.desired_property .BALANCE
    omega
  obtain ⟨Lb, hb⟩ := update_tally_map_ok n1
  have hLb := (update_tally_map_some hb).2
  have nnb : ∀ a p k, 0 ≤ Lb a p k := by
    intro a p k
    rw [hLb]
    have := nna a p k
    split_ifs <;> omega
  rw [hb]
  simp only
  have n2 : 0 ≤ Lb pold.addr pold.property .METADEX_RESERVE + -bg := by
    rw [hLb, hLa]
    simp only [reduceCtorEq, and_false, if_false, add_zero]
    omega
  obtain ⟨Lc, hc⟩ := update_tally_map_ok n2
  have hLc := (update_tally_map_some hc).2
  have nnc : ∀ a p k, 0 ≤ Lc a p k := by
    intro a p k
    rw [hLc]
    have := nnb a p k
    split_ifs with hx
    · obtain ⟨rfl, rfl, rfl⟩ := hx
      omega
    · omega
  rw [hc]
  simp only
  have n3 : 0 ≤ Lc pnew.addr pnew.desired_property .BALANCE + bg := by
    have := nnc pnew.addr pnew.desired_property .BALANCE
    omega
  obtain ⟨Ld, hd⟩ := update_tally_map_ok n3
  have hLd := (update_tally_map_some hd).2
  refine ⟨Ld, hd, fun a p k => ?_⟩
  rw [hLd]
  have := nnc a p k
  split_ifs <;> omega

theorem TallyOK_drop (st : TradeState) (c : CMPMetaDEx) (l : List CMPMetaDEx)
    (hc : 0 ≤ c.amount_remaining) (h : TallyOK st (c :: l)) : TallyOK st l := by
  obtain ⟨h1, h2, h3, h4⟩ := h
  refine ⟨h1, fun a p => ?_, h3, h4⟩
  have := h2 a p
  rw [reserved_cons] at this
  split_ifs at this <;> omega

theorem TallyOK_drop_list (st : TradeState) :
    ∀ (l1 l2 : List CMPMetaDEx), (∀ o ∈ l1, 0 ≤ o.amount_remaining) →
      TallyOK st (l1 ++ l2) → TallyOK st l2 := by
  intro l1
  induction l1 with
  | nil => intro l2 _ h; simpa using h
  | cons c rest ih =>
    intro l2 hnn h
    exact ih l2 (fun o ho => hnn o (List.mem_cons_of_mem _ ho))
      (TallyOK_drop st c (rest ++ l2) (hnn c (List.mem_cons_self _ _)) h)

/-- A fill keeps the condition `TallyOK`: its four ledger updates succeed, and
the condition holds for the new loop state and the orders after the visited
one. -/
theorem x_Trade_fill_tally (sellersPrice : ℚ) (c : CMPMetaDEx) (l : List CMPMetaDEx)
    (st : TradeState) (bg sg : Int) (hl : ∀ o ∈ l, 0 ≤ o.amount_remaining)
    (hok : TallyOK st (c :: l))
    (ho : x_Trade_outcome sellersPrice c st.pnew = .fill bg sg) :
    ∃ L, x_Trade_transfer st.tally c st.pnew bg sg = some L ∧
      TallyOK (x_Trade_after L c st bg sg) l := by
  obtain ⟨h1, h2, h3, h4⟩ := hok
  obtain ⟨_, hdes, hro, hrn, hne, hprop, _, _, _, _, _, hleft, hnleft, _, _⟩ :=
    x_Trade_outcome_fill sellersPrice c st.pnew bg sg ho
  obtain ⟨hb, hs⟩ := x_Trade_outcome_fill_pos sellersPrice c st.pnew bg sg h4 ho
  have hrest : 0 ≤ reserved l c.addr c.property := reserved_nonneg l hl _ _
  have hcov : bg ≤ st.tally c.addr c.property .METADEX_RESERVE := by
    have := h2 c.addr c.property
    rw [reserved_cons, if_pos ⟨rfl, rfl⟩] at this
    omega
  obtain ⟨L, hL, hLnn⟩ := x_Trade_transfer_ok st.tally c st.pnew bg sg h1 hb.le hs.le
    (by omega) hcov
  refine ⟨L, hL, hLnn, fun a p => ?_, ?_, h4⟩
  · show reserved l a p ≤ L a p .METADEX_RESERVE
    rw [x_Trade_transfer_reserve hL a p]
    have := h2 a p
    rw [reserved_cons] at this
    split_ifs at this ⊢ <;> omega
  · show st.pnew.amount_remaining - sg ≤ L st.pnew.addr st.pnew.property .BALANCE
    rw [x_Trade_transfer_apply hL]
    have hne' : ¬ (st.pnew.addr = st.pnew.addr ∧ st.pnew.property = st.pnew.desired_property
        ∧ TallyType.BALANCE = TallyType.BALANCE) := fun hx => hne hx.2.1
    rw [if_pos ⟨rfl, rfl, rfl⟩, if_neg hne']
    simp only [reduceCtorEq, and_false, if_false, add_zero]
    split_ifs <;> omega

/-- The loop body decides on an abort only for the assertions it makes itself:
never for a ledger update, never for the assertion after the break test. -/
theorem x_Trade_outcome_abort (sellersPrice : ℚ) (pold pnew : CMPMetaDEx) (a : Abort)
    (h : x_Trade_outcome sellersPrice pold pnew = .assertFailed a) :
    a ≠ .tally ∧ a ≠ .satisfied := by
  unfold x_Trade_outcome at h
  by_cases h1 : pold.unitPrice ≠ sellersPrice
  · rw [if_pos h1] at h; cases h; exact ⟨by decide, by decide⟩
  rw [if_neg h1] at h
  by_cases h2 : pold.desired_property ≠ pnew.property
  · rw [if_pos h2] at h; cases h
  rw [if_neg h2] at h
  by_cases h3 : ¬ (0 < pold.amount_remaining)
  · rw [if_pos h3] at h; cases h; exact ⟨by decide, by decide⟩
  rw [if_neg h3] at h
  by_cases h4 : ¬ (0 < pnew.amount_remaining)
  · rw [if_pos h4] at h; cases h; exact ⟨by decide, by decide⟩
  rw [if_neg h4] at h
  by_cases h5 : ¬ (pnew.property ≠ pnew.desired_property)
  · rw [if_pos h5] at h; cases h; exact ⟨by decide, by decide⟩
  rw [if_neg h5] at h
  by_cases h6 : ¬ (pnew.property = pold.desired_property)
  · rw [if_pos h6] at h; cases h; exact ⟨by decide, by decide⟩
  rw [if_neg h6] at h
  by_cases h7 : ¬ (pold.property = pnew.desired_property)
  · rw [if_pos h7] at h; cases h; exact ⟨by decide, by decide⟩
  rw [if_neg h7] at h
  by_cases h8 : ¬ (pold.unitPrice ≤ pnew.inversePrice)
  · rw [if_pos h8] at h; cases h; exact ⟨by decide, by decide⟩
  rw [if_neg h8] at h
  by_cases h9 : ¬ (pnew.unitPrice ≤ pold.inversePrice)
  · rw [if_pos h9] at h; cases h; exact ⟨by decide, by decide⟩
  rw [if_neg h9] at h
  by_cases h10 : nCouldBuy pold pnew = 0
  · rw [if_pos h10] at h; cases h
  rw [if_neg h10] at h
  cases hw : nWouldPay pold pnew with
  | none => rw [hw] at h; cases h; exact ⟨by decide, by decide⟩
  | some w =>
    rw [hw] at h
    simp only at h
    by_cases g1 : (w : ℚ) / (nCouldBuy pold pnew : ℚ) > pnew.inversePrice
    · rw [if_pos g1] at h; cases h
    rw [if_neg g1] at h
    by_cases g2 : ¬ ((w : ℚ) / (nCouldBuy pold pnew : ℚ) ≥ pold.unitPrice)
    · rw [if_pos g2] at h; cases h; exact ⟨by decide, by decide⟩
    rw [if_neg g2] at h
    by_cases g3 : ¬ ((w : ℚ) / (nCouldBuy pold pnew : ℚ) ≤ pnew.inversePrice)
    · rw [if_pos g3] at h; cases h; exact ⟨by decide, by decide⟩
    rw [if_neg g3] at h
    by_cases g4 : ¬ (0 ≤ pold.amount_remaining - nCouldBuy pold pnew)
    · rw [if_pos g4] at h; cases h; exact ⟨by decide, by decide⟩
    rw [if_neg g4] at h
    by_cases g5 : ¬ (0 ≤ pnew.amount_remaining - w)
    · rw [if_pos g5] at h; cases h; exact ⟨by decide, by decide⟩
    rw [if_neg g5] at h
    by_cases g6 : ¬ (pold.amount_remaining =
        pold.amount_remaining - nCouldBuy pold pnew + nCouldBuy pold pnew)
    · rw [if_pos g6] at h; cases h; exact ⟨by decide, by decide⟩
    rw [if_neg g6] at h
    by_cases g7 : ¬ (pnew.amount_remaining = pnew.amount_remaining - w + w)
    · rw [if_pos g7] at h; cases h; exact ⟨by decide, by decide⟩
    rw [if_neg g7] at h
    cases h

/-- Under `TallyOK` no ledger update of the inner loop fails, and the
condition holds, for the orders of the later levels, when the loop ends. -/
theorem x_Trade_offers_tally (sellersPrice : ℚ) (future : List CMPMetaDEx) :
    ∀ (rest : List CMPMetaDEx) (pofferSet : md_Set) (st : TradeState),
      (∀ o ∈ rest ++ future, 0 ≤ o.amount_remaining) → TallyOK st (rest ++ future) →
      x_Trade_offers sellersPrice rest pofferSet st ≠ .error .tally ∧
      ∀ res, x_Trade_offers sellersPrice rest pofferSet st = .ok res → TallyOK res.2 future := by
  intro rest
  induction rest with
  | nil =>
    intro pofferSet st _ hok
    simp only [x_Trade_offers]
    refine ⟨fun h => (by cases h), fun res h => ?_⟩
    cases h
    simpa using hok
  | cons c rest ih =>
    intro pofferSet st hnn hok
    have hc : 0 ≤ c.amount_remaining := hnn c (by simp)
    have hnn' : ∀ o ∈ rest ++ future, 0 ≤ o.amount_remaining :=
      fun o ho => hnn o (by simp at ho ⊢; tauto)
    have hrestnn : ∀ o ∈ rest, 0 ≤ o.amount_remaining :=
      fun o ho => hnn' o (List.mem_append_left _ ho)
    rw [x_Trade_offers]
    cases ho : x_Trade_outcome sellersPrice c st.pnew with
    | assertFailed a =>
      simp only
      refine ⟨fun h => ?_, fun res h => (by cases h)⟩
      have ha : a = .tally := by cases h; rfl
      exact (x_Trade_outcome_abort sellersPrice c st.pnew a ho).1 ha
    | nextOffer =>
      simp only
      exact ih pofferSet st hnn' (TallyOK_drop st c (rest ++ future) hc hok)
    | fill bg sg =>
      simp only
      obtain ⟨L, hL, hok1⟩ := x_Trade_fill_tally sellersPrice c (rest ++ future) st bg sg
        hnn' hok ho
      rw [hL]
      simp only
      by_cases hsat : (x_Trade_after L c st bg sg).bBuyerSatisfied = true
      · rw [if_pos hsat]
        by_cases hz : (x_Trade_after L c st bg sg).pnew.amount_remaining = 0
        · rw [if_pos hz]
          refine ⟨fun h => (by cases h), fun res h => ?_⟩
          cases h
          exact TallyOK_drop_list _ rest future hrestnn hok1
        · rw [if_neg hz]
          exact ⟨fun h => (by cases h), fun res h => by cases h⟩
      · rw [if_neg hsat]
        exact ih _ _ hnn' hok1

/-- Under `TallyOK` no ledger update of the outer loop fails, and the
condition holds when the loop ends. -/
theorem x_Trade_prices_tally :
    ∀ (pm : md_PricesMap) (st : TradeState),
      (∀ o ∈ pricesOrders pm, 0 ≤ o.amount_remaining) → TallyOK st (pricesOrders pm) →
      x_Trade_prices pm st ≠ .error .tally ∧
      ∀ res, x_Trade_prices pm st = .ok res → TallyOK res.2 [] := by
  intro pm
  induction pm with
  | nil =>
    intro st _ hok
    simp only [x_Trade_prices]
    refine ⟨fun h => (by cases h), fun res h => ?_⟩
    cases h
    exact hok
  | cons lvl rest ih =>
    obtain ⟨sellersPrice, pofferSet⟩ := lvl
    intro st hnn hok
    rw [pricesOrders_cons] at hnn hok
    have hnn0 : ∀ o ∈ pofferSet, 0 ≤ o.amount_remaining :=
      fun o ho => hnn o (List.mem_append_left _ ho)
    have hnn1 : ∀ o ∈ pricesOrders rest, 0 ≤ o.amount_remaining :=
      fun o ho => hnn o (List.mem_append_right _ ho)
    rw [x_Trade_prices]
    by_cases hp : st.pnew.inversePrice < sellersPrice
    · rw [if_pos hp]
      have hok1 := TallyOK_drop_list st pofferSet (pricesOrders rest) hnn0 hok
      obtain ⟨i1, i2⟩ := ih st hnn1 hok1
      cases hr : x_Trade_prices rest st with
      | error a =>
        simp only
        refine ⟨fun h => ?_, fun res h => (by cases h)⟩
        have ha : a = .tally := by cases h; rfl
        rw [ha] at hr
        exact i1 hr
      | ok r =>
        simp only
        refine ⟨fun h => (by cases h), fun res h => ?_⟩
        cases h
        exact i2 r hr
    · rw [if_neg hp]
      obtain ⟨l1, l2⟩ := x_Trade_offers_tally sellersPrice (pricesOrders rest) pofferSet
        pofferSet st hnn hok
      cases hl : x_Trade_offers sellersPrice pofferSet pofferSet st with
      | error a =>
        simp only
        refine ⟨fun h => ?_, fun res h => (by cases h)⟩
        have ha : a = .tally := by cases h; rfl
        rw [ha] at hl
        exact l1 hl
      | ok r1 =>
        simp only
        have hok1 := l2 r1 hl
        by_cases hs : r1.2.bBuyerSatisfied = true
        · rw [if_pos hs]
          refine ⟨fun h => (by cases h), fun res h => ?_⟩
          cases h
          have := TallyOK_drop_list r1.2 (pricesOrders rest) [] hnn1 (by simpa using hok1)
          exact this
        · rw [if_neg hs]
          obtain ⟨i1, i2⟩ := ih r1.2 hnn1 hok1
          cases hr : x_Trade_prices rest r1.2 with
          | error a =>
            simp only
            refine ⟨fun h => ?_, fun res h => (by cases h)⟩
            have ha : a = .tally := by cases h; rfl
            rw [ha] at hr
            exact i1 hr
          | ok r =>
            simp only
            refine ⟨fun h => (by cases h), fun res h => ?_⟩
            cases h
            exact i2 r hr

theorem allOrders_split (k : Nat) :
    ∀ (b : md_PropertiesMap) (pm : md_PricesMap), mapFind k b = some pm →
      ∃ pre post, allOrders b = pre ++ pricesOrders pm ++ post := by
  intro b
  induction b with
  | nil => intro pm h; simp [mapFind] at h
  | cons e rest ih =>
    obtain ⟨k1, v1⟩ := e
    intro pm h
    rw [mapFind] at h
    by_cases hk : k1 = k
    · rw [if_pos hk] at h
      cases h
      exact ⟨[], allOrders rest, by rw [allOrders_cons]; simp⟩
    · rw [if_neg hk] at h
      obtain ⟨pre, post, hpp⟩ := ih pm h
      exact ⟨pricesOrders v1 ++ pre, post, by rw [allOrders_cons, hpp]; simp⟩

/-- No ledger update of `x_Trade` fails when no tally is negative, the reserves
cover the resting amounts, and the taker holds its remaining amount; no tally
is negative afterwards, and the taker still holds what it has left. -/
theorem x_Trade_tally (s : State) (pnew : CMPMetaDEx)
    (hnn : ∀ a p k, 0 ≤ s.mp_tally_map a p k)
    (hcov : ∀ a p, reserved (allOrders s.metadex) a p ≤ s.mp_tally_map a p .METADEX_RESERVE)
    (hrem : ∀ o ∈ allOrders s.metadex, 0 ≤ o.amount_remaining)
    (hbal : pnew.amount_remaining ≤ s.mp_tally_map pnew.addr pnew.property .BALANCE)
    (hu : 0 < pnew.unitPrice) :
    x_Trade s pnew ≠ .error .tally ∧
    ∀ r, x_Trade s pnew = .ok r →
      (∀ a p k, 0 ≤ r.state.mp_tally_map a p k) ∧
      r.pnew.amount_remaining ≤ r.state.mp_tally_map r.pnew.addr r.pnew.property .BALANCE := by
  unfold x_Trade
  cases hg : get_Prices s.metadex pnew.desired_property with
  | none =>
    simp only
    refine ⟨fun h => (by cases h), fun r h => ?_⟩
    cases h
    exact ⟨hnn, hbal⟩
  | some pm =>
    simp only
    obtain ⟨pre, post, hsplit⟩ := allOrders_split _ s.metadex pm hg
    have hpm : ∀ o ∈ pricesOrders pm, 0 ≤ o.amount_remaining := by
      intro o ho
      apply hrem o
      rw [hsplit]
      simp [ho]
    have hok : TallyOK (x_Trade_init s pnew) (pricesOrders pm) := by
      refine ⟨hnn, fun a p => ?_, hbal, hu⟩
      have h1 := hcov a p
      rw [hsplit, reserved_append, reserved_append] at h1
      have h2 : 0 ≤ reserved pre a p :=
        reserved_nonneg pre (fun o ho => hrem o (by rw [hsplit]; simp [ho])) a p
      have h3 : 0 ≤ reserved post a p :=
        reserved_nonneg post (fun o ho => hrem o (by rw [hsplit]; simp [ho])) a p
      show reserved (pricesOrders pm) a p ≤ s.mp_tally_map a p .METADEX_RESERVE
      omega
    obtain ⟨i1, i2⟩ := x_Trade_prices_tally pm (x_Trade_init s pnew) hpm hok
    cases hp : x_Trade_prices pm (x_Trade_init s pnew) with
    | error a =>
      simp only
      refine ⟨fun h => ?_, fun r h => (by cases h)⟩
      have ha : a = .tally := by cases h; rfl
      rw [ha] at hp
      exact i1 hp
    | ok res =>
      simp only
      refine ⟨fun h => (by cases h), fun r h => ?_⟩
      cases h
      obtain ⟨o1, _, o3, _⟩ := i2 res hp
      exact ⟨o1, o3⟩

/-- No ledger update of `MetaDEx_ADD` fails, and no tally is negative
afterwards, when no tally is negative, the reserves cover the resting amounts,
no resting amount is negative and the sender's `BALANCE` covers the amount for
sale. -/
theorem MetaDEx_ADD_tally (ME : Int) (s : State) (sender : String) (prop : Nat)
    (amount : Int) (block : Int) (pd : Nat) (ad : Int) (txid idx : Nat)
    (hnn : ∀ a p k, 0 ≤ s.mp_tally_map a p k)
    (hcov : ∀ a p, reserved (allOrders s.metadex) a p ≤ s.mp_tally_map a p .METADEX_RESERVE)
    (hrem : ∀ o ∈ allOrders s.metadex, 0 ≤ o.amount_remaining)
    (hbal : amount ≤ s.mp_tally_map sender prop .BALANCE) :
    MetaDEx_ADD ME s sender prop amount block pd ad txid idx ≠ .error .tally ∧
    ∀ res, MetaDEx_ADD ME s sender prop amount block pd ad txid idx = .ok res →
      ∀ a p k, 0 ≤ res.2.mp_tally_map a p k := by
  unfold MetaDEx_ADD
  simp only
  by_cases h0 : 0 ≥ (CMPMetaDEx.create sender block prop amount pd ad txid idx .ADD).unitPrice
  · rw [if_pos h0]
    refine ⟨fun h => (by cases h), fun res h => ?_⟩
    cases h
    exact hnn
  · rw [if_neg h0]
    obtain ⟨i1, i2⟩ := x_Trade_tally s
      (CMPMetaDEx.create sender block prop amount pd ad txid idx .ADD) hnn hcov hrem hbal
      (not_le.mp h0)
    cases hx : x_Trade s (CMPMetaDEx.create sender block prop amount pd ad txid idx .ADD) with
    | error a =>
      simp only
      refine ⟨fun h => ?_, fun res h => (by cases h)⟩
      have ha : a = .tally := by cases h; rfl
      rw [ha] at hx
      exact i1 hx
    | ok r =>
      simp only
      obtain ⟨o1, o2⟩ := i2 r hx
      have hp := x_Trade_pnew s _ r hx
      have haddr : r.pnew.addr = sender := by rw [hp]; rfl
      have hprop : r.pnew.property = prop := by rw [hp]; rfl
      rw [haddr, hprop] at o2
      by_cases h1 : 0 < r.pnew.amount_remaining
      · rw [if_pos h1]
        by_cases h2 : (MetaDEx_INSERT r.state.metadex r.pnew).2 = false
        · rw [if_pos h2]
          refine ⟨fun h => (by cases h), fun res h => ?_⟩
          cases h
          exact o1
        · rw [if_neg h2]
          have n1 : 0 ≤ r.state.mp_tally_map sender prop .BALANCE + -r.pnew.amount_remaining := by
            omega
          obtain ⟨L1, hL1⟩ := update_tally_map_ok n1
          have e1 := (update_tally_map_some hL1).2
          have nn1 : ∀ a p k, 0 ≤ L1 a p k := by
            intro a p k
            rw [e1]
            have := o1 a p k
            split_ifs with hc
            · obtain ⟨rfl, rfl, rfl⟩ := hc; omega
            · omega
          rw [hL1]
          simp only
          have n2 : 0 ≤ L1 sender prop .METADEX_RESERVE + r.pnew.amount_remaining := by
            have := nn1 sender prop .METADEX_RESERVE
            omega
          obtain ⟨L2, hL2⟩ := update_tally_map_ok n2
          have e2 := (update_tally_map_some hL2).2
          rw [hL2]
          simp only
          refine ⟨fun h => (by cases h), fun res h => ?_⟩
          cases h
          intro a p k
          show 0 ≤ L2 a p k
          rw [e2]
          have := nn1 a p k
          split_ifs <;> omega
      · rw [if_neg h1]
        refine ⟨fun h => (by cases h), fun res h => ?_⟩
        cases h
        exact o1

/-- C4: ledger updates never fail. If no tally is negative, every
`METADEX_RESERVE` tally covers the remaining amounts of the resting orders of
its address and property, no resting order has a negative remaining amount, and
the sender's `BALANCE` of the property for sale is at least the amount for
sale, then no `update_tally_map` call of `MetaDEx_ADD` (the four per fill, the
two of the residual placement) fails, and no tally is negative afterwards. -/
theorem C4_ledger_updates_never_fail (ME : Int) (s : State) (sender : String) (prop : Nat)
    (amount : Int) (block : Int) (pd : Nat) (ad : Int) (txid idx : Nat)
    (hnn : ∀ a p k, 0 ≤ s.mp_tally_map a p k)
    (hcov : ∀ a p, reserved (allOrders s.metadex) a p ≤ s.mp_tally_map a p .METADEX_RESERVE)
    (hrem : ∀ o ∈ allOrders s.metadex, 0 ≤ o.amount_remaining)
    (hbal : amount ≤ s.mp_tally_map sender prop .BALANCE) :
    MetaDEx_ADD ME s sender prop amount block pd ad txid idx ≠ .error .tally ∧
    ∀ res, MetaDEx_ADD ME s sender prop amount block pd ad txid idx = .ok res →
      ∀ a p k, 0 ≤ res.2.mp_tally_map a p k :=
  MetaDEx_ADD_tally ME s sender prop amount block pd ad txid idx hnn hcov hrem hbal

theorem exState_nonneg : ∀ a p k, 0 ≤ exState.mp_tally_map a p k := by
  intro a p k
  simp only [exState, exLedger]
  split_ifs <;> decide

theorem exState_covered :
    ∀ a p, reserved (allOrders exState.metadex) a p ≤ exState.mp_tally_map a p .METADEX_RESERVE :=
  fun a p => le_of_eq (exState_ReserveInv a p).symm

/-- C4, at the first scenario: the conditions hold before the taker arrives,
its `MetaDEx_ADD` ends without a failed ledger update, and no tally is negative
afterwards. -/
theorem C4_ledger_updates_never_fail_witness :
    (∀ a p k, 0 ≤ exState.mp_tally_map a p k) ∧
    (∀ o ∈ allOrders exState.metadex, 0 ≤ o.amount_remaining) ∧
    (200 : Int) ≤ exState.mp_tally_map "taker" 1 .BALANCE ∧
    MetaDEx_ADD (-80000) exState "taker" 1 200 11 3 100 78 1 ≠ .error .tally ∧
    ∃ res, MetaDEx_ADD (-80000) exState "taker" 1 200 11 3 100 78 1 = .ok res ∧
      ∀ a p k, 0 ≤ res.2.mp_tally_map a p k := by
  have hrem : ∀ o ∈ allOrders exState.metadex, 0 ≤ o.amount_remaining := by decide!
  have hbal : (200 : Int) ≤ exState.mp_tally_map "taker" 1 .BALANCE := by decide!
  have key := C4_ledger_updates_never_fail (-80000) exState "taker" 1 200 11 3 100 78 1
    exState_nonneg exState_covered hrem hbal
  obtain ⟨res, hres⟩ := except_ok_of_isSome
    (MetaDEx_ADD (-80000) exState "taker" 1 200 11 3 100 78 1) (by decide!)
  exact ⟨exState_nonneg, hrem, hbal, key.1, res, hres, key.2 res hres⟩

/-! ## Residual placement -/

/-- The unit price of an order that passed the price test of `MetaDEx_ADD`. -/
theorem unitPrice_of_pos (o : CMPMetaDEx) (h : ¬ (0 ≥ o.unitPrice)) :
    o.amount_forsale ≠ 0 ∧ o.unitPrice = (o.amount_desired : ℚ) / (o.amount_forsale : ℚ) := by
  unfold CMPMetaDEx.unitPrice at h ⊢
  by_cases hF : o.amount_forsale ≠ 0
  · rw [if_pos hF]
    exact ⟨hF, rfl⟩
  · rw [if_neg hF] at h
    exact absurd (le_refl (0 : ℚ)) h

/-- C8: residual placement. Whenever `MetaDEx_ADD` returns 0 (the two error
codes being non-zero), `x_Trade` has returned, with the taker's remaining
amount `r`. When `r > 0`: exactly `r` of the property for sale has moved from
the sender's `BALANCE` to its `METADEX_RESERVE` and no other tally differs from
what `x_Trade` left; the book holds, under the property for sale at the price
key `amount_desired / amount_forsale`, the level into which the order with
`amount_remaining = r` was inserted by `(block, idx)`: that level is the former
level with the order added, and it is in `MetaDEx_compare` order if the former
level was. When `r` is not positive nothing is inserted and no reserve is
taken: book and ledger are as `x_Trade` left them. -/
theorem C8_residual_placement (ME : Int) (s s1 : State) (sender : String) (prop : Nat)
    (amount : Int) (block : Int) (pd : Nat) (ad : Int) (txid idx : Nat)
    (h66 : ME - 66 ≠ 0) (h70 : ME - 70 ≠ 0)
    (h : MetaDEx_ADD ME s sender prop amount block pd ad txid idx = .ok (0, s1)) :
    ∃ r, x_Trade s (CMPMetaDEx.create sender block prop amount pd ad txid idx .ADD) = .ok r ∧
      r.pnew = (CMPMetaDEx.create sender block prop amount pd ad txid idx .ADD).setAmountRemaining
        r.pnew.amount_remaining ∧
      (0 < r.pnew.amount_remaining →
        (∀ a p k, s1.mp_tally_map a p k = r.state.mp_tally_map a p k
          + (if a = sender ∧ p = prop ∧ k = .BALANCE then -r.pnew.amount_remaining else 0)
          + (if a = sender ∧ p = prop ∧ k = .METADEX_RESERVE
              then r.pnew.amount_remaining else 0)) ∧
        ∃ pm lvl, get_Prices s1.metadex prop = some pm ∧
          get_Indexes pm ((ad : ℚ) / (amount : ℚ)) = some lvl ∧
          r.pnew ∈ lvl ∧
          lvl = (md_Set_insert r.pnew (((get_Prices r.state.metadex prop).bind
            (fun pm0 => get_Indexes pm0 ((ad : ℚ) / (amount : ℚ)))).getD [])).1 ∧
          lvl.Perm (r.pnew :: (((get_Prices r.state.metadex prop).bind
            (fun pm0 => get_Indexes pm0 ((ad : ℚ) / (amount : ℚ)))).getD [])) ∧
          (SetSorted (((get_Prices r.state.metadex prop).bind
            (fun pm0 => get_Indexes pm0 ((ad : ℚ) / (amount : ℚ)))).getD []) → SetSorted lvl)) ∧
      (¬ 0 < r.pnew.amount_remaining → s1 = r.state) := by
  unfold MetaDEx_ADD at h
  simp only at h
  by_cases h0 : 0 ≥ (CMPMetaDEx.create sender block prop amount pd ad txid idx .ADD).unitPrice
  · rw [if_pos h0] at h
    simp only [Except.ok.injEq, Prod.mk.injEq] at h
    exact absurd h.1 h66
  rw [if_neg h0] at h
  obtain ⟨_, hprice⟩ := unitPrice_of_pos _ h0
  cases hx : x_Trade s (CMPMetaDEx.create sender block prop amount pd ad txid idx .ADD) with
  | error a => rw [hx] at h; cases h
  | ok r =>
    rw [hx] at h
    simp only at h
    have hp := x_Trade_pnew s _ r hx
    have hprop : r.pnew.property = prop := by rw [hp]; rfl
    have hup : r.pnew.unitPrice = (ad : ℚ) / (amount : ℚ) := by
      rw [hp]
      exact hprice
    refine ⟨r, rfl, hp, ?_, ?_⟩
    · intro hpos
      rw [if_pos hpos] at h
      by_cases h2 : (MetaDEx_INSERT r.state.metadex r.pnew).2 = false
      · rw [if_pos h2] at h
        simp only [Except.ok.injEq, Prod.mk.injEq] at h
        exact absurd h.1 h70
      rw [if_neg h2] at h
      cases h3 : update_tally_map r.state.mp_tally_map sender prop
          (-r.pnew.amount_remaining) .BALANCE with
      | none => rw [h3] at h; cases h
      | some L1 =>
        rw [h3] at h
        simp only at h
        cases h4 : update_tally_map L1 sender prop r.pnew.amount_remaining
            .METADEX_RESERVE with
        | none => rw [h4] at h; cases h
        | some L2 =>
          rw [h4] at h
          simp only [Except.ok.injEq, Prod.mk.injEq, true_and] at h
          subst h
          refine ⟨fun a p k => ?_, ?_⟩
          · show L2 a p k = _
            rw [(update_tally_map_some h4).2, (update_tally_map_some h3).2]
          · have heq := MetaDEx_INSERT_eq r.state.metadex r.pnew
            have hins : (md_Set_insert r.pnew (((get_Prices r.state.metadex r.pnew.property).bind
                (fun pm => get_Indexes pm r.pnew.unitPrice)).getD [])).2 = true := by
              by_contra hc
              have hc' : (md_Set_insert r.pnew
                  (((get_Prices r.state.metadex r.pnew.property).bind
                    (fun pm => get_Indexes pm r.pnew.unitPrice)).getD [])).2 = false := by
                simpa using hc
              rw [if_pos hc'] at heq
              rw [heq] at h2
              exact h2 rfl
            have hins' : ¬ ((md_Set_insert r.pnew
                (((get_Prices r.state.metadex r.pnew.property).bind
                  (fun pm => get_Indexes pm r.pnew.unitPrice)).getD [])).2 = false) := by
              rw [hins]; decide
            rw [if_neg hins'] at heq
            rw [hprop, hup] at heq hins
            refine ⟨mapAssign ((ad : ℚ) / (amount : ℚ))
                (md_Set_insert r.pnew (((get_Prices r.state.metadex prop).bind
                  (fun pm0 => get_Indexes pm0 ((ad : ℚ) / (amount : ℚ)))).getD [])).1
                ((get_Prices r.state.metadex prop).getD []),
              (md_Set_insert r.pnew (((get_Prices r.state.metadex prop).bind
                  (fun pm0 => get_Indexes pm0 ((ad : ℚ) / (amount : ℚ)))).getD [])).1,
              ?_, ?_, ?_, rfl, (md_Set_insert_perm _ _).1 hins, md_Set_insert_sorted _ _⟩
            · show get_Prices (MetaDEx_INSERT r.state.metadex r.pnew).1 prop = _
              rw [heq]
              show mapFind prop (mapAssign prop _ _) = _
              rw [mapFind_mapAssign, if_pos rfl]
            · show mapFind _ (mapAssign _ _ _) = _
              rw [mapFind_mapAssign, if_pos rfl]
            · exact ((md_Set_insert_perm _ _).1 hins).mem_iff.mpr (List.mem_cons_self _ _)
    · intro hnpos
      rw [if_neg hnpos] at h
      simp only [Except.ok.injEq, Prod.mk.injEq, true_and] at h
      exact h.symm

/-- C8, at the second scenario: the taker's `MetaDEx_ADD` returns 0, 100 of its
200 remain after matching, and the book holds the residual under property 1 at
the price key `100 / 200`. -/
theorem C8_residual_placement_witness :
    ∃ s1, MetaDEx_ADD (-80000) ex2State "taker" 1 200 11 3 100 78 1 = .ok (0, s1) ∧
      ∃ r, x_Trade ex2State (CMPMetaDEx.create "taker" 11 1 200 3 100 78 1 .ADD) = .ok r ∧
        0 < r.pnew.amount_remaining ∧
        ∃ pm lvl, get_Prices s1.metadex 1 = some pm ∧
          get_Indexes pm (((100 : Int) : ℚ) / ((200 : Int) : ℚ)) = some lvl ∧ r.pnew ∈ lvl := by
  obtain ⟨res, hres⟩ := except_ok_of_isSome
    (MetaDEx_ADD (-80000) ex2State "taker" 1 200 11 3 100 78 1) (by decide!)
  have hrc : (MetaDEx_ADD (-80000) ex2State "taker" 1 200 11 3 100 78 1).toOption.map
      (fun x => x.1) = some 0 := by decide!
  rw [hres] at hrc
  simp only [Except.toOption, Option.map_some', Option.some.injEq] at hrc
  have hres' : MetaDEx_ADD (-80000) ex2State "taker" 1 200 11 3 100 78 1 = .ok (0, res.2) := by
    rw [hres, ← hrc]
  obtain ⟨r, hr, _, hpos, _⟩ := C8_residual_placement (-80000) ex2State res.2 "taker" 1 200 11 3
    100 78 1 (by decide) (by decide) hres'
  have hrem : (x_Trade ex2State (CMPMetaDEx.create "taker" 11 1 200 3 100 78 1 .ADD)).toOption.map
      (fun x => x.pnew.amount_remaining) = some 100 := by decide!
  rw [hr] at hrem
  simp only [Except.toOption, Option.map_some', Option.some.injEq] at hrem
  have hp : 0 < r.pnew.amount_remaining := by rw [hrem]; decide
  obtain ⟨_, pm, lvl, h1, h2, h3, _⟩ := hpos hp
  exact ⟨res.2, hres', r, hr, hp, pm, lvl, h1, h2, h3⟩

/-! ## The second scenario -/

/-- C10 (as amended): in the second scenario the taker's `MetaDEx_ADD` returns
0, the maker is filled completely and removed (its level under property 3 is
left empty), and the taker's residual with `amount_remaining = 100` is the only
order of the level with price key `unit_price = 100 / 200 = 1/2` under
property 1. -/
theorem C10_partial_fill_larger_taker :
    (MetaDEx_ADD (-80000) ex2State "taker" 1 200 11 3 100 78 1).toOption.map (fun x => x.1)
      = some 0 ∧
    (MetaDEx_ADD (-80000) ex2State "taker" 1 200 11 3 100 78 1).toOption.map
      (fun x => x.2.metadex) = some [(1, [(1 / 2, [ex2Residual])]), (3, [(2, [])])] ∧
    ex2Residual.amount_remaining = 100 ∧ ex2Residual.unitPrice = 1 / 2 ∧
    ex2Residual.inversePrice = 2 := by
  refine ⟨by decide!, by decide!, by decide!, by decide!, by decide!⟩

/-- C10 as stated fails: after the taker's `MetaDEx_ADD` of the second scenario
the book has no level with price key 2 under property 1 that holds the
residual. -/
theorem C10_counterexample :
    ¬ ∃ res pm lvl, MetaDEx_ADD (-80000) ex2State "taker" 1 200 11 3 100 78 1 = .ok res ∧
      get_Prices res.2.metadex 1 = some pm ∧ get_Indexes pm 2 = some lvl ∧
      ex2Residual ∈ lvl := by
  rintro ⟨res, pm, lvl, h, hp, hi, _⟩
  have key : (MetaDEx_ADD (-80000) ex2State "taker" 1 200 11 3 100 78 1).toOption.map
      (fun x => (get_Prices x.2.metadex 1).bind (fun pm => get_Indexes pm 2)) = some none := by
    decide!
  rw [h] at key
  simp only [Except.toOption, Option.map_some', Option.some.injEq] at key
  rw [hp] at key
  simp only [Option.some_bind] at key
  rw [hi] at key
  cases key

/-! ## The exact match -/

/-- C9: exact match. For all `F`, `D` in `[1, 2^63 - 1]`: if the only resting
order (of another address) sells `F` of `P_d` for `D` of `P_s` with
`amount_remaining = F`, its reserve is held, no tally is negative, and a taker
with `BALANCE(P_s) >= D` adds an order selling `D` of `P_s` for `F` of `P_d`,
then `MetaDEx_ADD` returns 0 and both orders are fully filled: the taker's
`BALANCE(P_s)` changes by `-D` and its `BALANCE(P_d)` by `+F`, the maker's
`BALANCE(P_s)` by `+D` and its `METADEX_RESERVE(P_d)` by `-F`, and no order is
left in the book. -/
theorem C9_exact_match (ME : Int) (maker : CMPMetaDEx) (L : Ledger) (tl : List MatchedTrade)
    (cl : List CancelTX) (sender : String) (block : Int) (txid idx : Nat) (F D : Int)
    (hF : 1 ≤ F) (hD : 1 ≤ D) (hD2 : D ≤ 2 ^ 63 - 1)
    (hmF : maker.amount_forsale = F) (hmD : maker.amount_desired = D)
    (hmr : maker.amount_remaining = F)
    (hpp : maker.desired_property ≠ maker.property) (hadr : maker.addr ≠ sender)
    (hnn : ∀ a p k, 0 ≤ L a p k)
    (hres : F ≤ L maker.addr maker.property .METADEX_RESERVE)
    (hbal : D ≤ L sender maker.desired_property .BALANCE) :
    ∃ s1, MetaDEx_ADD ME
        { metadex := [(maker.property, [(maker.unitPrice, [maker])])], mp_tally_map := L,
          t_tradelistdb := tl, p_txlistdb := cl }
        sender maker.desired_property D block maker.property F txid idx = .ok (0, s1) ∧
      s1.mp_tally_map sender maker.desired_property .BALANCE
        = L sender maker.desired_property .BALANCE - D ∧
      s1.mp_tally_map sender maker.property .BALANCE
        = L sender maker.property .BALANCE + F ∧
      s1.mp_tally_map maker.addr maker.desired_property .BALANCE
        = L maker.addr maker.desired_property .BALANCE + D ∧
      s1.mp_tally_map maker.addr maker.property .METADEX_RESERVE
        = L maker.addr maker.property .METADEX_RESERVE - F ∧
      allOrders s1.metadex = [] := by
  have hFq : (0 : ℚ) < (F : ℚ) := by exact_mod_cast (by omega : 0 < F)
  have hDq : (0 : ℚ) < (D : ℚ) := by exact_mod_cast (by omega : 0 < D)
  have hmF0 : 0 < maker.amount_forsale := by omega
  have hmD0 : 0 < maker.amount_desired := by omega
  -- the incoming order
  generalize hnew : CMPMetaDEx.create sender block maker.desired_property D maker.property F
    txid idx .ADD = pnew
  have e_addr : pnew.addr = sender := by rw [← hnew]; rfl
  have e_prop : pnew.property = maker.desired_property := by rw [← hnew]; rfl
  have e_des : pnew.desired_property = maker.property := by rw [← hnew]; rfl
  have e_fs : pnew.amount_forsale = D := by rw [← hnew]; rfl
  have e_ad : pnew.amount_desired = F := by rw [← hnew]; rfl
  have e_rem : pnew.amount_remaining = D := by rw [← hnew]; rfl
  have hup : maker.unitPrice = (D : ℚ) / (F : ℚ) := by
    rw [unitPrice_pos_eq maker hmF0, hmF, hmD]
  have hip : pnew.inversePrice = (D : ℚ) / (F : ℚ) := by
    rw [inversePrice_pos_eq pnew (by omega), e_fs, e_ad]
  have hnup : pnew.unitPrice = (F : ℚ) / (D : ℚ) := by
    rw [unitPrice_pos_eq pnew (by omega), e_fs, e_ad]
  have hcand : Candidate maker.unitPrice maker pnew := by
    refine ⟨rfl, ?_, ?_, e_des.symm, e_prop.symm, hmF0, hmD0, by omega, by omega, by omega,
      by omega, by omega⟩
    · rw [hup, hip]
    · rw [e_prop, e_des]; exact hpp
  have hbuy : nCouldBuy maker pnew = F := by
    rw [nCouldBuy_eq maker pnew hmF0 hmD0 (by omega), hmF, hmD, hmr, e_rem]
    have : ((D : ℚ) * (F : ℚ)) / (D : ℚ) = ((F : Int) : ℚ) := by
      field_simp
    rw [this, Int.floor_intCast, min_self]
  have hceil : ⌈((F : Int) : ℚ) * (D : ℚ) / (F : ℚ)⌉ = D := by
    have : ((F : Int) : ℚ) * (D : ℚ) / (F : ℚ) = ((D : Int) : ℚ) := by
      field_simp
    rw [this, Int.ceil_intCast]
  have hout : x_Trade_outcome maker.unitPrice maker pnew = .fill F D := by
    rw [x_Trade_outcome_candidate _ _ _ hcand, hbuy, hmD, hmF, hceil, hip,
      if_neg (by omega : ¬ F = 0), if_neg (lt_irrefl _)]
  -- the ledger updates
  obtain ⟨L1, hL1, _⟩ := x_Trade_transfer_ok L maker pnew F D hnn (by omega) (by omega)
    (by rw [e_addr, e_prop]; exact hbal) hres
  have hsat : (x_Trade_after L1 maker (x_Trade_init
      { metadex := [(maker.property, [(maker.unitPrice, [maker])])], mp_tally_map := L,
        t_tradelistdb := tl, p_txlistdb := cl } pnew) F D).bBuyerSatisfied = true := by
    simp [x_Trade_after, x_Trade_init, e_rem]
  have hzero : (x_Trade_after L1 maker (x_Trade_init
      { metadex := [(maker.property, [(maker.unitPrice, [maker])])], mp_tally_map := L,
        t_tradelistdb := tl, p_txlistdb := cl } pnew) F D).pnew.amount_remaining = 0 := by
    simp [x_Trade_after, x_Trade_init, e_rem, CMPMetaDEx.setAmountRemaining]
  have hrepl : x_Trade_replace [maker] maker F = [] := by
    simp [x_Trade_replace, md_Set_erase, CMPMetaDEx.setAmountRemaining, hmr]
  have hoffers : x_Trade_offers maker.unitPrice [maker] [maker] (x_Trade_init
      { metadex := [(maker.property, [(maker.unitPrice, [maker])])], mp_tally_map := L,
        t_tradelistdb := tl, p_txlistdb := cl } pnew)
      = .ok ([], x_Trade_after L1 maker (x_Trade_init
      { metadex := [(maker.property, [(maker.unitPrice, [maker])])], mp_tally_map := L,
        t_tradelistdb := tl, p_txlistdb := cl } pnew) F D) := by
    rw [x_Trade_offers]
    have e0 : (x_Trade_init
      { metadex := [(maker.property, [(maker.unitPrice, [maker])])], mp_tally_map := L,
        t_tradelistdb := tl, p_txlistdb := cl } pnew).pnew = pnew := rfl
    have e1 : (x_Trade_init
      { metadex := [(maker.property, [(maker.unitPrice, [maker])])], mp_tally_map := L,
        t_tradelistdb := tl, p_txlistdb := cl } pnew).tally = L := rfl
    rw [e0, hout]
    simp only
    rw [e1, hL1]
    simp only
    rw [if_pos hsat, if_pos hzero, hrepl]
  have hprices : x_Trade_prices [(maker.unitPrice, [maker])] (x_Trade_init
      { metadex := [(maker.property, [(maker.unitPrice, [maker])])], mp_tally_map := L,
        t_tradelistdb := tl, p_txlistdb := cl } pnew)
      = .ok ([(maker.unitPrice, [])], x_Trade_after L1 maker (x_Trade_init
      { metadex := [(maker.property, [(maker.unitPrice, [maker])])], mp_tally_map := L,
        t_tradelistdb := tl, p_txlistdb := cl } pnew) F D) := by
    rw [x_Trade_prices]
    have e0 : (x_Trade_init
      { metadex := [(maker.property, [(maker.unitPrice, [maker])])], mp_tally_map := L,
        t_tradelistdb := tl, p_txlistdb := cl } pnew).pnew = pnew := rfl
    rw [e0, hip, hup, if_neg (lt_irrefl _), ← hup, hoffers]
    simp only
    rw [if_pos hsat]
  have hx : x_Trade
      { metadex := [(maker.property, [(maker.unitPrice, [maker])])], mp_tally_map := L,
        t_tradelistdb := tl, p_txlistdb := cl } pnew
      = .ok { ret := (x_Trade_after L1 maker (x_Trade_init
                { metadex := [(maker.property, [(maker.unitPrice, [maker])])],
                  mp_tally_map := L, t_tradelistdb := tl, p_txlistdb := cl } pnew) F D).NewReturn,
              pnew := (x_Trade_after L1 maker (x_Trade_init
                { metadex := [(maker.property, [(maker.unitPrice, [maker])])],
                  mp_tally_map := L, t_tradelistdb := tl, p_txlistdb := cl } pnew) F D).pnew,
              state := { metadex := [(maker.property, [(maker.unitPrice, [])])],
                         mp_tally_map := L1,
                         t_tradelistdb := (x_Trade_after L1 maker (x_Trade_init
                { metadex := [(maker.property, [(maker.unitPrice, [maker])])],
                  mp_tally_map := L, t_tradelistdb := tl, p_txlistdb := cl } pnew) F D).tradelist,
                         p_txlistdb := cl } } := by
    unfold x_Trade
    have hg : get_Prices [(maker.property, [(maker.unitPrice, [maker])])] pnew.desired_property
        = some [(maker.unitPrice, [maker])] := by
      rw [e_des]
      simp [get_Prices, mapFind]
    simp only [hg, hprices]
    rw [e_des]
    simp [mapReplace, x_Trade_after]
  refine ⟨{ metadex := [(maker.property, [(maker.unitPrice, [])])], mp_tally_map := L1,
            t_tradelistdb := (x_Trade_after L1 maker (x_Trade_init
                { metadex := [(maker.property, [(maker.unitPrice, [maker])])],
                  mp_tally_map := L, t_tradelistdb := tl, p_txlistdb := cl } pnew) F D).tradelist,
            p_txlistdb := cl }, ?_, ?_, ?_, ?_, ?_, ?_⟩
  · unfold MetaDEx_ADD
    simp only
    rw [hnew]
    have hpos : ¬ (0 ≥ pnew.unitPrice) := by
      rw [hnup]
      exact not_le.mpr (div_pos hFq hDq)
    rw [if_neg hpos, hx]
    simp only
    rw [if_neg (by rw [hzero]; exact lt_irrefl _)]
  · show L1 sender maker.desired_property .BALANCE = _
    rw [x_Trade_transfer_apply hL1, e_addr, e_prop, e_des]
    simp [hadr, Ne.symm hadr, hpp, Ne.symm hpp]
    ring
  · show L1 sender maker.property .BALANCE = _
    rw [x_Trade_transfer_apply hL1, e_addr, e_prop, e_des]
    simp [hadr, Ne.symm hadr, hpp, Ne.symm hpp]
  · show L1 maker.addr maker.desired_property .BALANCE = _
    rw [x_Trade_transfer_apply hL1, e_addr, e_prop, e_des]
    simp [hadr, Ne.symm hadr, hpp, Ne.symm hpp]
  · show L1 maker.addr maker.property .METADEX_RESERVE = _
    rw [x_Trade_transfer_reserve hL1, if_pos ⟨rfl, rfl⟩]
    ring
  · simp [allOrders, pricesOrders]

/-- C9, at the first scenario: `F = 100` of property 3, `D = 200` of
property 1. -/
theorem C9_exact_match_witness :
    exMaker.amount_forsale = 100 ∧ exMaker.amount_desired = 200 ∧
    exMaker.amount_remaining = 100 ∧ exMaker.property = 3 ∧ exMaker.desired_property = 1 ∧
    exMaker.addr ≠ "taker" ∧
    (100 : Int) ≤ exLedger exMaker.addr exMaker.property .METADEX_RESERVE ∧
    (200 : Int) ≤ exLedger "taker" exMaker.desired_property .BALANCE ∧
    ∃ s1, MetaDEx_ADD (-80000)
        { metadex := [(exMaker.property, [(exMaker.unitPrice, [exMaker])])],
          mp_tally_map := exLedger, t_tradelistdb := [], p_txlistdb := [] }
        "taker" exMaker.desired_property 200 11 exMaker.property 100 78 1 = .ok (0, s1) ∧
      s1.mp_tally_map "taker" exMaker.desired_property .BALANCE
        = exLedger "taker" exMaker.desired_property .BALANCE - 200 ∧
      s1.mp_tally_map "taker" exMaker.property .BALANCE
        = exLedger "taker" exMaker.property .BALANCE + 100 ∧
      s1.mp_tally_map exMaker.addr exMaker.desired_property .BALANCE
        = exLedger exMaker.addr exMaker.desired_property .BALANCE + 200 ∧
      s1.mp_tally_map exMaker.addr exMaker.property .METADEX_RESERVE
        = exLedger exMaker.addr exMaker.property .METADEX_RESERVE - 100 ∧
      allOrders s1.metadex = [] :=
  ⟨by decide, by decide, by decide, by decide, by decide, by decide!, by decide!, by decide!,
    C9_exact_match (-80000) exMaker exLedger [] [] "taker" 11 78 1 100 200 (by decide)
      (by decide) (by decide) (by decide) (by decide) (by decide) (by decide) (by decide!)
      exState_nonneg (by decide!) (by decide!)⟩

/-! ## Price-time priority -/

theorem inversePrice_eq_inv (o : CMPMetaDEx) (h : 0 < o.unitPrice) :
    o.inversePrice = (o.unitPrice)⁻¹ := by
  unfold CMPMetaDEx.unitPrice at h ⊢
  unfold CMPMetaDEx.inversePrice
  by_cases hF : o.amount_forsale ≠ 0
  · rw [if_pos hF] at h ⊢
    have hD : o.amount_desired ≠ 0 := by
      intro hD
      rw [hD] at h
      simp at h
    rw [if_pos hD, inv_div]
  · rw [if_neg hF] at h
    exact absurd h (lt_irrefl _)

/-- A taker whose remaining amount is below the price of a level cannot buy a
whole unit from any order of the level: the loop body decides on no fill. -/
theorem x_Trade_outcome_no_fill (sellersPrice : ℚ) (pold pnew : CMPMetaDEx)
    (hp : 0 < sellersPrice) (h0 : 0 ≤ pnew.amount_remaining)
    (hlt : (pnew.amount_remaining : ℚ) < sellersPrice) (bg sg : Int) :
    x_Trade_outcome sellersPrice pold pnew ≠ .fill bg sg := by
  intro h
  obtain ⟨hkey, _, hro, _, _, _, hbg, hne, _⟩ := x_Trade_outcome_fill sellersPrice pold pnew bg sg h
  apply hne
  rw [hbg]
  have hu : 0 < pold.unitPrice := by rw [hkey]; exact hp
  have hrq : (0 : ℚ) ≤ (pnew.amount_remaining : ℚ) := by exact_mod_cast h0
  have hnn : (0 : ℚ) ≤ (pnew.amount_remaining : ℚ) * pold.inversePrice := by
    rw [inversePrice_eq_inv pold hu]
    have := inv_pos.mpr hu
    positivity
  have hfl : ⌊(pnew.amount_remaining : ℚ) * pold.inversePrice⌋ = 0 := by
    rw [Int.floor_eq_iff]
    refine ⟨by simpa using hnn, ?_⟩
    rw [inversePrice_eq_inv pold hu, hkey]
    have : (pnew.amount_remaining : ℚ) * sellersPrice⁻¹ < 1 := by
      rw [← div_eq_mul_inv, div_lt_one hp]
      exact hlt
    simpa using this
  simp only [nCouldBuy]
  rw [xToInt128_floor _ hnn, hfl, if_pos hro]

/-- With such a taker the inner loop ends, if it ends, with the level and the
loop state as they were. -/
theorem x_Trade_offers_no_fill (sellersPrice : ℚ) (hp : 0 < sellersPrice) :
    ∀ (rest : List CMPMetaDEx) (pofferSet : md_Set) (st : TradeState)
      (res : md_Set × TradeState),
      0 ≤ st.pnew.amount_remaining → (st.pnew.amount_remaining : ℚ) < sellersPrice →
      x_Trade_offers sellersPrice rest pofferSet st = .ok res → res = (pofferSet, st) := by
  intro rest
  induction rest with
  | nil =>
    intro pofferSet st res _ _ h
    simp only [x_Trade_offers] at h
    cases h
    rfl
  | cons c rest ih =>
    intro pofferSet st res h0 hlt h
    rw [x_Trade_offers] at h
    cases ho : x_Trade_outcome sellersPrice c st.pnew with
    | assertFailed a => rw [ho] at h; cases h
    | nextOffer =>
      rw [ho] at h
      exact ih pofferSet st res h0 hlt h
    | fill bg sg => exact absurd ho (x_Trade_outcome_no_fill sellersPrice c st.pnew hp h0 hlt bg sg)

/-- After a fill that leaves the maker with something, the taker has less left
than the price of the level. -/
theorem partial_fill_remainder (sellersPrice : ℚ) (pold pnew : CMPMetaDEx) (bg sg : Int)
    (hc : Candidate sellersPrice pold pnew)
    (ho : x_Trade_outcome sellersPrice pold pnew = .fill bg sg)
    (hleft : 0 < pold.amount_remaining - bg) :
    0 < sellersPrice ∧ 0 ≤ pnew.amount_remaining - sg ∧
    ((pnew.amount_remaining - sg : Int) : ℚ) < sellersPrice := by
  obtain ⟨hkey, _, _, _, _, hF, hD, hro, _, _, hrn, hrange⟩ := hc
  obtain ⟨_, _, _, _, _, _, hbg, hne, hpay, _, _, _, hnleft, _⟩ :=
    x_Trade_outcome_fill sellersPrice pold pnew bg sg ho
  have hFq : (0 : ℚ) < (pold.amount_forsale : ℚ) := by exact_mod_cast hF
  have hDq : (0 : ℚ) < (pold.amount_desired : ℚ) := by exact_mod_cast hD
  have hprice : sellersPrice = (pold.amount_desired : ℚ) / (pold.amount_forsale : ℚ) := by
    rw [← hkey, unitPrice_pos_eq pold hF]
  have hpos : 0 < sellersPrice := by rw [hprice]; positivity
  refine ⟨hpos, hnleft, ?_⟩
  -- the units bought are the floor, since the cap by the maker's amount was not reached
  have hfloor : bg = ⌊((pnew.amount_remaining : ℚ) * (pold.amount_forsale : ℚ))
      / (pold.amount_desired : ℚ)⌋ := by
    have h1 := nCouldBuy_eq pold pnew hF hD hrn.le
    rw [← hbg] at h1
    rcases min_choice ⌊((pnew.amount_remaining : ℚ) * (pold.amount_forsale : ℚ))
      / (pold.amount_desired : ℚ)⌋ pold.amount_remaining with h2 | h2
    · rw [h1, h2]
    · rw [h2] at h1
      omega
  have hn0 := nCouldBuy_nonneg pold pnew hF hD hro.le hrn.le
  have hbpos : 0 < nCouldBuy pold pnew := lt_of_le_of_ne hn0 (by rw [← hbg]; exact Ne.symm hne)
  obtain ⟨hpay2, _, _⟩ := nWouldPay_eq pold pnew hF hD hrn.le hrange hbpos
  rw [hpay] at hpay2
  have hsg : sg = ⌈((bg : Int) : ℚ) * (pold.amount_desired : ℚ) / (pold.amount_forsale : ℚ)⌉ := by
    rw [hbg]
    exact Option.some.inj hpay2
  have h3 : ((pnew.amount_remaining : ℚ) * (pold.amount_forsale : ℚ))
      / (pold.amount_desired : ℚ) < (bg : ℚ) + 1 := by
    rw [hfloor]
    exact Int.lt_floor_add_one _
  have h4 : ((bg : Int) : ℚ) * (pold.amount_desired : ℚ) / (pold.amount_forsale : ℚ) ≤ (sg : ℚ) := by
    rw [hsg]
    exact Int.le_ceil _
  rw [div_lt_iff₀ hDq] at h3
  rw [div_le_iff₀ hFq] at h4
  rw [hprice, lt_div_iff₀ hFq]
  push_cast
  nlinarith

/-- C6 (as amended): price-time priority. When the iterator of the inner loop
of `x_Trade` stands at an order `A` of an ordered level, with `B` later in the
level (so `(A.block, A.idx) < (B.block, B.idx)`), one of four things happens.
The taker cannot buy one unit at the price of the level: nothing in the level
changes. `A` is filled in part: it keeps its place with the reduced amount and
no later order is touched. `A` is filled completely: it is erased, and only then
does the loop go on to the later orders. Or `A` is passed over by the
effective-price check (its rounded-up cost per unit exceeds the taker's limit):
it stays as it is and the loop goes on to the later orders, which may be
filled. -/
theorem C6_price_time_priority (sellersPrice : ℚ) (pre rest : List CMPMetaDEx)
    (A B : CMPMetaDEx) (st : TradeState) (res : md_Set × TradeState)
    (hs : SetSorted (pre ++ A :: rest)) (hB : B ∈ rest)
    (hA : Candidate sellersPrice A st.pnew)
    (hrun : x_Trade_offers sellersPrice (A :: rest) (pre ++ A :: rest) st = .ok res) :
    MetaDEx_compare A B = true ∧ PriorityCases sellersPrice pre rest A st res := by
  unfold PriorityCases
  constructor
  · unfold SetSorted at hs
    rw [List.pairwise_append] at hs
    exact (List.pairwise_cons.mp hs.2.1).1 B hB
  have hcand := x_Trade_outcome_candidate sellersPrice A st.pnew hA
  rw [x_Trade_offers] at hrun
  by_cases hz : nCouldBuy A st.pnew = 0
  · -- no unit can be bought: the whole level is passed over
    left
    refine ⟨hz, ?_⟩
    rw [if_pos hz] at hcand
    rw [hcand] at hrun
    simp only at hrun
    obtain ⟨hkey, _, _, _, _, hF, hD, hro, _, _, hrn, _⟩ := hA
    have hFq : (0 : ℚ) < (A.amount_forsale : ℚ) := by exact_mod_cast hF
    have hDq : (0 : ℚ) < (A.amount_desired : ℚ) := by exact_mod_cast hD
    have hprice : sellersPrice = (A.amount_desired : ℚ) / (A.amount_forsale : ℚ) := by
      rw [← hkey, unitPrice_pos_eq A hF]
    have hpos : 0 < sellersPrice := by rw [hprice]; positivity
    have hfl : ⌊((st.pnew.amount_remaining : ℚ) * (A.amount_forsale : ℚ))
        / (A.amount_desired : ℚ)⌋ = 0 := by
      have h1 := nCouldBuy_eq A st.pnew hF hD hrn.le
      rw [hz] at h1
      rcases min_choice ⌊((st.pnew.amount_remaining : ℚ) * (A.amount_forsale : ℚ))
        / (A.amount_desired : ℚ)⌋ A.amount_remaining with h2 | h2
      · rw [h2] at h1; exact h1.symm
      · rw [h2] at h1; omega
    have hlt : (st.pnew.amount_remaining : ℚ) < sellersPrice := by
      have := Int.lt_floor_add_one (((st.pnew.amount_remaining : ℚ) * (A.amount_forsale : ℚ))
        / (A.amount_desired : ℚ))
      rw [hfl, div_lt_iff₀ hDq] at this
      rw [hprice, lt_div_iff₀ hFq]
      push_cast at this
      linarith
    exact x_Trade_offers_no_fill sellersPrice hpos rest _ st res hrn.le hlt hrun
  · rw [if_neg hz] at hcand
    by_cases he : ((⌈((nCouldBuy A st.pnew : Int) : ℚ) * (A.amount_desired : ℚ)
            / (A.amount_forsale : ℚ)⌉ : Int) : ℚ) / ((nCouldBuy A st.pnew : Int) : ℚ)
          > st.pnew.inversePrice
    · -- passed over by the effective-price check
      right; right; right
      rw [if_pos he] at hcand
      rw [hcand] at hrun
      exact ⟨hz, he, hrun⟩
    · rw [if_neg he] at hcand
      rw [hcand] at hrun
      simp only at hrun
      cases ht : x_Trade_transfer st.tally A st.pnew (nCouldBuy A st.pnew)
          ⌈((nCouldBuy A st.pnew : Int) : ℚ) * (A.amount_desired : ℚ)
            / (A.amount_forsale : ℚ)⌉ with
      | none => rw [ht] at hrun; cases hrun
      | some L =>
        rw [ht] at hrun
        simp only at hrun
        rw [x_Trade_replace_mid pre rest A _ hs] at hrun
        by_cases hleft : 0 < A.amount_remaining - nCouldBuy A st.pnew
        · -- filled in part: the taker has less left than the price
          right; left
          refine ⟨_, _, L, hcand, hleft, ht, ?_⟩
          rw [if_pos hleft] at hrun
          obtain ⟨hpos, h0, hlt⟩ := partial_fill_remainder sellersPrice A st.pnew _ _ hA hcand hleft
          by_cases hsat : (x_Trade_after L A st (nCouldBuy A st.pnew)
              ⌈((nCouldBuy A st.pnew : Int) : ℚ) * (A.amount_desired : ℚ)
                / (A.amount_forsale : ℚ)⌉).bBuyerSatisfied = true
          · rw [if_pos hsat] at hrun
            split_ifs at hrun
            cases hrun
            simp
          · rw [if_neg hsat] at hrun
            have h0' : 0 ≤ (x_Trade_after L A st (nCouldBuy A st.pnew)
                ⌈((nCouldBuy A st.pnew : Int) : ℚ) * (A.amount_desired : ℚ)
                  / (A.amount_forsale : ℚ)⌉).pnew.amount_remaining := h0
            have hlt' : (((x_Trade_after L A st (nCouldBuy A st.pnew)
                ⌈((nCouldBuy A st.pnew : Int) : ℚ) * (A.amount_desired : ℚ)
                  / (A.amount_forsale : ℚ)⌉).pnew.amount_remaining : Int) : ℚ)
                < sellersPrice := hlt
            have := x_Trade_offers_no_fill sellersPrice hpos rest
              ((pre ++ [A.setAmountRemaining (A.amount_remaining - nCouldBuy A st.pnew)]) ++ rest)
              (x_Trade_after L A st (nCouldBuy A st.pnew)
                ⌈((nCouldBuy A st.pnew : Int) : ℚ) * (A.amount_desired : ℚ)
                  / (A.amount_forsale : ℚ)⌉) res h0' hlt' hrun
            rw [this]
            simp
        · -- filled completely
          right; right; left
          have hfull : nCouldBuy A st.pnew = A.amount_remaining := by
            have := nCouldBuy_le_remaining A st.pnew
            omega
          rw [if_neg hleft] at hrun
          rw [hfull] at hcand ht hrun
          refine ⟨_, L, hcand, ht, ?_⟩
          by_cases hsat : (x_Trade_after L A st A.amount_remaining
              ⌈((A.amount_remaining : Int) : ℚ) * (A.amount_desired : ℚ)
                / (A.amount_forsale : ℚ)⌉).bBuyerSatisfied = true
          · left
            rw [if_pos hsat] at hrun
            split_ifs at hrun
            cases hrun
            exact ⟨hsat, by simp⟩
          · right
            rw [if_neg hsat] at hrun
            refine ⟨by simpa using hsat, ?_⟩
            simpa using hrun

theorem Reachable_add_stateOf (isMain isTest : Nat → Bool) (ME : Int) (s : State)
    (sender : String) (prop : Nat) (amount : Int) (block : Int) (pd : Nat) (ad : Int)
    (txid idx : Nat) (hs : Reachable isMain isTest ME s)
    (h : (MetaDEx_ADD ME s sender prop amount block pd ad txid idx).toOption.isSome = true) :
    Reachable isMain isTest ME
      (stateOf (MetaDEx_ADD ME s sender prop amount block pd ad txid idx) s) := by
  obtain ⟨r, hr⟩ := except_ok_of_isSome _ h
  have : stateOf (MetaDEx_ADD ME s sender prop amount block pd ad txid idx) s = r.2 := by
    rw [hr]; rfl
  rw [this]
  exact Reachable.add s sender prop amount block pd ad txid idx r hs hr

theorem ex6State3_reachable :
    Reachable (fun _ => true) (fun _ => false) (-80000) ex6State3 := by
  have h0 : Reachable (fun _ => true) (fun _ => false) (-80000) ex6State0 :=
    Reachable.init ex6Ledger [] [] (by intro a p; simp [ex6Ledger])
  have h1 : Reachable (fun _ => true) (fun _ => false) (-80000) ex6State1 :=
    Reachable_add_stateOf _ _ _ _ _ _ _ _ _ _ _ _ h0 (by decide!)
  have h2 : Reachable (fun _ => true) (fun _ => false) (-80000) ex6State2 :=
    Reachable_add_stateOf _ _ _ _ _ _ _ _ _ _ _ _ h1 (by decide!)
  exact Reachable_add_stateOf _ _ _ _ _ _ _ _ _ _ _ _ h2 (by decide!)

/-- C6, at the level of Alice and Bob when Dave's order arrives: the loop
stands at Alice's order with Bob's order after it. -/
theorem C6_price_time_priority_witness :
    SetSorted ([] ++ ex6A :: [ex6B]) ∧ ex6B ∈ [ex6B] ∧
    Candidate (3 / 2) ex6A (x_Trade_init ex6State3 ex6Taker).pnew ∧
    ∃ res, x_Trade_offers (3 / 2) (ex6A :: [ex6B]) ([] ++ ex6A :: [ex6B])
        (x_Trade_init ex6State3 ex6Taker) = .ok res ∧
      MetaDEx_compare ex6A ex6B = true ∧
      PriorityCases (3 / 2) [] [ex6B] ex6A (x_Trade_init ex6State3 ex6Taker) res := by
  have hs : SetSorted ([] ++ ex6A :: [ex6B]) := by
    simp only [SetSorted, List.nil_append, List.pairwise_cons, List.mem_singleton,
      forall_eq, List.not_mem_nil, false_implies, implies_true, List.Pairwise.nil, and_true]
    decide
  have hA : Candidate (3 / 2) ex6A (x_Trade_init ex6State3 ex6Taker).pnew := by decide!
  obtain ⟨res, hres⟩ := except_ok_of_isSome
    (x_Trade_offers (3 / 2) (ex6A :: [ex6B]) ([] ++ ex6A :: [ex6B])
      (x_Trade_init ex6State3 ex6Taker)) (by decide!)
  have key := C6_price_time_priority (3 / 2) [] [ex6B] ex6A ex6B
    (x_Trade_init ex6State3 ex6Taker) res hs (List.mem_singleton.mpr rfl) hA hres
  exact ⟨hs, List.mem_singleton.mpr rfl, hA, res, hres, key.1, key.2⟩

/-- C6 as stated fails in a reachable book: after the orders of Alice, Carol
and Bob the level `3/2` of property 3 holds Alice's order (one unit left)
before Bob's, both for the same pair; Dave's order is then matched by `x_Trade`
with one single fill, against Bob's order (`txid` 72), which leaves the book,
while Alice's order still rests unchanged. -/
theorem C6_counterexample :
    Reachable (fun _ => true) (fun _ => false) (-80000) ex6State3 ∧
    ex6State3.metadex = [(3, [(3 / 2, [ex6A, ex6B])])] ∧
    MetaDEx_compare ex6A ex6B = true ∧
    ex6A.property = ex6B.property ∧ ex6A.desired_property = ex6B.desired_property ∧
    (x_Trade ex6State3 ex6Taker).toOption.map
      (fun r => (r.state.t_tradelistdb.drop ex6State3.t_tradelistdb.length).map
        (fun row => row.txid1)) = some [ex6B.txid] ∧
    (x_Trade ex6State3 ex6Taker).toOption.map (fun r => r.state.metadex)
      = some [(3, [(3 / 2, [ex6A])])] := by
  refine ⟨ex6State3_reachable, by decide!, by decide, by decide, by decide, by decide!,
    by decide!⟩

/-! ## Directional rounding -/

/-- C17: for every positive rational, given in lowest terms by its numerator
and denominator, `xToInt128` without rounding up is the floor, the quotient of
numerator by denominator; with rounding up it is `1 + (num - 1) / den`, the
ceiling; and `xToInt64` returns the same integer when it lies in
`[-2^63, 2^63 - 1]` and fails its assertion otherwise. -/
theorem C17_directional_rounding (value : ℚ) (hpos : 0 < value) :
    0 < value.num ∧ 0 < value.den ∧ value.num.natAbs.Coprime value.den ∧
    xToInt128 value false = value.num / (value.den : Int) ∧
    xToInt128 value false = ⌊value⌋ ∧
    xToInt128 value true = 1 + (value.num - 1) / (value.den : Int) ∧
    xToInt128 value true = ⌈value⌉ ∧
    ∀ fRoundUp : Bool,
      (-(2 : Int) ^ 63 ≤ xToInt128 value fRoundUp ∧ xToInt128 value fRoundUp ≤ 2 ^ 63 - 1 →
        xToInt64 value fRoundUp = some (xToInt128 value fRoundUp)) ∧
      (¬ (-(2 : Int) ^ 63 ≤ xToInt128 value fRoundUp ∧ xToInt128 value fRoundUp ≤ 2 ^ 63 - 1) →
        xToInt64 value fRoundUp = none) := by
  have hnum : 0 < value.num := Rat.num_pos.mpr hpos
  have hden : 0 < value.den := value.den_pos
  have hf := xToInt128_floor value hpos.le
  have hc := xToInt128_ceil value hpos
  refine ⟨hnum, hden, value.reduced, ?_, hf, ?_, hc, ?_⟩
  · rw [hf, Rat.floor_def]
  · have h1 : 0 ≤ value.num - 1 := by omega
    simp only [xToInt128, Bool.not_true, Bool.false_eq_true, if_false]
    rw [Int.tdiv_eq_ediv h1]
    exact Int.natCast_nonneg _
  · intro b
    constructor
    · intro h
      simp only [xToInt64, rangeInt64, Bool.and_eq_true, decide_eq_true_eq]
      rw [if_pos h]
    · intro h
      simp only [xToInt64, rangeInt64, Bool.and_eq_true, decide_eq_true_eq]
      rw [if_neg h]

/-- C17 at the rational 7/2: the quotient is 3, the rounded-up quotient 4. -/
theorem C17_directional_rounding_witness :
    (0 : ℚ) < 7 / 2 ∧ xToInt128 (7 / 2) false = 3 ∧ xToInt128 (7 / 2) true = 4 ∧
    xToInt128 (7 / 2) true = ⌈((7 : ℚ) / 2)⌉ ∧ xToInt64 (7 / 2) true = some 4 :=
  ⟨by norm_num, by decide!, by decide!,
    (C17_directional_rounding (7 / 2) (by norm_num)).2.2.2.2.2.2.1, by decide!⟩

/-! ## Effective-price rejection -/

/-- C12: when the inner loop of `x_Trade` looks at a candidate maker of a
crossing level with `nCouldBuy ≥ 1` and the effective price
`⌈nCouldBuy * unitPrice⌉ / nCouldBuy` exceeds the taker's inverse price, the
loop body makes no fill: it goes on with the next resting order, with the
level, the ledger, the trade log and the taker (so its remaining amount) as
they were. Such a case exists, with positive amounts on both sides. -/
theorem C12_effective_price_rejection :
    (∀ (sellersPrice : ℚ) (pold : CMPMetaDEx) (rest : List CMPMetaDEx) (pofferSet : md_Set)
        (st : TradeState),
        Candidate sellersPrice pold st.pnew → 1 ≤ nCouldBuy pold st.pnew →
        ((⌈((nCouldBuy pold st.pnew : Int) : ℚ) * pold.unitPrice⌉ : Int) : ℚ)
            / ((nCouldBuy pold st.pnew : Int) : ℚ) > st.pnew.inversePrice →
        x_Trade_outcome sellersPrice pold st.pnew = .nextOffer ∧
        x_Trade_offers sellersPrice (pold :: rest) pofferSet st
          = x_Trade_offers sellersPrice rest pofferSet st) ∧
    (∃ (sellersPrice : ℚ) (pold pnew : CMPMetaDEx),
        Candidate sellersPrice pold pnew ∧ 1 ≤ nCouldBuy pold pnew ∧
        ((⌈((nCouldBuy pold pnew : Int) : ℚ) * pold.unitPrice⌉ : Int) : ℚ)
            / ((nCouldBuy pold pnew : Int) : ℚ) > pnew.inversePrice) := by
  constructor
  · intro sellersPrice pold rest pofferSet st hc hn heff
    have hF : 0 < pold.amount_forsale := hc.2.2.2.2.2.1
    have hout : x_Trade_outcome sellersPrice pold st.pnew = .nextOffer := by
      rw [x_Trade_outcome_candidate sellersPrice pold st.pnew hc]
      rw [if_neg (by omega)]
      rw [unitPrice_pos_eq pold hF, ← mul_div_assoc] at heff
      rw [if_pos heff]
    refine ⟨hout, ?_⟩
    rw [x_Trade_offers, hout]
  · exact ⟨3 / 2, ex6A, ex6Taker, by decide!, by decide!, by decide!⟩

/-- C12 at the order of Alice with one unit left, selling at 3/2, and the
order of Dave, whose limit is 8/5: one unit would cost 2, and 2 > 8/5. -/
theorem C12_effective_price_rejection_witness :
    Candidate (3 / 2) ex6A ex6Taker ∧ nCouldBuy ex6A ex6Taker = 1 ∧
    ex6Taker.inversePrice = 8 / 5 ∧
    x_Trade_outcome (3 / 2) ex6A ex6Taker = .nextOffer ∧
    x_Trade_offers (3 / 2) [ex6A, ex6B] [ex6A, ex6B] (x_Trade_init ex6State3 ex6Taker)
      = x_Trade_offers (3 / 2) [ex6B] [ex6A, ex6B] (x_Trade_init ex6State3 ex6Taker) :=
  ⟨by decide!, by decide!, by decide!,
    (C12_effective_price_rejection.1 (3 / 2) ex6A [ex6B] [ex6A, ex6B]
      (x_Trade_init ex6State3 ex6Taker) (by decide!) (by decide!) (by decide!)).1,
    (C12_effective_price_rejection.1 (3 / 2) ex6A [ex6B] [ex6A, ex6B]
      (x_Trade_init ex6State3 ex6Taker) (by decide!) (by decide!) (by decide!)).2⟩

/-! ## No representable fill -/

theorem mapReplace_self {κ β : Type} [DecidableEq κ] (k : κ) (v : β) :
    ∀ (l : List (κ × β)), mapFind k l = some v → mapReplace k v l = l := by
  intro l
  induction l with
  | nil => intro h; rfl
  | cons e l ih =>
    obtain ⟨k1, v1⟩ := e
    intro h
    by_cases h1 : k1 = k
    · simp only [mapFind, if_pos h1] at h
      cases h
      simp only [mapReplace, if_pos h1]
    · simp only [mapFind, if_neg h1] at h
      simp only [mapReplace, if_neg h1, ih h]

/-- The levels of the book after a successful `MetaDEx_INSERT`: the level of
the order has received it, every other level is as it was. -/
theorem levelAt_MetaDEx_INSERT (b : md_PropertiesMap) (o : CMPMetaDEx)
    (h : (MetaDEx_INSERT b o).2 = true) (p : Nat) (q : ℚ) :
    levelAt (MetaDEx_INSERT b o).1 p q =
      if p = o.property ∧ q = o.unitPrice then (md_Set_insert o (levelAt b p q)).1
      else levelAt b p q := by
  rw [MetaDEx_INSERT_eq] at h ⊢
  by_cases hr : (md_Set_insert o (((get_Prices b o.property).bind
            (fun pm => get_Indexes pm o.unitPrice)).getD [])).2 = false
  · rw [if_pos hr] at h
    cases h
  · rw [if_neg hr]
    show levelAt (mapAssign _ _ b) p q = _
    unfold levelAt get_Prices
    rw [mapFind_mapAssign]
    by_cases hp : p = o.property
    · rw [if_pos hp, hp]
      show (get_Indexes (mapAssign _ _ _) q).getD [] = _
      unfold get_Indexes
      rw [mapFind_mapAssign]
      by_cases hq : q = o.unitPrice
      · rw [if_pos hq, if_pos ⟨rfl, hq⟩, hq]
        rfl
      · rw [if_neg hq, if_neg (fun hh => hq hh.2)]
        cases hg : mapFind o.property b with
        | none => rfl
        | some pm => rfl
    · rw [if_neg hp, if_neg (fun hh => hp hh.1)]

/-- The inner loop of `x_Trade` over resting orders each of which is passed
over returns with the level and the loop state as they were. -/
theorem x_Trade_offers_skip (sellersPrice : ℚ) (pofferSet : md_Set) (st : TradeState) :
    ∀ (rest : List CMPMetaDEx),
      (∀ o ∈ rest, x_Trade_outcome sellersPrice o st.pnew = .nextOffer) →
      x_Trade_offers sellersPrice rest pofferSet st = .ok (pofferSet, st) := by
  intro rest
  induction rest with
  | nil => intro _; rfl
  | cons c rest ih =>
    intro h
    rw [x_Trade_offers, h c (List.mem_cons_self _ _)]
    exact ih (fun o ho => h o (List.mem_cons_of_mem _ ho))

/-- The outer loop of `x_Trade` over levels each of which is beyond the limit
or holds only orders that are passed over returns with the price map and the
loop state as they were. -/
theorem x_Trade_prices_skip (st : TradeState) (hsat : st.bBuyerSatisfied = false) :
    ∀ (pm : md_PricesMap),
      (∀ lvl ∈ pm, st.pnew.inversePrice < lvl.1 ∨
        ∀ o ∈ lvl.2, x_Trade_outcome lvl.1 o st.pnew = .nextOffer) →
      x_Trade_prices pm st = .ok (pm, st) := by
  intro pm
  induction pm with
  | nil => intro _; rfl
  | cons lvl pm ih =>
    obtain ⟨price, set⟩ := lvl
    intro h
    have ih1 := ih (fun l hl => h l (List.mem_cons_of_mem _ hl))
    rw [x_Trade_prices]
    by_cases hlt : st.pnew.inversePrice < price
    · rw [if_pos hlt, ih1]
    · rw [if_neg hlt]
      rcases h (price, set) (List.mem_cons_self _ _) with h1 | h1
      · exact absurd h1 hlt
      · rw [x_Trade_offers_skip price set st set h1]
        simp only [hsat, Bool.false_eq_true, if_false]
        rw [ih1]

/-- The loop body of `x_Trade` passes over a resting order that rests at its
price key and either wants another property or is a candidate of which the
incoming order cannot buy one unit. -/
theorem x_Trade_outcome_skip (sellersPrice : ℚ) (pold pnew : CMPMetaDEx)
    (hkey : pold.unitPrice = sellersPrice)
    (h : pold.desired_property ≠ pnew.property ∨
      (Candidate sellersPrice pold pnew ∧ nCouldBuy pold pnew = 0)) :
    x_Trade_outcome sellersPrice pold pnew = .nextOffer := by
  rcases h with h | ⟨hc, hn⟩
  · unfold x_Trade_outcome
    rw [if_neg (not_not.mpr hkey), if_pos h]
  · rw [x_Trade_outcome_candidate sellersPrice pold pnew hc, if_pos hn]

/-- When every resting order of the opposing book that wants the property of
the incoming order is beyond its limit or gives `nCouldBuy = 0`, `x_Trade`
returns `NOTHING` and leaves the incoming order and the state as they were. -/
theorem x_Trade_nothing (s : State) (pnew : CMPMetaDEx)
    (hFn : 0 < pnew.amount_forsale) (hDn : 0 < pnew.amount_desired)
    (hrn : 0 < pnew.amount_remaining) (hmax : pnew.amount_remaining ≤ 2 ^ 63 - 1)
    (hne : pnew.property ≠ pnew.desired_property)
    (hbook : ∀ pm, get_Prices s.metadex pnew.desired_property = some pm →
      ∀ lvl ∈ pm, ∀ o ∈ lvl.2, o.unitPrice = lvl.1 ∧ o.property = pnew.desired_property ∧
        0 < o.amount_forsale ∧ 0 < o.amount_desired ∧ 0 < o.amount_remaining)
    (hnofill : ∀ pm, get_Prices s.metadex pnew.desired_property = some pm →
      ∀ o ∈ pricesOrders pm, o.desired_property = pnew.property →
        pnew.inversePrice < o.unitPrice ∨ nCouldBuy o pnew = 0) :
    x_Trade s pnew = .ok { ret := .NOTHING, pnew := pnew, state := s } := by
  unfold x_Trade
  cases hg : get_Prices s.metadex pnew.desired_property with
  | none => rfl
  | some pm =>
    have hskip : x_Trade_prices pm (x_Trade_init s pnew) = .ok (pm, x_Trade_init s pnew) := by
      apply x_Trade_prices_skip _ rfl
      intro lvl hl
      by_cases hlt : (x_Trade_init s pnew).pnew.inversePrice < lvl.1
      · exact Or.inl hlt
      · right
        intro o ho
        obtain ⟨hk, hp, hF, hD, hr⟩ := hbook pm hg lvl hl o ho
        apply x_Trade_outcome_skip _ _ _ hk
        by_cases hd : o.desired_property = pnew.property
        · right
          have hmem : o ∈ pricesOrders pm :=
            List.mem_flatMap.mpr ⟨lvl, hl, ho⟩
          have hle : lvl.1 ≤ pnew.inversePrice := not_lt.mp hlt
          rcases hnofill pm hg o hmem hd with h1 | h1
          · rw [hk] at h1
            exact absurd h1 hlt
          · exact ⟨⟨hk, hle, hne, hp, hd, hF, hD, hr, hFn, hDn, hrn, hmax⟩, h1⟩
        · exact Or.inl hd
    simp only [hskip]
    have hrep : mapReplace pnew.desired_property pm s.metadex = s.metadex :=
      mapReplace_self _ _ _ hg
    rw [hrep]
    rfl

/-- C11: let the resting orders of the opposing book (the book of the desired
property) rest at their price keys with positive amounts, and let each of them
that wants the taker's property either not cross (the taker's inverse price is
below its unit price) or give `nCouldBuy = 0`. Then `MetaDEx_ADD` of a taker
with positive amounts, whose `(block, idx)` is new at its level and whose
`BALANCE` covers the amount for sale, returns 0 without a fill: the trade log
and the cancel log are as before, every level of the book is as before except
the taker's own level, which has received the taker with
`amount_remaining = amount_forsale`, and the only tallies that change are the
taker's `BALANCE` and `METADEX_RESERVE` of the property for sale, by that
amount. -/
theorem C11_no_representable_fill (ME : Int) (s : State) (sender : String) (prop : Nat)
    (amount : Int) (block : Int) (pd : Nat) (ad : Int) (txid idx : Nat)
    (hamt : 0 < amount) (hmax : amount ≤ 2 ^ 63 - 1) (had : 0 < ad) (hne : prop ≠ pd)
    (hbook : ∀ lvl ∈ (get_Prices s.metadex pd).getD [], ∀ o ∈ lvl.2,
      o.unitPrice = lvl.1 ∧ o.property = pd ∧
        0 < o.amount_forsale ∧ 0 < o.amount_desired ∧ 0 < o.amount_remaining)
    (hnofill : ∀ o ∈ pricesOrders ((get_Prices s.metadex pd).getD []),
      o.desired_property = prop →
        (CMPMetaDEx.create sender block prop amount pd ad txid idx .ADD).inversePrice
            < o.unitPrice ∨
          nCouldBuy o (CMPMetaDEx.create sender block prop amount pd ad txid idx .ADD) = 0)
    (hfresh : (MetaDEx_INSERT s.metadex
      (CMPMetaDEx.create sender block prop amount pd ad txid idx .ADD)).2 = true)
    (hbal : amount ≤ s.mp_tally_map sender prop .BALANCE)
    (hres : 0 ≤ s.mp_tally_map sender prop .METADEX_RESERVE) :
    ∃ s1, MetaDEx_ADD ME s sender prop amount block pd ad txid idx = .ok (0, s1) ∧
      s1.t_tradelistdb = s.t_tradelistdb ∧ s1.p_txlistdb = s.p_txlistdb ∧
      s1.metadex = (MetaDEx_INSERT s.metadex
        (CMPMetaDEx.create sender block prop amount pd ad txid idx .ADD)).1 ∧
      (∀ p q, levelAt s1.metadex p q =
        if p = prop ∧ q = (ad : ℚ) / (amount : ℚ) then
          (md_Set_insert (CMPMetaDEx.create sender block prop amount pd ad txid idx .ADD)
            (levelAt s.metadex p q)).1
        else levelAt s.metadex p q) ∧
      (levelAt s1.metadex prop ((ad : ℚ) / (amount : ℚ))).Perm
        (CMPMetaDEx.create sender block prop amount pd ad txid idx .ADD
          :: levelAt s.metadex prop ((ad : ℚ) / (amount : ℚ))) ∧
      (CMPMetaDEx.create sender block prop amount pd ad txid idx .ADD).amount_remaining
        = amount ∧
      (∀ a p k, s1.mp_tally_map a p k = s.mp_tally_map a p k
        + (if a = sender ∧ p = prop ∧ k = .BALANCE then -amount else 0)
        + (if a = sender ∧ p = prop ∧ k = .METADEX_RESERVE then amount else 0)) := by
  have hup : (CMPMetaDEx.create sender block prop amount pd ad txid idx .ADD).unitPrice
      = (ad : ℚ) / (amount : ℚ) := unitPrice_pos_eq _ hamt
  have hupos : 0 < (CMPMetaDEx.create sender block prop amount pd ad txid idx .ADD).unitPrice := by
    rw [hup]
    exact div_pos (by exact_mod_cast had) (by exact_mod_cast hamt)
  have hx : x_Trade s (CMPMetaDEx.create sender block prop amount pd ad txid idx .ADD)
      = .ok { ret := .NOTHING,
              pnew := CMPMetaDEx.create sender block prop amount pd ad txid idx .ADD,
              state := s } := by
    apply x_Trade_nothing s _ hamt had hamt hmax hne
    · intro pm hg
      have hg' : get_Prices s.metadex pd = some pm := hg
      rw [hg'] at hbook
      exact hbook
    · intro pm hg
      have hg' : get_Prices s.metadex pd = some pm := hg
      rw [hg'] at hnofill
      exact hnofill
  obtain ⟨L1, hL1⟩ := update_tally_map_ok
    (show 0 ≤ s.mp_tally_map sender prop .BALANCE + -amount by omega)
  have e1 := (update_tally_map_some hL1).2
  obtain ⟨L2, hL2⟩ := update_tally_map_ok
    (show 0 ≤ L1 sender prop .METADEX_RESERVE + amount by
      rw [e1]; simp; omega)
  have e2 := (update_tally_map_some hL2).2
  have hadd : MetaDEx_ADD ME s sender prop amount block pd ad txid idx
      = .ok (0, State.mk (MetaDEx_INSERT s.metadex
                    (CMPMetaDEx.create sender block prop amount pd ad txid idx .ADD)).1
                  L2 s.t_tradelistdb s.p_txlistdb) := by
    unfold MetaDEx_ADD
    simp only []
    rw [if_neg (not_le.mpr hupos), hx]
    simp only []
    rw [if_pos (show 0 < (CMPMetaDEx.create sender block prop amount pd ad txid idx
      .ADD).amount_remaining from hamt)]
    rw [if_neg (by rw [hfresh]; simp)]
    have hL1' : update_tally_map s.mp_tally_map sender prop
        (-(CMPMetaDEx.create sender block prop amount pd ad txid idx .ADD).amount_remaining)
        .BALANCE = some L1 := hL1
    rw [hL1']
    simp only []
    have hL2' : update_tally_map L1 sender prop
        (CMPMetaDEx.create sender block prop amount pd ad txid idx .ADD).amount_remaining
        .METADEX_RESERVE = some L2 := hL2
    rw [hL2']
  have hlev := levelAt_MetaDEx_INSERT s.metadex
    (CMPMetaDEx.create sender block prop amount pd ad txid idx .ADD) hfresh
  refine ⟨_, hadd, rfl, rfl, rfl, ?_, ?_, rfl, ?_⟩
  · intro p q
    have := hlev p q
    rw [hup] at this
    exact this
  · have h1 := hlev prop ((ad : ℚ) / (amount : ℚ))
    rw [hup, if_pos ⟨rfl, rfl⟩] at h1
    show (levelAt (MetaDEx_INSERT s.metadex _).1 prop _).Perm _
    rw [h1]
    apply (md_Set_insert_perm _ _).1
    have h2 := hfresh
    rw [MetaDEx_INSERT_eq] at h2
    by_cases hr : (md_Set_insert (CMPMetaDEx.create sender block prop amount pd ad txid idx .ADD)
        (((get_Prices s.metadex
          (CMPMetaDEx.create sender block prop amount pd ad txid idx .ADD).property).bind
            (fun pm => get_Indexes pm
              (CMPMetaDEx.create sender block prop amount pd ad txid idx .ADD).unitPrice)).getD
                [])).2 = false
    · rw [if_pos hr] at h2
      cases h2
    · rw [hup] at hr
      simpa using hr
  · intro a p k
    show L2 a p k = _
    rw [e2, e1]

/-- C11 at the third scenario: the maker sells 3 of property 3 for 10 of
property 1 (unit price 10/3), the taker sells 3 of property 1 for 1 of property
3 (inverse price 3); the taker rests with all 3 units. -/
theorem C11_no_representable_fill_witness :
    ex3Taker.inversePrice < ex3Maker.unitPrice ∧ nCouldBuy ex3Maker ex3Taker = 0 ∧
    ∃ s1, MetaDEx_ADD (-80000) ex3State "taker" 1 3 11 3 1 78 1 = .ok (0, s1) ∧
      s1.t_tradelistdb = [] ∧
      levelAt s1.metadex 3 (10 / 3) = [ex3Maker] ∧
      levelAt s1.metadex 1 (1 / 3) = [ex3Taker] ∧
      s1.mp_tally_map "taker" 1 .BALANCE = 997 ∧
      s1.mp_tally_map "taker" 1 .METADEX_RESERVE = 3 ∧
      s1.mp_tally_map "maker" 3 .METADEX_RESERVE = 3 := by
  obtain ⟨s1, h, htl, _, _, hlev, _, _, htally⟩ :=
    C11_no_representable_fill (-80000) ex3State "taker" 1 3 11 3 1 78 1
      (by decide) (by decide) (by decide) (by decide) (by decide!) (by decide!) (by decide!)
      (by decide!) (by decide!)
  refine ⟨by decide!, by decide!, s1, h, htl, ?_, ?_, ?_, ?_, ?_⟩
  · rw [hlev]; decide!
  · rw [hlev]; decide!
  · rw [htally]; decide!
  · rw [htally]; decide!
  · rw [htally]; decide!

/-- The fourth scenario evaluated: against the maker selling 7 for 22 (unit
price 22/7, above the taker's limit 3) the taker rests with all 3 units and no
trade is recorded. -/
theorem scenario4_no_fill :
    ex3Taker.inversePrice < ex4Maker.unitPrice ∧
    (MetaDEx_ADD (-80000) ex4State "taker" 1 3 11 3 1 78 1).toOption.map
      (fun r => (r.1, r.2.t_tradelistdb)) = some (0, []) ∧
    (MetaDEx_ADD (-80000) ex4State "taker" 1 3 11 3 1 78 1).toOption.map
      (fun r => levelAt r.2.metadex 3 (22 / 7)) = some [ex4Maker] ∧
    (MetaDEx_ADD (-80000) ex4State "taker" 1 3 11 3 1 78 1).toOption.map
      (fun r => levelAt r.2.metadex 1 (1 / 3)) = some [ex3Taker] ∧
    (MetaDEx_ADD (-80000) ex4State "taker" 1 3 11 3 1 78 1).toOption.map
      (fun r => (r.2.mp_tally_map "taker" 1 .BALANCE,
        r.2.mp_tally_map "taker" 1 .METADEX_RESERVE,
        r.2.mp_tally_map "maker" 3 .METADEX_RESERVE)) = some (997, 3, 7) :=
  ⟨by decide!, by decide!, by decide!, by decide!, by decide!⟩

/-! ## The cancel operations return -/

/-- The inner cancel loop does not fail when no resting amount is negative, no
`BALANCE` is negative and the reserves cover the amounts of the level in
addition to an amount `extra` set aside; afterwards the reserves still cover
`extra` and no `BALANCE` is negative. -/
theorem MetaDEx_cancel_offers_ok (txid : Nat) (block : Int) (skip : CMPMetaDEx → Bool)
    (extra : String → Nat → Int) (hextra : ∀ a p, 0 ≤ extra a p) :
    ∀ (rest : List CMPMetaDEx) (st : CancelState),
      (∀ o ∈ rest, 0 ≤ o.amount_remaining) →
      (∀ a p, reserved rest a p + extra a p ≤ st.tally a p .METADEX_RESERVE) →
      (∀ a p, 0 ≤ st.tally a p .BALANCE) →
      ∃ res, MetaDEx_cancel_offers txid block skip rest st = .ok res ∧
        (∀ a p, extra a p ≤ res.2.tally a p .METADEX_RESERVE) ∧
        (∀ a p, 0 ≤ res.2.tally a p .BALANCE) := by
  intro rest
  induction rest with
  | nil =>
    intro st _ hcov hbal
    refine ⟨([], st), rfl, ?_, hbal⟩
    intro a p
    show extra a p ≤ st.tally a p .METADEX_RESERVE
    have := hcov a p
    rw [reserved_nil] at this
    omega
  | cons o rest ih =>
    intro st hrem hcov hbal
    have hrem1 : ∀ x ∈ rest, 0 ≤ x.amount_remaining :=
      fun x hx => hrem x (List.mem_cons_of_mem _ hx)
    have ho : 0 ≤ o.amount_remaining := hrem o (List.mem_cons_self _ _)
    have hnn := reserved_nonneg rest hrem1
    rw [MetaDEx_cancel_offers]
    by_cases hs : skip o = true
    · rw [if_pos hs]
      have hcov1 : ∀ a p, reserved rest a p + extra a p ≤ st.tally a p .METADEX_RESERVE := by
        intro a p
        have := hcov a p
        rw [reserved_cons] at this
        split_ifs at this <;> omega
      obtain ⟨res, hres, h1, h2⟩ := ih st hrem1 hcov1 hbal
      rw [hres]
      exact ⟨(o :: res.1, res.2), rfl, h1, h2⟩
    · rw [if_neg hs]
      have hc := hcov o.addr o.property
      rw [reserved_cons, if_pos ⟨rfl, rfl⟩] at hc
      have hn1 := hnn o.addr o.property
      have he1 := hextra o.addr o.property
      obtain ⟨L1, hL1⟩ := update_tally_map_ok
        (show 0 ≤ st.tally o.addr o.property .METADEX_RESERVE + -o.amount_remaining by omega)
      have e1 := (update_tally_map_some hL1).2
      obtain ⟨L2, hL2⟩ := update_tally_map_ok
        (show 0 ≤ L1 o.addr o.property .BALANCE + o.amount_remaining by
          rw [e1]
          have := hbal o.addr o.property
          simp
          omega)
      have e2 := (update_tally_map_some hL2).2
      rw [hL1]
      simp only []
      rw [hL2]
      simp only []
      apply ih _ hrem1
      · intro a p
        show _ ≤ L2 a p .METADEX_RESERVE
        rw [e2, e1]
        have := hcov a p
        rw [reserved_cons] at this
        rw [if_neg (show ¬ (a = o.addr ∧ p = o.property ∧ TallyType.METADEX_RESERVE
          = TallyType.BALANCE) from fun hh => by cases hh.2.2)]
        by_cases hap : a = o.addr ∧ p = o.property
        · rw [if_pos ⟨hap.1, hap.2, rfl⟩]
          rw [if_pos ⟨hap.1.symm, hap.2.symm⟩] at this
          omega
        · rw [if_neg (fun hh => hap ⟨hh.1, hh.2.1⟩)]
          rw [if_neg (fun hh => hap ⟨hh.1.symm, hh.2.symm⟩)] at this
          omega
      · intro a p
        show 0 ≤ L2 a p .BALANCE
        rw [e2, e1]
        have := hbal a p
        rw [if_neg (show ¬ (a = o.addr ∧ p = o.property ∧ TallyType.BALANCE
          = TallyType.METADEX_RESERVE) from fun hh => by cases hh.2.2)]
        by_cases hap : a = o.addr ∧ p = o.property
        · rw [if_pos ⟨hap.1, hap.2, rfl⟩]
          omega
        · rw [if_neg (fun hh => hap ⟨hh.1, hh.2.1⟩)]
          omega

/-- The loop over the price levels does not fail under the same conditions. -/
theorem MetaDEx_cancel_prices_ok (txid : Nat) (block : Int) (skipLevel : ℚ → Bool)
    (skip : CMPMetaDEx → Bool) :
    ∀ (pm : md_PricesMap) (extra : String → Nat → Int) (st : CancelState),
      (∀ a p, 0 ≤ extra a p) →
      (∀ o ∈ pricesOrders pm, 0 ≤ o.amount_remaining) →
      (∀ a p, reserved (pricesOrders pm) a p + extra a p ≤ st.tally a p .METADEX_RESERVE) →
      (∀ a p, 0 ≤ st.tally a p .BALANCE) →
      ∃ res, MetaDEx_cancel_prices txid block skipLevel skip pm st = .ok res ∧
        (∀ a p, extra a p ≤ res.2.tally a p .METADEX_RESERVE) ∧
        (∀ a p, 0 ≤ res.2.tally a p .BALANCE) := by
  intro pm
  induction pm with
  | nil =>
    intro extra st _ _ hcov hbal
    refine ⟨([], st), rfl, ?_, hbal⟩
    intro a p
    show extra a p ≤ st.tally a p .METADEX_RESERVE
    have := hcov a p
    simp only [pricesOrders, List.flatMap_nil, reserved_nil] at this
    omega
  | cons lvl pm ih =>
    obtain ⟨price, indexes⟩ := lvl
    intro extra st hextra hrem hcov hbal
    have hrem0 : ∀ x ∈ indexes, 0 ≤ x.amount_remaining := by
      intro x hx
      apply hrem x
      rw [pricesOrders_cons]
      exact List.mem_append_left _ hx
    have hrem1 : ∀ x ∈ pricesOrders pm, 0 ≤ x.amount_remaining := by
      intro x hx
      apply hrem x
      rw [pricesOrders_cons]
      exact List.mem_append_right _ hx
    have hn0 := reserved_nonneg indexes hrem0
    have hn1 := reserved_nonneg (pricesOrders pm) hrem1
    have hsplit : ∀ a p, reserved (pricesOrders ((price, indexes) :: pm)) a p
        = reserved indexes a p + reserved (pricesOrders pm) a p := by
      intro a p
      rw [pricesOrders_cons, reserved_append]
    rw [MetaDEx_cancel_prices]
    by_cases hs : skipLevel price = true
    · rw [if_pos hs]
      obtain ⟨res, hres, h1, h2⟩ := ih extra st hextra hrem1
        (fun a p => by have := hcov a p; rw [hsplit] at this; have := hn0 a p; omega) hbal
      rw [hres]
      exact ⟨((price, indexes) :: res.1, res.2), rfl, h1, h2⟩
    · rw [if_neg hs]
      obtain ⟨r1, hr1, h11, h12⟩ := MetaDEx_cancel_offers_ok txid block skip
        (fun a p => reserved (pricesOrders pm) a p + extra a p)
        (fun a p => by
          show 0 ≤ reserved (pricesOrders pm) a p + extra a p
          have := hn1 a p; have := hextra a p; omega)
        indexes st hrem0
        (fun a p => by
          show reserved indexes a p + (reserved (pricesOrders pm) a p + extra a p) ≤ _
          have := hcov a p; rw [hsplit] at this; omega) hbal
      rw [hr1]
      simp only []
      obtain ⟨res, hres, h1, h2⟩ := ih extra r1.2 hextra hrem1 h11 h12
      rw [hres]
      exact ⟨((price, r1.1) :: res.1, res.2), rfl, h1, h2⟩

/-- The loop over the properties does not fail under the same conditions. -/
theorem MetaDEx_cancel_properties_ok (isMain isTest : Nat → Bool) (txid : Nat) (block : Int)
    (sender : String) (ecosystem : Nat) :
    ∀ (metadex : md_PropertiesMap) (st : CancelState),
      (∀ o ∈ allOrders metadex, 0 ≤ o.amount_remaining) →
      (∀ a p, reserved (allOrders metadex) a p ≤ st.tally a p .METADEX_RESERVE) →
      (∀ a p, 0 ≤ st.tally a p .BALANCE) →
      ∃ res, MetaDEx_cancel_properties isMain isTest txid block sender ecosystem metadex st
        = .ok res := by
  intro metadex
  induction metadex with
  | nil => intro st _ _ _; exact ⟨([], st), rfl⟩
  | cons e b ih =>
    obtain ⟨prop, prices⟩ := e
    intro st hrem hcov hbal
    have hrem0 : ∀ x ∈ pricesOrders prices, 0 ≤ x.amount_remaining := by
      intro x hx
      apply hrem x
      rw [allOrders_cons]
      exact List.mem_append_left _ hx
    have hrem1 : ∀ x ∈ allOrders b, 0 ≤ x.amount_remaining := by
      intro x hx
      apply hrem x
      rw [allOrders_cons]
      exact List.mem_append_right _ hx
    have hn0 := reserved_nonneg (pricesOrders prices) hrem0
    have hn1 := reserved_nonneg (allOrders b) hrem1
    have hsplit : ∀ a p, reserved (allOrders ((prop, prices) :: b)) a p
        = reserved (pricesOrders prices) a p + reserved (allOrders b) a p := by
      intro a p
      rw [allOrders_cons, reserved_append]
    rw [MetaDEx_cancel_properties]
    by_cases hs : ((isMain ecosystem && !isMain prop) || (isTest ecosystem && !isTest prop)) = true
    · rw [if_pos hs]
      obtain ⟨res, hres⟩ := ih st hrem1
        (fun a p => by have := hcov a p; rw [hsplit] at this; have := hn0 a p; omega) hbal
      rw [hres]
      exact ⟨_, rfl⟩
    · rw [if_neg hs]
      obtain ⟨r1, hr1, h11, h12⟩ := MetaDEx_cancel_prices_ok txid block (fun _ => false)
        (fun o => decide (o.addr ≠ sender)) prices
        (fun a p => reserved (allOrders b) a p) st hn1 hrem0
        (fun a p => by
          show reserved (pricesOrders prices) a p + reserved (allOrders b) a p ≤ _
          have := hcov a p; rw [hsplit] at this; omega) hbal
      rw [hr1]
      simp only []
      obtain ⟨res, hres⟩ := ih r1.2 hrem1 h11 h12
      rw [hres]
      exact ⟨_, rfl⟩

/-- The amounts resting under one property are part of the amounts resting in
the book. -/
theorem reserved_get_Prices_le (b : md_PropertiesMap) (prop : Nat) (pm : md_PricesMap)
    (hg : get_Prices b prop = some pm) (hrem : ∀ o ∈ allOrders b, 0 ≤ o.amount_remaining)
    (a : String) (p : Nat) :
    (∀ o ∈ pricesOrders pm, 0 ≤ o.amount_remaining) ∧
    reserved (pricesOrders pm) a p ≤ reserved (allOrders b) a p := by
  obtain ⟨pre, post, hpp⟩ := allOrders_split prop b pm hg
  rw [hpp] at hrem ⊢
  have h1 := reserved_nonneg pre (fun o ho => hrem o (by simp [ho])) a p
  have h2 := reserved_nonneg post (fun o ho => hrem o (by simp [ho])) a p
  refine ⟨fun o ho => hrem o (by simp [ho]), ?_⟩
  rw [reserved_append, reserved_append]
  omega

/-- The three cancel operations return when no resting amount and no `BALANCE`
is negative and the reserves cover the resting amounts. -/
theorem MetaDEx_CANCEL_ok (isMain isTest : Nat → Bool) (ME : Int) (s : State)
    (hrem : ∀ o ∈ allOrders s.metadex, 0 ≤ o.amount_remaining)
    (hcov : ∀ a p, reserved (allOrders s.metadex) a p ≤ s.mp_tally_map a p .METADEX_RESERVE)
    (hbal : ∀ a p, 0 ≤ s.mp_tally_map a p .BALANCE) :
    (∀ txid block sender prop amount pd ad,
      ∃ res, MetaDEx_CANCEL_AT_PRICE ME s txid block sender prop amount pd ad = .ok res) ∧
    (∀ txid block sender prop pd,
      ∃ res, MetaDEx_CANCEL_ALL_FOR_PAIR ME s txid block sender prop pd = .ok res) ∧
    (∀ txid block sender ecosystem,
      ∃ res, MetaDEx_CANCEL_EVERYTHING isMain isTest ME s txid block sender ecosystem
        = .ok res) := by
  refine ⟨?_, ?_, ?_⟩
  · intro txid block sender prop amount pd ad
    unfold MetaDEx_CANCEL_AT_PRICE
    simp only []
    cases hg : get_Prices s.metadex prop with
    | none => exact ⟨_, rfl⟩
    | some pm =>
      simp only []
      obtain ⟨r, hr, _, _⟩ := MetaDEx_cancel_prices_ok txid block
        (fun sellers_price => decide
          ((CMPMetaDEx.create sender 0 prop amount pd ad 0 0 .CANCEL_AT_PRICE).unitPrice
            ≠ sellers_price))
        (fun o => decide (o.desired_property ≠ pd) || decide (o.addr ≠ sender)) pm
        (fun _ _ => 0)
        { tally := s.mp_tally_map, txlist := s.p_txlistdb, rc := ME - 20 }
        (fun _ _ => le_refl _)
        (fun o ho => (reserved_get_Prices_le s.metadex prop pm hg hrem "" 0).1 o ho)
        (fun a p => by
          show reserved (pricesOrders pm) a p + 0 ≤ s.mp_tally_map a p .METADEX_RESERVE
          have := (reserved_get_Prices_le s.metadex prop pm hg hrem a p).2
          have := hcov a p
          omega) hbal
      rw [hr]
      exact ⟨_, rfl⟩
  · intro txid block sender prop pd
    unfold MetaDEx_CANCEL_ALL_FOR_PAIR
    simp only []
    cases hg : get_Prices s.metadex prop with
    | none => exact ⟨_, rfl⟩
    | some pm =>
      simp only []
      obtain ⟨r, hr, _, _⟩ := MetaDEx_cancel_prices_ok txid block (fun _ => false)
        (fun o => decide (o.desired_property ≠ pd) || decide (o.addr ≠ sender)) pm
        (fun _ _ => 0)
        { tally := s.mp_tally_map, txlist := s.p_txlistdb, rc := ME - 30 }
        (fun _ _ => le_refl _)
        (fun o ho => (reserved_get_Prices_le s.metadex prop pm hg hrem "" 0).1 o ho)
        (fun a p => by
          show reserved (pricesOrders pm) a p + 0 ≤ s.mp_tally_map a p .METADEX_RESERVE
          have := (reserved_get_Prices_le s.metadex prop pm hg hrem a p).2
          have := hcov a p
          omega) hbal
      rw [hr]
      exact ⟨_, rfl⟩
  · intro txid block sender ecosystem
    unfold MetaDEx_CANCEL_EVERYTHING
    simp only []
    obtain ⟨r, hr⟩ := MetaDEx_cancel_properties_ok isMain isTest txid block sender ecosystem
      s.metadex { tally := s.mp_tally_map, txlist := s.p_txlistdb, rc := ME - 40 }
      hrem hcov hbal
    rw [hr]
    exact ⟨_, rfl⟩

/-! ## The book after a cancel operation, level by level -/

theorem mapReplace_absent {κ β : Type} [DecidableEq κ] (k : κ) (v : β) :
    ∀ (l : List (κ × β)), mapFind k l = none → mapReplace k v l = l := by
  intro l
  induction l with
  | nil => intro _; rfl
  | cons e l ih =>
    obtain ⟨k1, v1⟩ := e
    intro h
    by_cases h1 : k1 = k
    · simp only [mapFind, if_pos h1] at h
      cases h
    · simp only [mapFind, if_neg h1] at h
      simp only [mapReplace, if_neg h1, ih h]

theorem mapFind_keptPrices (skipLevel : ℚ → Bool) (skip : CMPMetaDEx → Bool) (q : ℚ) :
    ∀ pm : md_PricesMap, mapFind q (keptPrices skipLevel skip pm)
      = (mapFind q pm).map (fun lvl => if skipLevel q then lvl else lvl.filter skip) := by
  intro pm
  induction pm with
  | nil => rfl
  | cons e pm ih =>
    obtain ⟨k1, v1⟩ := e
    have hcons : keptPrices skipLevel skip ((k1, v1) :: pm)
        = (if skipLevel k1 then (k1, v1) else (k1, v1.filter skip))
          :: keptPrices skipLevel skip pm := rfl
    rw [hcons]
    by_cases hs : skipLevel k1 = true
    · rw [if_pos hs]
      by_cases hk : k1 = q
      · simp only [mapFind, if_pos hk, Option.map]
        rw [← hk, if_pos hs]
      · simp only [mapFind, if_neg hk]
        exact ih
    · rw [if_neg hs]
      by_cases hk : k1 = q
      · simp only [mapFind, if_pos hk, Option.map]
        rw [← hk, if_neg hs]
      · simp only [mapFind, if_neg hk]
        exact ih

theorem mapFind_keptProperties (skipProp : Nat → Bool) (skip : CMPMetaDEx → Bool) (p : Nat) :
    ∀ b : md_PropertiesMap, mapFind p (keptProperties skipProp skip b)
      = (mapFind p b).map
          (fun pm => if skipProp p then pm else keptPrices (fun _ => false) skip pm) := by
  intro b
  induction b with
  | nil => rfl
  | cons e b ih =>
    obtain ⟨k1, v1⟩ := e
    have hcons : keptProperties skipProp skip ((k1, v1) :: b)
        = (if skipProp k1 then (k1, v1) else (k1, keptPrices (fun _ => false) skip v1))
          :: keptProperties skipProp skip b := rfl
    rw [hcons]
    by_cases hs : skipProp k1 = true
    · rw [if_pos hs]
      by_cases hk : k1 = p
      · simp only [mapFind, if_pos hk, Option.map]
        rw [← hk, if_pos hs]
      · simp only [mapFind, if_neg hk]
        exact ih
    · rw [if_neg hs]
      by_cases hk : k1 = p
      · simp only [mapFind, if_pos hk, Option.map]
        rw [← hk, if_neg hs]
      · simp only [mapFind, if_neg hk]
        exact ih

/-- The levels of the book after the price map of one property has been
replaced by what a cancel loop left of it: the levels of that property that
were not skipped keep the orders for which `skip` holds, every other level is
as it was. -/
theorem levelAt_mapReplace_keptPrices (b : md_PropertiesMap) (prop : Nat)
    (skipLevel : ℚ → Bool) (skip : CMPMetaDEx → Bool) (p : Nat) (q : ℚ) :
    levelAt (mapReplace prop
        (keptPrices skipLevel skip ((get_Prices b prop).getD [])) b) p q
      = if p = prop ∧ skipLevel q = false then (levelAt b p q).filter skip
        else levelAt b p q := by
  unfold levelAt get_Prices
  rw [mapFind_mapReplace]
  by_cases hp : p = prop
  · rw [if_pos hp, hp]
    cases hg : mapFind prop b with
    | none => simp
    | some pm =>
      simp only [Option.map, Option.bind, Option.getD, get_Indexes]
      rw [mapFind_keptPrices]
      cases hq : mapFind q pm with
      | none => simp
      | some lvl =>
        by_cases hs : skipLevel q = true
        · simp [hs]
        · simp [hs]
  · rw [if_neg hp, if_neg (fun hh => hp hh.1)]

/-- The levels of the book `MetaDEx_CANCEL_EVERYTHING` leaves. -/
theorem levelAt_keptProperties (b : md_PropertiesMap) (skipProp : Nat → Bool)
    (skip : CMPMetaDEx → Bool) (p : Nat) (q : ℚ) :
    levelAt (keptProperties skipProp skip b) p q
      = if skipProp p = false then (levelAt b p q).filter skip else levelAt b p q := by
  unfold levelAt get_Prices
  rw [mapFind_keptProperties]
  cases hg : mapFind p b with
  | none => simp
  | some pm =>
    by_cases hs : skipProp p = true
    · simp [hs]
    · simp only [Option.map, Option.bind, hs, Bool.false_eq_true, if_false, get_Indexes]
      rw [mapFind_keptPrices]
      cases hq : mapFind q pm with
      | none => simp
      | some lvl => simp

theorem mem_cancelledPrices (skipLevel : ℚ → Bool) (skip : CMPMetaDEx → Bool)
    (pm : md_PricesMap) (o : CMPMetaDEx) :
    o ∈ cancelledPrices skipLevel skip pm
      ↔ ∃ lvl ∈ pm, skipLevel lvl.1 = false ∧ o ∈ lvl.2 ∧ skip o = false := by
  unfold cancelledPrices cancelledOffers
  rw [List.mem_flatMap]
  constructor
  · rintro ⟨lvl, hl, ho⟩
    by_cases hs : skipLevel lvl.1 = true
    · rw [if_pos hs] at ho
      cases ho
    · rw [if_neg hs] at ho
      rw [List.mem_filter] at ho
      refine ⟨lvl, hl, by simpa using hs, ho.1, by simpa using ho.2⟩
  · rintro ⟨lvl, hl, hs, ho, hk⟩
    refine ⟨lvl, hl, ?_⟩
    rw [if_neg (by simp [hs])]
    rw [List.mem_filter]
    exact ⟨ho, by simp [hk]⟩

theorem mem_cancelledProperties (skipProp : Nat → Bool) (skip : CMPMetaDEx → Bool)
    (b : md_PropertiesMap) (o : CMPMetaDEx) :
    o ∈ cancelledProperties skipProp skip b
      ↔ ∃ e ∈ b, skipProp e.1 = false ∧ ∃ lvl ∈ e.2, o ∈ lvl.2 ∧ skip o = false := by
  unfold cancelledProperties
  rw [List.mem_flatMap]
  constructor
  · rintro ⟨e, he, ho⟩
    by_cases hs : skipProp e.1 = true
    · rw [if_pos hs] at ho
      cases ho
    · rw [if_neg hs] at ho
      rw [mem_cancelledPrices] at ho
      obtain ⟨lvl, hl, _, h1, h2⟩ := ho
      exact ⟨e, he, by simpa using hs, lvl, hl, h1, h2⟩
  · rintro ⟨e, he, hs, lvl, hl, h1, h2⟩
    refine ⟨e, he, ?_⟩
    rw [if_neg (by simp [hs])]
    rw [mem_cancelledPrices]
    exact ⟨lvl, hl, rfl, h1, h2⟩

/-- The amounts of a list of orders that all belong to one address and sell
one property count for that address and property only. -/
theorem reserved_single (l : List CMPMetaDEx) (a0 : String) (p0 : Nat)
    (h : ∀ o ∈ l, o.addr = a0 ∧ o.property = p0) (a : String) (p : Nat) :
    reserved l a p
      = if a = a0 ∧ p = p0 then (l.map (fun o => o.amount_remaining)).sum else 0 := by
  induction l with
  | nil => simp [reserved_nil]
  | cons o l ih =>
    rw [reserved_cons, ih (fun x hx => h x (List.mem_cons_of_mem _ hx))]
    obtain ⟨h1, h2⟩ := h o (List.mem_cons_self _ _)
    rw [h1, h2]
    by_cases hap : a = a0 ∧ p = p0
    · rw [if_pos hap, if_pos ⟨hap.1.symm, hap.2.symm⟩]
      simp [hap]
    · rw [if_neg hap, if_neg (fun hh => hap ⟨hh.1.symm, hh.2.symm⟩)]
      simp [hap]

/-- The amounts of a list of orders of one address do not count for another
address. -/
theorem reserved_other_owner (l : List CMPMetaDEx) (a0 : String)
    (h : ∀ o ∈ l, o.addr = a0) (a : String) (p : Nat) (ha : a ≠ a0) :
    reserved l a p = 0 := by
  induction l with
  | nil => simp [reserved_nil]
  | cons o l ih =>
    rw [reserved_cons, ih (fun x hx => h x (List.mem_cons_of_mem _ hx))]
    have h1 := h o (List.mem_cons_self _ _)
    rw [if_neg (fun hh => ha (hh.1.symm.trans h1))]
    simp

/-! ## Cancel at price -/

/-- C13: let the orders under `metadex[prop]` sell `prop`, no resting amount
and no `BALANCE` be negative and the reserves cover the resting amounts. Then
`MetaDEx_CANCEL_AT_PRICE` with a non-zero amount returns. It removes the
orders `removed`: those of the levels of `metadex[prop]` with the price key
`amount_desired / amount` (as exact rationals) whose address is the sender and
whose desired property is `property_desired`. The level of `metadex[prop]` at
that key keeps its other orders, every other level of the book is as it was.
The sum of the removed orders' remaining amounts leaves the sender's
`METADEX_RESERVE` of `prop` and enters the sender's `BALANCE` of `prop`; every
other tally and the trade log are as they were. The return code is 0 exactly
when an order was removed. -/
theorem C13_cancel_at_price (ME : Int) (s : State) (txid : Nat) (block : Int)
    (sender : String) (prop : Nat) (amount : Int) (pd : Nat) (ad : Int)
    (hamount : amount ≠ 0) (hME : ME - 20 ≠ 0 ∧ ME - 20 - 1 ≠ 0)
    (hkey : ∀ o ∈ pricesOrders ((get_Prices s.metadex prop).getD []), o.property = prop)
    (hrem : ∀ o ∈ allOrders s.metadex, 0 ≤ o.amount_remaining)
    (hcov : ∀ a p, reserved (allOrders s.metadex) a p ≤ s.mp_tally_map a p .METADEX_RESERVE)
    (hbal : ∀ a p, 0 ≤ s.mp_tally_map a p .BALANCE) :
    ∃ res removed, MetaDEx_CANCEL_AT_PRICE ME s txid block sender prop amount pd ad = .ok res ∧
      removed = cancelledPrices (fun q => decide ((ad : ℚ) / (amount : ℚ) ≠ q))
        (fun o => decide (o.desired_property ≠ pd) || decide (o.addr ≠ sender))
        ((get_Prices s.metadex prop).getD []) ∧
      (∀ o, o ∈ removed ↔ ∃ lvl ∈ (get_Prices s.metadex prop).getD [],
        lvl.1 = (ad : ℚ) / (amount : ℚ) ∧ o ∈ lvl.2 ∧
          o.addr = sender ∧ o.desired_property = pd) ∧
      (∀ p q, levelAt res.2.metadex p q =
        if p = prop ∧ q = (ad : ℚ) / (amount : ℚ) then
          (levelAt s.metadex p q).filter
            (fun o => decide (o.desired_property ≠ pd) || decide (o.addr ≠ sender))
        else levelAt s.metadex p q) ∧
      (∀ a q, res.2.mp_tally_map a q .METADEX_RESERVE = s.mp_tally_map a q .METADEX_RESERVE
          - (if a = sender ∧ q = prop then (removed.map (fun o => o.amount_remaining)).sum
             else 0) ∧
        res.2.mp_tally_map a q .BALANCE = s.mp_tally_map a q .BALANCE
          + (if a = sender ∧ q = prop then (removed.map (fun o => o.amount_remaining)).sum
             else 0) ∧
        res.2.mp_tally_map a q .OTHER_TALLY = s.mp_tally_map a q .OTHER_TALLY) ∧
      res.2.t_tradelistdb = s.t_tradelistdb ∧
      (res.1 = 0 ↔ removed ≠ []) := by
  have hunit : (CMPMetaDEx.create sender 0 prop amount pd ad 0 0 .CANCEL_AT_PRICE).unitPrice
      = (ad : ℚ) / (amount : ℚ) := by
    simp [CMPMetaDEx.unitPrice, CMPMetaDEx.create, hamount]
  obtain ⟨res, hres⟩ := (MetaDEx_CANCEL_ok (fun _ => false) (fun _ => false) ME s hrem hcov
    hbal).1 txid block sender prop amount pd ad
  have hmem : ∀ o, o ∈ cancelledPrices (fun q => decide ((ad : ℚ) / (amount : ℚ) ≠ q))
        (fun o => decide (o.desired_property ≠ pd) || decide (o.addr ≠ sender))
        ((get_Prices s.metadex prop).getD []) ↔ ∃ lvl ∈ (get_Prices s.metadex prop).getD [],
        lvl.1 = (ad : ℚ) / (amount : ℚ) ∧ o ∈ lvl.2 ∧
          o.addr = sender ∧ o.desired_property = pd := by
    intro o
    rw [mem_cancelledPrices]
    constructor
    · rintro ⟨lvl, hl, h1, h2, h3⟩
      simp only [ne_eq, decide_not, Bool.not_eq_false', decide_eq_true_eq, Bool.or_eq_false_iff,
        Bool.not_eq_true', decide_eq_false_iff_not, not_not] at h1 h3
      exact ⟨lvl, hl, h1.symm, h2, h3.2, h3.1⟩
    · rintro ⟨lvl, hl, h1, h2, h3, h4⟩
      refine ⟨lvl, hl, ?_, h2, ?_⟩
      · simp [h1]
      · simp [h3, h4]
  have hown : ∀ o ∈ cancelledPrices (fun q => decide ((ad : ℚ) / (amount : ℚ) ≠ q))
        (fun o => decide (o.desired_property ≠ pd) || decide (o.addr ≠ sender))
        ((get_Prices s.metadex prop).getD []), o.addr = sender ∧ o.property = prop := by
    intro o ho
    obtain ⟨lvl, hl, _, h2, h3, _⟩ := (hmem o).mp ho
    exact ⟨h3, hkey o (List.mem_flatMap.mpr ⟨lvl, hl, h2⟩)⟩
  have hsingle := reserved_single _ sender prop hown
  have hlev := levelAt_mapReplace_keptPrices s.metadex prop
    (fun q => decide ((ad : ℚ) / (amount : ℚ) ≠ q))
    (fun o => decide (o.desired_property ≠ pd) || decide (o.addr ≠ sender))
  have hlev2 : ∀ p q, levelAt (mapReplace prop
        (keptPrices (fun q => decide ((ad : ℚ) / (amount : ℚ) ≠ q))
          (fun o => decide (o.desired_property ≠ pd) || decide (o.addr ≠ sender))
          ((get_Prices s.metadex prop).getD [])) s.metadex) p q =
        if p = prop ∧ q = (ad : ℚ) / (amount : ℚ) then
          (levelAt s.metadex p q).filter
            (fun o => decide (o.desired_property ≠ pd) || decide (o.addr ≠ sender))
        else levelAt s.metadex p q := by
    intro p q
    rw [hlev p q]
    by_cases hpq : p = prop ∧ q = (ad : ℚ) / (amount : ℚ)
    · rw [if_pos hpq, if_pos ⟨hpq.1, by simp [hpq.2]⟩]
    · rw [if_neg hpq, if_neg]
      rintro ⟨h1, h2⟩
      apply hpq
      refine ⟨h1, ?_⟩
      simp only [ne_eq, decide_not, Bool.not_eq_false', decide_eq_true_eq] at h2
      exact h2.symm
  refine ⟨res, _, hres, rfl, hmem, ?_⟩
  rcases MetaDEx_CANCEL_AT_PRICE_effect ME s txid block sender prop amount pd ad res hres with
    ⟨hnone, hr⟩ | ⟨pm, removed, hg, hrm, hbook, htally, _, htl, hrc⟩
  · subst hr
    have hempty : cancelledPrices (fun q => decide ((ad : ℚ) / (amount : ℚ) ≠ q))
        (fun o => decide (o.desired_property ≠ pd) || decide (o.addr ≠ sender))
        ((get_Prices s.metadex prop).getD []) = [] := by
      rw [hnone]; rfl
    rw [hempty]
    refine ⟨?_, ?_, rfl, ?_⟩
    · intro p q
      have h1 := hlev2 p q
      rw [hnone] at h1
      have h2 : mapReplace prop (keptPrices (fun q => decide ((ad : ℚ) / (amount : ℚ) ≠ q))
          (fun o => decide (o.desired_property ≠ pd) || decide (o.addr ≠ sender))
          ((none : Option md_PricesMap).getD [])) s.metadex = s.metadex :=
        mapReplace_absent _ _ _ hnone
      rw [h2] at h1
      exact h1
    · intro a q
      simp
    · simp [hME.2]
  · rw [hunit] at hrm hbook
    rw [hg] at hlev2 hsingle ⊢
    simp only [Option.getD] at hlev2 hsingle ⊢
    rw [← hrm] at hsingle ⊢
    refine ⟨?_, ?_, htl, ?_⟩
    · intro p q
      rw [hbook]
      exact hlev2 p q
    · intro a q
      refine ⟨?_, ?_, ?_⟩
      · rw [htally, cancelDelta_reserve, hsingle]
        ring
      · rw [htally]
        show _ + reserved removed a q = _
        rw [hsingle]
      · rw [htally]
        show _ + 0 = _
        ring
    · rw [hrc]
      by_cases he : removed = []
      · simp [he, hME.1]
      · simp [he]

/-- Coverage of the resting amounts by the reserves need only be checked at
the addresses and properties of the resting orders, when no reserve is
negative. -/
theorem covered_of_orders (l : List CMPMetaDEx) (L : Ledger)
    (hnn : ∀ a p, 0 ≤ L a p .METADEX_RESERVE)
    (h : ∀ o ∈ l, reserved l o.addr o.property ≤ L o.addr o.property .METADEX_RESERVE) :
    ∀ a p, reserved l a p ≤ L a p .METADEX_RESERVE := by
  intro a p
  by_cases hex : ∃ o ∈ l, o.addr = a ∧ o.property = p
  · obtain ⟨o, ho, h1, h2⟩ := hex
    have := h o ho
    rw [h1, h2] at this
    exact this
  · have h0 : reserved l a p = 0 := by
      unfold reserved
      rw [List.filter_eq_nil_iff.mpr]
      · rfl
      · intro o ho hh
        exact hex ⟨o, ho, by simpa using hh⟩
    rw [h0]
    exact hnn a p

theorem ex5State_nonneg : ∀ a p k, 0 ≤ ex5State.mp_tally_map a p k := by
  intro a p k
  simp only [ex5State, ex5Ledger]
  split_ifs <;> decide

theorem ex5State_covered :
    ∀ a p, reserved (allOrders ex5State.metadex) a p
      ≤ ex5State.mp_tally_map a p .METADEX_RESERVE :=
  covered_of_orders _ _ (fun a p => ex5State_nonneg a p _) (by decide!)

/-- C13 at the fifth scenario: orders of one sender at the unit prices 2 and
3; the cancel at the price 300/100 removes the second only, and 100 units go
from the reserve to the balance. -/
theorem C13_cancel_at_price_witness :
    ∃ res, MetaDEx_CANCEL_AT_PRICE (-80000) ex5State 90 12 "alice" 3 100 1 300 = .ok res ∧
      res.1 = 0 ∧
      levelAt res.2.metadex 3 2 = [ex5Low] ∧ levelAt res.2.metadex 3 3 = [] ∧
      res.2.mp_tally_map "alice" 3 .METADEX_RESERVE = 100 ∧
      res.2.mp_tally_map "alice" 3 .BALANCE = 100 := by
  obtain ⟨res, removed, hres, hrm, _, hlev, htally, _, hrc⟩ :=
    C13_cancel_at_price (-80000) ex5State 90 12 "alice" 3 100 1 300 (by decide) (by decide)
      (by decide!) (by decide!) ex5State_covered (fun a p => ex5State_nonneg a p _)
  have hrm2 : removed = [ex5High] := by rw [hrm]; decide!
  subst hrm2
  refine ⟨res, hres, hrc.mpr (by simp), ?_, ?_, ?_, ?_⟩
  · rw [hlev]; decide!
  · rw [hlev]; decide!
  · rw [(htally "alice" 3).1]; decide!
  · rw [(htally "alice" 3).2.1]; decide!

/-! ## Cancel all for pair -/

/-- C14: let the orders under `metadex[prop]` sell `prop`, no resting amount
and no `BALANCE` be negative and the reserves cover the resting amounts. Then
`MetaDEx_CANCEL_ALL_FOR_PAIR` returns. It removes the orders `removed`: those
of any level of `metadex[prop]` whose address is the sender and whose desired
property is `property_desired`. Every level of `metadex[prop]` keeps its other
orders, every level of another property is as it was. The sum of the removed
orders' remaining amounts leaves the sender's `METADEX_RESERVE` of `prop` and
enters the sender's `BALANCE` of `prop`; every other tally and the trade log
are as they were. The return code is 0 exactly when an order was removed. -/
theorem C14_cancel_all_for_pair (ME : Int) (s : State) (txid : Nat) (block : Int)
    (sender : String) (prop : Nat) (pd : Nat)
    (hME : ME - 30 ≠ 0 ∧ ME - 30 - 1 ≠ 0)
    (hkey : ∀ o ∈ pricesOrders ((get_Prices s.metadex prop).getD []), o.property = prop)
    (hrem : ∀ o ∈ allOrders s.metadex, 0 ≤ o.amount_remaining)
    (hcov : ∀ a p, reserved (allOrders s.metadex) a p ≤ s.mp_tally_map a p .METADEX_RESERVE)
    (hbal : ∀ a p, 0 ≤ s.mp_tally_map a p .BALANCE) :
    ∃ res removed, MetaDEx_CANCEL_ALL_FOR_PAIR ME s txid block sender prop pd = .ok res ∧
      removed = cancelledPrices (fun _ => false)
        (fun o => decide (o.desired_property ≠ pd) || decide (o.addr ≠ sender))
        ((get_Prices s.metadex prop).getD []) ∧
      (∀ o, o ∈ removed ↔ ∃ lvl ∈ (get_Prices s.metadex prop).getD [],
        o ∈ lvl.2 ∧ o.addr = sender ∧ o.desired_property = pd) ∧
      (∀ p q, levelAt res.2.metadex p q =
        if p = prop then
          (levelAt s.metadex p q).filter
            (fun o => decide (o.desired_property ≠ pd) || decide (o.addr ≠ sender))
        else levelAt s.metadex p q) ∧
      (∀ a q, res.2.mp_tally_map a q .METADEX_RESERVE = s.mp_tally_map a q .METADEX_RESERVE
          - (if a = sender ∧ q = prop then (removed.map (fun o => o.amount_remaining)).sum
             else 0) ∧
        res.2.mp_tally_map a q .BALANCE = s.mp_tally_map a q .BALANCE
          + (if a = sender ∧ q = prop then (removed.map (fun o => o.amount_remaining)).sum
             else 0) ∧
        res.2.mp_tally_map a q .OTHER_TALLY = s.mp_tally_map a q .OTHER_TALLY) ∧
      res.2.t_tradelistdb = s.t_tradelistdb ∧
      (res.1 = 0 ↔ removed ≠ []) := by
  obtain ⟨res, hres⟩ := (MetaDEx_CANCEL_ok (fun _ => false) (fun _ => false) ME s hrem hcov
    hbal).2.1 txid block sender prop pd
  have hmem : ∀ o, o ∈ cancelledPrices (fun _ => false)
        (fun o => decide (o.desired_property ≠ pd) || decide (o.addr ≠ sender))
        ((get_Prices s.metadex prop).getD []) ↔ ∃ lvl ∈ (get_Prices s.metadex prop).getD [],
        o ∈ lvl.2 ∧ o.addr = sender ∧ o.desired_property = pd := by
    intro o
    rw [mem_cancelledPrices]
    constructor
    · rintro ⟨lvl, hl, _, h2, h3⟩
      simp only [ne_eq, decide_not, Bool.or_eq_false_iff,
        Bool.not_eq_false', decide_eq_true_eq] at h3
      exact ⟨lvl, hl, h2, h3.2, h3.1⟩
    · rintro ⟨lvl, hl, h2, h3, h4⟩
      refine ⟨lvl, hl, rfl, h2, ?_⟩
      simp [h3, h4]
  have hown : ∀ o ∈ cancelledPrices (fun _ => false)
        (fun o => decide (o.desired_property ≠ pd) || decide (o.addr ≠ sender))
        ((get_Prices s.metadex prop).getD []), o.addr = sender ∧ o.property = prop := by
    intro o ho
    obtain ⟨lvl, hl, h2, h3, _⟩ := (hmem o).mp ho
    exact ⟨h3, hkey o (List.mem_flatMap.mpr ⟨lvl, hl, h2⟩)⟩
  have hsingle := reserved_single _ sender prop hown
  have hlev := levelAt_mapReplace_keptPrices s.metadex prop (fun _ => false)
    (fun o => decide (o.desired_property ≠ pd) || decide (o.addr ≠ sender))
  have hlev2 : ∀ p q, levelAt (mapReplace prop
        (keptPrices (fun _ => false)
          (fun o => decide (o.desired_property ≠ pd) || decide (o.addr ≠ sender))
          ((get_Prices s.metadex prop).getD [])) s.metadex) p q =
        if p = prop then
          (levelAt s.metadex p q).filter
            (fun o => decide (o.desired_property ≠ pd) || decide (o.addr ≠ sender))
        else levelAt s.metadex p q := by
    intro p q
    rw [hlev p q]
    by_cases hp : p = prop
    · rw [if_pos hp, if_pos ⟨hp, rfl⟩]
    · rw [if_neg hp, if_neg (fun hh => hp hh.1)]
  refine ⟨res, _, hres, rfl, hmem, ?_⟩
  rcases MetaDEx_CANCEL_ALL_FOR_PAIR_effect ME s txid block sender prop pd res hres with
    ⟨hnone, hr⟩ | ⟨pm, removed, hg, hrm, hbook, htally, _, htl, hrc⟩
  · subst hr
    have hempty : cancelledPrices (fun _ => false)
        (fun o => decide (o.desired_property ≠ pd) || decide (o.addr ≠ sender))
        ((get_Prices s.metadex prop).getD []) = [] := by
      rw [hnone]; rfl
    rw [hempty]
    refine ⟨?_, ?_, rfl, ?_⟩
    · intro p q
      have h1 := hlev2 p q
      rw [hnone] at h1
      have h2 : mapReplace prop (keptPrices (fun _ => false)
          (fun o => decide (o.desired_property ≠ pd) || decide (o.addr ≠ sender))
          ((none : Option md_PricesMap).getD [])) s.metadex = s.metadex :=
        mapReplace_absent _ _ _ hnone
      rw [h2] at h1
      exact h1
    · intro a q
      simp
    · simp [hME.2]
  · rw [hg] at hlev2 hsingle ⊢
    simp only [Option.getD] at hlev2 hsingle ⊢
    rw [← hrm] at hsingle ⊢
    refine ⟨?_, ?_, htl, ?_⟩
    · intro p q
      rw [hbook]
      exact hlev2 p q
    · intro a q
      refine ⟨?_, ?_, ?_⟩
      · rw [htally, cancelDelta_reserve, hsingle]
        ring
      · rw [htally]
        show _ + reserved removed a q = _
        rw [hsingle]
      · rw [htally]
        show _ + 0 = _
        ring
    · rw [hrc]
      by_cases he : removed = []
      · simp [he, hME.1]
      · simp [he]

/-- C14 at the fifth scenario: the cancel for the pair (3, 1) removes both
orders of the sender, and 200 units go from the reserve to the balance. -/
theorem C14_cancel_all_for_pair_witness :
    ∃ res, MetaDEx_CANCEL_ALL_FOR_PAIR (-80000) ex5State 90 12 "alice" 3 1 = .ok res ∧
      res.1 = 0 ∧
      levelAt res.2.metadex 3 2 = [] ∧ levelAt res.2.metadex 3 3 = [] ∧
      res.2.mp_tally_map "alice" 3 .METADEX_RESERVE = 0 ∧
      res.2.mp_tally_map "alice" 3 .BALANCE = 200 := by
  obtain ⟨res, removed, hres, hrm, _, hlev, htally, _, hrc⟩ :=
    C14_cancel_all_for_pair (-80000) ex5State 90 12 "alice" 3 1 (by decide)
      (by decide!) (by decide!) ex5State_covered (fun a p => ex5State_nonneg a p _)
  have hrm2 : removed = [ex5Low, ex5High] := by rw [hrm]; decide!
  subst hrm2
  refine ⟨res, hres, hrc.mpr (by simp), ?_, ?_, ?_, ?_⟩
  · rw [hlev]; decide!
  · rw [hlev]; decide!
  · rw [(htally "alice" 3).1]; decide!
  · rw [(htally "alice" 3).2.1]; decide!

/-! ## Cancel everything -/

theorem cancelledPrices_eq_filter (skip : CMPMetaDEx → Bool) :
    ∀ pm : md_PricesMap, cancelledPrices (fun _ => false) skip pm
      = (pricesOrders pm).filter (fun o => !skip o) := by
  intro pm
  induction pm with
  | nil => rfl
  | cons lvl pm ih =>
    rw [pricesOrders_cons, List.filter_append, ← ih]
    simp [cancelledPrices, cancelledOffers]

theorem pricesOrders_keptPrices (skip : CMPMetaDEx → Bool) :
    ∀ pm : md_PricesMap, pricesOrders (keptPrices (fun _ => false) skip pm)
      = (pricesOrders pm).filter skip := by
  intro pm
  induction pm with
  | nil => rfl
  | cons lvl pm ih =>
    have hcons : keptPrices (fun _ => false) skip (lvl :: pm)
        = (lvl.1, lvl.2.filter skip) :: keptPrices (fun _ => false) skip pm := by
      simp [keptPrices]
    rw [hcons, pricesOrders_cons, pricesOrders_cons, List.filter_append, ih]

/-- When the orders under each property key sell that property, the orders
`MetaDEx_CANCEL_EVERYTHING` removes are those of the book whose property is
not skipped and for which `skip` does not hold, and the orders it leaves are
the others. -/
theorem cancelledProperties_eq_filter (skipProp : Nat → Bool) (skip : CMPMetaDEx → Bool) :
    ∀ b : md_PropertiesMap, (∀ e ∈ b, ∀ o ∈ pricesOrders e.2, o.property = e.1) →
      cancelledProperties skipProp skip b
          = (allOrders b).filter (fun o => !skipProp o.property && !skip o) ∧
      allOrders (keptProperties skipProp skip b)
          = (allOrders b).filter (fun o => skipProp o.property || skip o) := by
  intro b
  induction b with
  | nil => intro _; exact ⟨rfl, rfl⟩
  | cons e b ih =>
    intro hkey
    obtain ⟨ih1, ih2⟩ := ih (fun e1 he1 => hkey e1 (List.mem_cons_of_mem _ he1))
    have hk := hkey e (List.mem_cons_self _ _)
    have hc1 : cancelledProperties skipProp skip (e :: b)
        = (if skipProp e.1 then [] else cancelledPrices (fun _ => false) skip e.2)
          ++ cancelledProperties skipProp skip b := by
      simp [cancelledProperties]
    have hc2 : keptProperties skipProp skip (e :: b)
        = (if skipProp e.1 then e else (e.1, keptPrices (fun _ => false) skip e.2))
          :: keptProperties skipProp skip b := rfl
    constructor
    · rw [hc1, allOrders_cons, List.filter_append, ih1]
      congr 1
      by_cases hs : skipProp e.1 = true
      · rw [if_pos hs]
        symm
        rw [List.filter_eq_nil_iff]
        intro o ho
        rw [hk o ho, hs]
        simp
      · rw [if_neg hs, cancelledPrices_eq_filter]
        apply List.filter_congr
        intro o ho
        rw [hk o ho]
        simp [hs]
    · rw [hc2, allOrders_cons, allOrders_cons, List.filter_append, ih2]
      congr 1
      by_cases hs : skipProp e.1 = true
      · rw [if_pos hs]
        symm
        rw [List.filter_eq_self]
        intro o ho
        rw [hk o ho, hs]
        simp
      · rw [if_neg hs]
        show pricesOrders (keptPrices (fun _ => false) skip e.2) = _
        rw [pricesOrders_keptPrices]
        apply List.filter_congr
        intro o ho
        rw [hk o ho]
        simp [hs]

/-- The resting amounts of the orders of one address that pass a test on the
property for sale. -/
theorem reserved_filter_owner (l : List CMPMetaDEx) (sender : String) (P : Nat → Bool)
    (a : String) (q : Nat) :
    reserved (l.filter (fun o => decide (o.addr = sender) && P o.property)) a q
      = if a = sender ∧ P q = true then reserved l a q else 0 := by
  unfold reserved
  rw [List.filter_filter]
  by_cases h : a = sender ∧ P q = true
  · rw [if_pos h]
    congr 2
    apply List.filter_congr
    intro o _
    by_cases ho : o.addr = a ∧ o.property = q
    · simp [ho.1, ho.2, h.1, h.2]
    · simp [ho]
  · rw [if_neg h, List.filter_eq_nil_iff.mpr]
    · rfl
    · intro o _ hh
      apply h
      simp only [Bool.and_eq_true, decide_eq_true_eq] at hh
      obtain ⟨⟨h1, h2⟩, h3, h4⟩ := hh
      exact ⟨h1.symm.trans h3, h2 ▸ h4⟩

/-- C15: let `ecosystem` be main or test (exactly one of the two ecosystem
tests holds for it), the orders under each property key sell that property, no
resting amount and no `BALANCE` be negative and the reserves cover the resting
amounts. Then `MetaDEx_CANCEL_EVERYTHING` returns. The orders it removes are
the resting orders of the sender whose property for sale belongs to the
ecosystem; the orders of the book afterwards are all the others, in their
levels: a level under a property of the ecosystem keeps the orders of the other
addresses, every other level is as it was. For each property of the ecosystem
the sender's resting amount leaves the sender's `METADEX_RESERVE` and enters
the sender's `BALANCE`; every other tally and the trade log are as they were.
The return code is 0 exactly when an order was removed. -/
theorem C15_cancel_everything (isMain isTest : Nat → Bool) (ME : Int) (s : State)
    (txid : Nat) (block : Int) (sender : String) (ecosystem : Nat)
    (hME : ME - 40 ≠ 0)
    (heco : (isMain ecosystem = true ∧ isTest ecosystem = false) ∨
      (isMain ecosystem = false ∧ isTest ecosystem = true))
    (hkey : ∀ e ∈ s.metadex, ∀ o ∈ pricesOrders e.2, o.property = e.1)
    (hrem : ∀ o ∈ allOrders s.metadex, 0 ≤ o.amount_remaining)
    (hcov : ∀ a p, reserved (allOrders s.metadex) a p ≤ s.mp_tally_map a p .METADEX_RESERVE)
    (hbal : ∀ a p, 0 ≤ s.mp_tally_map a p .BALANCE) :
    ∃ res removed,
      MetaDEx_CANCEL_EVERYTHING isMain isTest ME s txid block sender ecosystem = .ok res ∧
      removed = (allOrders s.metadex).filter
        (fun o => decide (o.addr = sender) && inEcosystem isMain isTest ecosystem o.property) ∧
      allOrders res.2.metadex = (allOrders s.metadex).filter
        (fun o => !(decide (o.addr = sender)
          && inEcosystem isMain isTest ecosystem o.property)) ∧
      (∀ p q, levelAt res.2.metadex p q =
        if inEcosystem isMain isTest ecosystem p = true then
          (levelAt s.metadex p q).filter (fun o => decide (o.addr ≠ sender))
        else levelAt s.metadex p q) ∧
      (∀ a q, res.2.mp_tally_map a q .METADEX_RESERVE = s.mp_tally_map a q .METADEX_RESERVE
          - (if a = sender ∧ inEcosystem isMain isTest ecosystem q = true
             then reserved (allOrders s.metadex) a q else 0) ∧
        res.2.mp_tally_map a q .BALANCE = s.mp_tally_map a q .BALANCE
          + (if a = sender ∧ inEcosystem isMain isTest ecosystem q = true
             then reserved (allOrders s.metadex) a q else 0) ∧
        res.2.mp_tally_map a q .OTHER_TALLY = s.mp_tally_map a q .OTHER_TALLY) ∧
      res.2.t_tradelistdb = s.t_tradelistdb ∧
      (res.1 = 0 ↔ removed ≠ []) := by
  have hskip : ∀ p, ((isMain ecosystem && !isMain p) || (isTest ecosystem && !isTest p))
      = !inEcosystem isMain isTest ecosystem p := by
    intro p
    unfold inEcosystem
    rcases heco with ⟨h1, h2⟩ | ⟨h1, h2⟩
    · simp [h1, h2]
    · simp [h1, h2]
  have hfun : (fun prop => (isMain ecosystem && !isMain prop)
      || (isTest ecosystem && !isTest prop))
      = fun prop => !inEcosystem isMain isTest ecosystem prop := funext hskip
  obtain ⟨res, hres⟩ := (MetaDEx_CANCEL_ok isMain isTest ME s hrem hcov hbal).2.2
    txid block sender ecosystem
  obtain ⟨removed, hrm, hbook, htally, _, htl, hrc⟩ :=
    MetaDEx_CANCEL_EVERYTHING_effect isMain isTest ME s txid block sender ecosystem res hres
  rw [hfun] at hrm hbook
  obtain ⟨hf1, hf2⟩ := cancelledProperties_eq_filter
    (fun prop => !inEcosystem isMain isTest ecosystem prop)
    (fun o => decide (o.addr ≠ sender)) s.metadex hkey
  have hrm2 : removed = (allOrders s.metadex).filter
      (fun o => decide (o.addr = sender)
        && inEcosystem isMain isTest ecosystem o.property) := by
    rw [hrm, hf1]
    apply List.filter_congr
    intro o _
    by_cases h1 : o.addr = sender <;>
      cases inEcosystem isMain isTest ecosystem o.property <;> simp [h1]
  have hres2 := reserved_filter_owner (allOrders s.metadex) sender
    (inEcosystem isMain isTest ecosystem)
  rw [← hrm2] at hres2
  refine ⟨res, removed, hres, hrm2, ?_, ?_, ?_, htl, ?_⟩
  · rw [hbook, hf2]
    apply List.filter_congr
    intro o _
    by_cases h1 : o.addr = sender <;>
      cases inEcosystem isMain isTest ecosystem o.property <;> simp [h1]
  · intro p q
    rw [hbook, levelAt_keptProperties]
    cases inEcosystem isMain isTest ecosystem p <;> simp
  · intro a q
    refine ⟨?_, ?_, ?_⟩
    · rw [htally, cancelDelta_reserve, hres2]
      ring
    · rw [htally]
      show _ + reserved removed a q = _
      rw [hres2]
    · rw [htally]
      show _ + 0 = _
      ring
  · rw [hrc]
    by_cases he : removed = []
    · simp [he, hME]
    · simp [he]

theorem exEcoState_nonneg : ∀ a p k, 0 ≤ exEcoState.mp_tally_map a p k := by
  intro a p k
  simp only [exEcoState, exEcoLedger]
  split_ifs <;> decide

theorem exEcoState_covered :
    ∀ a p, reserved (allOrders exEcoState.metadex) a p
      ≤ exEcoState.mp_tally_map a p .METADEX_RESERVE :=
  covered_of_orders _ _ (fun a p => exEcoState_nonneg a p _) (by decide!)

/-- C15 at the sixth scenario: of the three main and two test orders of Alice
and the main order of Bob, the cancel for the main ecosystem removes the three
main orders of Alice, whose reserves return to her balance. -/
theorem C15_cancel_everything_witness :
    ∃ res, MetaDEx_CANCEL_EVERYTHING exIsMain exIsTest (-80000) exEcoState 90 12 "alice" 1
        = .ok res ∧
      res.1 = 0 ∧
      allOrders res.2.metadex = [exEcoT1, exEcoB, exEcoT2] ∧
      res.2.mp_tally_map "alice" 3 .METADEX_RESERVE = 0 ∧
      res.2.mp_tally_map "alice" 3 .BALANCE = 30 ∧
      res.2.mp_tally_map "alice" 2 .METADEX_RESERVE = 7 ∧
      res.2.mp_tally_map "bob" 3 .METADEX_RESERVE = 4 := by
  obtain ⟨res, removed, hres, hrm, hall, _, htally, _, hrc⟩ :=
    C15_cancel_everything exIsMain exIsTest (-80000) exEcoState 90 12 "alice" 1 (by decide)
      (by decide) (by decide!) (by decide!) exEcoState_covered
      (fun a p => exEcoState_nonneg a p _)
  have hrm2 : removed = [exEcoM1, exEcoM2, exEcoM3] := by rw [hrm]; decide!
  subst hrm2
  refine ⟨res, hres, hrc.mpr (by simp), ?_, ?_, ?_, ?_, ?_⟩
  · rw [hall]; decide!
  · rw [(htally "alice" 3).1]; decide!
  · rw [(htally "alice" 3).2.1]; decide!
  · rw [(htally "alice" 2).1]; decide!
  · rw [(htally "bob" 3).1]; decide!

/-! ## The validation of the MetaDEx transactions -/

theorem firstFailing_none (t : List (Bool × Int)) :
    firstFailing t = none ↔ ∀ r ∈ t, r.1 = false := by
  induction t with
  | nil => simp [firstFailing]
  | cons r t ih =>
    obtain ⟨b, c⟩ := r
    cases b
    · simp [firstFailing, ih]
    · simp [firstFailing]

theorem firstFailing_some_mem (t : List (Bool × Int)) (code : Int)
    (h : firstFailing t = some code) : (true, code) ∈ t := by
  induction t with
  | nil => simp [firstFailing] at h
  | cons r t ih =>
    obtain ⟨b, c⟩ := r
    cases b
    · simp only [firstFailing, Bool.false_eq_true, if_false] at h
      exact List.mem_cons_of_mem _ (ih h)
    · simp only [firstFailing, if_true] at h
      cases h
      exact List.mem_cons_self _ _

/-- The trade transaction follows its validation table: it returns the code
of the first failing row with the state untouched, or does `recordNewTrade` and
`MetaDEx_ADD` when no row fails. -/
theorem logicMath_MetaDExTrade_table (env : TxEnv) (tx : CMPTransaction) (st : TxState)
    (hmax : env.MAX_INT_8_BYTES = 2 ^ 63 - 1) :
    logicMath_MetaDExTrade env tx st =
      match firstFailing (tradeValidationTable env tx st) with
      | some code => .ok (env.PKT_ERROR_METADEX + code, st)
      | none => tradeAction env tx st := by
  unfold logicMath_MetaDExTrade tradeValidationTable validationTable7 tradeAction getMPbalance
  rw [hmax]
  simp only [List.cons_append, List.nil_append, firstFailing, decide_eq_true_eq]
  by_cases h1 : (!env.IsTransactionTypeAllowed tx.block tx.property tx.type tx.version false)
      = true
  · simp only [if_pos h1]; rfl
  simp only [if_neg h1]
  by_cases h2 : tx.property = tx.desired_property
  · simp only [if_pos h2]; rfl
  simp only [if_neg h2]
  by_cases h3 : env.isTestEcosystemProperty tx.property
      ≠ env.isTestEcosystemProperty tx.desired_property
  · simp only [if_pos h3]; rfl
  simp only [if_neg h3]
  by_cases h4 : (!env.hasSP tx.property) = true
  · simp only [if_pos h4]; rfl
  simp only [if_neg h4]
  by_cases h5 : (!env.hasSP tx.desired_property) = true
  · simp only [if_pos h5]; rfl
  simp only [if_neg h5]
  by_cases h6 : tx.nNewValue ≤ 0 ∨ 2 ^ 63 - 1 < tx.nNewValue
  · simp only [if_pos h6]; rfl
  simp only [if_neg h6]
  by_cases h7 : tx.desired_value ≤ 0 ∨ 2 ^ 63 - 1 < tx.desired_value
  · simp only [if_pos h7]; rfl
  simp only [if_neg h7]
  by_cases h8 : tx.property ≠ env.OMNI_PROPERTY_MSC ∧ tx.desired_property ≠ env.OMNI_PROPERTY_MSC ∧
      tx.property ≠ env.OMNI_PROPERTY_TMSC ∧ tx.desired_property ≠ env.OMNI_PROPERTY_TMSC
  · have h8' : ¬ (tx.property = env.OMNI_PROPERTY_MSC ∨ tx.property = env.OMNI_PROPERTY_TMSC ∨
        tx.desired_property = env.OMNI_PROPERTY_MSC ∨
        tx.desired_property = env.OMNI_PROPERTY_TMSC) := by
      rintro (h | h | h | h)
      · exact h8.1 h
      · exact h8.2.2.1 h
      · exact h8.2.1 h
      · exact h8.2.2.2 h
    simp only [if_pos h8, if_pos h8']; rfl
  have h8' : ¬ ¬ (tx.property = env.OMNI_PROPERTY_MSC ∨ tx.property = env.OMNI_PROPERTY_TMSC ∨
      tx.desired_property = env.OMNI_PROPERTY_MSC ∨
      tx.desired_property = env.OMNI_PROPERTY_TMSC) := by
    intro hn
    apply h8
    exact ⟨fun h => hn (Or.inl h), fun h => hn (Or.inr (Or.inr (Or.inl h))),
      fun h => hn (Or.inr (Or.inl h)), fun h => hn (Or.inr (Or.inr (Or.inr h)))⟩
  simp only [if_neg h8, if_neg h8']
  by_cases h9 : st.mdex.mp_tally_map tx.sender tx.property .BALANCE < tx.nNewValue
  · simp only [if_pos h9]; rfl
  simp only [if_neg h9]

/-- C18: with `MAX_INT_8_BYTES = 2^63 - 1` and a base `PKT_ERROR_METADEX` that
is not positive, `logicMath_MetaDExTrade` returns the code of the first
failing row of the validation table, the state untouched, the rows being in
this order: type or version not permitted -22, equal properties -29, different
ecosystems -30, property missing -31, desired property missing -32, amount for
sale not in `[1, 2^63 - 1]` -33, desired amount not in `[1, 2^63 - 1]` -34, no
side MSC or TMSC -35, balance below the amount for sale -25. The nine codes are
pairwise distinct and negative, and the transaction goes on to
`recordNewTrade` and `MetaDEx_ADD` if and only if no row fails. -/
theorem C18_trade_validation_table (env : TxEnv) (tx : CMPTransaction) (st : TxState)
    (hmax : env.MAX_INT_8_BYTES = 2 ^ 63 - 1) (hP : env.PKT_ERROR_METADEX ≤ 0) :
    (logicMath_MetaDExTrade env tx st =
      match firstFailing (tradeValidationTable env tx st) with
      | some code => .ok (env.PKT_ERROR_METADEX + code, st)
      | none => tradeAction env tx st) ∧
    (tradeValidationTable env tx st).map Prod.snd
      = [-22, -29, -30, -31, -32, -33, -34, -35, -25] ∧
    ((tradeValidationTable env tx st).map (fun r => env.PKT_ERROR_METADEX + r.2)).Nodup ∧
    (∀ r ∈ tradeValidationTable env tx st, env.PKT_ERROR_METADEX + r.2 < 0) ∧
    (logicMath_MetaDExTrade env tx st = tradeAction env tx st
      ↔ ∀ r ∈ tradeValidationTable env tx st, r.1 = false) := by
  have htab := logicMath_MetaDExTrade_table env tx st hmax
  have hcodes : (tradeValidationTable env tx st).map Prod.snd
      = [-22, -29, -30, -31, -32, -33, -34, -35, -25] := rfl
  refine ⟨htab, hcodes, ?_, ?_, ?_⟩
  · have : (tradeValidationTable env tx st).map (fun r => env.PKT_ERROR_METADEX + r.2)
        = ((tradeValidationTable env tx st).map Prod.snd).map
            (fun c => env.PKT_ERROR_METADEX + c) := by
      rw [List.map_map]; rfl
    rw [this, hcodes]
    apply List.Nodup.map
    · intro a b hab
      exact add_left_cancel hab
    · decide
  · intro r hr
    have hmem : r.2 ∈ (tradeValidationTable env tx st).map Prod.snd :=
      List.mem_map.mpr ⟨r, hr, rfl⟩
    rw [hcodes] at hmem
    simp only [List.mem_cons, List.mem_singleton, List.not_mem_nil, or_false] at hmem
    rcases hmem with h | h | h | h | h | h | h | h | h <;> rw [h] <;> omega
  · rw [← firstFailing_none, htab]
    cases hf : firstFailing (tradeValidationTable env tx st) with
    | none => simp
    | some code =>
      simp only [reduceCtorEq, iff_false]
      intro heq
      unfold tradeAction logicMath_return at heq
      cases hadd : MetaDEx_ADD env.METADEX_ERROR st.mdex tx.sender tx.property tx.nNewValue
          tx.block tx.desired_property tx.desired_value tx.txid tx.tx_idx with
      | error a =>
        rw [hadd] at heq
        cases heq
      | ok r =>
        rw [hadd] at heq
        obtain ⟨rc, s1⟩ := r
        simp only [Except.ok.injEq, Prod.mk.injEq] at heq
        have hl := congrArg (fun t => t.newTrades.length) heq.2
        simp at hl

/-- C18 at the offer of 10 of property 3 for 20 of property 5: the first
seven checks pass, neither side is MSC or TMSC, and the code is
`PKT_ERROR_METADEX - 35`. -/
theorem C18_trade_validation_table_witness :
    firstFailing (tradeValidationTable exEnv exTx35 exTxState) = some (-35) ∧
    logicMath_MetaDExTrade exEnv exTx35 exTxState = .ok (-80000 + -35, exTxState) := by
  have h := (C18_trade_validation_table exEnv exTx35 exTxState rfl (by decide)).1
  have hf : firstFailing (tradeValidationTable exEnv exTx35 exTxState) = some (-35) := by
    decide!
  rw [hf] at h
  exact ⟨hf, h⟩

/-! ## Atomic rejection -/

/-- The return codes of `MetaDEx_ADD`. -/
theorem MetaDEx_ADD_codes (ME : Int) (s : State) (sender : String) (prop : Nat) (amount : Int)
    (block : Int) (pd : Nat) (ad : Int) (txid idx : Nat) (r : Int × State)
    (h : MetaDEx_ADD ME s sender prop amount block pd ad txid idx = .ok r) :
    r.1 ∈ operationCodes ME := by
  unfold MetaDEx_ADD at h
  simp only [] at h
  unfold operationCodes
  split at h
  · cases h; simp
  · split at h
    · cases h
    · split at h
      · split at h
        · cases h; simp
        · split at h
          · cases h
          · split at h
            · cases h
            · cases h; simp
      · cases h; simp

/-- The return codes of the three cancel operations. -/
theorem MetaDEx_CANCEL_codes (isMain isTest : Nat → Bool) (ME : Int) (s : State) :
    (∀ txid block sender prop amount pd ad r,
      MetaDEx_CANCEL_AT_PRICE ME s txid block sender prop amount pd ad = .ok r →
      r.1 ∈ operationCodes ME) ∧
    (∀ txid block sender prop pd r,
      MetaDEx_CANCEL_ALL_FOR_PAIR ME s txid block sender prop pd = .ok r →
      r.1 ∈ operationCodes ME) ∧
    (∀ txid block sender ecosystem r,
      MetaDEx_CANCEL_EVERYTHING isMain isTest ME s txid block sender ecosystem = .ok r →
      r.1 ∈ operationCodes ME) := by
  refine ⟨?_, ?_, ?_⟩
  · intro txid block sender prop amount pd ad r h
    rcases MetaDEx_CANCEL_AT_PRICE_effect ME s txid block sender prop amount pd ad r h with
      ⟨_, hr⟩ | ⟨pm, removed, _, _, _, _, _, _, hrc⟩
    · rw [hr]; simp [operationCodes]
    · rw [hrc]
      split_ifs <;> simp [operationCodes]
  · intro txid block sender prop pd r h
    rcases MetaDEx_CANCEL_ALL_FOR_PAIR_effect ME s txid block sender prop pd r h with
      ⟨_, hr⟩ | ⟨pm, removed, _, _, _, _, _, _, hrc⟩
    · rw [hr]; simp [operationCodes]
    · rw [hrc]
      split_ifs <;> simp [operationCodes]
  · intro txid block sender ecosystem r h
    obtain ⟨removed, _, _, _, _, _, hrc⟩ :=
      MetaDEx_CANCEL_EVERYTHING_effect isMain isTest ME s txid block sender ecosystem r h
    rw [hrc]
    split_ifs <;> simp [operationCodes]

theorem logicMath_return_ok (nt : List NewTrade) (x : Except Abort (Int × State))
    (res : Int × TxState) (h : logicMath_return nt x = .ok res) :
    ∃ r, x = .ok r ∧ res = (r.1, { mdex := r.2, newTrades := nt }) := by
  unfold logicMath_return at h
  cases x with
  | error a => cases h
  | ok r =>
    obtain ⟨rc, s⟩ := r
    cases h
    exact ⟨(rc, s), rfl, rfl⟩

/-- A MetaDEx transaction that returns has either left the state untouched or
returned the code of its MetaDEx operation. -/
theorem logicMath_MetaDEx_cases (env : TxEnv) (tx : CMPTransaction) (st : TxState) :
    (∀ res, logicMath_MetaDExTrade env tx st = .ok res →
      res.2 = st ∨ res.1 ∈ operationCodes env.METADEX_ERROR) ∧
    (∀ res, logicMath_MetaDExCancelPrice env tx st = .ok res →
      res.2 = st ∨ res.1 ∈ operationCodes env.METADEX_ERROR) ∧
    (∀ res, logicMath_MetaDExCancelPair env tx st = .ok res →
      res.2 = st ∨ res.1 ∈ operationCodes env.METADEX_ERROR) ∧
    (∀ res, logicMath_MetaDExCancelEcosystem env tx st = .ok res →
      res.2 = st ∨ res.1 ∈ operationCodes env.METADEX_ERROR) := by
  have hc := MetaDEx_CANCEL_codes env.isMainEcosystemProperty env.isTestEcosystemProperty
    env.METADEX_ERROR st.mdex
  refine ⟨?_, ?_, ?_, ?_⟩
  · intro res h
    unfold logicMath_MetaDExTrade at h
    split_ifs at h
    all_goals first
      | (cases h; exact Or.inl rfl)
      | (obtain ⟨r, hr, he⟩ := logicMath_return_ok _ _ _ h
         right
         rw [he]
         exact MetaDEx_ADD_codes _ _ _ _ _ _ _ _ _ _ r hr)
  · intro res h
    unfold logicMath_MetaDExCancelPrice at h
    split_ifs at h
    all_goals first
      | (cases h; exact Or.inl rfl)
      | (obtain ⟨r, hr, he⟩ := logicMath_return_ok _ _ _ h
         right
         rw [he]
         exact hc.1 _ _ _ _ _ _ _ r hr)
  · intro res h
    unfold logicMath_MetaDExCancelPair at h
    split_ifs at h
    all_goals first
      | (cases h; exact Or.inl rfl)
      | (obtain ⟨r, hr, he⟩ := logicMath_return_ok _ _ _ h
         right
         rw [he]
         exact hc.2.1 _ _ _ _ _ r hr)
  · intro res h
    unfold logicMath_MetaDExCancelEcosystem at h
    split_ifs at h
    all_goals first
      | (cases h; exact Or.inl rfl)
      | (obtain ⟨r, hr, he⟩ := logicMath_return_ok _ _ _ h
         right
         rw [he]
         exact hc.2.2 _ _ _ _ r hr)

/-- C19: let no validation code `PKT_ERROR_METADEX - k` be a return code of a
MetaDEx operation (0 or a code below `METADEX_ERROR`). Whenever one of the four
MetaDEx transactions returns a validation code, the state is exactly the state
before the call: the ledger, the book, the trade log, the cancel log and the
rows of `recordNewTrade`. -/
theorem C19_atomic_rejection (env : TxEnv) (tx : CMPTransaction) (st : TxState)
    (hcodes : ∀ k ∈ validationOffsets,
      env.PKT_ERROR_METADEX - k ∉ operationCodes env.METADEX_ERROR)
    (res : Int × TxState) (k : Int) (hk : k ∈ validationOffsets)
    (hrc : res.1 = env.PKT_ERROR_METADEX - k) :
    (logicMath_MetaDExTrade env tx st = .ok res → res.2 = st) ∧
    (logicMath_MetaDExCancelPrice env tx st = .ok res → res.2 = st) ∧
    (logicMath_MetaDExCancelPair env tx st = .ok res → res.2 = st) ∧
    (logicMath_MetaDExCancelEcosystem env tx st = .ok res → res.2 = st) := by
  obtain ⟨h1, h2, h3, h4⟩ := logicMath_MetaDEx_cases env tx st
  have hno : res.1 ∉ operationCodes env.METADEX_ERROR := by
    rw [hrc]
    exact hcodes k hk
  exact ⟨fun h => (h1 res h).resolve_right hno, fun h => (h2 res h).resolve_right hno,
    fun h => (h3 res h).resolve_right hno, fun h => (h4 res h).resolve_right hno⟩

/-- C19 at the offer of 10 of property 3 for 20 of property 5, rejected with
`PKT_ERROR_METADEX - 35`: the state is the state before. -/
theorem C19_atomic_rejection_witness :
    logicMath_MetaDExTrade exEnv exTx35 exTxState = .ok (-80000 + -35, exTxState) ∧
    ((-80000 + -35, exTxState) : Int × TxState).2 = exTxState := by
  have h : logicMath_MetaDExTrade exEnv exTx35 exTxState
      = .ok (-80000 + -35, exTxState) := by
    have h1 := logicMath_MetaDExTrade_table exEnv exTx35 exTxState rfl
    have hf : firstFailing (tradeValidationTable exEnv exTx35 exTxState) = some (-35) := by
      decide!
    rw [hf] at h1
    exact h1
  exact ⟨h, (C19_atomic_rejection exEnv exTx35 exTxState (by decide!)
    (-80000 + -35, exTxState) 35 (by decide) (by decide)).1 h⟩

/-! ## The validation of the cancel-at-price transaction -/

theorem firstFailing_append (t1 t2 : List (Bool × Int)) :
    firstFailing (t1 ++ t2) =
      match firstFailing t1 with
      | some c => some c
      | none => firstFailing t2 := by
  induction t1 with
  | nil => rfl
  | cons r t ih =>
    obtain ⟨b, c⟩ := r
    cases b
    · simp only [List.cons_append, firstFailing, Bool.false_eq_true, if_false]
      exact ih
    · simp only [List.cons_append, firstFailing, if_true]

/-- The cancel-at-price transaction follows the first seven rows of the
validation table. -/
theorem logicMath_MetaDExCancelPrice_table (env : TxEnv) (tx : CMPTransaction) (st : TxState)
    (hmax : env.MAX_INT_8_BYTES = 2 ^ 63 - 1) :
    logicMath_MetaDExCancelPrice env tx st =
      match firstFailing (validationTable7 env tx) with
      | some code => .ok (env.PKT_ERROR_METADEX + code, st)
      | none => cancelPriceAction env tx st := by
  unfold logicMath_MetaDExCancelPrice validationTable7 cancelPriceAction
  rw [hmax]
  simp only [firstFailing, decide_eq_true_eq]
  by_cases h1 : (!env.IsTransactionTypeAllowed tx.block tx.property tx.type tx.version false)
      = true
  · simp only [if_pos h1]; rfl
  simp only [if_neg h1]
  by_cases h2 : tx.property = tx.desired_property
  · simp only [if_pos h2]; rfl
  simp only [if_neg h2]
  by_cases h3 : env.isTestEcosystemProperty tx.property
      ≠ env.isTestEcosystemProperty tx.desired_property
  · simp only [if_pos h3]; rfl
  simp only [if_neg h3]
  by_cases h4 : (!env.hasSP tx.property) = true
  · simp only [if_pos h4]; rfl
  simp only [if_neg h4]
  by_cases h5 : (!env.hasSP tx.desired_property) = true
  · simp only [if_pos h5]; rfl
  simp only [if_neg h5]
  by_cases h6 : tx.nNewValue ≤ 0 ∨ 2 ^ 63 - 1 < tx.nNewValue
  · simp only [if_pos h6]; rfl
  simp only [if_neg h6]
  by_cases h7 : tx.desired_value ≤ 0 ∨ 2 ^ 63 - 1 < tx.desired_value
  · simp only [if_pos h7]; rfl
  simp only [if_neg h7]

/-- C20, counterexample: the maker of the first scenario, whose 100 units of
property 3 are all in reserve, sends the terms of its resting order. The trade
validation rejects them with `PKT_ERROR_METADEX - 25` (balance 0 < 100), while
the cancel-at-price transaction passes its validation, calls
`MetaDEx_CANCEL_AT_PRICE` and returns 0: the order is removed and the 100 units
are back in the balance. -/
theorem C20_counterexample :
    firstFailing (tradeValidationTable exEnv exTxMaker exTxState) = some (-25) ∧
    logicMath_MetaDExTrade exEnv exTxMaker exTxState = .ok (-80000 + -25, exTxState) ∧
    firstFailing (validationTable7 exEnv exTxMaker) = none ∧
    logicMath_MetaDExCancelPrice exEnv exTxMaker exTxState
      = cancelPriceAction exEnv exTxMaker exTxState ∧
    (logicMath_MetaDExCancelPrice exEnv exTxMaker exTxState).toOption.map
      (fun r => (r.1, levelAt r.2.mdex.metadex 3 2,
        r.2.mdex.mp_tally_map "maker" 3 .BALANCE)) = some (0, [], 100) := by
  have hf : firstFailing (tradeValidationTable exEnv exTxMaker exTxState) = some (-25) := by
    decide!
  have hf7 : firstFailing (validationTable7 exEnv exTxMaker) = none := by decide!
  have h1 := logicMath_MetaDExTrade_table exEnv exTxMaker exTxState rfl
  rw [hf] at h1
  have h2 := logicMath_MetaDExCancelPrice_table exEnv exTxMaker exTxState rfl
  rw [hf7] at h2
  exact ⟨hf, h1, hf7, h2, by decide!⟩

/-- C20, amended: with `MAX_INT_8_BYTES = 2^63 - 1`,
`logicMath_MetaDExCancelPrice` applies the first seven checks of the trade
validation, in the same order and with the same codes, and neither the check
for MSC or TMSC (-35) nor the balance check (-25). A rejection by the cancel
validation is a rejection by the trade validation with the same code; the
cancel validation passes, and `MetaDEx_CANCEL_AT_PRICE` is called, exactly when
the trade validation passes or rejects with -35 or -25. -/
theorem C20_cancel_price_validation (env : TxEnv) (tx : CMPTransaction) (st : TxState)
    (hmax : env.MAX_INT_8_BYTES = 2 ^ 63 - 1) :
    (logicMath_MetaDExCancelPrice env tx st =
      match firstFailing (validationTable7 env tx) with
      | some code => .ok (env.PKT_ERROR_METADEX + code, st)
      | none => cancelPriceAction env tx st) ∧
    (logicMath_MetaDExTrade env tx st =
      match firstFailing (tradeValidationTable env tx st) with
      | some code => .ok (env.PKT_ERROR_METADEX + code, st)
      | none => tradeAction env tx st) ∧
    (validationTable7 env tx = (tradeValidationTable env tx st).take 7) ∧
    (∀ code, firstFailing (validationTable7 env tx) = some code →
      firstFailing (tradeValidationTable env tx st) = some code ∧
      logicMath_MetaDExCancelPrice env tx st = logicMath_MetaDExTrade env tx st) ∧
    (firstFailing (validationTable7 env tx) = none ↔
      firstFailing (tradeValidationTable env tx st) = none ∨
      firstFailing (tradeValidationTable env tx st) = some (-35) ∨
      firstFailing (tradeValidationTable env tx st) = some (-25)) := by
  have hc := logicMath_MetaDExCancelPrice_table env tx st hmax
  have ht := logicMath_MetaDExTrade_table env tx st hmax
  have happ : firstFailing (tradeValidationTable env tx st) =
      match firstFailing (validationTable7 env tx) with
      | some c => some c
      | none => firstFailing
        [ (decide (¬ (tx.property = env.OMNI_PROPERTY_MSC ∨
            tx.property = env.OMNI_PROPERTY_TMSC ∨
            tx.desired_property = env.OMNI_PROPERTY_MSC ∨
            tx.desired_property = env.OMNI_PROPERTY_TMSC)), -35),
          (decide (st.mdex.mp_tally_map tx.sender tx.property .BALANCE < tx.nNewValue),
            -25) ] := by
    unfold tradeValidationTable
    exact firstFailing_append _ _
  refine ⟨hc, ht, rfl, ?_, ?_⟩
  · intro code h7
    have h9 : firstFailing (tradeValidationTable env tx st) = some code := by
      rw [happ, h7]
    refine ⟨h9, ?_⟩
    rw [hc, ht, h7, h9]
  · constructor
    · intro h7
      rw [happ, h7]
      simp only [firstFailing]
      split_ifs <;> simp
    · intro h
      cases h7 : firstFailing (validationTable7 env tx) with
      | none => rfl
      | some c =>
        exfalso
        rw [happ, h7] at h
        have hm := firstFailing_some_mem _ _ h7
        have hcm : c ∈ (validationTable7 env tx).map Prod.snd :=
          List.mem_map.mpr ⟨(true, c), hm, rfl⟩
        have hl : (validationTable7 env tx).map Prod.snd
            = [-22, -29, -30, -31, -32, -33, -34] := rfl
        rw [hl] at hcm
        simp only [List.mem_cons, List.mem_singleton, List.not_mem_nil, or_false] at hcm
        rcases h with h | h | h
        · cases h
        · simp only [Option.some.injEq] at h
          omega
        · simp only [Option.some.injEq] at h
          omega

/-- C20, amended, at the cancel of the maker of the first scenario: the seven
checks pass although the trade validation rejects with -25. -/
theorem C20_cancel_price_validation_witness :
    firstFailing (validationTable7 exEnv exTxMaker) = none ∧
    (firstFailing (tradeValidationTable exEnv exTxMaker exTxState) = none ∨
      firstFailing (tradeValidationTable exEnv exTxMaker exTxState) = some (-35) ∨
      firstFailing (tradeValidationTable exEnv exTxMaker exTxState) = some (-25)) := by
  have h : firstFailing (validationTable7 exEnv exTxMaker) = none := by decide!
  exact ⟨h, (C20_cancel_price_validation exEnv exTxMaker exTxState rfl).2.2.2.2.mp h⟩

/-! ## Properties of the resting orders across `MetaDEx_ADD` -/

theorem mem_allOrders_iff (b : md_PropertiesMap) (o : CMPMetaDEx) :
    o ∈ allOrders b ↔ ∃ e ∈ b, ∃ lvl ∈ e.2, o ∈ lvl.2 := by
  unfold allOrders pricesOrders
  simp only [List.mem_flatMap]

theorem x_Trade_replace_mem (pofferSet : md_Set) (pold : CMPMetaDEx) (bg : Int)
    (y : CMPMetaDEx) (hy : y ∈ x_Trade_replace pofferSet pold bg) :
    y ∈ pofferSet ∨
      (0 < pold.amount_remaining - bg ∧
        y = pold.setAmountRemaining (pold.amount_remaining - bg)) := by
  unfold x_Trade_replace at hy
  simp only [] at hy
  by_cases hl : 0 < (pold.setAmountRemaining (pold.amount_remaining - bg)).amount_remaining
  · rw [if_pos hl] at hy
    rcases md_Set_insert_mem _ _ _ hy with h | h
    · exact Or.inr ⟨hl, h⟩
    · exact Or.inl (List.mem_of_mem_erase h)
  · rw [if_neg hl] at hy
    exact Or.inl (List.mem_of_mem_erase hy)

/-- A property of the resting orders that the replacement of a partially
filled order keeps holds for the level the inner loop of `x_Trade` leaves. -/
theorem x_Trade_offers_orders (P : CMPMetaDEx → Prop) (sellersPrice : ℚ)
    (hP : ∀ pold pnew bg sg, P pold → x_Trade_outcome sellersPrice pold pnew = .fill bg sg →
      0 < pold.amount_remaining - bg →
      P (pold.setAmountRemaining (pold.amount_remaining - bg))) :
    ∀ (rest : List CMPMetaDEx) (pofferSet : md_Set) (st : TradeState)
      (res : md_Set × TradeState),
      (∀ o ∈ pofferSet, P o) → (∀ o ∈ rest, P o) →
      x_Trade_offers sellersPrice rest pofferSet st = .ok res → ∀ o ∈ res.1, P o := by
  intro rest
  induction rest with
  | nil =>
    intro pofferSet st res hset _ h
    simp only [x_Trade_offers] at h
    cases h
    exact hset
  | cons c rest ih =>
    intro pofferSet st res hset hrest h
    have hc : P c := hrest c (List.mem_cons_self _ _)
    have hrest1 : ∀ o ∈ rest, P o := fun o ho => hrest o (List.mem_cons_of_mem _ ho)
    rw [x_Trade_offers] at h
    cases hout : x_Trade_outcome sellersPrice c st.pnew with
    | assertFailed a => rw [hout] at h; cases h
    | nextOffer =>
      rw [hout] at h
      exact ih pofferSet st res hset hrest1 h
    | fill bg sg =>
      rw [hout] at h
      simp only [] at h
      have hnew : ∀ o ∈ x_Trade_replace pofferSet c bg, P o := by
        intro o ho
        rcases x_Trade_replace_mem pofferSet c bg o ho with h1 | ⟨h1, h2⟩
        · exact hset o h1
        · rw [h2]
          exact hP c st.pnew bg sg hc hout h1
      cases ht : x_Trade_transfer st.tally c st.pnew bg sg with
      | none => rw [ht] at h; cases h
      | some L =>
        rw [ht] at h
        simp only [] at h
        by_cases hs : (x_Trade_after L c st bg sg).bBuyerSatisfied = true
        · rw [if_pos hs] at h
          by_cases hz : (x_Trade_after L c st bg sg).pnew.amount_remaining = 0
          · rw [if_pos hz] at h
            cases h
            exact hnew
          · rw [if_neg hz] at h; cases h
        · rw [if_neg hs] at h
          exact ih _ _ res hnew hrest1 h

/-- The same for the price map the outer loop of `x_Trade` leaves. -/
theorem x_Trade_prices_orders (P : CMPMetaDEx → Prop)
    (hP : ∀ sellersPrice pold pnew bg sg, P pold →
      x_Trade_outcome sellersPrice pold pnew = .fill bg sg →
      0 < pold.amount_remaining - bg →
      P (pold.setAmountRemaining (pold.amount_remaining - bg))) :
    ∀ (pm : md_PricesMap) (st : TradeState) (res : md_PricesMap × TradeState),
      (∀ lvl ∈ pm, ∀ o ∈ lvl.2, P o) →
      x_Trade_prices pm st = .ok res → ∀ lvl ∈ res.1, ∀ o ∈ lvl.2, P o := by
  intro pm
  induction pm with
  | nil =>
    intro st res _ h
    simp only [x_Trade_prices] at h
    cases h
    intro lvl hl
    cases hl
  | cons lvl pm ih =>
    obtain ⟨price, set⟩ := lvl
    intro st res hall h
    have h0 : ∀ o ∈ set, P o := hall (price, set) (List.mem_cons_self _ _)
    have h1 : ∀ lvl ∈ pm, ∀ o ∈ lvl.2, P o :=
      fun l hl => hall l (List.mem_cons_of_mem _ hl)
    rw [x_Trade_prices] at h
    by_cases hlt : st.pnew.inversePrice < price
    · rw [if_pos hlt] at h
      cases hr : x_Trade_prices pm st with
      | error a => rw [hr] at h; cases h
      | ok r =>
        rw [hr] at h
        cases h
        intro l hl
        rcases List.mem_cons.mp hl with rfl | hl
        · exact h0
        · exact ih st r h1 hr l hl
    · rw [if_neg hlt] at h
      cases ho : x_Trade_offers price set set st with
      | error a => rw [ho] at h; cases h
      | ok r1 =>
        rw [ho] at h
        simp only [] at h
        have hn := x_Trade_offers_orders P price (hP price) set set st r1 h0 h0 ho
        by_cases hs : r1.2.bBuyerSatisfied = true
        · rw [if_pos hs] at h
          cases h
          intro l hl
          rcases List.mem_cons.mp hl with rfl | hl
          · exact hn
          · exact h1 l hl
        · rw [if_neg hs] at h
          cases hr : x_Trade_prices pm r1.2 with
          | error a => rw [hr] at h; cases h
          | ok r =>
            rw [hr] at h
            cases h
            intro l hl
            rcases List.mem_cons.mp hl with rfl | hl
            · exact hn
            · exact ih r1.2 r h1 hr l hl

/-- The same for the book `x_Trade` leaves. -/
theorem x_Trade_orders (P : CMPMetaDEx → Prop)
    (hP : ∀ sellersPrice pold pnew bg sg, P pold →
      x_Trade_outcome sellersPrice pold pnew = .fill bg sg →
      0 < pold.amount_remaining - bg →
      P (pold.setAmountRemaining (pold.amount_remaining - bg)))
    (s : State) (pnew : CMPMetaDEx) (r : TradeResult)
    (hall : ∀ o ∈ allOrders s.metadex, P o) (h : x_Trade s pnew = .ok r) :
    ∀ o ∈ allOrders r.state.metadex, P o := by
  unfold x_Trade at h
  cases hg : get_Prices s.metadex pnew.desired_property with
  | none =>
    rw [hg] at h
    cases h
    exact hall
  | some pm =>
    rw [hg] at h
    simp only [] at h
    cases hp : x_Trade_prices pm (x_Trade_init s pnew) with
    | error a => rw [hp] at h; cases h
    | ok res =>
      rw [hp] at h
      cases h
      have hpm : ∀ lvl ∈ pm, ∀ o ∈ lvl.2, P o := by
        intro lvl hl o ho
        exact hall o (mem_allOrders (mapFind_mem hg) hl ho)
      have hnew := x_Trade_prices_orders P hP pm _ res hpm hp
      intro o ho
      show P o
      obtain ⟨e, he, lvl, hl, hol⟩ := (mem_allOrders_iff _ o).mp ho
      rcases mapReplace_mem _ _ _ e he with h1 | h1
      · exact hall o ((mem_allOrders_iff _ o).mpr ⟨e, h1, lvl, hl, hol⟩)
      · rw [h1] at hl
        exact hnew lvl hl o hol

theorem mem_allOrders_MetaDEx_INSERT (b : md_PropertiesMap) (x o : CMPMetaDEx)
    (ho : o ∈ allOrders (MetaDEx_INSERT b x).1) : o = x ∨ o ∈ allOrders b := by
  rw [MetaDEx_INSERT_eq] at ho
  by_cases hr : (md_Set_insert x (((get_Prices b x.property).bind
            (fun pm => get_Indexes pm x.unitPrice)).getD [])).2 = false
  · rw [if_pos hr] at ho
    exact Or.inr ho
  · rw [if_neg hr] at ho
    obtain ⟨e, he, lvl, hl, hol⟩ := (mem_allOrders_iff _ o).mp ho
    rcases mapAssign_mem _ _ _ e he with h1 | h1
    · exact Or.inr ((mem_allOrders_iff _ o).mpr ⟨e, h1, lvl, hl, hol⟩)
    · rw [h1] at hl
      rcases mapAssign_mem _ _ _ lvl hl with h2 | h2
      · cases hg : get_Prices b x.property with
        | none =>
          rw [hg] at h2
          cases h2
        | some pm =>
          rw [hg] at h2
          exact Or.inr (mem_allOrders (mapFind_mem hg) h2 hol)
      · rw [h2] at hol
        rcases md_Set_insert_mem _ _ _ hol with h3 | h3
        · exact Or.inl h3
        · right
          cases hg : get_Prices b x.property with
          | none =>
            rw [hg] at h3
            cases h3
          | some pm =>
            rw [hg] at h3
            cases hi : get_Indexes pm x.unitPrice with
            | none =>
              simp only [Option.bind, hi, Option.getD] at h3
              cases h3
            | some l =>
              simp only [Option.bind, hi, Option.getD] at h3
              exact mem_allOrders (mapFind_mem hg) (mapFind_mem hi) h3

/-- A property of the resting orders that the replacement of a partially
filled order keeps, and that the residual of the incoming order has, holds for
the book `MetaDEx_ADD` leaves. -/
theorem MetaDEx_ADD_orders (P : CMPMetaDEx → Prop)
    (hP : ∀ sellersPrice pold pnew bg sg, P pold →
      x_Trade_outcome sellersPrice pold pnew = .fill bg sg →
      0 < pold.amount_remaining - bg →
      P (pold.setAmountRemaining (pold.amount_remaining - bg)))
    (ME : Int) (s : State) (sender : String) (prop : Nat) (amount : Int) (block : Int)
    (pd : Nat) (ad : Int) (txid idx : Nat) (res : Int × State)
    (hall : ∀ o ∈ allOrders s.metadex, P o)
    (hnew : ∀ r, x_Trade s (CMPMetaDEx.create sender block prop amount pd ad txid idx .ADD)
      = .ok r → 0 < r.pnew.amount_remaining → P r.pnew)
    (h : MetaDEx_ADD ME s sender prop amount block pd ad txid idx = .ok res) :
    ∀ o ∈ allOrders res.2.metadex, P o := by
  unfold MetaDEx_ADD at h
  simp only [] at h
  split at h
  · cases h; exact hall
  · cases hx : x_Trade s (CMPMetaDEx.create sender block prop amount pd ad txid idx .ADD) with
    | error a => rw [hx] at h; cases h
    | ok r =>
      rw [hx] at h
      simp only [] at h
      have hr := x_Trade_orders P hP s _ r hall hx
      by_cases h1 : 0 < r.pnew.amount_remaining
      · rw [if_pos h1] at h
        by_cases h2 : (MetaDEx_INSERT r.state.metadex r.pnew).2 = false
        · rw [if_pos h2] at h
          cases h
          exact hr
        · rw [if_neg h2] at h
          cases hu1 : update_tally_map r.state.mp_tally_map sender prop
              (-r.pnew.amount_remaining) .BALANCE with
          | none => rw [hu1] at h; cases h
          | some L1 =>
            rw [hu1] at h
            simp only [] at h
            cases hu2 : update_tally_map L1 sender prop r.pnew.amount_remaining
                .METADEX_RESERVE with
            | none => rw [hu2] at h; cases h
            | some L2 =>
              rw [hu2] at h
              cases h
              intro o ho
              rcases mem_allOrders_MetaDEx_INSERT _ _ o ho with h3 | h3
              · rw [h3]; exact hnew r hx h1
              · exact hr o h3
      · rw [if_neg h1] at h
        cases h
        exact hr

/-! ## A run of `x_Trade` that records no trade -/

/-- The inner loop of `x_Trade` only adds to the trade log, and when the log
has not grown the level and the loop state are as they were. -/
theorem x_Trade_offers_log (sellersPrice : ℚ) :
    ∀ (rest : List CMPMetaDEx) (pofferSet : md_Set) (st : TradeState)
      (res : md_Set × TradeState),
      x_Trade_offers sellersPrice rest pofferSet st = .ok res →
      st.tradelist.length ≤ res.2.tradelist.length ∧
      (res.2.tradelist.length = st.tradelist.length → res = (pofferSet, st)) := by
  intro rest
  induction rest with
  | nil =>
    intro pofferSet st res h
    simp only [x_Trade_offers] at h
    cases h
    exact ⟨le_refl _, fun _ => rfl⟩
  | cons c rest ih =>
    intro pofferSet st res h
    rw [x_Trade_offers] at h
    cases hout : x_Trade_outcome sellersPrice c st.pnew with
    | assertFailed a => rw [hout] at h; cases h
    | nextOffer =>
      rw [hout] at h
      exact ih pofferSet st res h
    | fill bg sg =>
      rw [hout] at h
      simp only [] at h
      cases ht : x_Trade_transfer st.tally c st.pnew bg sg with
      | none => rw [ht] at h; cases h
      | some L =>
        rw [ht] at h
        simp only [] at h
        have hlen : (x_Trade_after L c st bg sg).tradelist.length
            = st.tradelist.length + 1 := by
          simp [x_Trade_after]
        by_cases hs : (x_Trade_after L c st bg sg).bBuyerSatisfied = true
        · rw [if_pos hs] at h
          by_cases hz : (x_Trade_after L c st bg sg).pnew.amount_remaining = 0
          · rw [if_pos hz] at h
            cases h
            constructor
            · show _ ≤ (x_Trade_after L c st bg sg).tradelist.length
              omega
            · intro hh
              have hh' : (x_Trade_after L c st bg sg).tradelist.length
                  = st.tradelist.length := hh
              omega
          · rw [if_neg hz] at h; cases h
        · rw [if_neg hs] at h
          obtain ⟨i1, _⟩ := ih _ _ res h
          constructor
          · omega
          · intro hh
            omega

/-- The same for the outer loop. -/
theorem x_Trade_prices_log :
    ∀ (pm : md_PricesMap) (st : TradeState) (res : md_PricesMap × TradeState),
      x_Trade_prices pm st = .ok res →
      st.tradelist.length ≤ res.2.tradelist.length ∧
      (res.2.tradelist.length = st.tradelist.length → res = (pm, st)) := by
  intro pm
  induction pm with
  | nil =>
    intro st res h
    simp only [x_Trade_prices] at h
    cases h
    exact ⟨le_refl _, fun _ => rfl⟩
  | cons lvl pm ih =>
    obtain ⟨price, set⟩ := lvl
    intro st res h
    rw [x_Trade_prices] at h
    by_cases hlt : st.pnew.inversePrice < price
    · rw [if_pos hlt] at h
      cases hr : x_Trade_prices pm st with
      | error a => rw [hr] at h; cases h
      | ok r =>
        rw [hr] at h
        cases h
        obtain ⟨i1, i2⟩ := ih st r hr
        refine ⟨i1, fun hh => ?_⟩
        have := i2 hh
        rw [this]
    · rw [if_neg hlt] at h
      cases ho : x_Trade_offers price set set st with
      | error a => rw [ho] at h; cases h
      | ok r1 =>
        rw [ho] at h
        simp only [] at h
        obtain ⟨j1, j2⟩ := x_Trade_offers_log price set set st r1 ho
        by_cases hs : r1.2.bBuyerSatisfied = true
        · rw [if_pos hs] at h
          cases h
          refine ⟨j1, fun hh => ?_⟩
          have := j2 hh
          rw [this]
        · rw [if_neg hs] at h
          cases hr : x_Trade_prices pm r1.2 with
          | error a => rw [hr] at h; cases h
          | ok r =>
            rw [hr] at h
            cases h
            obtain ⟨i1, i2⟩ := ih r1.2 r hr
            refine ⟨le_trans j1 i1, fun hh => ?_⟩
            have hh' : r.2.tradelist.length = st.tradelist.length := hh
            have e1 := j2 (by omega)
            have e2 := i2 (by omega)
            rw [e2, e1]

/-- A run of `x_Trade` after which the trade log is as long as before has
left the incoming order and the state as they were. -/
theorem x_Trade_no_trade (s : State) (pnew : CMPMetaDEx) (r : TradeResult)
    (h : x_Trade s pnew = .ok r)
    (hlog : r.state.t_tradelistdb.length = s.t_tradelistdb.length) :
    r.pnew = pnew ∧ r.state = s := by
  unfold x_Trade at h
  cases hg : get_Prices s.metadex pnew.desired_property with
  | none =>
    rw [hg] at h
    cases h
    exact ⟨rfl, rfl⟩
  | some pm =>
    rw [hg] at h
    simp only [] at h
    cases hp : x_Trade_prices pm (x_Trade_init s pnew) with
    | error a => rw [hp] at h; cases h
    | ok res =>
      rw [hp] at h
      cases h
      have hlog' : res.2.tradelist.length = (x_Trade_init s pnew).tradelist.length := hlog
      have e := (x_Trade_prices_log pm _ res hp).2 hlog'
      rw [e]
      refine ⟨rfl, ?_⟩
      show ({ s with metadex := mapReplace pnew.desired_property pm s.metadex,
                     mp_tally_map := s.mp_tally_map,
                     t_tradelistdb := s.t_tradelistdb } : State) = s
      rw [mapReplace_self _ _ _ hg]

/-- The sum of a measure over the entries of a map after `m[k] = v`. -/
theorem sum_mapAssign_entries {κ β : Type} [DecidableEq κ] [LT κ]
    [DecidableRel (fun (a b : κ) => a < b)] (F : κ × β → Int) (k : κ) (v : β)
    (l : List (κ × β)) :
    ((mapAssign k v l).map F).sum
      = (l.map F).sum - ((mapFind k l).map (fun old => F (k, old))).getD 0 + F (k, v) := by
  have hrep : ∀ (l : List (κ × β)) (old : β), mapFind k l = some old →
      ((mapReplace k v l).map F).sum = (l.map F).sum - F (k, old) + F (k, v) := by
    intro l
    induction l with
    | nil => intro old h; simp [mapFind] at h
    | cons e rest ih =>
      obtain ⟨k1, v1⟩ := e
      intro old h
      rw [mapFind] at h
      rw [mapReplace]
      by_cases hk : k1 = k
      · rw [if_pos hk] at h
        cases h
        rw [if_pos hk]
        simp only [List.map_cons, List.sum_cons]
        rw [hk]
        omega
      · rw [if_neg hk] at h
        rw [if_neg hk]
        simp only [List.map_cons, List.sum_cons]
        rw [ih old h]
        omega
  have hins : ∀ (l : List (κ × β)),
      ((mapInsert k v l).map F).sum = (l.map F).sum + F (k, v) := by
    intro l
    induction l with
    | nil => simp [mapInsert]
    | cons e rest ih =>
      obtain ⟨k1, v1⟩ := e
      rw [mapInsert]
      by_cases hlt : k < k1
      · rw [if_pos hlt]
        simp only [List.map_cons, List.sum_cons]
        omega
      · rw [if_neg hlt]
        simp only [List.map_cons, List.sum_cons]
        rw [ih]
        omega
  unfold mapAssign
  cases hf : mapFind k l with
  | none =>
    simp only [Option.map_none', Option.getD_none]
    rw [hins]
    omega
  | some old =>
    simp only [Option.map_some', Option.getD_some]
    exact hrep l old hf

/-! ## Cancelling an order that was just added -/

theorem levelAt_mem (b : md_PropertiesMap) (p : Nat) (q : ℚ) (o : CMPMetaDEx)
    (ho : o ∈ levelAt b p q) :
    ∃ pm, get_Prices b p = some pm ∧ (q, levelAt b p q) ∈ pm := by
  unfold levelAt at ho ⊢
  cases hg : get_Prices b p with
  | none =>
    rw [hg] at ho
    cases ho
  | some pm =>
    rw [hg] at ho
    refine ⟨pm, rfl, ?_⟩
    cases hi : get_Indexes pm q with
    | none =>
      simp only [Option.bind, hi, Option.getD] at ho
      cases ho
    | some l =>
      simp only [Option.bind, hi, Option.getD]
      exact mapFind_mem hi

theorem reserved_mem_le (l : List CMPMetaDEx) (h : ∀ x ∈ l, 0 ≤ x.amount_remaining)
    (o : CMPMetaDEx) (ho : o ∈ l) : o.amount_remaining ≤ reserved l o.addr o.property := by
  induction l with
  | nil => cases ho
  | cons x l ih =>
    rw [reserved_cons]
    have hx := h x (List.mem_cons_self _ _)
    have hl : ∀ y ∈ l, 0 ≤ y.amount_remaining := fun y hy => h y (List.mem_cons_of_mem _ hy)
    have hn := reserved_nonneg l hl o.addr o.property
    rcases List.mem_cons.mp ho with rfl | ho
    · rw [if_pos ⟨rfl, rfl⟩]
      omega
    · have := ih hl ho
      split_ifs <;> omega

/-- The amounts a cancel loop removes from a price map to which one level has
been assigned, when it finds nothing to remove in the levels that were there:
the amounts it removes from the assigned level. -/
theorem reserved_cancelled_mapAssign (skipLevel : ℚ → Bool) (skip : CMPMetaDEx → Bool)
    (key : ℚ) (pm0 : md_PricesMap) (newlvl : md_Set) (a : String) (q : Nat)
    (hkey : skipLevel key = false)
    (h0 : ∀ e ∈ pm0, skipLevel e.1 = false → cancelledOffers skip e.2 = []) :
    reserved (cancelledPrices skipLevel skip (mapAssign key newlvl pm0)) a q
      = reserved (cancelledOffers skip newlvl) a q := by
  have hF : ∀ e ∈ pm0, reserved
      (if skipLevel e.1 then [] else cancelledOffers skip e.2) a q = 0 := by
    intro e he
    by_cases hs : skipLevel e.1 = true
    · rw [if_pos hs]; rfl
    · rw [if_neg hs, h0 e he (by simpa using hs)]; rfl
  unfold cancelledPrices
  rw [reserved_flatMap]
  rw [sum_mapAssign_entries (fun e : ℚ × md_Set => reserved
      (if skipLevel e.1 then [] else cancelledOffers skip e.2) a q) key newlvl pm0]
  have hsum : (pm0.map (fun e : ℚ × md_Set => reserved
      (if skipLevel e.1 then [] else cancelledOffers skip e.2) a q)).sum = 0 := by
    apply List.sum_eq_zero
    intro x hx
    obtain ⟨e, he, rfl⟩ := List.mem_map.mp hx
    exact hF e he
  have hold : ((mapFind key pm0).map (fun old => reserved
      (if skipLevel (key, old).1 then [] else cancelledOffers skip (key, old).2) a q)).getD 0
        = 0 := by
    cases hf : mapFind key pm0 with
    | none => rfl
    | some old =>
      simp only [Option.map_some', Option.getD_some]
      exact hF (key, old) (mapFind_mem hf)
  rw [hsum, hold]
  simp only [hkey, Bool.false_eq_true, if_false]
  omega

/-- What a `MetaDEx_ADD` that returned 0 and left a residual has done after
`x_Trade`: the residual was inserted, and its remaining amount went from the
sender's `BALANCE` to the sender's `METADEX_RESERVE`. -/
theorem MetaDEx_ADD_rest (ME : Int) (s s1 : State) (sender : String) (prop : Nat)
    (amount : Int) (block : Int) (pd : Nat) (ad : Int) (txid idx : Nat) (r : TradeResult)
    (h66 : ME - 66 ≠ 0) (h70 : ME - 70 ≠ 0)
    (hadd : MetaDEx_ADD ME s sender prop amount block pd ad txid idx = .ok (0, s1))
    (hx : x_Trade s (CMPMetaDEx.create sender block prop amount pd ad txid idx .ADD) = .ok r)
    (hrest : 0 < r.pnew.amount_remaining) :
    (MetaDEx_INSERT r.state.metadex r.pnew).2 = true ∧
    s1.metadex = (MetaDEx_INSERT r.state.metadex r.pnew).1 ∧
    (∀ a p k, s1.mp_tally_map a p k = r.state.mp_tally_map a p k
      + (if a = sender ∧ p = prop ∧ k = .BALANCE then -r.pnew.amount_remaining else 0)
      + (if a = sender ∧ p = prop ∧ k = .METADEX_RESERVE then r.pnew.amount_remaining
         else 0)) ∧
    amount ≠ 0 ∧ r.pnew.unitPrice = (ad : ℚ) / (amount : ℚ) ∧
    r.pnew.addr = sender ∧ r.pnew.property = prop ∧ r.pnew.desired_property = pd := by
  have hp := x_Trade_pnew s _ r hx
  unfold MetaDEx_ADD at hadd
  simp only [] at hadd
  by_cases h0 : 0 ≥ (CMPMetaDEx.create sender block prop amount pd ad txid idx .ADD).unitPrice
  · rw [if_pos h0] at hadd
    simp only [Except.ok.injEq, Prod.mk.injEq] at hadd
    exact absurd hadd.1 h66
  · rw [if_neg h0, hx] at hadd
    simp only [] at hadd
    rw [if_pos hrest] at hadd
    obtain ⟨hne, hunit⟩ := unitPrice_of_pos _ h0
    have hne' : amount ≠ 0 := hne
    have hu : r.pnew.unitPrice = (ad : ℚ) / (amount : ℚ) := by
      rw [hp]
      exact hunit
    by_cases h2 : (MetaDEx_INSERT r.state.metadex r.pnew).2 = false
    · rw [if_pos h2] at hadd
      simp only [Except.ok.injEq, Prod.mk.injEq] at hadd
      exact absurd hadd.1 h70
    · rw [if_neg h2] at hadd
      cases hu1 : update_tally_map r.state.mp_tally_map sender prop
          (-r.pnew.amount_remaining) .BALANCE with
      | none => rw [hu1] at hadd; cases hadd
      | some L1 =>
        rw [hu1] at hadd
        simp only [] at hadd
        cases hu2 : update_tally_map L1 sender prop r.pnew.amount_remaining
            .METADEX_RESERVE with
        | none => rw [hu2] at hadd; cases hadd
        | some L2 =>
          rw [hu2] at hadd
          simp only [Except.ok.injEq, Prod.mk.injEq, true_and] at hadd
          have e1 := (update_tally_map_some hu1).2
          have e2 := (update_tally_map_some hu2).2
          refine ⟨by simpa using h2, by rw [← hadd], ?_, hne', hu, by rw [hp]; rfl,
            by rw [hp]; rfl, by rw [hp]; rfl⟩
          intro a p k
          rw [← hadd]
          show L2 a p k = _
          rw [e2, e1]

/-- C16, counterexample: in the second scenario the taker's `MetaDEx_ADD` of
200 of property 1 returns 0 and leaves a residual of 100 after a fill that cost
100. The `MetaDEx_CANCEL_AT_PRICE` with the same terms returns 0 and removes
the residual, but the taker's `BALANCE` of property 1 is then 900, not the 1000
it was before the `MetaDEx_ADD`. -/
theorem C16_counterexample :
    ex2State.mp_tally_map "taker" 1 .BALANCE = 1000 ∧
    (MetaDEx_ADD (-80000) ex2State "taker" 1 200 11 3 100 78 1).toOption.map (fun r => r.1)
      = some 0 ∧
    levelAt ex2State1.metadex 1 (1 / 2) = [ex2Residual] ∧
    (MetaDEx_CANCEL_AT_PRICE (-80000) ex2State1 90 12 "taker" 1 200 3 100).toOption.map
      (fun r => (r.1, levelAt r.2.metadex 1 (1 / 2), r.2.mp_tally_map "taker" 1 .BALANCE))
      = some (0, [], 900) :=
  ⟨by decide!, by decide!, by decide!, by decide!⟩

/-- C16, amended: in a state with the reserve invariant, ordered levels, no
negative tally and no negative resting amount, let `MetaDEx_ADD` by a sender
whose `BALANCE` covers the amount return 0 and leave a residual. Then
`MetaDEx_CANCEL_AT_PRICE` by the same sender with the same terms returns 0. It
removes the residual, with every other order of the sender for that pair at a
level of that price key: no such order is left at the level. The remaining
amounts of the removed orders, at least that of the residual, go from the
sender's `METADEX_RESERVE` back to the sender's `BALANCE`. The `BALANCE` is
the one before the `MetaDEx_ADD` when the `MetaDEx_ADD` recorded no trade and
the sender had no order for that pair at that price key before. -/
theorem C16_add_cancel_round_trip (ME : Int) (s s1 : State) (sender : String) (prop : Nat)
    (amount : Int) (block : Int) (pd : Nat) (ad : Int) (txid idx : Nat) (txid2 : Nat)
    (block2 : Int) (r : TradeResult)
    (hME : ME - 66 ≠ 0 ∧ ME - 70 ≠ 0 ∧ ME - 20 ≠ 0)
    (hwf : BookWF s.metadex) (hinv : ReserveInv s)
    (hnn : ∀ a p k, 0 ≤ s.mp_tally_map a p k)
    (hrem : ∀ o ∈ allOrders s.metadex, 0 ≤ o.amount_remaining)
    (hbal : amount ≤ s.mp_tally_map sender prop .BALANCE)
    (hadd : MetaDEx_ADD ME s sender prop amount block pd ad txid idx = .ok (0, s1))
    (hx : x_Trade s (CMPMetaDEx.create sender block prop amount pd ad txid idx .ADD) = .ok r)
    (hrest : 0 < r.pnew.amount_remaining) :
    ∃ s2 removed,
      MetaDEx_CANCEL_AT_PRICE ME s1 txid2 block2 sender prop amount pd ad = .ok (0, s2) ∧
      removed = cancelledPrices (fun q => decide ((ad : ℚ) / (amount : ℚ) ≠ q))
        (fun o => decide (o.desired_property ≠ pd) || decide (o.addr ≠ sender))
        ((get_Prices s1.metadex prop).getD []) ∧
      r.pnew ∈ levelAt s1.metadex prop ((ad : ℚ) / (amount : ℚ)) ∧
      r.pnew ∈ removed ∧
      (∀ o ∈ levelAt s2.metadex prop ((ad : ℚ) / (amount : ℚ)),
        ¬ (o.addr = sender ∧ o.desired_property = pd)) ∧
      (∀ a q, s2.mp_tally_map a q .METADEX_RESERVE
          = s1.mp_tally_map a q .METADEX_RESERVE - reserved removed a q ∧
        s2.mp_tally_map a q .BALANCE = s1.mp_tally_map a q .BALANCE + reserved removed a q) ∧
      r.pnew.amount_remaining ≤ reserved removed sender prop ∧
      (r.state.t_tradelistdb = s.t_tradelistdb →
        (∀ lvl ∈ (get_Prices s.metadex prop).getD [], lvl.1 = (ad : ℚ) / (amount : ℚ) →
          ∀ o ∈ lvl.2, ¬ (o.addr = sender ∧ o.desired_property = pd)) →
        reserved removed sender prop = amount ∧
        s2.mp_tally_map sender prop .BALANCE = s.mp_tally_map sender prop .BALANCE) := by
  obtain ⟨hins, hbook1, htally1, hamount, hunit, haddr, hprop, hdes⟩ :=
    MetaDEx_ADD_rest ME s s1 sender prop amount block pd ad txid idx r hME.1 hME.2.1 hadd hx
      hrest
  -- the invariants after the `MetaDEx_ADD`
  have hcov : ∀ a p, reserved (allOrders s.metadex) a p
      ≤ s.mp_tally_map a p .METADEX_RESERVE := fun a p => le_of_eq (hinv a p).symm
  have hinv1 : ReserveInv s1 :=
    (MetaDEx_ADD_reserve ME s sender prop amount block pd ad txid idx (0, s1) hwf hinv hadd).1
  have hnn1 : ∀ a p k, 0 ≤ s1.mp_tally_map a p k :=
    (MetaDEx_ADD_tally ME s sender prop amount block pd ad txid idx hnn hcov hrem hbal).2
      (0, s1) hadd
  have hrem1 : ∀ o ∈ allOrders s1.metadex, 0 ≤ o.amount_remaining :=
    MetaDEx_ADD_orders (fun o => 0 ≤ o.amount_remaining)
      (fun _ _ _ _ _ _ _ hl => le_of_lt hl) ME s sender prop amount block pd ad txid idx
      (0, s1) hrem (fun r1 h1 hr1 => le_of_lt hr1) hadd
  -- the cancel returns
  obtain ⟨res, hres⟩ := (MetaDEx_CANCEL_ok (fun _ => false) (fun _ => false) ME s1 hrem1
    (fun a p => le_of_eq (hinv1 a p).symm) (fun a p => hnn1 a p _)).1
    txid2 block2 sender prop amount pd ad
  have hcunit : (CMPMetaDEx.create sender 0 prop amount pd ad 0 0 .CANCEL_AT_PRICE).unitPrice
      = (ad : ℚ) / (amount : ℚ) := by
    simp [CMPMetaDEx.unitPrice, CMPMetaDEx.create, hamount]
  -- the residual rests at its level
  have hlev1 := levelAt_MetaDEx_INSERT r.state.metadex r.pnew hins prop ((ad : ℚ) / (amount : ℚ))
  rw [if_pos ⟨hprop.symm, hunit.symm⟩, ← hbook1] at hlev1
  have hperm := (md_Set_insert_perm r.pnew
    (levelAt r.state.metadex prop ((ad : ℚ) / (amount : ℚ)))).1 (by
      have h2 := hins
      rw [MetaDEx_INSERT_eq] at h2
      by_cases hr : (md_Set_insert r.pnew (((get_Prices r.state.metadex r.pnew.property).bind
          (fun pm => get_Indexes pm r.pnew.unitPrice)).getD [])).2 = false
      · rw [if_pos hr] at h2
        cases h2
      · rw [hprop, hunit] at hr
        simpa using hr)
  rw [← hlev1] at hperm
  have hmem1 : r.pnew ∈ levelAt s1.metadex prop ((ad : ℚ) / (amount : ℚ)) :=
    hperm.symm.subset (List.mem_cons_self _ _)
  obtain ⟨pm1, hg1, hl1⟩ := levelAt_mem _ _ _ _ hmem1
  have hskip_new : (decide (r.pnew.desired_property ≠ pd) || decide (r.pnew.addr ≠ sender))
      = false := by
    simp [hdes, haddr]
  rcases MetaDEx_CANCEL_AT_PRICE_effect ME s1 txid2 block2 sender prop amount pd ad res hres with
    ⟨hnone, _⟩ | ⟨pm, removed, hg, hrm, hbook2, htally2, _, _, hrc⟩
  · rw [hg1] at hnone
    cases hnone
  rw [hcunit] at hrm hbook2
  have hpm : pm = pm1 := by
    rw [hg1] at hg
    cases hg
    rfl
  subst hpm
  have hmemr : r.pnew ∈ removed := by
    rw [hrm, mem_cancelledPrices]
    exact ⟨_, hl1, by simp, hmem1, hskip_new⟩
  have hrc0 : res.1 = 0 := by
    rw [hrc, if_neg (List.ne_nil_of_mem hmemr)]
  have hsub : ∀ o ∈ removed, o ∈ allOrders s1.metadex := by
    intro o ho
    rw [hrm, mem_cancelledPrices] at ho
    obtain ⟨lvl, hl, _, hol, _⟩ := ho
    exact mem_allOrders (mapFind_mem hg1) hl hol
  have hle : r.pnew.amount_remaining ≤ reserved removed sender prop := by
    have := reserved_mem_le removed (fun x hx => hrem1 x (hsub x hx)) r.pnew hmemr
    rw [haddr, hprop] at this
    exact this
  have hB : ∀ a q, res.2.mp_tally_map a q .BALANCE
      = s1.mp_tally_map a q .BALANCE + reserved removed a q := fun a q => htally2 a q _
  have hres' : MetaDEx_CANCEL_AT_PRICE ME s1 txid2 block2 sender prop amount pd ad
      = .ok (0, res.2) := by
    rw [hres, ← hrc0]
  refine ⟨res.2, removed, hres', ?_, hmem1, hmemr, ?_, ?_, hle, ?_⟩
  · rw [hrm, hg1]
    rfl
  · intro o ho
    have hlev2 := levelAt_mapReplace_keptPrices s1.metadex prop
      (fun q => decide ((ad : ℚ) / (amount : ℚ) ≠ q))
      (fun o => decide (o.desired_property ≠ pd) || decide (o.addr ≠ sender))
      prop ((ad : ℚ) / (amount : ℚ))
    rw [hg1] at hlev2
    simp only [Option.getD] at hlev2
    rw [← hbook2, if_pos ⟨trivial, by simp⟩] at hlev2
    rw [hlev2, List.mem_filter] at ho
    intro hh
    have := ho.2
    simp [hh.1, hh.2] at this
  · intro a q
    refine ⟨?_, hB a q⟩
    rw [htally2, cancelDelta_reserve]
    ring
  · intro hlog hother
    obtain ⟨hpn, hst⟩ := x_Trade_no_trade s _ r hx (by rw [hlog])
    have hramt : r.pnew.amount_remaining = amount := by rw [hpn]; rfl
    -- the price map of the property after the insertion
    have hpm1 : pm = mapAssign ((ad : ℚ) / (amount : ℚ))
        (md_Set_insert r.pnew (levelAt s.metadex prop ((ad : ℚ) / (amount : ℚ)))).1
        ((get_Prices s.metadex prop).getD []) := by
      have h3 := hg1
      rw [hbook1, MetaDEx_INSERT_eq] at h3
      by_cases hr : (md_Set_insert r.pnew (((get_Prices r.state.metadex r.pnew.property).bind
          (fun pm => get_Indexes pm r.pnew.unitPrice)).getD [])).2 = false
      · exfalso
        have h2 := hins
        rw [MetaDEx_INSERT_eq, if_pos hr] at h2
        cases h2
      · rw [if_neg hr] at h3
        simp only [get_Prices] at h3
        rw [mapFind_mapAssign, if_pos hprop.symm] at h3
        simp only [Option.some.injEq] at h3
        rw [← h3, hprop, hunit, hst]
        rfl
    have hX : reserved removed sender prop = amount := by
      rw [hrm, hpm1]
      rw [reserved_cancelled_mapAssign _ _ _ _ _ _ _ (by simp)]
      · have hperm0 := (md_Set_insert_perm r.pnew
          (levelAt s.metadex prop ((ad : ℚ) / (amount : ℚ)))).1 (by
            have := hlev1
            rw [hst] at this
            have h2 := hins
            rw [MetaDEx_INSERT_eq] at h2
            by_cases hr : (md_Set_insert r.pnew
                (((get_Prices r.state.metadex r.pnew.property).bind
                  (fun pm => get_Indexes pm r.pnew.unitPrice)).getD [])).2 = false
            · rw [if_pos hr] at h2
              cases h2
            · rw [hprop, hunit, hst] at hr
              simpa using hr)
        unfold cancelledOffers
        rw [reserved_perm (hperm0.filter _)]
        have hold : (levelAt s.metadex prop ((ad : ℚ) / (amount : ℚ))).filter
            (fun o => !(decide (o.desired_property ≠ pd) || decide (o.addr ≠ sender)))
            = [] := by
          rw [List.filter_eq_nil_iff]
          intro o ho
          obtain ⟨pm0, hg0, hl0⟩ := levelAt_mem _ _ _ _ ho
          have := hother _ (by rw [hg0]; exact hl0) rfl o ho
          simp only [ne_eq, decide_not, Bool.not_or, Bool.not_not, Bool.and_eq_true,
            decide_eq_true_eq, not_and]
          intro h1 h2
          exact this ⟨h2, h1⟩
        rw [List.filter_cons_of_pos (by simp [hdes, haddr]), hold, reserved_cons,
          if_pos ⟨haddr, hprop⟩, reserved_nil, hramt]
        ring
      · intro e he hs
        unfold cancelledOffers
        rw [List.filter_eq_nil_iff]
        intro o ho
        have hk : e.1 = (ad : ℚ) / (amount : ℚ) := by
          simp only [ne_eq, decide_not, Bool.not_eq_false', decide_eq_true_eq] at hs
          exact hs.symm
        have := hother e he hk o ho
        simp only [ne_eq, decide_not, Bool.not_or, Bool.not_not, Bool.and_eq_true,
          decide_eq_true_eq, not_and]
        intro h1 h2
        exact this ⟨h2, h1⟩
    refine ⟨hX, ?_⟩
    rw [hB, hX, htally1, hst, hramt]
    simp

theorem ex3State_BookWF : BookWF ex3State.metadex := by
  intro e he lvl hl
  simp only [ex3State, List.mem_singleton] at he
  subst he
  simp only [List.mem_singleton] at hl
  subst hl
  simp [SetSorted]

theorem ex3State_ReserveInv : ReserveInv ex3State := by
  intro a p
  simp only [ex3State, allOrders, pricesOrders, List.flatMap_cons, List.flatMap_nil,
    List.append_nil, reserved_cons, reserved_nil, ex3Ledger, ex3Maker, CMPMetaDEx.create]
  by_cases h : a = "maker" ∧ p = 3
  · obtain ⟨rfl, rfl⟩ := h
    simp
  · have h' : ¬ ("maker" = a ∧ 3 = p) := fun hx => h ⟨hx.1.symm, hx.2.symm⟩
    have h2 : ¬ (a = "maker" ∧ p = 3 ∧ TallyType.METADEX_RESERVE = TallyType.METADEX_RESERVE) :=
      fun hx => h ⟨hx.1, hx.2.1⟩
    simp [h', h2]
    exact fun ha hp => h ⟨ha, hp⟩

theorem ex3State_nonneg : ∀ a p k, 0 ≤ ex3State.mp_tally_map a p k := by
  intro a p k
  simp only [ex3State, ex3Ledger]
  split_ifs <;> decide

/-- C16, amended, at the third scenario: the taker's order of 3 units of
property 1 rests without a fill, and the cancel with the same terms returns 0
and brings the taker's balance back to 1000. -/
theorem C16_add_cancel_round_trip_witness :
    ∃ s1 s2, MetaDEx_ADD (-80000) ex3State "taker" 1 3 11 3 1 78 1 = .ok (0, s1) ∧
      MetaDEx_CANCEL_AT_PRICE (-80000) s1 90 12 "taker" 1 3 3 1 = .ok (0, s2) ∧
      ex3State.mp_tally_map "taker" 1 .BALANCE = 1000 ∧
      s2.mp_tally_map "taker" 1 .BALANCE = 1000 := by
  obtain ⟨res, hres⟩ := except_ok_of_isSome
    (MetaDEx_ADD (-80000) ex3State "taker" 1 3 11 3 1 78 1) (by decide!)
  have hrc : (MetaDEx_ADD (-80000) ex3State "taker" 1 3 11 3 1 78 1).toOption.map
      (fun r => r.1) = some 0 := by decide!
  rw [hres] at hrc
  have hrc0 : res.1 = 0 := by simpa [Except.toOption] using hrc
  have hadd : MetaDEx_ADD (-80000) ex3State "taker" 1 3 11 3 1 78 1 = .ok (0, res.2) := by
    rw [hres, ← hrc0]
  obtain ⟨r, hr⟩ := except_ok_of_isSome
    (x_Trade ex3State (CMPMetaDEx.create "taker" 11 1 3 3 1 78 1 .ADD)) (by decide!)
  have hfacts : (x_Trade ex3State (CMPMetaDEx.create "taker" 11 1 3 3 1 78 1 .ADD)).toOption.map
      (fun r => (r.pnew.amount_remaining, r.state.t_tradelistdb)) = some (3, []) := by decide!
  rw [hr] at hfacts
  have hrem3 : r.pnew.amount_remaining = 3 := by
    simp [Except.toOption] at hfacts
    exact hfacts.1
  have hlog : r.state.t_tradelistdb = ex3State.t_tradelistdb := by
    simp [Except.toOption] at hfacts
    exact hfacts.2
  obtain ⟨s2, removed, hc, _, _, _, _, _, _, hrestore⟩ :=
    C16_add_cancel_round_trip (-80000) ex3State res.2 "taker" 1 3 11 3 1 78 1 90 12 r
      (by decide) ex3State_BookWF ex3State_ReserveInv ex3State_nonneg (by decide!)
      (by decide!) hadd hr (by rw [hrem3]; decide)
  have hb := (hrestore hlog (by decide!)).2
  exact ⟨res.2, s2, hadd, hc, by decide!, by rw [hb]; decide!⟩

/-! ## Time ordering -/

/-- C24: `MetaDEx_compare lhs rhs` holds exactly when `(lhs.block, lhs.idx)`
is smaller than `(rhs.block, rhs.idx)` in the lexicographic order, earlier
block first and lower index breaking ties. It is irreflexive, asymmetric and
transitive, two orders are incomparable in both directions exactly when they
have the same `(block, idx)`, and of two orders with different keys one
precedes the other. -/
theorem C24_time_ordering :
    (∀ lhs rhs : CMPMetaDEx, MetaDEx_compare lhs rhs = true ↔
      lhs.block < rhs.block ∨ (lhs.block = rhs.block ∧ lhs.idx < rhs.idx)) ∧
    (∀ lhs rhs : CMPMetaDEx, MetaDEx_compare lhs rhs = true ↔
      toLex (keyOf lhs) < toLex (keyOf rhs)) ∧
    (∀ a : CMPMetaDEx, MetaDEx_compare a a = false) ∧
    (∀ a b : CMPMetaDEx, MetaDEx_compare a b = true → MetaDEx_compare b a = false) ∧
    (∀ a b c : CMPMetaDEx, MetaDEx_compare a b = true → MetaDEx_compare b c = true →
      MetaDEx_compare a c = true) ∧
    (∀ a b : CMPMetaDEx, (MetaDEx_compare a b = false ∧ MetaDEx_compare b a = false) ↔
      (a.block = b.block ∧ a.idx = b.idx)) ∧
    (∀ a b : CMPMetaDEx, keyOf a ≠ keyOf b →
      MetaDEx_compare a b = true ∨ MetaDEx_compare b a = true) := by
  refine ⟨MetaDEx_compare_iff, ?_, MetaDEx_compare_irrefl, fun a b h => MetaDEx_compare_asymm h,
    fun a b c h1 h2 => MetaDEx_compare_trans h1 h2, ?_, ?_⟩
  · intro lhs rhs
    rw [MetaDEx_compare_iff, Prod.Lex.lt_iff]
    rfl
  · intro a b
    rw [← Bool.not_eq_true, ← Bool.not_eq_true, MetaDEx_compare_iff, MetaDEx_compare_iff]
    constructor
    · rintro ⟨h1, h2⟩
      omega
    · rintro ⟨h1, h2⟩
      omega
  · intro a b hne
    rw [MetaDEx_compare_iff, MetaDEx_compare_iff]
    have : ¬ (a.block = b.block ∧ a.idx = b.idx) := by
      rintro ⟨h1, h2⟩
      apply hne
      simp [keyOf, h1, h2]
    omega

/-- C24 at the maker (block 10) and the taker (block 11) of the first
scenario: the maker precedes the taker, and not conversely. -/
theorem C24_time_ordering_witness :
    exMaker.block < exTaker.block ∧ MetaDEx_compare exMaker exTaker = true ∧
    MetaDEx_compare exTaker exMaker = false :=
  ⟨by decide, (C24_time_ordering.1 exMaker exTaker).mpr (Or.inl (by decide)),
    C24_time_ordering.2.2.2.1 exMaker exTaker
      ((C24_time_ordering.1 exMaker exTaker).mpr (Or.inl (by decide)))⟩

/-! ## Bad price -/

/-- The unit price of an order as a quotient; it is 0 when the amount for
sale is 0. -/
theorem unitPrice_eq_div (o : CMPMetaDEx) :
    o.unitPrice = (o.amount_desired : ℚ) / (o.amount_forsale : ℚ) := by
  unfold CMPMetaDEx.unitPrice
  by_cases h : o.amount_forsale = 0
  · simp [h]
  · simp [h]

/-- C22: `MetaDEx_ADD` with a unit price that is not positive, in particular
with an amount for sale of 0 or a desired amount of 0, returns
`METADEX_ERROR - 66` and leaves the state (book, ledger, logs) as it was: no
matching, no insertion, no ledger update. With `METADEX_ERROR - 66 ≠ 0` a
`MetaDEx_ADD` that returns gives that code exactly when the unit price is not
positive. -/
theorem C22_bad_price (ME : Int) (s : State) (sender : String) (prop : Nat)
    (amount : Int) (block : Int) (pd : Nat) (ad : Int) (txid idx : Nat) :
    ((CMPMetaDEx.create sender block prop amount pd ad txid idx .ADD).unitPrice ≤ 0 →
      MetaDEx_ADD ME s sender prop amount block pd ad txid idx = .ok (ME - 66, s)) ∧
    (amount = 0 ∨ ad = 0 →
      (CMPMetaDEx.create sender block prop amount pd ad txid idx .ADD).unitPrice = 0 ∧
      MetaDEx_ADD ME s sender prop amount block pd ad txid idx = .ok (ME - 66, s)) ∧
    (ME - 66 ≠ 0 → ∀ res, MetaDEx_ADD ME s sender prop amount block pd ad txid idx = .ok res →
      (res.1 = ME - 66 ↔
        (CMPMetaDEx.create sender block prop amount pd ad txid idx .ADD).unitPrice ≤ 0)) := by
  have h1 : (CMPMetaDEx.create sender block prop amount pd ad txid idx .ADD).unitPrice ≤ 0 →
      MetaDEx_ADD ME s sender prop amount block pd ad txid idx = .ok (ME - 66, s) := by
    intro h
    unfold MetaDEx_ADD
    simp only []
    rw [if_pos h]
  have h0 : amount = 0 ∨ ad = 0 →
      (CMPMetaDEx.create sender block prop amount pd ad txid idx .ADD).unitPrice = 0 := by
    intro h
    rw [unitPrice_eq_div]
    show (ad : ℚ) / (amount : ℚ) = 0
    rcases h with h | h
    · rw [h]; simp
    · rw [h]; simp
  refine ⟨h1, fun h => ⟨h0 h, h1 (le_of_eq (h0 h))⟩, ?_⟩
  intro hne res hres
  constructor
  · intro hrc
    by_contra hpos
    unfold MetaDEx_ADD at hres
    simp only [] at hres
    rw [if_neg hpos] at hres
    cases hx : x_Trade s (CMPMetaDEx.create sender block prop amount pd ad txid idx .ADD) with
    | error a => rw [hx] at hres; cases hres
    | ok r =>
      rw [hx] at hres
      simp only [] at hres
      split at hres
      · split at hres
        · cases hres
          simp only at hrc
          omega
        · split at hres
          · cases hres
          · split at hres
            · cases hres
            · cases hres
              exact hne hrc.symm
      · cases hres
        exact hne hrc.symm
  · intro h
    rw [h1 h] at hres
    cases hres
    rfl

/-- C22 at an offer of 0 units of property 1 in the first scenario. -/
theorem C22_bad_price_witness :
    MetaDEx_ADD (-80000) exState "taker" 1 0 11 3 100 78 1 = .ok (-80000 - 66, exState) :=
  ((C22_bad_price (-80000) exState "taker" 1 0 11 3 100 78 1).2.1 (Or.inl rfl)).2

/-! ## Insertion and duplicates -/

/-- In an ordered level `std::set::insert` refuses an order exactly when the
level holds an order with the same `(block, idx)`. -/
theorem md_Set_insert_refuse_iff (o : CMPMetaDEx) :
    ∀ (s : md_Set), SetSorted s →
      ((md_Set_insert o s).2 = false ↔ ∃ x ∈ s, x.block = o.block ∧ x.idx = o.idx) := by
  intro s
  induction s with
  | nil =>
    intro _
    simp [md_Set_insert]
  | cons x xs ih =>
    intro hs
    have hs' := hs
    unfold SetSorted at hs'
    rw [List.pairwise_cons] at hs'
    obtain ⟨hx, hxs⟩ := hs'
    rw [md_Set_insert]
    by_cases h1 : MetaDEx_compare o x = true
    · rw [if_pos h1]
      simp only [Bool.true_eq_false, false_iff, not_exists, not_and]
      intro y hy hb hi
      have hyo : MetaDEx_compare o y = true := by
        rcases List.mem_cons.mp hy with rfl | hy
        · exact h1
        · exact MetaDEx_compare_trans h1 (hx y hy)
      rw [MetaDEx_compare_iff] at hyo
      omega
    · rw [if_neg h1]
      by_cases h2 : MetaDEx_compare x o = true
      · rw [if_pos h2]
        simp only []
        rw [ih hxs]
        constructor
        · rintro ⟨y, hy, hk⟩
          exact ⟨y, List.mem_cons_of_mem _ hy, hk⟩
        · rintro ⟨y, hy, hk⟩
          rcases List.mem_cons.mp hy with rfl | hy
          · rw [MetaDEx_compare_iff] at h2
            omega
          · exact ⟨y, hy, hk⟩
      · rw [if_neg h2]
        simp only [true_iff]
        refine ⟨x, List.mem_cons_self _ _, ?_⟩
        rw [MetaDEx_compare_iff] at h1 h2
        omega

/-- The outcome of `MetaDEx_INSERT` in terms of the level of the order. -/
theorem MetaDEx_INSERT_snd (b : md_PropertiesMap) (o : CMPMetaDEx) :
    (MetaDEx_INSERT b o).2 = (md_Set_insert o (levelAt b o.property o.unitPrice)).2 := by
  rw [MetaDEx_INSERT_eq]
  unfold levelAt
  by_cases hr : (md_Set_insert o (((get_Prices b o.property).bind
      (fun pm => get_Indexes pm o.unitPrice)).getD [])).2 = false
  · rw [if_pos hr, hr]
  · rw [if_neg hr]
    simp only [Bool.not_eq_false] at hr
    rw [hr]

/-- C23: when the level of the order `o`, the level at the key `o.unitPrice`
under the property `o.property` (empty when absent), is in `MetaDEx_compare`
order, `MetaDEx_INSERT` returns `false` exactly when that level holds an order
with the same `(block, idx)`, and then the book is as it was. Otherwise it
returns `true`; the property has a price map and the price map a level at that
key (both created when absent), the level is the old level plus `o`, in
`MetaDEx_compare` order; every other level of the book and the price map of
every other property are as they were. -/
theorem C23_insert (b : md_PropertiesMap) (o : CMPMetaDEx)
    (hs : SetSorted (levelAt b o.property o.unitPrice)) :
    ((MetaDEx_INSERT b o).2 = false ↔
      ∃ x ∈ levelAt b o.property o.unitPrice, x.block = o.block ∧ x.idx = o.idx) ∧
    ((MetaDEx_INSERT b o).2 = false → (MetaDEx_INSERT b o).1 = b) ∧
    ((MetaDEx_INSERT b o).2 = true →
      (∃ pm, get_Prices (MetaDEx_INSERT b o).1 o.property = some pm ∧
        get_Indexes pm o.unitPrice
          = some (levelAt (MetaDEx_INSERT b o).1 o.property o.unitPrice)) ∧
      levelAt (MetaDEx_INSERT b o).1 o.property o.unitPrice
        = (md_Set_insert o (levelAt b o.property o.unitPrice)).1 ∧
      (levelAt (MetaDEx_INSERT b o).1 o.property o.unitPrice).Perm
        (o :: levelAt b o.property o.unitPrice) ∧
      SetSorted (levelAt (MetaDEx_INSERT b o).1 o.property o.unitPrice) ∧
      (∀ p q, ¬ (p = o.property ∧ q = o.unitPrice) →
        levelAt (MetaDEx_INSERT b o).1 p q = levelAt b p q) ∧
      (∀ p, p ≠ o.property → get_Prices (MetaDEx_INSERT b o).1 p = get_Prices b p)) := by
  have hsnd := MetaDEx_INSERT_snd b o
  refine ⟨?_, (MetaDEx_INSERT_effect b o).1, ?_⟩
  · rw [hsnd]
    exact md_Set_insert_refuse_iff o _ hs
  · intro ht
    have hlev := levelAt_MetaDEx_INSERT b o ht
    have hl := hlev o.property o.unitPrice
    rw [if_pos ⟨rfl, rfl⟩] at hl
    have hperm := (md_Set_insert_perm o (levelAt b o.property o.unitPrice)).1
      (by rw [← hsnd]; exact ht)
    refine ⟨?_, hl, ?_, ?_, ?_, ?_⟩
    · have hmem : o ∈ levelAt (MetaDEx_INSERT b o).1 o.property o.unitPrice := by
        rw [hl]
        exact hperm.symm.subset (List.mem_cons_self _ _)
      unfold levelAt at hmem ⊢
      cases hg : get_Prices (MetaDEx_INSERT b o).1 o.property with
      | none =>
        rw [hg] at hmem
        cases hmem
      | some pm =>
        rw [hg] at hmem
        refine ⟨pm, rfl, ?_⟩
        cases hi : get_Indexes pm o.unitPrice with
        | none =>
          simp only [Option.bind, hi, Option.getD] at hmem
          cases hmem
        | some l => simp only [Option.bind, hi, Option.getD]
    · rw [hl]
      exact hperm
    · rw [hl]
      exact md_Set_insert_sorted o _ hs
    · intro p q hpq
      rw [hlev p q, if_neg hpq]
    · intro p hp
      rw [MetaDEx_INSERT_eq]
      by_cases hr : (md_Set_insert o (((get_Prices b o.property).bind
          (fun pm => get_Indexes pm o.unitPrice)).getD [])).2 = false
      · rw [if_pos hr]
      · rw [if_neg hr]
        simp only [get_Prices]
        rw [mapFind_mapAssign, if_neg hp]

/-- C23 at the book of the first scenario: an order with the block and index
of the resting maker and its terms is refused, and the taker's order, with
another block, is accepted at a level of its own. -/
theorem C23_insert_witness :
    SetSorted (levelAt exState.metadex exMaker.property exMaker.unitPrice) ∧
    (MetaDEx_INSERT exState.metadex exMaker).2 = false ∧
    (MetaDEx_INSERT exState.metadex exMaker).1 = exState.metadex ∧
    (MetaDEx_INSERT exState.metadex exTaker).2 = true ∧
    levelAt (MetaDEx_INSERT exState.metadex exTaker).1 1 (1 / 2) = [exTaker] ∧
    levelAt (MetaDEx_INSERT exState.metadex exTaker).1 3 2 = [exMaker] := by
  have hs : SetSorted (levelAt exState.metadex exMaker.property exMaker.unitPrice) := by
    have : levelAt exState.metadex exMaker.property exMaker.unitPrice = [exMaker] := by decide!
    rw [this]
    simp [SetSorted]
  have h := C23_insert exState.metadex exMaker hs
  have hf : (MetaDEx_INSERT exState.metadex exMaker).2 = false :=
    h.1.mpr ⟨exMaker, by decide!, rfl, rfl⟩
  exact ⟨hs, hf, h.2.1 hf, by decide!, by decide!, by decide!⟩

/-! ## Duplicate orders are refused after the matching -/

/-- C21, counterexample: in a book reached by two `MetaDEx_ADD`, where Dora's
order (block 11, index 1) rests at the unit price 1/2 under property 1 and the
maker sells 50 of property 3 for 100 of property 1, the taker's
`MetaDEx_ADD` with the same block and index returns `METADEX_ERROR - 70`,
but only after it has bought the maker's 50 units for 100: the maker's order is
gone from the book, a trade is recorded, and the taker's balances have
changed. -/
theorem C21_counterexample :
    levelAt ex7State2.metadex 3 2 = [CMPMetaDEx.create "maker" 10 3 50 1 100 77 1 .ADD] ∧
    levelAt ex7State2.metadex 1 (1 / 2) = [ex7Dora] ∧
    ex7State2.mp_tally_map "taker" 1 .BALANCE = 1000 ∧
    ex7State2.mp_tally_map "taker" 3 .BALANCE = 0 ∧
    ex7State2.t_tradelistdb = [] ∧
    (MetaDEx_ADD (-80000) ex7State2 "taker" 1 200 11 3 100 78 1).toOption.map
      (fun r => (r.1, r.2.t_tradelistdb.length)) = some (-80000 - 70, 1) ∧
    (MetaDEx_ADD (-80000) ex7State2 "taker" 1 200 11 3 100 78 1).toOption.map
      (fun r => levelAt r.2.metadex 3 2) = some [] ∧
    (MetaDEx_ADD (-80000) ex7State2 "taker" 1 200 11 3 100 78 1).toOption.map
      (fun r => levelAt r.2.metadex 1 (1 / 2)) = some [ex7Dora] ∧
    (MetaDEx_ADD (-80000) ex7State2 "taker" 1 200 11 3 100 78 1).toOption.map
      (fun r => (r.2.mp_tally_map "taker" 1 .BALANCE, r.2.mp_tally_map "taker" 3 .BALANCE,
        r.2.mp_tally_map "maker" 1 .BALANCE, r.2.mp_tally_map "maker" 3 .METADEX_RESERVE))
      = some (900, 50, 100, 0) :=
  ⟨by decide!, by decide!, by decide!, by decide!, by decide!, by decide!, by decide!,
    by decide!, by decide!⟩

theorem ex7State2_reachable :
    Reachable (fun _ => true) (fun _ => false) (-80000) ex7State2 := by
  have h0 : Reachable (fun _ => true) (fun _ => false) (-80000) ex7State0 :=
    Reachable.init ex7Ledger [] [] (by
      intro a p
      simp [ex7Ledger])
  have h1 : Reachable (fun _ => true) (fun _ => false) (-80000) ex7State1 :=
    Reachable_add_stateOf _ _ _ ex7State0 "dora" 1 200 11 5 100 76 1 h0 (by decide!)
  exact Reachable_add_stateOf _ _ _ ex7State1 "maker" 3 50 10 1 100 77 1 h1 (by decide!)

/-- C21, amended: when `MetaDEx_ADD` returns `METADEX_ERROR - 70` (a non-zero
code), `x_Trade` has run, the incoming order has a positive remainder,
`MetaDEx_INSERT` has refused it, and the state is the state `x_Trade` left: no
order was inserted and no tally was changed after the matching. The refusal
means that the level of the order, when it is in `MetaDEx_compare` order,
holds an order with the same `(block, idx)`. The state is the state before the
call when `x_Trade` recorded no trade. -/
theorem C21_duplicate_order (ME : Int) (s s1 : State) (sender : String) (prop : Nat)
    (amount : Int) (block : Int) (pd : Nat) (ad : Int) (txid idx : Nat)
    (h70 : ME - 70 ≠ 0)
    (h : MetaDEx_ADD ME s sender prop amount block pd ad txid idx = .ok (ME - 70, s1)) :
    ∃ r, x_Trade s (CMPMetaDEx.create sender block prop amount pd ad txid idx .ADD) = .ok r ∧
      s1 = r.state ∧ 0 < r.pnew.amount_remaining ∧
      (MetaDEx_INSERT r.state.metadex r.pnew).2 = false ∧
      (SetSorted (levelAt r.state.metadex prop ((ad : ℚ) / (amount : ℚ))) →
        ∃ x ∈ levelAt r.state.metadex prop ((ad : ℚ) / (amount : ℚ)),
          x.block = block ∧ x.idx = idx) ∧
      (r.state.t_tradelistdb = s.t_tradelistdb → s1 = s) := by
  unfold MetaDEx_ADD at h
  simp only [] at h
  by_cases h0 : 0 ≥ (CMPMetaDEx.create sender block prop amount pd ad txid idx .ADD).unitPrice
  · rw [if_pos h0] at h
    simp only [Except.ok.injEq, Prod.mk.injEq] at h
    omega
  · rw [if_neg h0] at h
    cases hx : x_Trade s (CMPMetaDEx.create sender block prop amount pd ad txid idx .ADD) with
    | error a => rw [hx] at h; cases h
    | ok r =>
      rw [hx] at h
      simp only [] at h
      have hp := x_Trade_pnew s _ r hx
      by_cases h1 : 0 < r.pnew.amount_remaining
      · rw [if_pos h1] at h
        by_cases h2 : (MetaDEx_INSERT r.state.metadex r.pnew).2 = false
        · rw [if_pos h2] at h
          simp only [Except.ok.injEq, Prod.mk.injEq, true_and] at h
          refine ⟨r, rfl, h.symm, h1, h2, ?_, ?_⟩
          · intro hs
            have hprop : r.pnew.property = prop := by rw [hp]; rfl
            have hunit : r.pnew.unitPrice = (ad : ℚ) / (amount : ℚ) := by
              rw [hp]
              exact (unitPrice_of_pos _ h0).2
            have hb : r.pnew.block = block := by rw [hp]; rfl
            have hi : r.pnew.idx = idx := by rw [hp]; rfl
            rw [MetaDEx_INSERT_snd, hprop, hunit] at h2
            obtain ⟨x, hx1, hx2, hx3⟩ := (md_Set_insert_refuse_iff r.pnew _ hs).mp h2
            exact ⟨x, hx1, hx2.trans hb, hx3.trans hi⟩
          · intro hlog
            rw [← h]
            exact (x_Trade_no_trade s _ r hx (by rw [hlog])).2
        · rw [if_neg h2] at h
          cases hu1 : update_tally_map r.state.mp_tally_map sender prop
              (-r.pnew.amount_remaining) .BALANCE with
          | none => rw [hu1] at h; cases h
          | some L1 =>
            rw [hu1] at h
            simp only [] at h
            cases hu2 : update_tally_map L1 sender prop r.pnew.amount_remaining
                .METADEX_RESERVE with
            | none => rw [hu2] at h; cases h
            | some L2 =>
              rw [hu2] at h
              simp only [Except.ok.injEq, Prod.mk.injEq] at h
              exact absurd h.1.symm h70
      · rw [if_neg h1] at h
        simp only [Except.ok.injEq, Prod.mk.injEq] at h
        exact absurd h.1.symm h70

/-- C21, amended, at the scenario of the counterexample: the refused order of
the taker leaves the state of `x_Trade`, in which the trade with the maker is
recorded. -/
theorem C21_duplicate_order_witness :
    ∃ s1 r, MetaDEx_ADD (-80000) ex7State2 "taker" 1 200 11 3 100 78 1
        = .ok (-80000 - 70, s1) ∧
      x_Trade ex7State2 (CMPMetaDEx.create "taker" 11 1 200 3 100 78 1 .ADD) = .ok r ∧
      s1 = r.state ∧ (MetaDEx_INSERT r.state.metadex r.pnew).2 = false := by
  obtain ⟨res, hres⟩ := except_ok_of_isSome
    (MetaDEx_ADD (-80000) ex7State2 "taker" 1 200 11 3 100 78 1) (by decide!)
  have hrc : (MetaDEx_ADD (-80000) ex7State2 "taker" 1 200 11 3 100 78 1).toOption.map
      (fun r => r.1) = some (-80000 - 70) := by decide!
  rw [hres] at hrc
  have hrc0 : res.1 = -80000 - 70 := by simpa [Except.toOption] using hrc
  have hadd : MetaDEx_ADD (-80000) ex7State2 "taker" 1 200 11 3 100 78 1
      = .ok (-80000 - 70, res.2) := by
    rw [hres, ← hrc0]
  obtain ⟨r, h1, h2, _, h4, _, _⟩ :=
    C21_duplicate_order (-80000) ex7State2 res.2 "taker" 1 200 11 3 100 78 1 (by decide) hadd
  exact ⟨res.2, r, hadd, h1, h2, h4⟩

/-! ## Self-trade -/

/-- C27: the decision of the loop body of `x_Trade`, and with it the amounts
`buyer_amountGot` and `seller_amountGot` of a fill, does not depend on the
addresses of the two orders. When the two addresses are equal and the ledger
updates of the fill succeed, that address keeps its `BALANCE` of the property
paid, its `METADEX_RESERVE` of the property bought goes down by
`buyer_amountGot` and its `BALANCE` of that property up by the same amount, so
`BALANCE + METADEX_RESERVE` is unchanged for both properties; no other tally
changes. The updates succeed when no tally is negative, the balance covers the
payment and the reserve covers the purchase. -/
theorem C27_self_trade :
    (∀ (sellersPrice : ℚ) (pold pnew : CMPMetaDEx) (a1 a2 : String),
      x_Trade_outcome sellersPrice { pold with addr := a1 } { pnew with addr := a2 }
        = x_Trade_outcome sellersPrice pold pnew) ∧
    (∀ (sellersPrice : ℚ) (pold pnew : CMPMetaDEx) (bg sg : Int) (L L1 : Ledger),
      pold.addr = pnew.addr → x_Trade_outcome sellersPrice pold pnew = .fill bg sg →
      x_Trade_transfer L pold pnew bg sg = some L1 →
      L1 pnew.addr pnew.property .BALANCE = L pnew.addr pnew.property .BALANCE ∧
      L1 pnew.addr pnew.property .METADEX_RESERVE
        = L pnew.addr pnew.property .METADEX_RESERVE ∧
      L1 pnew.addr pnew.desired_property .METADEX_RESERVE
        = L pnew.addr pnew.desired_property .METADEX_RESERVE - bg ∧
      L1 pnew.addr pnew.desired_property .BALANCE
        = L pnew.addr pnew.desired_property .BALANCE + bg ∧
      (∀ q, L1 pnew.addr q .BALANCE + L1 pnew.addr q .METADEX_RESERVE
        = L pnew.addr q .BALANCE + L pnew.addr q .METADEX_RESERVE) ∧
      (∀ a q k, ¬ (a = pnew.addr ∧ q = pnew.desired_property ∧ k ≠ .OTHER_TALLY) →
        L1 a q k = L a q k)) ∧
    (∀ (sellersPrice : ℚ) (pold pnew : CMPMetaDEx) (bg sg : Int) (L : Ledger),
      pold.addr = pnew.addr → x_Trade_outcome sellersPrice pold pnew = .fill bg sg →
      0 < pnew.unitPrice → (∀ a p k, 0 ≤ L a p k) →
      sg ≤ L pnew.addr pnew.property .BALANCE →
      bg ≤ L pold.addr pold.property .METADEX_RESERVE →
      ∃ L1, x_Trade_transfer L pold pnew bg sg = some L1) := by
  refine ⟨fun _ _ _ _ _ => rfl, ?_, ?_⟩
  · intro sellersPrice pold pnew bg sg L L1 haddr hout htr
    obtain ⟨_, hdes, _, _, hne, hprop, _⟩ := x_Trade_outcome_fill sellersPrice pold pnew bg sg hout
    have happ := x_Trade_transfer_apply htr
    rw [haddr, hdes, hprop] at happ
    have hne' : pnew.desired_property ≠ pnew.property := Ne.symm hne
    have e1 : L1 pnew.addr pnew.property .BALANCE = L pnew.addr pnew.property .BALANCE := by
      rw [happ]
      simp [hne]
    have e2 : L1 pnew.addr pnew.property .METADEX_RESERVE
        = L pnew.addr pnew.property .METADEX_RESERVE := by
      rw [happ]
      simp [hne]
    have e3 : L1 pnew.addr pnew.desired_property .METADEX_RESERVE
        = L pnew.addr pnew.desired_property .METADEX_RESERVE - bg := by
      rw [happ]
      simp [hne']
      ring
    have e4 : L1 pnew.addr pnew.desired_property .BALANCE
        = L pnew.addr pnew.desired_property .BALANCE + bg := by
      rw [happ]
      simp [hne']
    refine ⟨e1, e2, e3, e4, ?_, ?_⟩
    · intro q
      by_cases hq1 : q = pnew.property
      · rw [hq1, e1, e2]
      · by_cases hq2 : q = pnew.desired_property
        · rw [hq2, e3, e4]
          ring
        · rw [happ, happ]
          simp [hq1, hq2]
    · intro a q k hnot
      rw [happ]
      by_cases ha : a = pnew.addr
      · subst ha
        by_cases hq2 : q = pnew.desired_property
        · subst hq2
          have hk : k = .OTHER_TALLY := by
            by_contra hk
            exact hnot ⟨rfl, rfl, hk⟩
          subst hk
          simp
        · by_cases hq1 : q = pnew.property
          · subst hq1
            cases k <;> simp [hne]
          · simp [hq1, hq2]
      · simp [ha]
  · intro sellersPrice pold pnew bg sg L _ hout hu hnn hpay hres
    obtain ⟨hbg, hsg⟩ := x_Trade_outcome_fill_pos sellersPrice pold pnew bg sg hu hout
    obtain ⟨L1, h1, _⟩ := x_Trade_transfer_ok L pold pnew bg sg hnn hbg.le hsg.le hpay hres
    exact ⟨L1, h1⟩

/-- C27 at the self-trade of the maker of the first scenario: the fill is the
fill of the first scenario, 100 units for 200; the balance of property 1 stays
at 200, and the 100 units of property 3 go from the reserve to the balance. -/
theorem C27_self_trade_witness :
    exMaker.addr = exSelfTaker.addr ∧
    x_Trade_outcome 2 exMaker exSelfTaker = .fill 100 200 ∧
    x_Trade_outcome 2 exMaker exTaker = .fill 100 200 ∧
    ∃ L1, x_Trade_transfer exSelfLedger exMaker exSelfTaker 100 200 = some L1 ∧
      L1 "maker" 1 .BALANCE = 200 ∧ L1 "maker" 3 .METADEX_RESERVE = 0 ∧
      L1 "maker" 3 .BALANCE = 100 := by
  have hout : x_Trade_outcome 2 exMaker exSelfTaker = .fill 100 200 := by decide!
  have hnn : ∀ a p k, 0 ≤ exSelfLedger a p k := by
    intro a p k
    simp only [exSelfLedger]
    split_ifs <;> decide
  obtain ⟨L1, hL1⟩ := C27_self_trade.2.2 2 exMaker exSelfTaker 100 200 exSelfLedger rfl hout
    (by decide!) hnn (by decide!) (by decide!)
  obtain ⟨e1, _, e3, e4, _, _⟩ :=
    C27_self_trade.2.1 2 exMaker exSelfTaker 100 200 exSelfLedger L1 rfl hout hL1
  refine ⟨rfl, hout, by decide!, L1, hL1, ?_, ?_, ?_⟩
  · exact e1.trans (by decide!)
  · exact e3.trans (by decide!)
  · exact e4.trans (by decide!)

/-! ## Invariants of the resting orders -/

/-- A property `P` of the orders of a level and a property `Q` of the
incoming order, both kept by every fill, hold when the inner loop of `x_Trade`
ends. -/
theorem x_Trade_offers_located (Q P : CMPMetaDEx → Prop) (sellersPrice : ℚ)
    (hQ : ∀ pold pnew bg sg, Q pnew → x_Trade_outcome sellersPrice pold pnew = .fill bg sg →
      Q (pnew.setAmountRemaining (pnew.amount_remaining - sg)))
    (hP : ∀ pold pnew bg sg, Q pnew → P pold →
      x_Trade_outcome sellersPrice pold pnew = .fill bg sg →
      0 < pold.amount_remaining - bg →
      P (pold.setAmountRemaining (pold.amount_remaining - bg))) :
    ∀ (rest : List CMPMetaDEx) (pofferSet : md_Set) (st : TradeState)
      (res : md_Set × TradeState),
      Q st.pnew → (∀ o ∈ pofferSet, P o) → (∀ o ∈ rest, P o) →
      x_Trade_offers sellersPrice rest pofferSet st = .ok res →
      (∀ o ∈ res.1, P o) ∧ Q res.2.pnew := by
  intro rest
  induction rest with
  | nil =>
    intro pofferSet st res hq hset _ h
    simp only [x_Trade_offers] at h
    cases h
    exact ⟨hset, hq⟩
  | cons c rest ih =>
    intro pofferSet st res hq hset hrest h
    have hc : P c := hrest c (List.mem_cons_self _ _)
    have hrest1 : ∀ o ∈ rest, P o := fun o ho => hrest o (List.mem_cons_of_mem _ ho)
    rw [x_Trade_offers] at h
    cases hout : x_Trade_outcome sellersPrice c st.pnew with
    | assertFailed a => rw [hout] at h; cases h
    | nextOffer =>
      rw [hout] at h
      exact ih pofferSet st res hq hset hrest1 h
    | fill bg sg =>
      rw [hout] at h
      simp only [] at h
      have hnew : ∀ o ∈ x_Trade_replace pofferSet c bg, P o := by
        intro o ho
        rcases x_Trade_replace_mem pofferSet c bg o ho with h1 | ⟨h1, h2⟩
        · exact hset o h1
        · rw [h2]
          exact hP c st.pnew bg sg hq hc hout h1
      cases ht : x_Trade_transfer st.tally c st.pnew bg sg with
      | none => rw [ht] at h; cases h
      | some L =>
        rw [ht] at h
        simp only [] at h
        have hq1 : Q (x_Trade_after L c st bg sg).pnew := hQ c st.pnew bg sg hq hout
        by_cases hs : (x_Trade_after L c st bg sg).bBuyerSatisfied = true
        · rw [if_pos hs] at h
          by_cases hz : (x_Trade_after L c st bg sg).pnew.amount_remaining = 0
          · rw [if_pos hz] at h
            cases h
            exact ⟨hnew, hq1⟩
          · rw [if_neg hz] at h; cases h
        · rw [if_neg hs] at h
          exact ih _ _ res hq1 hnew hrest1 h

/-- The same for the outer loop, `P` depending on the price key. -/
theorem x_Trade_prices_located (Q : CMPMetaDEx → Prop) (P : ℚ → CMPMetaDEx → Prop)
    (hQ : ∀ sellersPrice pold pnew bg sg, Q pnew →
      x_Trade_outcome sellersPrice pold pnew = .fill bg sg →
      Q (pnew.setAmountRemaining (pnew.amount_remaining - sg)))
    (hP : ∀ sellersPrice pold pnew bg sg, Q pnew → P sellersPrice pold →
      x_Trade_outcome sellersPrice pold pnew = .fill bg sg →
      0 < pold.amount_remaining - bg →
      P sellersPrice (pold.setAmountRemaining (pold.amount_remaining - bg))) :
    ∀ (pm : md_PricesMap) (st : TradeState) (res : md_PricesMap × TradeState),
      Q st.pnew → (∀ lvl ∈ pm, ∀ o ∈ lvl.2, P lvl.1 o) →
      x_Trade_prices pm st = .ok res →
      (∀ lvl ∈ res.1, ∀ o ∈ lvl.2, P lvl.1 o) ∧ Q res.2.pnew := by
  intro pm
  induction pm with
  | nil =>
    intro st res hq _ h
    simp only [x_Trade_prices] at h
    cases h
    exact ⟨fun lvl hl => (by cases hl), hq⟩
  | cons lvl pm ih =>
    obtain ⟨price, set⟩ := lvl
    intro st res hq hall h
    have h0 : ∀ o ∈ set, P price o := hall (price, set) (List.mem_cons_self _ _)
    have h1 : ∀ lvl ∈ pm, ∀ o ∈ lvl.2, P lvl.1 o :=
      fun l hl => hall l (List.mem_cons_of_mem _ hl)
    rw [x_Trade_prices] at h
    by_cases hlt : st.pnew.inversePrice < price
    · rw [if_pos hlt] at h
      cases hr : x_Trade_prices pm st with
      | error a => rw [hr] at h; cases h
      | ok r =>
        rw [hr] at h
        cases h
        obtain ⟨i1, i2⟩ := ih st r hq h1 hr
        refine ⟨?_, i2⟩
        intro l hl
        rcases List.mem_cons.mp hl with rfl | hl
        · exact h0
        · exact i1 l hl
    · rw [if_neg hlt] at h
      cases ho : x_Trade_offers price set set st with
      | error a => rw [ho] at h; cases h
      | ok r1 =>
        rw [ho] at h
        simp only [] at h
        obtain ⟨hn, hq1⟩ := x_Trade_offers_located Q (P price) price (hQ price) (hP price)
          set set st r1 hq h0 h0 ho
        by_cases hs : r1.2.bBuyerSatisfied = true
        · rw [if_pos hs] at h
          cases h
          refine ⟨?_, hq1⟩
          intro l hl
          rcases List.mem_cons.mp hl with rfl | hl
          · exact hn
          · exact h1 l hl
        · rw [if_neg hs] at h
          cases hr : x_Trade_prices pm r1.2 with
          | error a => rw [hr] at h; cases h
          | ok r =>
            rw [hr] at h
            cases h
            obtain ⟨i1, i2⟩ := ih r1.2 r hq1 h1 hr
            refine ⟨?_, i2⟩
            intro l hl
            rcases List.mem_cons.mp hl with rfl | hl
            · exact hn
            · exact i1 l hl

/-- The same for `x_Trade`, `P` depending on the property key and the price
key. -/
theorem x_Trade_located (Q : CMPMetaDEx → Prop) (P : Nat → ℚ → CMPMetaDEx → Prop)
    (hQ : ∀ sellersPrice pold pnew bg sg, Q pnew →
      x_Trade_outcome sellersPrice pold pnew = .fill bg sg →
      Q (pnew.setAmountRemaining (pnew.amount_remaining - sg)))
    (hP : ∀ prop sellersPrice pold pnew bg sg, Q pnew → P prop sellersPrice pold →
      x_Trade_outcome sellersPrice pold pnew = .fill bg sg →
      0 < pold.amount_remaining - bg →
      P prop sellersPrice (pold.setAmountRemaining (pold.amount_remaining - bg)))
    (s : State) (pnew : CMPMetaDEx) (r : TradeResult)
    (hq : Q pnew) (hall : EveryOrder P s.metadex) (h : x_Trade s pnew = .ok r) :
    EveryOrder P r.state.metadex ∧ Q r.pnew := by
  unfold x_Trade at h
  cases hg : get_Prices s.metadex pnew.desired_property with
  | none =>
    rw [hg] at h
    cases h
    exact ⟨hall, hq⟩
  | some pm =>
    rw [hg] at h
    simp only [] at h
    cases hp : x_Trade_prices pm (x_Trade_init s pnew) with
    | error a => rw [hp] at h; cases h
    | ok res =>
      rw [hp] at h
      cases h
      have hpm : ∀ lvl ∈ pm, ∀ o ∈ lvl.2, P pnew.desired_property lvl.1 o :=
        hall (pnew.desired_property, pm) (mapFind_mem hg)
      obtain ⟨hnew, hq1⟩ := x_Trade_prices_located Q (P pnew.desired_property) hQ
        (hP pnew.desired_property) pm _ res hq hpm hp
      refine ⟨?_, hq1⟩
      intro e he
      rcases mapReplace_mem _ _ _ e he with h1 | h1
      · exact hall e h1
      · rw [h1]
        exact hnew

/-- `MetaDEx_INSERT` keeps a property of the resting orders that the inserted
order has at its own place. -/
theorem MetaDEx_INSERT_located (P : Nat → ℚ → CMPMetaDEx → Prop) (b : md_PropertiesMap)
    (x : CMPMetaDEx) (hall : EveryOrder P b) (hx : P x.property x.unitPrice x) :
    EveryOrder P (MetaDEx_INSERT b x).1 := by
  rw [MetaDEx_INSERT_eq]
  by_cases hr : (md_Set_insert x (((get_Prices b x.property).bind
            (fun pm => get_Indexes pm x.unitPrice)).getD [])).2 = false
  · rw [if_pos hr]
    exact hall
  · rw [if_neg hr]
    intro e he
    rcases mapAssign_mem _ _ _ e he with h1 | h1
    · exact hall e h1
    · rw [h1]
      intro lvl hl
      rcases mapAssign_mem _ _ _ lvl hl with h2 | h2
      · cases hg : get_Prices b x.property with
        | none =>
          rw [hg] at h2
          cases h2
        | some pm =>
          rw [hg] at h2
          exact hall (x.property, pm) (mapFind_mem hg) lvl h2
      · rw [h2]
        intro o ho
        rcases md_Set_insert_mem _ _ _ ho with h3 | h3
        · rw [h3]
          exact hx
        · cases hg : get_Prices b x.property with
          | none =>
            rw [hg] at h3
            cases h3
          | some pm =>
            rw [hg] at h3
            cases hi : get_Indexes pm x.unitPrice with
            | none =>
              simp only [Option.bind, hi, Option.getD] at h3
              cases h3
            | some l =>
              simp only [Option.bind, hi, Option.getD] at h3
              exact hall (x.property, pm) (mapFind_mem hg) (x.unitPrice, l) (mapFind_mem hi)
                o h3

/-- `MetaDEx_ADD` keeps a property of the resting orders that every fill
keeps and that the residual of the incoming order has at its own place. -/
theorem MetaDEx_ADD_located (Q : CMPMetaDEx → Prop) (P : Nat → ℚ → CMPMetaDEx → Prop)
    (hQ : ∀ sellersPrice pold pnew bg sg, Q pnew →
      x_Trade_outcome sellersPrice pold pnew = .fill bg sg →
      Q (pnew.setAmountRemaining (pnew.amount_remaining - sg)))
    (hP : ∀ prop sellersPrice pold pnew bg sg, Q pnew → P prop sellersPrice pold →
      x_Trade_outcome sellersPrice pold pnew = .fill bg sg →
      0 < pold.amount_remaining - bg →
      P prop sellersPrice (pold.setAmountRemaining (pold.amount_remaining - bg)))
    (hnew : ∀ o, Q o → 0 < o.amount_remaining → P o.property o.unitPrice o)
    (ME : Int) (s : State) (sender : String) (prop : Nat) (amount : Int) (block : Int)
    (pd : Nat) (ad : Int) (txid idx : Nat) (res : Int × State)
    (hall : EveryOrder P s.metadex)
    (hq : 0 < (CMPMetaDEx.create sender block prop amount pd ad txid idx .ADD).unitPrice →
      Q (CMPMetaDEx.create sender block prop amount pd ad txid idx .ADD))
    (h : MetaDEx_ADD ME s sender prop amount block pd ad txid idx = .ok res) :
    EveryOrder P res.2.metadex := by
  unfold MetaDEx_ADD at h
  simp only [] at h
  by_cases h0 : 0 ≥ (CMPMetaDEx.create sender block prop amount pd ad txid idx .ADD).unitPrice
  · rw [if_pos h0] at h
    cases h
    exact hall
  · rw [if_neg h0] at h
    cases hx : x_Trade s (CMPMetaDEx.create sender block prop amount pd ad txid idx .ADD) with
    | error a => rw [hx] at h; cases h
    | ok r =>
      rw [hx] at h
      simp only [] at h
      obtain ⟨hr, hqr⟩ := x_Trade_located Q P hQ hP s _ r (hq (not_le.mp h0)) hall hx
      by_cases h1 : 0 < r.pnew.amount_remaining
      · rw [if_pos h1] at h
        by_cases h2 : (MetaDEx_INSERT r.state.metadex r.pnew).2 = false
        · rw [if_pos h2] at h
          cases h
          exact hr
        · rw [if_neg h2] at h
          cases hu1 : update_tally_map r.state.mp_tally_map sender prop
              (-r.pnew.amount_remaining) .BALANCE with
          | none => rw [hu1] at h; cases h
          | some L1 =>
            rw [hu1] at h
            simp only [] at h
            cases hu2 : update_tally_map L1 sender prop r.pnew.amount_remaining
                .METADEX_RESERVE with
            | none => rw [hu2] at h; cases h
            | some L2 =>
              rw [hu2] at h
              cases h
              exact MetaDEx_INSERT_located P _ _ hr (hnew r.pnew hqr h1)
      · rw [if_neg h1] at h
        cases h
        exact hr

theorem keptPrices_located (P : ℚ → CMPMetaDEx → Prop) (skipLevel : ℚ → Bool)
    (skip : CMPMetaDEx → Bool) (pm : md_PricesMap)
    (h : ∀ lvl ∈ pm, ∀ o ∈ lvl.2, P lvl.1 o) :
    ∀ lvl ∈ keptPrices skipLevel skip pm, ∀ o ∈ lvl.2, P lvl.1 o := by
  intro lvl hl o ho
  unfold keptPrices at hl
  obtain ⟨l0, hl0, rfl⟩ := List.mem_map.mp hl
  by_cases hs : skipLevel l0.1 = true
  · rw [if_pos hs] at ho ⊢
    exact h l0 hl0 o ho
  · rw [if_neg hs] at ho ⊢
    exact h l0 hl0 o (List.mem_of_mem_filter ho)

theorem EveryOrder_mapReplace_keptPrices (P : Nat → ℚ → CMPMetaDEx → Prop)
    (b : md_PropertiesMap) (prop : Nat) (pm : md_PricesMap) (skipLevel : ℚ → Bool)
    (skip : CMPMetaDEx → Bool) (hg : get_Prices b prop = some pm) (h : EveryOrder P b) :
    EveryOrder P (mapReplace prop (keptPrices skipLevel skip pm) b) := by
  intro e he
  rcases mapReplace_mem _ _ _ e he with h1 | h1
  · exact h e h1
  · rw [h1]
    exact keptPrices_located (P prop) skipLevel skip pm (h (prop, pm) (mapFind_mem hg))

theorem EveryOrder_keptProperties (P : Nat → ℚ → CMPMetaDEx → Prop)
    (b : md_PropertiesMap) (skipProp : Nat → Bool) (skip : CMPMetaDEx → Bool)
    (h : EveryOrder P b) : EveryOrder P (keptProperties skipProp skip b) := by
  intro e he
  unfold keptProperties at he
  obtain ⟨e0, he0, rfl⟩ := List.mem_map.mp he
  by_cases hs : skipProp e0.1 = true
  · rw [if_pos hs]
    exact h e0 he0
  · rw [if_neg hs]
    exact keptPrices_located (P e0.1) (fun _ => false) skip e0.2 (h e0 he0)

/-- The three cancel operations keep every property of the resting orders:
they only remove orders. -/
theorem MetaDEx_CANCEL_located (P : Nat → ℚ → CMPMetaDEx → Prop) (isMain isTest : Nat → Bool)
    (ME : Int) (s : State) (hall : EveryOrder P s.metadex) :
    (∀ txid block sender prop amount pd ad res,
      MetaDEx_CANCEL_AT_PRICE ME s txid block sender prop amount pd ad = .ok res →
      EveryOrder P res.2.metadex) ∧
    (∀ txid block sender prop pd res,
      MetaDEx_CANCEL_ALL_FOR_PAIR ME s txid block sender prop pd = .ok res →
      EveryOrder P res.2.metadex) ∧
    (∀ txid block sender ecosystem res,
      MetaDEx_CANCEL_EVERYTHING isMain isTest ME s txid block sender ecosystem = .ok res →
      EveryOrder P res.2.metadex) := by
  refine ⟨?_, ?_, ?_⟩
  · intro txid block sender prop amount pd ad res h
    rcases MetaDEx_CANCEL_AT_PRICE_effect ME s txid block sender prop amount pd ad res h with
      ⟨_, hr⟩ | ⟨pm, removed, hg, _, hbook, _⟩
    · rw [hr]; exact hall
    · rw [hbook]
      exact EveryOrder_mapReplace_keptPrices P _ _ _ _ _ hg hall
  · intro txid block sender prop pd res h
    rcases MetaDEx_CANCEL_ALL_FOR_PAIR_effect ME s txid block sender prop pd res h with
      ⟨_, hr⟩ | ⟨pm, removed, hg, _, hbook, _⟩
    · rw [hr]; exact hall
    · rw [hbook]
      exact EveryOrder_mapReplace_keptPrices P _ _ _ _ _ hg hall
  · intro txid block sender ecosystem res h
    obtain ⟨removed, _, hbook, _⟩ :=
      MetaDEx_CANCEL_EVERYTHING_effect isMain isTest ME s txid block sender ecosystem res h
    rw [hbook]
    exact EveryOrder_keptProperties P _ _ _ hall

theorem RemainingInv_iff (b : md_PropertiesMap) :
    RemainingInv b ↔ EveryOrder
      (fun _ _ o => 0 < o.amount_remaining ∧ o.amount_remaining ≤ o.amount_forsale) b := by
  unfold RemainingInv EveryOrder
  constructor
  · intro h e he lvl hl o ho
    exact h o ((mem_allOrders_iff b o).mpr ⟨e, he, lvl, hl, ho⟩)
  · intro h o ho
    obtain ⟨e, he, lvl, hl, hol⟩ := (mem_allOrders_iff b o).mp ho
    exact h e he lvl hl o hol

/-- C25: if every order of the book has `0 < amount_remaining ≤
amount_forsale`, so has every order of the book after a `MetaDEx_ADD` with
`0 < amount ≤ 2^63 - 1` and `0 < amount_desired ≤ 2^63 - 1` that returns, and
after each of the three cancel operations that returns; in particular the book
then holds no order with `amount_remaining = 0`. -/
theorem C25_remaining_amount_invariant (isMain isTest : Nat → Bool) (ME : Int) (s : State)
    (hinv : RemainingInv s.metadex) :
    (∀ sender prop amount block pd ad txid idx res,
      0 < amount → amount ≤ 2 ^ 63 - 1 → 0 < ad → ad ≤ 2 ^ 63 - 1 →
      MetaDEx_ADD ME s sender prop amount block pd ad txid idx = .ok res →
      RemainingInv res.2.metadex ∧ ∀ o ∈ allOrders res.2.metadex, o.amount_remaining ≠ 0) ∧
    (∀ txid block sender prop amount pd ad res,
      MetaDEx_CANCEL_AT_PRICE ME s txid block sender prop amount pd ad = .ok res →
      RemainingInv res.2.metadex ∧ ∀ o ∈ allOrders res.2.metadex, o.amount_remaining ≠ 0) ∧
    (∀ txid block sender prop pd res,
      MetaDEx_CANCEL_ALL_FOR_PAIR ME s txid block sender prop pd = .ok res →
      RemainingInv res.2.metadex ∧ ∀ o ∈ allOrders res.2.metadex, o.amount_remaining ≠ 0) ∧
    (∀ txid block sender ecosystem res,
      MetaDEx_CANCEL_EVERYTHING isMain isTest ME s txid block sender ecosystem = .ok res →
      RemainingInv res.2.metadex ∧ ∀ o ∈ allOrders res.2.metadex, o.amount_remaining ≠ 0) := by
  have hne : ∀ b, RemainingInv b → ∀ o ∈ allOrders b, o.amount_remaining ≠ 0 :=
    fun b hb o ho => (hb o ho).1.ne'
  have hall := (RemainingInv_iff s.metadex).mp hinv
  obtain ⟨c1, c2, c3⟩ := MetaDEx_CANCEL_located
    (fun _ _ o => 0 < o.amount_remaining ∧ o.amount_remaining ≤ o.amount_forsale)
    isMain isTest ME s hall
  refine ⟨?_, ?_, ?_, ?_⟩
  · intro sender prop amount block pd ad txid idx res _ _ _ _ h
    have key := MetaDEx_ADD_located
      (fun o => 0 < o.unitPrice ∧ o.amount_remaining ≤ o.amount_forsale)
      (fun _ _ o => 0 < o.amount_remaining ∧ o.amount_remaining ≤ o.amount_forsale)
      (by
        intro price pold pnew bg sg hq hout
        obtain ⟨_, hsg⟩ := x_Trade_outcome_fill_pos price pold pnew bg sg hq.1 hout
        refine ⟨hq.1, ?_⟩
        show pnew.amount_remaining - sg ≤ pnew.amount_forsale
        have := hq.2
        omega)
      (by
        intro _ price pold pnew bg sg hq hp hout hleft
        obtain ⟨hbg, _⟩ := x_Trade_outcome_fill_pos price pold pnew bg sg hq.1 hout
        refine ⟨hleft, ?_⟩
        show pold.amount_remaining - bg ≤ pold.amount_forsale
        have := hp.2
        omega)
      (fun o hq hr => ⟨hr, hq.2⟩)
      ME s sender prop amount block pd ad txid idx res hall
      (fun hu => ⟨hu, le_refl _⟩) h
    have hr := (RemainingInv_iff res.2.metadex).mpr key
    exact ⟨hr, hne _ hr⟩
  · intro txid block sender prop amount pd ad res h
    have hr := (RemainingInv_iff res.2.metadex).mpr (c1 txid block sender prop amount pd ad res h)
    exact ⟨hr, hne _ hr⟩
  · intro txid block sender prop pd res h
    have hr := (RemainingInv_iff res.2.metadex).mpr (c2 txid block sender prop pd res h)
    exact ⟨hr, hne _ hr⟩
  · intro txid block sender ecosystem res h
    have hr := (RemainingInv_iff res.2.metadex).mpr (c3 txid block sender ecosystem res h)
    exact ⟨hr, hne _ hr⟩

/-- C25 at the second scenario: the maker's order satisfies the invariant, and
after the taker's `MetaDEx_ADD`, which buys the maker out and rests with 100 of
its 200 units, so does the book. -/
theorem C25_remaining_amount_invariant_witness :
    RemainingInv ex2State.metadex ∧
    ∃ res, MetaDEx_ADD (-80000) ex2State "taker" 1 200 11 3 100 78 1 = .ok res ∧
      RemainingInv res.2.metadex := by
  have hinv : RemainingInv ex2State.metadex := by
    unfold RemainingInv
    decide!
  obtain ⟨res, hres⟩ := except_ok_of_isSome
    (MetaDEx_ADD (-80000) ex2State "taker" 1 200 11 3 100 78 1) (by decide!)
  exact ⟨hinv, res, hres,
    ((C25_remaining_amount_invariant (fun _ => true) (fun _ => false) (-80000) ex2State
      hinv).1 "taker" 1 200 11 3 100 78 1 res (by decide) (by decide) (by decide) (by decide)
        hres).1⟩

/-! ## The price-key invariant -/

/-- The assertions the loop body of `x_Trade` can fail, and the one on the
price key fails only when the unit price of the resting order differs from the
key of its level. -/
theorem x_Trade_outcome_abort_kind (sellersPrice : ℚ) (pold pnew : CMPMetaDEx) (a : Abort)
    (h : x_Trade_outcome sellersPrice pold pnew = .assertFailed a) :
    (a = .priceKey ∧ pold.unitPrice ≠ sellersPrice) ∨ a = .precondition ∨ a = .range ∨
      a = .postcondition := by
  unfold x_Trade_outcome at h
  by_cases h1 : pold.unitPrice ≠ sellersPrice
  · rw [if_pos h1] at h; cases h; exact Or.inl ⟨rfl, h1⟩
  rw [if_neg h1] at h
  by_cases h2 : pold.desired_property ≠ pnew.property
  · rw [if_pos h2] at h; cases h
  rw [if_neg h2] at h
  by_cases h3 : ¬ (0 < pold.amount_remaining)
  · rw [if_pos h3] at h; cases h; exact Or.inr (Or.inl rfl)
  rw [if_neg h3] at h
  by_cases h4 : ¬ (0 < pnew.amount_remaining)
  · rw [if_pos h4] at h; cases h; exact Or.inr (Or.inl rfl)
  rw [if_neg h4] at h
  by_cases h5 : ¬ (pnew.property ≠ pnew.desired_property)
  · rw [if_pos h5] at h; cases h; exact Or.inr (Or.inl rfl)
  rw [if_neg h5] at h
  by_cases h6 : ¬ (pnew.property = pold.desired_property)
  · rw [if_pos h6] at h; cases h; exact Or.inr (Or.inl rfl)
  rw [if_neg h6] at h
  by_cases h7 : ¬ (pold.property = pnew.desired_property)
  · rw [if_pos h7] at h; cases h; exact Or.inr (Or.inl rfl)
  rw [if_neg h7] at h
  by_cases h8 : ¬ (pold.unitPrice ≤ pnew.inversePrice)
  · rw [if_pos h8] at h; cases h; exact Or.inr (Or.inl rfl)
  rw [if_neg h8] at h
  by_cases h9 : ¬ (pnew.unitPrice ≤ pold.inversePrice)
  · rw [if_pos h9] at h; cases h; exact Or.inr (Or.inl rfl)
  rw [if_neg h9] at h
  by_cases h10 : nCouldBuy pold pnew = 0
  · rw [if_pos h10] at h; cases h
  rw [if_neg h10] at h
  cases hw : nWouldPay pold pnew with
  | none => rw [hw] at h; cases h; exact Or.inr (Or.inr (Or.inl rfl))
  | some w =>
    rw [hw] at h
    simp only at h
    by_cases g1 : (w : ℚ) / (nCouldBuy pold pnew : ℚ) > pnew.inversePrice
    · rw [if_pos g1] at h; cases h
    rw [if_neg g1] at h
    by_cases g2 : ¬ ((w : ℚ) / (nCouldBuy pold pnew : ℚ) ≥ pold.unitPrice)
    · rw [if_pos g2] at h; cases h; exact Or.inr (Or.inr (Or.inr rfl))
    rw [if_neg g2] at h
    by_cases g3 : ¬ ((w : ℚ) / (nCouldBuy pold pnew : ℚ) ≤ pnew.inversePrice)
    · rw [if_pos g3] at h; cases h; exact Or.inr (Or.inr (Or.inr rfl))
    rw [if_neg g3] at h
    by_cases g4 : ¬ (0 ≤ pold.amount_remaining - nCouldBuy pold pnew)
    · rw [if_pos g4] at h; cases h; exact Or.inr (Or.inr (Or.inr rfl))
    rw [if_neg g4] at h
    by_cases g5 : ¬ (0 ≤ pnew.amount_remaining - w)
    · rw [if_pos g5] at h; cases h; exact Or.inr (Or.inr (Or.inr rfl))
    rw [if_neg g5] at h
    by_cases g6 : ¬ (pold.amount_remaining =
        pold.amount_remaining - nCouldBuy pold pnew + nCouldBuy pold pnew)
    · rw [if_pos g6] at h; cases h; exact Or.inr (Or.inr (Or.inr rfl))
    rw [if_neg g6] at h
    by_cases g7 : ¬ (pnew.amount_remaining = pnew.amount_remaining - w + w)
    · rw [if_pos g7] at h; cases h; exact Or.inr (Or.inr (Or.inr rfl))
    rw [if_neg g7] at h
    cases h

theorem x_Trade_outcome_priceKey (sellersPrice : ℚ) (pold pnew : CMPMetaDEx)
    (hk : pold.unitPrice = sellersPrice) :
    x_Trade_outcome sellersPrice pold pnew ≠ .assertFailed .priceKey := by
  intro h
  rcases x_Trade_outcome_abort_kind sellersPrice pold pnew _ h with h1 | h1 | h1 | h1
  · exact h1.2 hk
  · cases h1
  · cases h1
  · cases h1

theorem x_Trade_offers_priceKey (sellersPrice : ℚ) :
    ∀ (rest : List CMPMetaDEx) (pofferSet : md_Set) (st : TradeState),
      (∀ o ∈ rest, o.unitPrice = sellersPrice) →
      x_Trade_offers sellersPrice rest pofferSet st ≠ .error .priceKey := by
  intro rest
  induction rest with
  | nil =>
    intro pofferSet st _ h
    simp only [x_Trade_offers] at h
    cases h
  | cons c rest ih =>
    intro pofferSet st hall h
    have hc := x_Trade_outcome_priceKey sellersPrice c st.pnew (hall c (List.mem_cons_self _ _))
    have hrest : ∀ o ∈ rest, o.unitPrice = sellersPrice :=
      fun o ho => hall o (List.mem_cons_of_mem _ ho)
    rw [x_Trade_offers] at h
    cases hout : x_Trade_outcome sellersPrice c st.pnew with
    | assertFailed a =>
      rw [hout] at h
      simp only [Except.error.injEq] at h
      rw [h] at hout
      exact hc hout
    | nextOffer =>
      rw [hout] at h
      exact ih pofferSet st hrest h
    | fill bg sg =>
      rw [hout] at h
      simp only [] at h
      cases ht : x_Trade_transfer st.tally c st.pnew bg sg with
      | none => rw [ht] at h; cases h
      | some L =>
        rw [ht] at h
        simp only [] at h
        by_cases hs : (x_Trade_after L c st bg sg).bBuyerSatisfied = true
        · rw [if_pos hs] at h
          by_cases hz : (x_Trade_after L c st bg sg).pnew.amount_remaining = 0
          · rw [if_pos hz] at h; cases h
          · rw [if_neg hz] at h; cases h
        · rw [if_neg hs] at h
          exact ih _ _ hrest h

theorem x_Trade_prices_priceKey :
    ∀ (pm : md_PricesMap) (st : TradeState),
      (∀ lvl ∈ pm, ∀ o ∈ lvl.2, o.unitPrice = lvl.1) →
      x_Trade_prices pm st ≠ .error .priceKey := by
  intro pm
  induction pm with
  | nil =>
    intro st _ h
    simp only [x_Trade_prices] at h
    cases h
  | cons lvl pm ih =>
    obtain ⟨price, set⟩ := lvl
    intro st hall h
    have h0 : ∀ o ∈ set, o.unitPrice = price := hall (price, set) (List.mem_cons_self _ _)
    have h1 : ∀ lvl ∈ pm, ∀ o ∈ lvl.2, o.unitPrice = lvl.1 :=
      fun l hl => hall l (List.mem_cons_of_mem _ hl)
    rw [x_Trade_prices] at h
    by_cases hlt : st.pnew.inversePrice < price
    · rw [if_pos hlt] at h
      cases hr : x_Trade_prices pm st with
      | error a =>
        rw [hr] at h
        simp only [Except.error.injEq] at h
        rw [h] at hr
        exact ih st h1 hr
      | ok r => rw [hr] at h; cases h
    · rw [if_neg hlt] at h
      cases ho : x_Trade_offers price set set st with
      | error a =>
        rw [ho] at h
        simp only [Except.error.injEq] at h
        rw [h] at ho
        exact x_Trade_offers_priceKey price set set st h0 ho
      | ok r1 =>
        rw [ho] at h
        simp only [] at h
        by_cases hs : r1.2.bBuyerSatisfied = true
        · rw [if_pos hs] at h; cases h
        · rw [if_neg hs] at h
          cases hr : x_Trade_prices pm r1.2 with
          | error a =>
            rw [hr] at h
            simp only [Except.error.injEq] at h
            rw [h] at hr
            exact ih r1.2 h1 hr
          | ok r => rw [hr] at h; cases h

/-- Under the price-key invariant the assertion on the price key of `x_Trade`
does not fail. -/
theorem x_Trade_priceKey (s : State) (pnew : CMPMetaDEx) (hinv : PriceKeyInv s.metadex) :
    x_Trade s pnew ≠ .error .priceKey := by
  intro h
  unfold x_Trade at h
  cases hg : get_Prices s.metadex pnew.desired_property with
  | none => rw [hg] at h; cases h
  | some pm =>
    rw [hg] at h
    simp only [] at h
    cases hp : x_Trade_prices pm (x_Trade_init s pnew) with
    | error a =>
      rw [hp] at h
      simp only [Except.error.injEq] at h
      rw [h] at hp
      exact x_Trade_prices_priceKey pm _
        (fun lvl hl o ho => (hinv (pnew.desired_property, pm) (mapFind_mem hg) lvl hl o ho).2) hp
    | ok res => rw [hp] at h; cases h

/-- C26: if every order stored under `metadex[prop][p]` sells `prop` and has
the unit price `p` (which is `amount_desired / amount_forsale` for an order
with a non-zero amount for sale), the same holds after a `MetaDEx_ADD` that
returns, the re-insertion of partially filled makers and the insertion of the
residual included, and after each of the three cancel operations that returns;
and under that invariant the assertion `pold->unitPrice() == sellersPrice` of
`x_Trade` does not fail, neither in `x_Trade` nor in `MetaDEx_ADD`. -/
theorem C26_price_key_invariant (isMain isTest : Nat → Bool) (ME : Int) (s : State)
    (hinv : PriceKeyInv s.metadex) :
    (∀ sender prop amount block pd ad txid idx res,
      MetaDEx_ADD ME s sender prop amount block pd ad txid idx = .ok res →
      PriceKeyInv res.2.metadex) ∧
    (∀ txid block sender prop amount pd ad res,
      MetaDEx_CANCEL_AT_PRICE ME s txid block sender prop amount pd ad = .ok res →
      PriceKeyInv res.2.metadex) ∧
    (∀ txid block sender prop pd res,
      MetaDEx_CANCEL_ALL_FOR_PAIR ME s txid block sender prop pd = .ok res →
      PriceKeyInv res.2.metadex) ∧
    (∀ txid block sender ecosystem res,
      MetaDEx_CANCEL_EVERYTHING isMain isTest ME s txid block sender ecosystem = .ok res →
      PriceKeyInv res.2.metadex) ∧
    (∀ pnew, x_Trade s pnew ≠ .error .priceKey) ∧
    (∀ sender prop amount block pd ad txid idx,
      MetaDEx_ADD ME s sender prop amount block pd ad txid idx ≠ .error .priceKey) ∧
    (∀ o : CMPMetaDEx, o.amount_forsale ≠ 0 →
      o.unitPrice = (o.amount_desired : ℚ) / (o.amount_forsale : ℚ)) := by
  obtain ⟨c1, c2, c3⟩ := MetaDEx_CANCEL_located
    (fun prop p o => o.property = prop ∧ o.unitPrice = p) isMain isTest ME s hinv
  refine ⟨?_, c1, c2, c3, fun pnew => x_Trade_priceKey s pnew hinv, ?_,
    fun o _ => unitPrice_eq_div o⟩
  · intro sender prop amount block pd ad txid idx res h
    exact MetaDEx_ADD_located (fun _ => True)
      (fun prop p o => o.property = prop ∧ o.unitPrice = p)
      (fun _ _ _ _ _ _ _ => trivial)
      (fun _ _ _ _ _ _ _ hp _ _ => hp)
      (fun _ _ _ => ⟨rfl, rfl⟩)
      ME s sender prop amount block pd ad txid idx res hinv (fun _ => trivial) h
  · intro sender prop amount block pd ad txid idx h
    unfold MetaDEx_ADD at h
    simp only [] at h
    split at h
    · cases h
    · cases hx : x_Trade s (CMPMetaDEx.create sender block prop amount pd ad txid idx .ADD) with
      | error a =>
        rw [hx] at h
        simp only [Except.error.injEq] at h
        rw [h] at hx
        exact x_Trade_priceKey s _ hinv hx
      | ok r =>
        rw [hx] at h
        simp only [] at h
        split at h
        · split at h
          · cases h
          · split at h
            · cases h
            · split at h
              · cases h
              · cases h
        · cases h

/-- C26 at the second scenario: the maker rests at the key 2 = 100/50 under
property 3, and after the taker's `MetaDEx_ADD` the residual rests at the key
1/2 = 100/200 under property 1. -/
theorem C26_price_key_invariant_witness :
    PriceKeyInv ex2State.metadex ∧
    ∃ res, MetaDEx_ADD (-80000) ex2State "taker" 1 200 11 3 100 78 1 = .ok res ∧
      PriceKeyInv res.2.metadex := by
  have hinv : PriceKeyInv ex2State.metadex := by
    unfold PriceKeyInv EveryOrder
    decide!
  obtain ⟨res, hres⟩ := except_ok_of_isSome
    (MetaDEx_ADD (-80000) ex2State "taker" 1 200 11 3 100 78 1) (by decide!)
  exact ⟨hinv, res, hres,
    (C26_price_key_invariant (fun _ => true) (fun _ => false) (-80000) ex2State hinv).1
      "taker" 1 200 11 3 100 78 1 res hres⟩

/-- Reading `n` bytes gives the big-endian value of these bytes. -/
theorem readBE_eq_bigEndian (pkt : List Nat) (off n : Nat) :
    readBE pkt off n = bigEndian (payloadBytes pkt off n) := by
  induction n with
  | zero => rfl
  | succ n ih =>
    unfold bigEndian payloadBytes at *
    rw [List.range_succ, List.map_append, List.foldl_append, ← ih]
    rfl

/-- A payload byte is below 256. -/
theorem pktByte_lt (pkt : List Nat) (i : Nat) : pktByte pkt i < 256 :=
  Nat.mod_lt _ (by decide)

/-- Reading `n` bytes gives a value below `256 ^ n`. -/
theorem readBE_lt (pkt : List Nat) (off n : Nat) : readBE pkt off n < 256 ^ n := by
  induction n with
  | zero => simp [readBE]
  | succ n ih =>
    have hb := pktByte_lt pkt (off + n)
    have e : readBE pkt off (n + 1) = readBE pkt off n * 256 + pktByte pkt (off + n) := rfl
    rw [e, pow_succ]
    nlinarith

/-- A type outside the handled ones makes `interpret_Transaction` fail. -/
theorem interpret_Transaction_unhandled (env : PktEnv) (tx : CMPTransaction)
    (h : (interpret_TransactionType tx).2.type ∉ handledTypes env) :
    (interpret_Transaction env tx).1 = false := by
  simp only [handledTypes, List.mem_cons, List.mem_singleton, not_or, List.not_mem_nil,
    or_false] at h
  obtain ⟨h1, h2, h3, h4, h5, h6, h7, h8, h9, h10, h11, h12, h13, h14, h15, h16⟩ := h
  unfold interpret_Transaction
  simp only []
  by_cases hr : (interpret_TransactionType tx).1 = true
  · simp only [hr, Bool.not_true, Bool.false_eq_true, if_false, if_neg h1, if_neg h2,
      if_neg h3, if_neg h4, if_neg h5, if_neg h6, if_neg h7, if_neg h8, if_neg h9,
      if_neg h10, if_neg h11, if_neg h12, if_neg h13, if_neg h14, if_neg h15, if_neg h16]
  · simp only [Bool.not_eq_true] at hr
    simp only [hr, Bool.not_false, if_true]

/-- C28: `interpret_TransactionType` returns false exactly when `pkt_size < 4`;
otherwise it returns true, sets `version` to the big-endian unsigned 16-bit
value of the payload bytes 0 and 1 and `type` to the big-endian unsigned
16-bit value of the bytes 2 and 3, and leaves the other members alone;
`interpret_Transaction` returns false whenever `interpret_TransactionType`
fails and whenever the decoded type is not one of the handled types. -/
theorem C28_transaction_type (env : PktEnv) (tx : CMPTransaction) :
    ((interpret_TransactionType tx).1 = false ↔ tx.pkt_size < 4) ∧
    (¬ tx.pkt_size < 4 →
      (interpret_TransactionType tx).1 = true ∧
      (interpret_TransactionType tx).2.version = bigEndian (payloadBytes tx.pkt 0 2) ∧
      (interpret_TransactionType tx).2.version = pktByte tx.pkt 0 * 256 + pktByte tx.pkt 1 ∧
      (interpret_TransactionType tx).2.version < 2 ^ 16 ∧
      (interpret_TransactionType tx).2.type = bigEndian (payloadBytes tx.pkt 2 2) ∧
      (interpret_TransactionType tx).2.type = pktByte tx.pkt 2 * 256 + pktByte tx.pkt 3 ∧
      (interpret_TransactionType tx).2.type < 2 ^ 16 ∧
      (interpret_TransactionType tx).2 =
        { tx with version := (interpret_TransactionType tx).2.version,
                  type := (interpret_TransactionType tx).2.type }) ∧
    ((interpret_TransactionType tx).1 = false → (interpret_Transaction env tx).1 = false) ∧
    ((interpret_TransactionType tx).2.type ∉ handledTypes env →
      (interpret_Transaction env tx).1 = false) := by
  refine ⟨?_, ?_, ?_, interpret_Transaction_unhandled env tx⟩
  · unfold interpret_TransactionType
    by_cases h : tx.pkt_size < 4
    · simp [h]
    · simp [h]
  · intro h
    have e : interpret_TransactionType tx =
        (true, { tx with version := readBE tx.pkt 0 2, type := readBE tx.pkt 2 2 }) := by
      unfold interpret_TransactionType
      rw [if_neg h]
    rw [e]
    refine ⟨rfl, readBE_eq_bigEndian _ _ _, ?_, ?_, readBE_eq_bigEndian _ _ _, ?_, ?_, rfl⟩
    · show readBE tx.pkt 0 2 = _
      simp [readBE]
    · exact readBE_lt tx.pkt 0 2
    · show readBE tx.pkt 2 2 = _
      simp [readBE]
    · exact readBE_lt tx.pkt 2 2
  · intro h
    unfold interpret_Transaction
    simp only [h, Bool.not_false, if_true]

/-- C28 on three payloads: a payload of three bytes fails in
`interpret_TransactionType` and in `interpret_Transaction`; the trade payload
decodes to the version 0 and the type 25; a payload of the type 2 decodes and
is then refused by `interpret_Transaction`. -/
theorem C28_transaction_type_witness :
    (interpret_TransactionType (exPacket exShortPayload)).1 = false ∧
    (interpret_Transaction exPktEnv (exPacket exShortPayload)).1 = false ∧
    (interpret_TransactionType (exPacket exTradePayload)).1 = true ∧
    (interpret_TransactionType (exPacket exTradePayload)).2.version = 0 ∧
    (interpret_TransactionType (exPacket exTradePayload)).2.type = 25 ∧
    (interpret_TransactionType (exPacket exUnhandledPayload)).2.type = 2 ∧
    (interpret_Transaction exPktEnv (exPacket exUnhandledPayload)).1 = false := by
  have hs := C28_transaction_type exPktEnv (exPacket exShortPayload)
  have ht := C28_transaction_type exPktEnv (exPacket exTradePayload)
  have hu := C28_transaction_type exPktEnv (exPacket exUnhandledPayload)
  have h1 : (interpret_TransactionType (exPacket exShortPayload)).1 = false :=
    hs.1.2 (by decide)
  have h2 := ht.2.1 (by decide)
  have h3 := hu.2.1 (by decide)
  refine ⟨h1, hs.2.2.1 h1, h2.1, ?_, ?_, ?_, hu.2.2.2 ?_⟩
  · rw [h2.2.2.1]; decide
  · rw [h2.2.2.2.2.2.1]; decide
  · rw [h3.2.2.2.2.2.1]; decide
  · rw [h3.2.2.2.2.2.1]; decide

/-- C29: `interpret_MetaDExTrade` and `interpret_MetaDExCancelPrice` return
false exactly when `pkt_size < 28`; otherwise they return true with
`property` the big-endian unsigned 32-bit value of the bytes 4 to 7, `nValue`
and `nNewValue` the big-endian unsigned 64-bit value of the bytes 8 to 15,
`desired_property` the big-endian unsigned 32-bit value of the bytes 16 to 19
and `desired_value` the big-endian unsigned 64-bit value of the bytes 20 to
27; the two functions give the same values to these fields and to every other
member but the action tag, which is `ADD` for the one and `CANCEL_AT_PRICE`
for the other. -/
theorem C29_metadex_payload (tx : CMPTransaction) :
    ((interpret_MetaDExTrade tx).1 = false ↔ tx.pkt_size < 28) ∧
    ((interpret_MetaDExCancelPrice tx).1 = false ↔ tx.pkt_size < 28) ∧
    (¬ tx.pkt_size < 28 →
      (interpret_MetaDExTrade tx).1 = true ∧
      (interpret_MetaDExCancelPrice tx).1 = true ∧
      (interpret_MetaDExTrade tx).2.property = bigEndian (payloadBytes tx.pkt 4 4) ∧
      (interpret_MetaDExTrade tx).2.property < 2 ^ 32 ∧
      (interpret_MetaDExTrade tx).2.nValue = (bigEndian (payloadBytes tx.pkt 8 8) : Nat) ∧
      (interpret_MetaDExTrade tx).2.nNewValue = (bigEndian (payloadBytes tx.pkt 8 8) : Nat) ∧
      bigEndian (payloadBytes tx.pkt 8 8) < 2 ^ 64 ∧
      (interpret_MetaDExTrade tx).2.desired_property = bigEndian (payloadBytes tx.pkt 16 4) ∧
      (interpret_MetaDExTrade tx).2.desired_property < 2 ^ 32 ∧
      (interpret_MetaDExTrade tx).2.desired_value =
        (bigEndian (payloadBytes tx.pkt 20 8) : Nat) ∧
      bigEndian (payloadBytes tx.pkt 20 8) < 2 ^ 64 ∧
      (interpret_MetaDExTrade tx).2.action = Subaction.ADD ∧
      (interpret_MetaDExCancelPrice tx).2.action = Subaction.CANCEL_AT_PRICE) ∧
    (interpret_MetaDExCancelPrice tx).2.property = (interpret_MetaDExTrade tx).2.property ∧
    (interpret_MetaDExCancelPrice tx).2.nValue = (interpret_MetaDExTrade tx).2.nValue ∧
    (interpret_MetaDExCancelPrice tx).2.nNewValue = (interpret_MetaDExTrade tx).2.nNewValue ∧
    (interpret_MetaDExCancelPrice tx).2.desired_property =
      (interpret_MetaDExTrade tx).2.desired_property ∧
    (interpret_MetaDExCancelPrice tx).2.desired_value =
      (interpret_MetaDExTrade tx).2.desired_value ∧
    { (interpret_MetaDExCancelPrice tx).2 with action := (interpret_MetaDExTrade tx).2.action } =
      (interpret_MetaDExTrade tx).2 := by
  by_cases h : tx.pkt_size < 28
  · have e1 : interpret_MetaDExTrade tx = (false, tx) := by
      unfold interpret_MetaDExTrade
      rw [if_pos h]
    have e2 : interpret_MetaDExCancelPrice tx = (false, tx) := by
      unfold interpret_MetaDExCancelPrice
      rw [if_pos h]
    rw [e1, e2]
    exact ⟨⟨fun _ => h, fun _ => rfl⟩, ⟨fun _ => h, fun _ => rfl⟩, fun h2 => absurd h h2,
      rfl, rfl, rfl, rfl, rfl, rfl⟩
  · have e1 : interpret_MetaDExTrade tx =
        (true, { tx with property := readBE tx.pkt 4 4,
                         nValue := (readBE tx.pkt 8 8 : Nat),
                         nNewValue := (readBE tx.pkt 8 8 : Nat),
                         desired_property := readBE tx.pkt 16 4,
                         desired_value := (readBE tx.pkt 20 8 : Nat),
                         action := .ADD }) := by
      unfold interpret_MetaDExTrade
      rw [if_neg h]
    have e2 : interpret_MetaDExCancelPrice tx =
        (true, { tx with property := readBE tx.pkt 4 4,
                         nValue := (readBE tx.pkt 8 8 : Nat),
                         nNewValue := (readBE tx.pkt 8 8 : Nat),
                         desired_property := readBE tx.pkt 16 4,
                         desired_value := (readBE tx.pkt 20 8 : Nat),
                         action := .CANCEL_AT_PRICE }) := by
      unfold interpret_MetaDExCancelPrice
      rw [if_neg h]
    rw [e1, e2]
    refine ⟨⟨fun h2 => (by cases h2), fun h2 => absurd h2 h⟩,
      ⟨fun h2 => (by cases h2), fun h2 => absurd h2 h⟩, fun _ => ?_, rfl, rfl, rfl, rfl, rfl, rfl⟩
    have b1 := readBE_lt tx.pkt 4 4
    have b2 := readBE_lt tx.pkt 8 8
    have b3 := readBE_lt tx.pkt 16 4
    have b4 := readBE_lt tx.pkt 20 8
    rw [← readBE_eq_bigEndian, ← readBE_eq_bigEndian, ← readBE_eq_bigEndian,
      ← readBE_eq_bigEndian]
    exact ⟨rfl, rfl, rfl, b1, rfl, rfl, b2, rfl, b3, rfl, b4, rfl, rfl⟩

/-- C29 on two payloads: the trade payload of 28 bytes decodes, for both
functions, to 200 of the property 1 for 100 of the property 3; the payload of
three bytes is refused by both. -/
theorem C29_metadex_payload_witness :
    (interpret_MetaDExTrade (exPacket exTradePayload)).1 = true ∧
    (interpret_MetaDExCancelPrice (exPacket exTradePayload)).1 = true ∧
    (interpret_MetaDExTrade (exPacket exTradePayload)).2.property = 1 ∧
    (interpret_MetaDExTrade (exPacket exTradePayload)).2.nNewValue = 200 ∧
    (interpret_MetaDExTrade (exPacket exTradePayload)).2.desired_property = 3 ∧
    (interpret_MetaDExTrade (exPacket exTradePayload)).2.desired_value = 100 ∧
    (interpret_MetaDExCancelPrice (exPacket exTradePayload)).2.property = 1 ∧
    (interpret_MetaDExCancelPrice (exPacket exTradePayload)).2.desired_value = 100 ∧
    (interpret_MetaDExTrade (exPacket exShortPayload)).1 = false ∧
    (interpret_MetaDExCancelPrice (exPacket exShortPayload)).1 = false := by
  have ht := C29_metadex_payload (exPacket exTradePayload)
  have hs := C29_metadex_payload (exPacket exShortPayload)
  have h := ht.2.2.1 (by decide)
  obtain ⟨a1, a2, a3, -, -, a6, -, a8, -, a10, -, -, -⟩ := h
  obtain ⟨-, -, -, c1, -, -, -, c5, -⟩ := ht
  refine ⟨a1, a2, ?_, ?_, ?_, ?_, ?_, ?_, hs.1.2 (by decide), hs.2.1.2 (by decide)⟩
  · rw [a3]; decide
  · rw [a6]; decide
  · rw [a8]; decide
  · rw [a10]; decide
  · rw [c1, a3]; decide
  · rw [c5, a10]; decide

/-- The string loop reads as many strings as it has rounds. -/
theorem readStrings_length (pkt : List Nat) (n off : Nat) :
    (readStrings pkt n off).1.length = n := by
  induction n generalizing off with
  | zero => rfl
  | succ n ih =>
    show (readString pkt off :: (readStrings pkt n (off + (readString pkt off).length + 1)).1).length
      = n + 1
    rw [List.length_cons, ih]

/-- The string loop advances the pointer by the length of each string and by
one more for its terminator. -/
theorem readStrings_snd (pkt : List Nat) (n off : Nat) :
    (readStrings pkt n off).2 =
      off + ((readStrings pkt n off).1.map (fun s => s.length + 1)).sum := by
  induction n generalizing off with
  | zero => rfl
  | succ n ih =>
    have e : readStrings pkt (n + 1) off =
        (readString pkt off :: (readStrings pkt n (off + (readString pkt off).length + 1)).1,
         (readStrings pkt n (off + (readString pkt off).length + 1)).2) := rfl
    rw [e]
    show (readStrings pkt n (off + (readString pkt off).length + 1)).2 = _
    rw [ih, List.map_cons, List.sum_cons]
    omega

/-- A string read from the buffer holds no NUL byte. -/
theorem readString_no_NUL (pkt : List Nat) (off : Nat) :
    ∀ b ∈ readString pkt off, b ≠ 0 := by
  intro b hb
  unfold readString at hb
  have h := List.mem_takeWhile_imp hb
  simpa using h

/-- The return value of `interpret_CreatePropertyFixed`. -/
theorem interpret_CreatePropertyFixed_fst (env : PktEnv) (tx : CMPTransaction) :
    (interpret_CreatePropertyFixed env tx).1 =
      decide (¬ tx.pkt_size < 25 ∧ ¬ (readStrings tx.pkt 5 11).2 + 8 > tx.pkt_size) := by
  unfold interpret_CreatePropertyFixed
  by_cases h : tx.pkt_size < 25
  · rw [if_pos h]
    simp [h]
  · rw [if_neg h]
    simp only []
    by_cases ho : (readStrings tx.pkt 5 11).2 + 8 > tx.pkt_size
    · have e : isOverrun { (interpret_propertyHeader env tx).1 with
          nValue := (readBE tx.pkt (interpret_propertyHeader env tx).2 8 : Nat),
          nNewValue := (readBE tx.pkt (interpret_propertyHeader env tx).2 8 : Nat) }
          ((interpret_propertyHeader env tx).2 + 8) = true := by
        show decide ((readStrings tx.pkt 5 11).2 + 8 > tx.pkt_size) = true
        exact decide_eq_true ho
      rw [if_pos e]
      simp [h, ho]
    · have e : ¬ isOverrun { (interpret_propertyHeader env tx).1 with
          nValue := (readBE tx.pkt (interpret_propertyHeader env tx).2 8 : Nat),
          nNewValue := (readBE tx.pkt (interpret_propertyHeader env tx).2 8 : Nat) }
          ((interpret_propertyHeader env tx).2 + 8) = true := by
        show ¬ decide ((readStrings tx.pkt 5 11).2 + 8 > tx.pkt_size) = true
        simpa using ho
      rw [if_neg e]
      simp [h, ho]

/-- C30: `interpret_CreatePropertyFixed` reads five strings from the offset 11
on, each ending before the first NUL byte and the next one starting after that
byte; it returns false when `pkt_size < 25` and when the five strings, with
one terminator each, and the 8 bytes of the value run past the declared size,
that is when `11 + sum (len_i + 1) + 8 > pkt_size`; it returns true
otherwise. -/
theorem C30_create_property_fixed (env : PktEnv) (tx : CMPTransaction) :
    ∃ s0 s1 s2 s3 s4 : List Nat,
      (readStrings tx.pkt 5 11).1 = [s0, s1, s2, s3, s4] ∧
      s0 = readString tx.pkt 11 ∧
      s1 = readString tx.pkt (11 + (s0.length + 1)) ∧
      s2 = readString tx.pkt (11 + (s0.length + 1) + (s1.length + 1)) ∧
      s3 = readString tx.pkt (11 + (s0.length + 1) + (s1.length + 1) + (s2.length + 1)) ∧
      s4 = readString tx.pkt
        (11 + (s0.length + 1) + (s1.length + 1) + (s2.length + 1) + (s3.length + 1)) ∧
      (∀ s ∈ [s0, s1, s2, s3, s4], ∀ b ∈ s, b ≠ 0) ∧
      ((interpret_CreatePropertyFixed env tx).1 = false ↔
        tx.pkt_size < 25 ∨
        11 + ([s0, s1, s2, s3, s4].map (fun s => s.length + 1)).sum + 8 > tx.pkt_size) ∧
      ((interpret_CreatePropertyFixed env tx).1 = true ↔
        ¬ (tx.pkt_size < 25 ∨
        11 + ([s0, s1, s2, s3, s4].map (fun s => s.length + 1)).sum + 8 > tx.pkt_size)) := by
  have hl : (readStrings tx.pkt 5 11).1 =
      [readString tx.pkt 11,
       readString tx.pkt (11 + ((readString tx.pkt 11).length + 1)),
       readString tx.pkt (11 + ((readString tx.pkt 11).length + 1) +
         ((readString tx.pkt (11 + ((readString tx.pkt 11).length + 1))).length + 1)),
       readString tx.pkt (11 + ((readString tx.pkt 11).length + 1) +
         ((readString tx.pkt (11 + ((readString tx.pkt 11).length + 1))).length + 1) +
         ((readString tx.pkt (11 + ((readString tx.pkt 11).length + 1) +
           ((readString tx.pkt (11 + ((readString tx.pkt 11).length + 1))).length + 1))).length
           + 1)),
       readString tx.pkt (11 + ((readString tx.pkt 11).length + 1) +
         ((readString tx.pkt (11 + ((readString tx.pkt 11).length + 1))).length + 1) +
         ((readString tx.pkt (11 + ((readString tx.pkt 11).length + 1) +
           ((readString tx.pkt (11 + ((readString tx.pkt 11).length + 1))).length + 1))).length
           + 1) +
         ((readString tx.pkt (11 + ((readString tx.pkt 11).length + 1) +
           ((readString tx.pkt (11 + ((readString tx.pkt 11).length + 1))).length + 1) +
           ((readString tx.pkt (11 + ((readString tx.pkt 11).length + 1) +
             ((readString tx.pkt (11 + ((readString tx.pkt 11).length + 1))).length + 1))).length
             + 1))).length + 1))] := rfl
  have hs := readStrings_snd tx.pkt 5 11
  have hf := interpret_CreatePropertyFixed_fst env tx
  rw [hl] at hs
  refine ⟨_, _, _, _, _, hl, rfl, rfl, rfl, rfl, rfl, ?_, ?_, ?_⟩
  · intro s hs b hb
    simp only [List.mem_cons, List.mem_singleton, List.not_mem_nil, or_false] at hs
    rcases hs with h | h | h | h | h <;>
    · rw [h] at hb
      exact readString_no_NUL _ _ b hb
  · rw [hf, ← hs]
    simp only [decide_eq_false_iff_not, not_and_or, not_not]
  · rw [hf, ← hs]
    simp only [decide_eq_true_eq, not_or]

/-- C30 on two payloads: the payload with the strings "a", "b", "c", "" and ""
and the value 1000 fills its 27 bytes and is accepted; the payload of 25 bytes
whose first string is not terminated is rejected, and so is a payload of
three bytes. -/
theorem C30_create_property_fixed_witness :
    (interpret_CreatePropertyFixed exPktEnv (exPacket exFixedPayload)).1 = true ∧
    (interpret_CreatePropertyFixed exPktEnv (exPacket exFixedPayload)).2.nValue = 1000 ∧
    (interpret_CreatePropertyFixed exPktEnv (exPacket exFixedPayload)).2.category = [97] ∧
    (interpret_CreatePropertyFixed exPktEnv (exPacket exFixedOverrunPayload)).1 = false ∧
    (interpret_CreatePropertyFixed exPktEnv (exPacket exShortPayload)).1 = false := by
  obtain ⟨s0, s1, s2, s3, s4, hl, -, -, -, -, -, -, -, ht⟩ :=
    C30_create_property_fixed exPktEnv (exPacket exFixedPayload)
  have e : (readStrings (exPacket exFixedPayload).pkt 5 11).1 = [[97], [98], [99], [], []] := by
    decide
  rw [e] at hl
  injection hl with h0 hl
  injection hl with h1 hl
  injection hl with h2 hl
  injection hl with h3 hl
  injection hl with h4 hl
  subst h0 h1 h2 h3 h4
  refine ⟨ht.2 (by decide), by decide, by decide, by decide, by decide⟩

/-- The return value of `interpret_Alert`: the overrun test is made with the
pointer at the offset 4 and never holds once `pkt_size` is at least 5. -/
theorem interpret_Alert_fst (env : PktEnv) (tx : CMPTransaction) :
    (interpret_Alert env tx).1 = decide (¬ tx.pkt_size < 5) := by
  unfold interpret_Alert
  by_cases h : tx.pkt_size < 5
  · rw [if_pos h]
    simp [h]
  · rw [if_neg h]
    simp only []
    split
    · rename_i hov
      have h2 : 4 > tx.pkt_size := by
        simpa [isOverrun] using hov
      omega
    · simp [h]

/-- C31, as the code has it: `interpret_Alert` returns false exactly when
`pkt_size < 5`, whatever the alert string is. The payload of seven bytes
`ff ff ff ff 61 62 63` has no NUL byte among its seven bytes, its alert
string, read from the offset 4, ends at the offset 7 and its terminator lies
past the declared size, and `interpret_Alert` and `interpret_Transaction`
accept it. -/
theorem C31_alert_overrun_accepted :
    (∀ (env : PktEnv) (tx : CMPTransaction),
      (interpret_Alert env tx).1 = false ↔ tx.pkt_size < 5) ∧
    (exPacket exAlertOverrunPayload).pkt_size = 7 ∧
    (∀ i, i < (exPacket exAlertOverrunPayload).pkt_size →
      pktByte (exPacket exAlertOverrunPayload).pkt i ≠ 0) ∧
    readString (exPacket exAlertOverrunPayload).pkt 4 = [97, 98, 99] ∧
    4 + (readString (exPacket exAlertOverrunPayload).pkt 4).length + 1 >
      (exPacket exAlertOverrunPayload).pkt_size ∧
    (interpret_Alert exPktEnv (exPacket exAlertOverrunPayload)).1 = true ∧
    (interpret_Alert exPktEnv (exPacket exAlertOverrunPayload)).2.alertString = [97, 98, 99] ∧
    (interpret_Transaction exPktEnv (exPacket exAlertOverrunPayload)).1 = true := by
  refine ⟨?_, by decide, by decide, by decide, by decide, by decide, by decide, by decide⟩
  intro env tx
  rw [interpret_Alert_fst]
  simp only [decide_eq_false_iff_not, not_not]

/-- `MetaDEx_isOpen` holds exactly when an order with that hash rests in a
price map the search looks at. -/
theorem MetaDEx_isOpen_iff (metadex : md_PropertiesMap) (txid propertyIdForSale : Nat) :
    MetaDEx_isOpen metadex txid propertyIdForSale = true ↔
      ∃ e ∈ metadex, (propertyIdForSale = 0 ∨ propertyIdForSale = e.1) ∧
        ∃ lvl ∈ e.2, ∃ o ∈ lvl.2, o.txid = txid := by
  unfold MetaDEx_isOpen
  simp only [List.any_eq_true]
  constructor
  · rintro ⟨e, he, h⟩
    by_cases c : propertyIdForSale ≠ 0 ∧ propertyIdForSale ≠ e.1
    · rw [if_pos c] at h
      cases h
    · rw [if_neg c] at h
      simp only [List.any_eq_true, decide_eq_true_eq] at h
      refine ⟨e, he, ?_, h⟩
      by_cases c0 : propertyIdForSale = 0
      · exact Or.inl c0
      · right
        by_contra c1
        exact c ⟨c0, c1⟩
  · rintro ⟨e, he, hp, h⟩
    refine ⟨e, he, ?_⟩
    have c : ¬ (propertyIdForSale ≠ 0 ∧ propertyIdForSale ≠ e.1) := by
      rintro ⟨c0, c1⟩
      rcases hp with hp | hp
      · exact c0 hp
      · exact c1 hp
    rw [if_neg c]
    simpa only [List.any_eq_true, decide_eq_true_eq] using h

/-- With the search not restricted, or restricted to the property of an order
that rests under its own property, `MetaDEx_isOpen` holds exactly when an
order with that hash is among the resting orders. -/
theorem MetaDEx_isOpen_allOrders (metadex : md_PropertiesMap) (txid propertyIdForSale : Nat)
    (hk : PriceKeyInv metadex)
    (hp : propertyIdForSale = 0 ∨
      ∀ o ∈ allOrders metadex, o.txid = txid → o.property = propertyIdForSale) :
    MetaDEx_isOpen metadex txid propertyIdForSale = true ↔
      ∃ o ∈ allOrders metadex, o.txid = txid := by
  rw [MetaDEx_isOpen_iff]
  constructor
  · rintro ⟨e, he, -, lvl, hl, o, ho, ht⟩
    exact ⟨o, (mem_allOrders_iff _ _).2 ⟨e, he, lvl, hl, ho⟩, ht⟩
  · rintro ⟨o, ho, ht⟩
    obtain ⟨e, he, lvl, hl, hol⟩ := (mem_allOrders_iff _ _).1 ho
    refine ⟨e, he, ?_, lvl, hl, o, hol, ht⟩
    rcases hp with hp | hp
    · exact Or.inl hp
    · right
      rw [← hp o ho ht]
      exact (hk e he lvl hl o hol).1

/-- C32: when both totals are supplied (neither is -1) `MetaDEx_getStatus` is
the status label of the three facts "the order is open" (`MetaDEx_isOpen`),
`totalSold > 0` and `totalSold >= amountForSale`; it is one of the five labels
and never "unknown"; an open order with `totalSold = 0` is "open", an open
order with `totalSold > 0` is "open part filled", an order that is not open is
"filled" with `totalSold >= amountForSale`, "cancelled part filled" with
`0 < totalSold < amountForSale` and "cancelled" with
`totalSold <= 0 < amountForSale`. -/
theorem C32_status_labels (getMatchingTrades : Nat → Nat → Int → Int → Int × Int)
    (metadex : md_PropertiesMap) (txid propertyIdForSale : Nat)
    (amountForSale totalSold totalReceived : Int)
    (hs : totalSold ≠ -1) (hr : totalReceived ≠ -1) :
    MetaDEx_getStatus getMatchingTrades metadex txid propertyIdForSale amountForSale
        totalSold totalReceived =
      statusLabel (MetaDEx_isOpen metadex txid propertyIdForSale)
        (decide (totalSold > 0)) (decide (totalSold ≥ amountForSale)) ∧
    MetaDEx_getStatus getMatchingTrades metadex txid propertyIdForSale amountForSale
        totalSold totalReceived ∈ statusLabels ∧
    MetaDEx_getStatus getMatchingTrades metadex txid propertyIdForSale amountForSale
        totalSold totalReceived ≠ "unknown" ∧
    (MetaDEx_isOpen metadex txid propertyIdForSale = true → totalSold = 0 →
      MetaDEx_getStatus getMatchingTrades metadex txid propertyIdForSale amountForSale
        totalSold totalReceived = "open") ∧
    (MetaDEx_isOpen metadex txid propertyIdForSale = true → totalSold > 0 →
      MetaDEx_getStatus getMatchingTrades metadex txid propertyIdForSale amountForSale
        totalSold totalReceived = "open part filled") ∧
    (MetaDEx_isOpen metadex txid propertyIdForSale = false → totalSold ≥ amountForSale →
      MetaDEx_getStatus getMatchingTrades metadex txid propertyIdForSale amountForSale
        totalSold totalReceived = "filled") ∧
    (MetaDEx_isOpen metadex txid propertyIdForSale = false → 0 < totalSold →
      totalSold < amountForSale →
      MetaDEx_getStatus getMatchingTrades metadex txid propertyIdForSale amountForSale
        totalSold totalReceived = "cancelled part filled") ∧
    (MetaDEx_isOpen metadex txid propertyIdForSale = false → totalSold ≤ 0 →
      0 < amountForSale →
      MetaDEx_getStatus getMatchingTrades metadex txid propertyIdForSale amountForSale
        totalSold totalReceived = "cancelled") := by
  have hsup : ¬ (totalSold = -1 ∨ totalReceived = -1) := by
    rintro (h | h)
    · exact hs h
    · exact hr h
  have key : MetaDEx_getStatus getMatchingTrades metadex txid propertyIdForSale amountForSale
        totalSold totalReceived =
      statusLabel (MetaDEx_isOpen metadex txid propertyIdForSale)
        (decide (totalSold > 0)) (decide (totalSold ≥ amountForSale)) := by
    unfold MetaDEx_getStatus statusLabel
    simp only [if_neg hsup]
    cases MetaDEx_isOpen metadex txid propertyIdForSale <;>
      by_cases h1 : totalSold > 0 <;> by_cases h2 : totalSold ≥ amountForSale <;>
      simp [h1, h2]
  rw [key]
  refine ⟨rfl, ?_, ?_, ?_, ?_, ?_, ?_, ?_⟩
  · cases MetaDEx_isOpen metadex txid propertyIdForSale <;>
      cases decide (totalSold > 0) <;> cases decide (totalSold ≥ amountForSale) <;> decide
  · cases MetaDEx_isOpen metadex txid propertyIdForSale <;>
      cases decide (totalSold > 0) <;> cases decide (totalSold ≥ amountForSale) <;> decide
  · intro ho h0
    have h1 : ¬ totalSold > 0 := by omega
    simp [statusLabel, ho, h1]
  · intro ho h1
    simp [statusLabel, ho, h1]
  · intro ho h2
    simp [statusLabel, ho, h2]
  · intro ho h1 h2
    have h3 : ¬ totalSold ≥ amountForSale := by omega
    simp [statusLabel, ho, h1, h3]
  · intro ho h1 h2
    have h3 : ¬ totalSold ≥ amountForSale := by omega
    have h4 : ¬ totalSold > 0 := by omega
    simp [statusLabel, ho, h3, h4]

/-- C32 on the first scenario: the maker's order (hash 77, selling 100 of the
property 3) rests in the book; with nothing sold its status is "open", with 40
sold "open part filled"; an order of the hash 78 is not in the book, and with
100 of 100 sold its status is "filled". -/
theorem C32_status_labels_witness :
    MetaDEx_getStatus exGetMatchingTrades exState.metadex 77 3 100 0 0 = "open" ∧
    MetaDEx_getStatus exGetMatchingTrades exState.metadex 77 3 100 40 80 = "open part filled" ∧
    MetaDEx_getStatus exGetMatchingTrades exState.metadex 78 1 100 100 50 = "filled" :=
  ⟨(C32_status_labels exGetMatchingTrades exState.metadex 77 3 100 0 0
      (by decide) (by decide)).2.2.2.1 (by decide) rfl,
   (C32_status_labels exGetMatchingTrades exState.metadex 77 3 100 40 80
      (by decide) (by decide)).2.2.2.2.1 (by decide) (by decide),
   (C32_status_labels exGetMatchingTrades exState.metadex 78 1 100 100 50
      (by decide) (by decide)).2.2.2.2.2.1 (by decide) (by decide)⟩

/-- C39: for an order with `0 < amount_remaining <= amount_forsale` and
`0 < amount_desired <= 2^63-1` (so also for `amount_forsale <= 2^63-1`), `getAmountToFill` returns (its range
assertion holds) `ceil(amount_remaining * amount_desired / amount_forsale)`;
this value is at least 1 and at most `amount_desired`, and it is
`amount_desired` when `amount_remaining = amount_forsale`. -/
theorem C39_amount_to_fill (o : CMPMetaDEx)
    (hr : 0 < o.amount_remaining) (hrf : o.amount_remaining ≤ o.amount_forsale)
    (hd : 0 < o.amount_desired) (hd2 : o.amount_desired ≤ 2 ^ 63 - 1) :
    o.getAmountToFill =
      some ⌈(o.amount_remaining : ℚ) * (o.amount_desired : ℚ) / (o.amount_forsale : ℚ)⌉ ∧
    1 ≤ ⌈(o.amount_remaining : ℚ) * (o.amount_desired : ℚ) / (o.amount_forsale : ℚ)⌉ ∧
    ⌈(o.amount_remaining : ℚ) * (o.amount_desired : ℚ) / (o.amount_forsale : ℚ)⌉
      ≤ o.amount_desired ∧
    rangeInt64
      ⌈(o.amount_remaining : ℚ) * (o.amount_desired : ℚ) / (o.amount_forsale : ℚ)⌉ = true ∧
    (o.amount_remaining = o.amount_forsale → o.getAmountToFill = some o.amount_desired) := by
  have hfpos : 0 < o.amount_forsale := lt_of_lt_of_le hr hrf
  have hfq : (0 : ℚ) < (o.amount_forsale : ℚ) := by exact_mod_cast hfpos
  have hrq : (0 : ℚ) < (o.amount_remaining : ℚ) := by exact_mod_cast hr
  have hdq : (0 : ℚ) < (o.amount_desired : ℚ) := by exact_mod_cast hd
  have hrfq : (o.amount_remaining : ℚ) ≤ (o.amount_forsale : ℚ) := by exact_mod_cast hrf
  have hval : (o.amount_remaining : ℚ) * o.unitPrice =
      (o.amount_remaining : ℚ) * (o.amount_desired : ℚ) / (o.amount_forsale : ℚ) := by
    rw [unitPrice_pos_eq o hfpos, mul_div_assoc]
  have hpos : (0 : ℚ) <
      (o.amount_remaining : ℚ) * (o.amount_desired : ℚ) / (o.amount_forsale : ℚ) :=
    div_pos (mul_pos hrq hdq) hfq
  have hle : (o.amount_remaining : ℚ) * (o.amount_desired : ℚ) / (o.amount_forsale : ℚ) ≤
      ((o.amount_desired : Int) : ℚ) := by
    rw [div_le_iff₀ hfq]
    nlinarith
  have h1 : 1 ≤ ⌈(o.amount_remaining : ℚ) * (o.amount_desired : ℚ) / (o.amount_forsale : ℚ)⌉ :=
    Int.one_le_ceil_iff.2 hpos
  have h2 : ⌈(o.amount_remaining : ℚ) * (o.amount_desired : ℚ) / (o.amount_forsale : ℚ)⌉
      ≤ o.amount_desired := Int.ceil_le.2 hle
  have hrange : rangeInt64
      ⌈(o.amount_remaining : ℚ) * (o.amount_desired : ℚ) / (o.amount_forsale : ℚ)⌉ = true := by
    unfold rangeInt64
    simp only [Bool.and_eq_true, decide_eq_true_eq]
    constructor <;> omega
  have hget : o.getAmountToFill =
      some ⌈(o.amount_remaining : ℚ) * (o.amount_desired : ℚ) / (o.amount_forsale : ℚ)⌉ := by
    unfold CMPMetaDEx.getAmountToFill xToInt64
    simp only []
    rw [hval, xToInt128_ceil _ hpos, if_pos hrange]
  refine ⟨hget, h1, h2, hrange, ?_⟩
  intro he
  rw [hget, he]
  have e : ((o.amount_forsale : ℚ) * (o.amount_desired : ℚ) / (o.amount_forsale : ℚ)) =
      ((o.amount_desired : Int) : ℚ) := by
    field_simp
  rw [e, Int.ceil_intCast]

/-- C39 on a partly filled order: 3 of 7 units left, 22 desired for the 7:
`ceil(3 * 22 / 7) = 10` is needed to fill it; the unfilled maker of the fourth
scenario needs its 22. -/
theorem C39_amount_to_fill_witness :
    (ex4Maker.setAmountRemaining 3).getAmountToFill = some 10 ∧
    ex4Maker.getAmountToFill = some 22 := by
  have h := C39_amount_to_fill (ex4Maker.setAmountRemaining 3)
    (by decide) (by decide) (by decide) (by decide)
  have h2 := C39_amount_to_fill ex4Maker
    (by decide) (by decide) (by decide) (by decide)
  refine ⟨?_, h2.2.2.2.2 (by decide)⟩
  rw [h.1]
  have e : ((ex4Maker.setAmountRemaining 3).amount_remaining : ℚ) *
      ((ex4Maker.setAmountRemaining 3).amount_desired : ℚ) /
      ((ex4Maker.setAmountRemaining 3).amount_forsale : ℚ) = 66 / 7 := by
    simp [ex4Maker, CMPMetaDEx.setAmountRemaining, CMPMetaDEx.create]
    norm_num
  rw [e]
  have : ⌈(66 / 7 : ℚ)⌉ = 10 := by
    rw [Int.ceil_eq_iff]
    constructor <;> norm_num
  rw [this]

/-- C33: for a maker with positive amounts and `0 < amount_remaining <= 2^63-1`
resting at a level with `unitPrice <= taker.inversePrice` of the book the
taker buys from, and a taker with positive amounts and
`0 < amount_remaining <= 2^63-1`, the loop body of `x_Trade` fails none of its
assertions (price key, preconditions, range of `xToInt64`, postconditions);
when `nCouldBuy != 0`, `nWouldPay` is computed within the signed 64-bit range
and is at most the taker's remaining amount; when the effective-price check
passes as well, the body executes the fill of `nCouldBuy` for `nWouldPay`; and
every fill has `0 < nWouldPay <= taker.amount_remaining` (`buyer_left >= 0`),
`0 < nCouldBuy <= maker.amount_remaining` (`seller_left >= 0`),
`seller_amountForSale = seller_left + buyer_got`,
`buyer_amountOffered = buyer_left + seller_got`, the effective price between
the two limits, and the four amounts within the signed 64-bit range. -/
theorem C33_matching_postconditions (sellersPrice : ℚ) (pold pnew : CMPMetaDEx)
    (hc : Candidate sellersPrice pold pnew) (hm : pold.amount_remaining ≤ 2 ^ 63 - 1) :
    (∀ a, x_Trade_outcome sellersPrice pold pnew ≠ .assertFailed a) ∧
    (nCouldBuy pold pnew ≠ 0 →
      ∃ sg, nWouldPay pold pnew = some sg ∧ rangeInt64 sg = true ∧ 0 < sg ∧
        sg ≤ pnew.amount_remaining ∧
        (¬ ((sg : ℚ) / (nCouldBuy pold pnew : ℚ) > pnew.inversePrice) →
          x_Trade_outcome sellersPrice pold pnew = .fill (nCouldBuy pold pnew) sg)) ∧
    (∀ bg sg, x_Trade_outcome sellersPrice pold pnew = .fill bg sg →
      bg = nCouldBuy pold pnew ∧ nWouldPay pold pnew = some sg ∧
      0 < sg ∧ sg ≤ pnew.amount_remaining ∧ 0 ≤ pnew.amount_remaining - sg ∧
      0 < bg ∧ bg ≤ pold.amount_remaining ∧ 0 ≤ pold.amount_remaining - bg ∧
      pold.amount_remaining = (pold.amount_remaining - bg) + bg ∧
      pnew.amount_remaining = (pnew.amount_remaining - sg) + sg ∧
      pold.unitPrice ≤ (sg : ℚ) / (bg : ℚ) ∧ (sg : ℚ) / (bg : ℚ) ≤ pnew.inversePrice ∧
      rangeInt64 bg = true ∧ rangeInt64 sg = true ∧
      rangeInt64 (pold.amount_remaining - bg) = true ∧
      rangeInt64 (pnew.amount_remaining - sg) = true) := by
  have hcand := x_Trade_outcome_candidate sellersPrice pold pnew hc
  obtain ⟨hk, hcross, hne, hp1, hp2, hof, hod, hor, hnf, hnd, hnr, hn63⟩ := hc
  have hnn := nCouldBuy_nonneg pold pnew hof hod (le_of_lt hor) (le_of_lt hnr)
  have rng : ∀ v : Int, 0 ≤ v → v ≤ 2 ^ 63 - 1 → rangeInt64 v = true := by
    intro v h0 h1
    unfold rangeInt64
    simp only [Bool.and_eq_true, decide_eq_true_eq]
    constructor <;> omega
  refine ⟨?_, ?_, ?_⟩
  · intro a h
    rw [hcand] at h
    by_cases c1 : nCouldBuy pold pnew = 0
    · rw [if_pos c1] at h
      cases h
    · rw [if_neg c1] at h
      split at h <;> cases h
  · intro c1
    have hpos : 0 < nCouldBuy pold pnew := lt_of_le_of_ne hnn (Ne.symm c1)
    obtain ⟨e, h0, h1⟩ := nWouldPay_eq pold pnew hof hod (le_of_lt hnr) hn63 hpos
    refine ⟨_, e, rng _ (le_of_lt h0) (le_trans h1 hn63), h0, h1, ?_⟩
    intro c2
    rw [hcand, if_neg c1, if_neg c2]
  · intro bg sg h
    obtain ⟨-, -, -, -, -, -, e1, e2, e3, e4, e5, e6, e7, -, -⟩ :=
      x_Trade_outcome_fill sellersPrice pold pnew bg sg h
    have hpos : 0 < nCouldBuy pold pnew := by
      rw [← e1]
      rw [e1] at e2
      rw [e1]
      exact lt_of_le_of_ne hnn (Ne.symm e2)
    obtain ⟨e, h0, h1⟩ := nWouldPay_eq pold pnew hof hod (le_of_lt hnr) hn63 hpos
    rw [e3] at e
    have esg := Option.some.inj e
    have hbpos : 0 < bg := by rw [e1]; exact hpos
    have hsg0 : 0 < sg := by rw [esg]; exact h0
    have hsg1 : sg ≤ pnew.amount_remaining := by rw [esg]; exact h1
    have hb1 : bg ≤ pold.amount_remaining := by omega
    refine ⟨e1, e3, hsg0, hsg1, e7, hbpos, hb1, e6, by ring, by ring, e4, e5,
      rng _ (le_of_lt hbpos) (le_trans hb1 hm), rng _ (le_of_lt hsg0) (le_trans hsg1 hn63),
      rng _ e6 (by omega), rng _ e7 (by omega)⟩

/-- C33 on the first scenario: the maker at the level 2 and the taker are such
a pair, no assertion fails, and the fill of 100 for 200 leaves nothing on
either side. -/
theorem C33_matching_postconditions_witness :
    Candidate 2 exMaker exTaker ∧
    x_Trade_outcome 2 exMaker exTaker = .fill 100 200 ∧
    nWouldPay exMaker exTaker = some 200 ∧
    (200 : Int) ≤ exTaker.amount_remaining ∧ (100 : Int) ≤ exMaker.amount_remaining :=
  have h := (C33_matching_postconditions 2 exMaker exTaker (by decide!) (by decide)).2.2
    100 200 (by decide!)
  ⟨by decide!, by decide!, h.2.1, h.2.2.2.1, h.2.2.2.2.2.2.1⟩

/-- Two states with the same four components are the same state. -/
theorem State_eq (s1 s2 : State) (h1 : s1.metadex = s2.metadex)
    (h2 : ∀ a p k, s1.mp_tally_map a p k = s2.mp_tally_map a p k)
    (h3 : s1.t_tradelistdb = s2.t_tradelistdb) (h4 : s1.p_txlistdb = s2.p_txlistdb) :
    s1 = s2 := by
  cases s1
  cases s2
  simp only [State.mk.injEq]
  simp only at h1 h2 h3 h4
  exact ⟨h1, by funext a p k; exact h2 a p k, h3, h4⟩

/-- Replacing the price map of a property replaces its orders among the
orders of the book. -/
theorem allOrders_mapReplace_perm (k : Nat) (m : md_PropertiesMap) (pm : md_PricesMap)
    (h : mapFind k m = some pm) :
    ∃ rest, (allOrders m).Perm (pricesOrders pm ++ rest) ∧
      ∀ v, (allOrders (mapReplace k v m)).Perm (pricesOrders v ++ rest) := by
  induction m with
  | nil => cases h
  | cons e tl ih =>
    obtain ⟨k1, v1⟩ := e
    by_cases c : k1 = k
    · have e1 : pm = v1 := by
        unfold mapFind at h
        rw [if_pos c] at h
        exact (Option.some.inj h).symm
      refine ⟨allOrders tl, ?_, ?_⟩
      · rw [allOrders_cons, e1]
      · intro v
        have e2 : mapReplace k v ((k1, v1) :: tl) = (k1, v) :: tl := by
          show (if k1 = k then (k1, v) :: tl else (k1, v1) :: mapReplace k v tl) = _
          rw [if_pos c]
        rw [e2, allOrders_cons]
    · have h1 : mapFind k tl = some pm := by
        unfold mapFind at h
        rw [if_neg c] at h
        exact h
      obtain ⟨rest, p1, p2⟩ := ih h1
      refine ⟨pricesOrders v1 ++ rest, ?_, ?_⟩
      · rw [allOrders_cons]
        exact (List.Perm.append_left _ p1).trans (List.perm_append_comm_assoc _ _ _)
      · intro v
        have e2 : mapReplace k v ((k1, v1) :: tl) = (k1, v1) :: mapReplace k v tl := by
          show (if k1 = k then (k1, v) :: tl else (k1, v1) :: mapReplace k v tl) = _
          rw [if_neg c]
        rw [e2, allOrders_cons]
        exact (List.Perm.append_left _ (p2 v)).trans (List.perm_append_comm_assoc _ _ _)

/-- The orders of a price map are those a cancel loop keeps and those it
removes. -/
theorem pricesOrders_keptPrices_perm (skipLevel : ℚ → Bool) (skip : CMPMetaDEx → Bool)
    (pm : md_PricesMap) :
    (pricesOrders pm).Perm
      (pricesOrders (keptPrices skipLevel skip pm) ++ cancelledPrices skipLevel skip pm) := by
  induction pm with
  | nil => exact List.Perm.refl _
  | cons lvl tl ih =>
    have e1 : pricesOrders (lvl :: tl) = lvl.2 ++ pricesOrders tl := pricesOrders_cons _ _
    by_cases c : skipLevel lvl.1 = true
    · have e2 : keptPrices skipLevel skip (lvl :: tl) = lvl :: keptPrices skipLevel skip tl := by
        unfold keptPrices
        rw [List.map_cons, if_pos c]
      have e3 : cancelledPrices skipLevel skip (lvl :: tl) = cancelledPrices skipLevel skip tl := by
        unfold cancelledPrices
        rw [List.flatMap_cons, if_pos c, List.nil_append]
      rw [e1, e2, e3, pricesOrders_cons, List.append_assoc]
      exact List.Perm.append_left _ ih
    · have e2 : keptPrices skipLevel skip (lvl :: tl) =
          (lvl.1, lvl.2.filter skip) :: keptPrices skipLevel skip tl := by
        unfold keptPrices
        rw [List.map_cons, if_neg c]
      have e3 : cancelledPrices skipLevel skip (lvl :: tl) =
          lvl.2.filter (fun o => !skip o) ++ cancelledPrices skipLevel skip tl := by
        unfold cancelledPrices cancelledOffers
        rw [List.flatMap_cons, if_neg c]
      rw [e1, e2, e3, pricesOrders_cons]
      show (lvl.2 ++ pricesOrders tl).Perm
        ((lvl.2.filter skip ++ pricesOrders (keptPrices skipLevel skip tl)) ++
          (lvl.2.filter (fun o => !skip o) ++ cancelledPrices skipLevel skip tl))
      have p1 : (lvl.2.filter skip ++ lvl.2.filter (fun o => !skip o)).Perm lvl.2 :=
        List.filter_append_perm skip lvl.2
      have p2 : (lvl.2 ++ pricesOrders tl).Perm
          ((lvl.2.filter skip ++ lvl.2.filter (fun o => !skip o)) ++
            (pricesOrders (keptPrices skipLevel skip tl) ++ cancelledPrices skipLevel skip tl)) :=
        List.Perm.append p1.symm ih
      refine p2.trans ?_
      rw [List.append_assoc, List.append_assoc]
      refine List.Perm.append_left _ ?_
      rw [← List.append_assoc, ← List.append_assoc]
      exact List.Perm.append_right _ List.perm_append_comm

/-- The orders of the book are those `MetaDEx_CANCEL_EVERYTHING` keeps and
those it removes. -/
theorem allOrders_keptProperties_perm (skipProp : Nat → Bool) (skip : CMPMetaDEx → Bool)
    (metadex : md_PropertiesMap) :
    (allOrders metadex).Perm
      (allOrders (keptProperties skipProp skip metadex) ++
        cancelledProperties skipProp skip metadex) := by
  induction metadex with
  | nil => exact List.Perm.refl _
  | cons e tl ih =>
    by_cases c : skipProp e.1 = true
    · have e2 : keptProperties skipProp skip (e :: tl) = e :: keptProperties skipProp skip tl := by
        unfold keptProperties
        rw [List.map_cons, if_pos c]
      have e3 : cancelledProperties skipProp skip (e :: tl) =
          cancelledProperties skipProp skip tl := by
        unfold cancelledProperties
        rw [List.flatMap_cons, if_pos c, List.nil_append]
      rw [e2, e3, allOrders_cons, allOrders_cons, List.append_assoc]
      exact List.Perm.append_left _ ih
    · have e2 : keptProperties skipProp skip (e :: tl) =
          (e.1, keptPrices (fun _ => false) skip e.2) :: keptProperties skipProp skip tl := by
        unfold keptProperties
        rw [List.map_cons, if_neg c]
      have e3 : cancelledProperties skipProp skip (e :: tl) =
          cancelledPrices (fun _ => false) skip e.2 ++ cancelledProperties skipProp skip tl := by
        unfold cancelledProperties
        rw [List.flatMap_cons, if_neg c]
      rw [e2, e3, allOrders_cons, allOrders_cons]
      have p2 := List.Perm.append (pricesOrders_keptPrices_perm (fun _ => false) skip e.2) ih
      refine p2.trans ?_
      rw [List.append_assoc, List.append_assoc]
      refine List.Perm.append_left _ ?_
      rw [← List.append_assoc, ← List.append_assoc]
      exact List.Perm.append_right _ List.perm_append_comm

/-- A cancel loop that removes nothing leaves the price map as it was. -/
theorem keptPrices_of_cancelled_nil (skipLevel : ℚ → Bool) (skip : CMPMetaDEx → Bool)
    (pm : md_PricesMap) (h : cancelledPrices skipLevel skip pm = []) :
    keptPrices skipLevel skip pm = pm := by
  induction pm with
  | nil => rfl
  | cons lvl tl ih =>
    unfold cancelledPrices at h
    rw [List.flatMap_cons, List.append_eq_nil] at h
    have ht : keptPrices skipLevel skip tl = tl := ih h.2
    have e : keptPrices skipLevel skip (lvl :: tl) =
        (if skipLevel lvl.1 then lvl else (lvl.1, lvl.2.filter skip)) ::
          keptPrices skipLevel skip tl := rfl
    rw [e, ht]
    by_cases c : skipLevel lvl.1 = true
    · rw [if_pos c]
    · rw [if_neg c]
      have h1 := h.1
      rw [if_neg c] at h1
      unfold cancelledOffers at h1
      have h2 : lvl.2.filter skip = lvl.2 := by
        rw [List.filter_eq_self]
        intro a ha
        by_contra hs
        have : a ∈ lvl.2.filter (fun o => !skip o) := by
          rw [List.mem_filter]
          exact ⟨ha, by simpa using hs⟩
        rw [h1] at this
        cases this
      rw [h2]

/-- A cancel of everything that removes nothing leaves the book as it was. -/
theorem keptProperties_of_cancelled_nil (skipProp : Nat → Bool) (skip : CMPMetaDEx → Bool)
    (metadex : md_PropertiesMap) (h : cancelledProperties skipProp skip metadex = []) :
    keptProperties skipProp skip metadex = metadex := by
  induction metadex with
  | nil => rfl
  | cons e tl ih =>
    unfold cancelledProperties at h
    rw [List.flatMap_cons, List.append_eq_nil] at h
    have ht : keptProperties skipProp skip tl = tl := ih h.2
    have e1 : keptProperties skipProp skip (e :: tl) =
        (if skipProp e.1 then e else (e.1, keptPrices (fun _ => false) skip e.2)) ::
          keptProperties skipProp skip tl := rfl
    rw [e1, ht]
    by_cases c : skipProp e.1 = true
    · rw [if_pos c]
    · rw [if_neg c]
      have h1 := h.1
      rw [if_neg c] at h1
      rw [keptPrices_of_cancelled_nil _ _ _ h1]

/-- The facts of a cancel operation from which its result code follows: the
book afterwards and the removed orders make up the book before, the cancel log
has one new row per removed order, and when nothing was removed the state is
the state before. -/
theorem cancel_code_facts (s s1 : State) (txid : Nat) (block : Int)
    (removed : List CMPMetaDEx) (kept : md_PropertiesMap)
    (hp : (allOrders s.metadex).Perm (allOrders kept ++ removed))
    (hn : removed = [] → kept = s.metadex)
    (hm : s1.metadex = kept)
    (ht : ∀ a q k, s1.mp_tally_map a q k = s.mp_tally_map a q k + cancelDelta removed a q k)
    (hl : s1.p_txlistdb = s.p_txlistdb ++ removed.map (cancel_row txid block))
    (htr : s1.t_tradelistdb = s.t_tradelistdb) :
    (allOrders s.metadex).Perm (allOrders s1.metadex ++ removed) ∧
    s1.p_txlistdb = s.p_txlistdb ++ removed.map (cancel_row txid block) ∧
    (removed = [] → s1 = s) := by
  refine ⟨by rw [hm]; exact hp, hl, ?_⟩
  intro h
  apply State_eq
  · rw [hm, hn h]
  · intro a p k
    rw [ht, h, cancelDelta_nil, add_zero]
  · exact htr
  · rw [hl, h, List.map_nil, List.append_nil]

/-- The book before a cancel in one price map is the book afterwards plus the
removed orders. -/
theorem cancel_prices_perm (prop : Nat) (metadex : md_PropertiesMap) (pm : md_PricesMap)
    (hg : get_Prices metadex prop = some pm) (skipLevel : ℚ → Bool)
    (skip : CMPMetaDEx → Bool) :
    (allOrders metadex).Perm
      (allOrders (mapReplace prop (keptPrices skipLevel skip pm) metadex) ++
        cancelledPrices skipLevel skip pm) := by
  obtain ⟨rest, p1, p2⟩ := allOrders_mapReplace_perm prop metadex pm hg
  have q := pricesOrders_keptPrices_perm skipLevel skip pm
  have step : ((pricesOrders (keptPrices skipLevel skip pm) ++
      cancelledPrices skipLevel skip pm) ++ rest).Perm
      ((pricesOrders (keptPrices skipLevel skip pm) ++ rest) ++
        cancelledPrices skipLevel skip pm) := by
    rw [List.append_assoc, List.append_assoc]
    exact List.Perm.append_left _ List.perm_append_comm
  exact p1.trans ((List.Perm.append_right rest q).trans
    (step.trans (List.Perm.append_right _ (p2 _).symm)))

/-- C40: in a state whose resting amounts and balances are not negative and
whose reserves cover the resting amounts, each of `MetaDEx_CANCEL_AT_PRICE`,
`MetaDEx_CANCEL_ALL_FOR_PAIR` and `MetaDEx_CANCEL_EVERYTHING` returns, with a
list `removed` of orders such that the book before is the book afterwards plus
`removed` and the cancel log has one new row per removed order. The return
code is 0 exactly when an order was removed. When none was removed the code is
not 0: `METADEX_ERROR - 21` resp. `- 31` when the property has no price map,
`METADEX_ERROR - 20`, `- 30` resp. `- 40` otherwise, and the whole state
(ledger, book, logs) is as before. `METADEX_ERROR` is a constant from outside
the source file; the five codes are assumed not to be 0. -/
theorem C40_cancel_result_codes (isMain isTest : Nat → Bool) (ME : Int) (s : State)
    (hME : ME - 20 ≠ 0 ∧ ME - 21 ≠ 0 ∧ ME - 30 ≠ 0 ∧ ME - 31 ≠ 0 ∧ ME - 40 ≠ 0)
    (hrem : ∀ o ∈ allOrders s.metadex, 0 ≤ o.amount_remaining)
    (hcov : ∀ a p, reserved (allOrders s.metadex) a p ≤ s.mp_tally_map a p .METADEX_RESERVE)
    (hbal : ∀ a p, 0 ≤ s.mp_tally_map a p .BALANCE) :
    (∀ txid block sender prop amount pd ad, ∃ res removed,
      MetaDEx_CANCEL_AT_PRICE ME s txid block sender prop amount pd ad = .ok res ∧
      (allOrders s.metadex).Perm (allOrders res.2.metadex ++ removed) ∧
      res.2.p_txlistdb = s.p_txlistdb ++ removed.map (cancel_row txid block) ∧
      (res.1 = 0 ↔ removed ≠ []) ∧
      (removed = [] → res.1 ≠ 0 ∧ res.2 = s ∧
        (get_Prices s.metadex prop = none → res.1 = ME - 21) ∧
        (get_Prices s.metadex prop ≠ none → res.1 = ME - 20))) ∧
    (∀ txid block sender prop pd, ∃ res removed,
      MetaDEx_CANCEL_ALL_FOR_PAIR ME s txid block sender prop pd = .ok res ∧
      (allOrders s.metadex).Perm (allOrders res.2.metadex ++ removed) ∧
      res.2.p_txlistdb = s.p_txlistdb ++ removed.map (cancel_row txid block) ∧
      (res.1 = 0 ↔ removed ≠ []) ∧
      (removed = [] → res.1 ≠ 0 ∧ res.2 = s ∧
        (get_Prices s.metadex prop = none → res.1 = ME - 31) ∧
        (get_Prices s.metadex prop ≠ none → res.1 = ME - 30))) ∧
    (∀ txid block sender ecosystem, ∃ res removed,
      MetaDEx_CANCEL_EVERYTHING isMain isTest ME s txid block sender ecosystem = .ok res ∧
      (allOrders s.metadex).Perm (allOrders res.2.metadex ++ removed) ∧
      res.2.p_txlistdb = s.p_txlistdb ++ removed.map (cancel_row txid block) ∧
      (res.1 = 0 ↔ removed ≠ []) ∧
      (removed = [] → res.1 ≠ 0 ∧ res.2 = s ∧ res.1 = ME - 40)) := by
  obtain ⟨k1, k2, k3⟩ := MetaDEx_CANCEL_ok isMain isTest ME s hrem hcov hbal
  obtain ⟨c20, c21, c30, c31, c40⟩ := hME
  refine ⟨?_, ?_, ?_⟩
  · intro txid block sender prop amount pd ad
    obtain ⟨res, hres⟩ := k1 txid block sender prop amount pd ad
    rcases MetaDEx_CANCEL_AT_PRICE_effect ME s txid block sender prop amount pd ad res hres with
      ⟨hg, hr⟩ | ⟨pm, removed, hg, hrm, hm, ht, hl, htr, hrc⟩
    · refine ⟨res, [], hres, ?_, ?_, ?_, ?_⟩
      · rw [hr, List.append_nil]
      · rw [hr, List.map_nil, List.append_nil]
      · rw [hr]
        constructor
        · intro h
          exact absurd h (by show ME - 20 - 1 ≠ 0; omega)
        · intro h
          exact absurd rfl h
      · intro _
        rw [hr]
        refine ⟨(by show ME - 20 - 1 ≠ 0; omega), rfl, fun _ => (by show ME - 20 - 1 = ME - 21; omega),
          fun h => absurd hg h⟩
    · have hp : (allOrders s.metadex).Perm (allOrders res.2.metadex ++ removed) := by
        rw [hm, hrm]
        exact cancel_prices_perm prop s.metadex pm hg _ _
      have hn : removed = [] → res.2.metadex = s.metadex := by
        intro h
        rw [hm, keptPrices_of_cancelled_nil _ _ _ (hrm ▸ h)]
        exact mapReplace_self _ _ _ hg
      obtain ⟨f1, f2, f3⟩ := cancel_code_facts s res.2 txid block removed res.2.metadex
        hp hn rfl ht hl htr
      refine ⟨res, removed, hres, f1, f2, ?_, ?_⟩
      · rw [hrc]
        by_cases c : removed = []
        · rw [if_pos c]
          exact ⟨fun h => absurd h c20, fun h => absurd c h⟩
        · rw [if_neg c]
          exact ⟨fun _ => c, fun _ => rfl⟩
      · intro c
        rw [hrc, if_pos c]
        exact ⟨c20, f3 c, fun h => (by rw [hg] at h; cases h), fun _ => rfl⟩
  · intro txid block sender prop pd
    obtain ⟨res, hres⟩ := k2 txid block sender prop pd
    rcases MetaDEx_CANCEL_ALL_FOR_PAIR_effect ME s txid block sender prop pd res hres with
      ⟨hg, hr⟩ | ⟨pm, removed, hg, hrm, hm, ht, hl, htr, hrc⟩
    · refine ⟨res, [], hres, ?_, ?_, ?_, ?_⟩
      · rw [hr, List.append_nil]
      · rw [hr, List.map_nil, List.append_nil]
      · rw [hr]
        constructor
        · intro h
          exact absurd h (by show ME - 30 - 1 ≠ 0; omega)
        · intro h
          exact absurd rfl h
      · intro _
        rw [hr]
        refine ⟨(by show ME - 30 - 1 ≠ 0; omega), rfl, fun _ => (by show ME - 30 - 1 = ME - 31; omega),
          fun h => absurd hg h⟩
    · have hp : (allOrders s.metadex).Perm (allOrders res.2.metadex ++ removed) := by
        rw [hm, hrm]
        exact cancel_prices_perm prop s.metadex pm hg _ _
      have hn : removed = [] → res.2.metadex = s.metadex := by
        intro h
        rw [hm, keptPrices_of_cancelled_nil _ _ _ (hrm ▸ h)]
        exact mapReplace_self _ _ _ hg
      obtain ⟨f1, f2, f3⟩ := cancel_code_facts s res.2 txid block removed res.2.metadex
        hp hn rfl ht hl htr
      refine ⟨res, removed, hres, f1, f2, ?_, ?_⟩
      · rw [hrc]
        by_cases c : removed = []
        · rw [if_pos c]
          exact ⟨fun h => absurd h c30, fun h => absurd c h⟩
        · rw [if_neg c]
          exact ⟨fun _ => c, fun _ => rfl⟩
      · intro c
        rw [hrc, if_pos c]
        exact ⟨c30, f3 c, fun h => (by rw [hg] at h; cases h), fun _ => rfl⟩
  · intro txid block sender ecosystem
    obtain ⟨res, hres⟩ := k3 txid block sender ecosystem
    obtain ⟨removed, hrm, hm, ht, hl, htr, hrc⟩ :=
      MetaDEx_CANCEL_EVERYTHING_effect isMain isTest ME s txid block sender ecosystem res hres
    have hp : (allOrders s.metadex).Perm (allOrders res.2.metadex ++ removed) := by
      rw [hm, hrm]
      exact allOrders_keptProperties_perm _ _ _
    have hn : removed = [] → res.2.metadex = s.metadex := by
      intro h
      rw [hm, keptProperties_of_cancelled_nil _ _ _ (hrm ▸ h)]
    obtain ⟨f1, f2, f3⟩ := cancel_code_facts s res.2 txid block removed res.2.metadex
      hp hn rfl ht hl htr
    refine ⟨res, removed, hres, f1, f2, ?_, ?_⟩
    · rw [hrc]
      by_cases c : removed = []
      · rw [if_pos c]
        exact ⟨fun h => absurd h c40, fun h => absurd c h⟩
      · rw [if_neg c]
        exact ⟨fun _ => c, fun _ => rfl⟩
    · intro c
      rw [hrc, if_pos c]
      exact ⟨c40, f3 c, rfl⟩

/-- C40 on the fifth scenario, where alice has two orders selling the property
3: a cancel at price by bob, who has none, returns `METADEX_ERROR - 20` and
leaves the state as it was; a cancel at price for the property 9, which has no
price map, returns `METADEX_ERROR - 21`; alice's cancel of the pair returns 0,
and then an order was removed. -/
theorem C40_cancel_result_codes_witness :
    (∃ res, MetaDEx_CANCEL_AT_PRICE (-80000) ex5State 90 12 "bob" 3 100 1 300 = .ok res ∧
      res.1 = -80020 ∧ res.2 = ex5State) ∧
    (∃ res, MetaDEx_CANCEL_AT_PRICE (-80000) ex5State 90 12 "alice" 9 100 1 300 = .ok res ∧
      res.1 = -80021 ∧ res.2 = ex5State) ∧
    (∃ res removed, MetaDEx_CANCEL_ALL_FOR_PAIR (-80000) ex5State 90 12 "alice" 3 1 = .ok res ∧
      res.1 = 0 ∧ removed ≠ [] ∧
      (allOrders ex5State.metadex).Perm (allOrders res.2.metadex ++ removed)) := by
  have h := C40_cancel_result_codes exIsMain exIsTest (-80000) ex5State (by decide)
    (by decide!) ex5State_covered (fun a p => ex5State_nonneg a p _)
  refine ⟨?_, ?_, ?_⟩
  · obtain ⟨res, removed, hres, -, -, hiff, hnil⟩ := h.1 90 12 "bob" 3 100 1 300
    have hc : (MetaDEx_CANCEL_AT_PRICE (-80000) ex5State 90 12 "bob" 3 100 1 300).toOption.map
        (fun r => r.1) = some (-80020) := by decide!
    rw [hres] at hc
    have hc1 : res.1 = -80020 := Option.some.inj hc
    have hr : removed = [] := by
      by_contra c
      have := hiff.2 c
      rw [hc1] at this
      exact absurd this (by decide)
    exact ⟨res, hres, hc1, (hnil hr).2.1⟩
  · obtain ⟨res, removed, hres, -, -, hiff, hnil⟩ := h.1 90 12 "alice" 9 100 1 300
    have hc : (MetaDEx_CANCEL_AT_PRICE (-80000) ex5State 90 12 "alice" 9 100 1 300).toOption.map
        (fun r => r.1) = some (-80021) := by decide!
    rw [hres] at hc
    have hc1 : res.1 = -80021 := Option.some.inj hc
    have hr : removed = [] := by
      by_contra c
      have := hiff.2 c
      rw [hc1] at this
      exact absurd this (by decide)
    exact ⟨res, hres, hc1, (hnil hr).2.1⟩
  · obtain ⟨res, removed, hres, hp, -, hiff, -⟩ := h.2.1 90 12 "alice" 3 1
    have hc : (MetaDEx_CANCEL_ALL_FOR_PAIR (-80000) ex5State 90 12 "alice" 3 1).toOption.map
        (fun r => r.1) = some 0 := by decide!
    rw [hres] at hc
    have hc1 : res.1 = 0 := Option.some.inj hc
    exact ⟨res, removed, hres, hc1, hiff.1 hc1, hp⟩

/-- In a map with ascending keys an entry is the one `find` gives for its
key. -/
theorem mapFind_of_mem {κ β : Type} [LinearOrder κ] [DecidableEq κ] (m : List (κ × β))
    (hs : KeysSorted m) (k : κ) (v : β) (h : (k, v) ∈ m) : mapFind k m = some v := by
  induction m with
  | nil => cases h
  | cons e tl ih =>
    obtain ⟨k1, v1⟩ := e
    have hs2 := List.pairwise_cons.1 hs
    rcases List.mem_cons.1 h with h1 | h1
    · have e1 : k = k1 := congrArg Prod.fst h1
      have e2 : v = v1 := congrArg Prod.snd h1
      show (if k1 = k then some v1 else mapFind k tl) = some v
      rw [if_pos e1.symm, e2]
    · have hlt : k1 < k := hs2.1 (k, v) h1
      show (if k1 = k then some v1 else mapFind k tl) = some v
      rw [if_neg (ne_of_lt hlt)]
      exact ih hs2.2 h1

/-- In a map with ascending keys at most one entry has a given key. -/
theorem KeysSorted_unique {κ β : Type} [LinearOrder κ] (m : List (κ × β))
    (hs : KeysSorted m) (e1 e2 : κ × β) (h1 : e1 ∈ m) (h2 : e2 ∈ m) (hk : e1.1 = e2.1) :
    e1 = e2 := by
  induction m with
  | nil => cases h1
  | cons e tl ih =>
    have hs2 := List.pairwise_cons.1 hs
    rcases List.mem_cons.1 h1 with a1 | a1 <;> rcases List.mem_cons.1 h2 with a2 | a2
    · rw [a1, a2]
    · have := hs2.1 e2 a2
      rw [← a1, hk] at this
      exact absurd this (lt_irrefl _)
    · have := hs2.1 e1 a1
      rw [← a2, hk] at this
      exact absurd this (lt_irrefl _)
    · exact ih hs2.2 a1 a2

/-- A scan of the price levels that passes over every level changes
nothing. -/
theorem MetaDEx_cancel_prices_skip_all (txid : Nat) (block : Int) (skipLevel : ℚ → Bool)
    (skip : CMPMetaDEx → Bool) (pm : md_PricesMap) (st : CancelState)
    (h : ∀ lvl ∈ pm, skipLevel lvl.1 = true) :
    MetaDEx_cancel_prices txid block skipLevel skip pm st = .ok (pm, st) := by
  induction pm with
  | nil => rfl
  | cons lvl tl ih =>
    obtain ⟨q, l⟩ := lvl
    have h1 : skipLevel q = true := h (q, l) (List.mem_cons_self _ _)
    have h2 := ih (fun lvl hl => h lvl (List.mem_cons_of_mem _ hl))
    unfold MetaDEx_cancel_prices
    rw [if_pos h1, h2]

/-- The scan of `MetaDEx_CANCEL_AT_PRICE` over a price map with ascending
keys is the scan of the one level found by lookup of the price. -/
theorem MetaDEx_cancel_prices_lookup (txid : Nat) (block : Int) (p : ℚ)
    (skip : CMPMetaDEx → Bool) (pm : md_PricesMap) (st : CancelState)
    (hs : KeysSorted pm) :
    MetaDEx_cancel_prices txid block (fun q => decide (p ≠ q)) skip pm st =
      match get_Indexes pm p with
      | none => .ok (pm, st)
      | some indexes =>
        match MetaDEx_cancel_offers txid block skip indexes st with
        | .error a => .error a
        | .ok (kept, st1) => .ok (mapReplace p kept pm, st1) := by
  induction pm with
  | nil => rfl
  | cons lvl tl ih =>
    obtain ⟨q, l⟩ := lvl
    have hs2 := List.pairwise_cons.1 hs
    by_cases c : q = p
    · have e1 : get_Indexes ((q, l) :: tl) p = some l := by
        show (if q = p then some l else mapFind p tl) = some l
        rw [if_pos c]
      have e2 : ∀ kept, mapReplace p kept ((q, l) :: tl) = (q, kept) :: tl := by
        intro kept
        show (if q = p then (q, kept) :: tl else (q, l) :: mapReplace p kept tl) = _
        rw [if_pos c]
      have hsk : ¬ decide (p ≠ q) = true := by
        simp [c]
      have hrest : ∀ st1, MetaDEx_cancel_prices txid block (fun q => decide (p ≠ q)) skip tl st1
          = .ok (tl, st1) := by
        intro st1
        apply MetaDEx_cancel_prices_skip_all
        intro lvl hl
        have hlt : q < lvl.1 := hs2.1 lvl hl
        rw [c] at hlt
        simp [ne_of_lt hlt]
      rw [e1]
      show MetaDEx_cancel_prices txid block (fun q => decide (p ≠ q)) skip ((q, l) :: tl) st =
        match MetaDEx_cancel_offers txid block skip l st with
        | .error a => .error a
        | .ok (kept, st1) => .ok (mapReplace p kept ((q, l) :: tl), st1)
      unfold MetaDEx_cancel_prices
      rw [if_neg hsk]
      cases hco : MetaDEx_cancel_offers txid block skip l st with
      | error a => rfl
      | ok r =>
        obtain ⟨kept, st1⟩ := r
        simp only []
        rw [hrest st1, e2]
    · have e1 : get_Indexes ((q, l) :: tl) p = get_Indexes tl p := by
        show (if q = p then some l else mapFind p tl) = mapFind p tl
        rw [if_neg c]
      have e2 : ∀ kept, mapReplace p kept ((q, l) :: tl) = (q, l) :: mapReplace p kept tl := by
        intro kept
        show (if q = p then (q, kept) :: tl else (q, l) :: mapReplace p kept tl) = _
        rw [if_neg c]
      have hsk : decide (p ≠ q) = true := by
        simp [Ne.symm c]
      rw [e1]
      unfold MetaDEx_cancel_prices
      rw [if_pos hsk, ih hs2.2]
      cases hg : get_Indexes tl p with
      | none => rfl
      | some indexes =>
        show (match (match MetaDEx_cancel_offers txid block skip indexes st with
            | .error a => .error a
            | .ok (kept, st1) => .ok (mapReplace p kept tl, st1) :
              Except Abort (md_PricesMap × CancelState)) with
          | .error a => .error a
          | .ok (rest1, st1) => .ok ((q, l) :: rest1, st1)) =
          (match MetaDEx_cancel_offers txid block skip indexes st with
            | .error a => .error a
            | .ok (kept, st1) => .ok (mapReplace p kept ((q, l) :: tl), st1) :
              Except Abort (md_PricesMap × CancelState))
        cases hco : MetaDEx_cancel_offers txid block skip indexes st with
        | error a => rfl
        | ok r =>
          obtain ⟨kept, st1⟩ := r
          simp only []
          rw [e2]

/-- C36: the price keys of a price map being strictly ascending (the order a
`std::map` keeps), at most one level has the cancel price as its key, and
`MetaDEx_CANCEL_AT_PRICE`, which looks at every level, gives the same result
(return code, ledger, book and cancel log, or the same failed assertion) as
the variant that finds the level by exact lookup of the cancel price, scans
that level alone and stops. -/
theorem C36_cancel_at_price_scan (ME : Int) (s : State) (txid : Nat) (block : Int)
    (sender : String) (prop : Nat) (amount : Int) (pd : Nat) (ad : Int)
    (hs : ∀ prices, get_Prices s.metadex prop = some prices → KeysSorted prices) :
    (∀ prices, get_Prices s.metadex prop = some prices →
      ∀ l1 ∈ prices, ∀ l2 ∈ prices,
        l1.1 = (CMPMetaDEx.create sender 0 prop amount pd ad 0 0 .CANCEL_AT_PRICE).unitPrice →
        l2.1 = (CMPMetaDEx.create sender 0 prop amount pd ad 0 0 .CANCEL_AT_PRICE).unitPrice →
        l1 = l2) ∧
    MetaDEx_CANCEL_AT_PRICE ME s txid block sender prop amount pd ad =
      MetaDEx_CANCEL_AT_PRICE_lookup ME s txid block sender prop amount pd ad := by
  constructor
  · intro prices hg l1 h1 l2 h2 e1 e2
    exact KeysSorted_unique prices (hs prices hg) l1 l2 h1 h2 (e1.trans e2.symm)
  · unfold MetaDEx_CANCEL_AT_PRICE MetaDEx_CANCEL_AT_PRICE_lookup
    simp only []
    cases hg : get_Prices s.metadex prop with
    | none => rfl
    | some prices =>
      simp only []
      rw [MetaDEx_cancel_prices_lookup _ _ _ _ _ _ (hs prices hg)]
      cases hi : get_Indexes prices
          (CMPMetaDEx.create sender 0 prop amount pd ad 0 0 .CANCEL_AT_PRICE).unitPrice with
      | none =>
        simp only []
        rw [mapReplace_self _ _ _ hg]
      | some indexes =>
        simp only []
        cases hco : MetaDEx_cancel_offers txid block
            (fun o => decide (o.desired_property ≠ pd) || decide (o.addr ≠ sender)) indexes
            { tally := s.mp_tally_map, txlist := s.p_txlistdb, rc := ME - 20 } with
        | error a => rfl
        | ok r => rfl

/-- C36 on the fifth scenario, whose price map has the levels 2 and 3: the
cancel at the price 3 by lookup returns 0 and leaves the level 2 alone, and
`MetaDEx_CANCEL_AT_PRICE` gives the same result. -/
theorem C36_cancel_at_price_scan_witness :
    MetaDEx_CANCEL_AT_PRICE (-80000) ex5State 90 12 "alice" 3 100 1 300 =
      MetaDEx_CANCEL_AT_PRICE_lookup (-80000) ex5State 90 12 "alice" 3 100 1 300 ∧
    (MetaDEx_CANCEL_AT_PRICE_lookup (-80000) ex5State 90 12 "alice" 3 100 1 300).toOption.map
      (fun r => r.1) = some 0 ∧
    (MetaDEx_CANCEL_AT_PRICE_lookup (-80000) ex5State 90 12 "alice" 3 100 1 300).toOption.map
      (fun r => allOrders r.2.metadex) = some [ex5Low] :=
  ⟨(C36_cancel_at_price_scan (-80000) ex5State 90 12 "alice" 3 100 1 300
      (by
        intro prices h
        have e : prices = [(2, [ex5Low]), (3, [ex5High])] := (Option.some.inj h).symm
        rw [e]
        unfold KeysSorted
        simp only [List.pairwise_cons, List.mem_cons, List.mem_singleton, forall_eq_or_imp,
          forall_eq, List.not_mem_nil, false_imp_iff, implies_true, List.Pairwise.nil,
          and_true]
        norm_num)).2,
   by decide!, by decide!⟩

/-- The taker's limit price does not depend on its remaining amount. -/
theorem inversePrice_setAmountRemaining (o : CMPMetaDEx) (x : Int) :
    (o.setAmountRemaining x).inversePrice = o.inversePrice := rfl

/-- The inner loop of `x_Trade` leaves the taker's limit price as it is. -/
theorem x_Trade_offers_inversePrice (sellersPrice : ℚ) (rest : List CMPMetaDEx)
    (pofferSet : md_Set) (st : TradeState) (res : md_Set × TradeState)
    (h : x_Trade_offers sellersPrice rest pofferSet st = .ok res) :
    res.2.pnew.inversePrice = st.pnew.inversePrice := by
  refine x_Trade_offers_inv (fun st1 => st1.pnew.inversePrice = st.pnew.inversePrice)
    sellersPrice rest pofferSet st res ?_ rfl h
  intro pold _ st0 bg sg L h0 _ _
  rw [x_Trade_after_pnew, inversePrice_setAmountRemaining]
  exact h0

/-- A walk over levels that are all beyond the taker's limit changes
nothing. -/
theorem x_Trade_prices_beyond (pm : md_PricesMap) (st : TradeState)
    (h : ∀ lvl ∈ pm, st.pnew.inversePrice < lvl.1) :
    x_Trade_prices pm st = .ok (pm, st) := by
  induction pm with
  | nil => rfl
  | cons lvl tl ih =>
    obtain ⟨q, l⟩ := lvl
    have h1 : st.pnew.inversePrice < q := h (q, l) (List.mem_cons_self _ _)
    have h2 := ih (fun lvl hl => h lvl (List.mem_cons_of_mem _ hl))
    unfold x_Trade_prices
    rw [if_pos h1, h2]

/-- On a price map with ascending keys the walk of `x_Trade` and the walk
that stops at the first level beyond the taker's limit give the same
result. -/
theorem x_Trade_prices_eq_stop (pm : md_PricesMap) (hs : KeysSorted pm) (st : TradeState) :
    x_Trade_prices pm st = x_Trade_prices_stop pm st := by
  induction pm generalizing st with
  | nil => rfl
  | cons lvl tl ih =>
    obtain ⟨q, l⟩ := lvl
    have hs2 := List.pairwise_cons.1 hs
    unfold x_Trade_prices x_Trade_prices_stop
    by_cases c : st.pnew.inversePrice < q
    · rw [if_pos c, if_pos c]
      rw [x_Trade_prices_beyond tl st (fun lvl hl => lt_trans c (hs2.1 lvl hl))]
    · rw [if_neg c, if_neg c]
      cases ho : x_Trade_offers q l l st with
      | error a => rfl
      | ok r =>
        obtain ⟨newSet, st1⟩ := r
        simp only []
        rw [ih hs2.2 st1]

/-- C35: let the price keys of the price map of the taker's desired property
be strictly ascending (the order in which a `std::map` is walked). Then a
level is matched against only when `taker.inversePrice >= sellersPrice`; when
a level fails this test, every later level fails it as well, at any later
point of the walk; and `x_Trade`, which continues with the next level, gives
the same result (return value, taker, ledger, book and trade log, or the same
failed assertion) as the variant that stops the walk at the first level that
fails the test. -/
theorem C35_price_walk (s : State) (pnew : CMPMetaDEx)
    (hs : ∀ pm, get_Prices s.metadex pnew.desired_property = some pm → KeysSorted pm) :
    (∀ pm, get_Prices s.metadex pnew.desired_property = some pm →
      ∀ pre lvl post, pm = pre ++ lvl :: post → pnew.inversePrice < lvl.1 →
        ∀ l2 ∈ post, ∀ x : Int, (pnew.setAmountRemaining x).inversePrice < l2.1) ∧
    (∀ (st : TradeState) (sellersPrice : ℚ) (pofferSet : md_Set) (rest : md_PricesMap),
      st.pnew.inversePrice < sellersPrice →
        x_Trade_prices ((sellersPrice, pofferSet) :: rest) st =
          match x_Trade_prices rest st with
          | .error a => .error a
          | .ok (rest1, st1) => .ok ((sellersPrice, pofferSet) :: rest1, st1)) ∧
    x_Trade s pnew = x_Trade_stop s pnew := by
  refine ⟨?_, ?_, ?_⟩
  · intro pm hg pre lvl post e hlt l2 h2 x
    have hk := hs pm hg
    rw [e] at hk
    have hk2 := List.pairwise_cons.1 (List.pairwise_append.1 hk).2.1
    rw [inversePrice_setAmountRemaining]
    exact lt_trans hlt (hk2.1 l2 h2)
  · intro st sellersPrice pofferSet rest h
    conv_lhs => unfold x_Trade_prices
    simp only [if_pos h]
  · unfold x_Trade x_Trade_stop
    cases hg : get_Prices s.metadex pnew.desired_property with
    | none => rfl
    | some pm =>
      simp only []
      rw [x_Trade_prices_eq_stop pm (hs pm hg)]

/-- C35 on the book of the fifth scenario, with the levels 2 and 3, and a
taker with the limit price 2: the stopping variant fills the order of the
level 2, leaves the order of the level 3 and the taker with 100 remaining, and
`x_Trade` gives the same result. -/
theorem C35_price_walk_witness :
    x_Trade ex8State ex8Taker = x_Trade_stop ex8State ex8Taker ∧
    (x_Trade_stop ex8State ex8Taker).toOption.map
      (fun r => (r.ret, r.pnew.amount_remaining)) = some (.TRADED_MOREINBUYER, 100) ∧
    (x_Trade_stop ex8State ex8Taker).toOption.map
      (fun r => allOrders r.state.metadex) = some [ex5High] :=
  ⟨(C35_price_walk ex8State ex8Taker
      (by
        intro pm h
        have e : pm = [(2, [ex5Low]), (3, [ex5High])] := (Option.some.inj h).symm
        rw [e]
        unfold KeysSorted
        simp only [List.pairwise_cons, List.mem_cons, List.mem_singleton, forall_eq_or_imp,
          forall_eq, List.not_mem_nil, false_imp_iff, implies_true, List.Pairwise.nil,
          and_true]
        norm_num)).2.2,
   by decide!, by decide!⟩

/-- Writing to an entry of a map leaves the keys as they are. -/
theorem mapReplace_keys {κ β : Type} [DecidableEq κ] (k : κ) (v : β) (m : List (κ × β)) :
    (mapReplace k v m).map Prod.fst = m.map Prod.fst := by
  induction m with
  | nil => rfl
  | cons e tl ih =>
    obtain ⟨k1, v1⟩ := e
    by_cases c : k1 = k
    · have e2 : mapReplace k v ((k1, v1) :: tl) = (k1, v) :: tl := by
        show (if k1 = k then (k1, v) :: tl else (k1, v1) :: mapReplace k v tl) = _
        rw [if_pos c]
      rw [e2]
      rfl
    · have e2 : mapReplace k v ((k1, v1) :: tl) = (k1, v1) :: mapReplace k v tl := by
        show (if k1 = k then (k1, v) :: tl else (k1, v1) :: mapReplace k v tl) = _
        rw [if_neg c]
      rw [e2, List.map_cons, List.map_cons, ih]

/-- The ordering of a map is a property of its keys. -/
theorem KeysSorted_iff_keys {κ β : Type} [LT κ] (m : List (κ × β)) :
    KeysSorted m ↔ (m.map Prod.fst).Pairwise (fun a b => a < b) := by
  unfold KeysSorted
  rw [List.pairwise_map]

/-- Two maps with the same keys are both ordered or both not. -/
theorem KeysSorted_of_keys {κ β : Type} [LT κ] (m1 m2 : List (κ × β))
    (h : m1.map Prod.fst = m2.map Prod.fst) (hs : KeysSorted m2) : KeysSorted m1 := by
  rw [KeysSorted_iff_keys] at hs ⊢
  rw [h]
  exact hs

/-- Writing to an entry of a map keeps the order of the keys. -/
theorem KeysSorted_mapReplace {κ β : Type} [LT κ] [DecidableEq κ] (k : κ) (v : β)
    (m : List (κ × β)) (hs : KeysSorted m) : KeysSorted (mapReplace k v m) :=
  KeysSorted_of_keys _ _ (mapReplace_keys k v m) hs

/-- A write to a level keeps the order of the keys of the book. -/
theorem BookKeysSorted_bookWithLevel (B : md_PropertiesMap) (prop : Nat) (price : ℚ)
    (newSet : md_Set) (h : BookKeysSorted B) :
    BookKeysSorted (bookWithLevel B prop price newSet) := by
  unfold bookWithLevel
  refine ⟨KeysSorted_mapReplace _ _ _ h.1, ?_⟩
  intro e he
  rcases mapReplace_mem _ _ _ e he with h1 | h1
  · exact h.2 e h1
  · rw [h1]
    show KeysSorted (mapReplace price newSet ((get_Prices B prop).getD []))
    apply KeysSorted_mapReplace
    cases hg : get_Prices B prop with
    | none => exact List.Pairwise.nil
    | some pm => exact h.2 (prop, pm) (mapFind_mem hg)

/-- The levels of the book after a write to one of them. -/
theorem levelAt_bookWithLevel (B : md_PropertiesMap) (prop : Nat) (price : ℚ)
    (newSet : md_Set) (pm : md_PricesMap) (lvl : md_Set)
    (hg : get_Prices B prop = some pm) (hi : get_Indexes pm price = some lvl)
    (p : Nat) (q : ℚ) :
    levelAt (bookWithLevel B prop price newSet) p q =
      if p = prop ∧ q = price then newSet else levelAt B p q := by
  unfold levelAt bookWithLevel get_Prices get_Indexes at *
  rw [mapFind_mapReplace, hg]
  by_cases c1 : p = prop
  · rw [if_pos c1]
    show (mapFind q (mapReplace price newSet pm)).getD [] = _
    rw [mapFind_mapReplace, c1, hg]
    show (if q = price then Option.map (fun _ => newSet) (mapFind price pm) else mapFind q pm).getD []
      = if prop = prop ∧ q = price then newSet else (mapFind q pm).getD []
    by_cases c2 : q = price
    · rw [if_pos c2, if_pos ⟨rfl, c2⟩, hi]
      rfl
    · rw [if_neg c2, if_neg (fun h => c2 h.2)]
  · rw [if_neg c1, if_neg (fun h => c1 h.1)]

/-- In a book with ordered keys the resting orders are the orders of the
levels found by lookup. -/
theorem mem_allOrders_levelAt (B : md_PropertiesMap) (h : BookKeysSorted B) (o : CMPMetaDEx) :
    o ∈ allOrders B ↔ ∃ p q, o ∈ levelAt B p q := by
  constructor
  · intro ho
    obtain ⟨e, he, lvl, hl, hol⟩ := (mem_allOrders_iff B o).1 ho
    refine ⟨e.1, lvl.1, ?_⟩
    have h1 : get_Prices B e.1 = some e.2 := mapFind_of_mem B h.1 e.1 e.2 he
    have h2 : get_Indexes e.2 lvl.1 = some lvl.2 := mapFind_of_mem e.2 (h.2 e he) lvl.1 lvl.2 hl
    unfold levelAt
    rw [h1]
    show o ∈ (get_Indexes e.2 lvl.1).getD []
    rw [h2]
    exact hol
  · rintro ⟨p, q, ho⟩
    obtain ⟨pm, hg, hm⟩ := levelAt_mem B p q o ho
    exact mem_allOrders (mapFind_mem hg) hm ho

/-- An order of the level found under a property and a price sells that
property at that price, in a book that keeps the price-key invariant. -/
theorem levelAt_priceKey (B : md_PropertiesMap) (h : PriceKeyInv B) (p : Nat) (q : ℚ)
    (o : CMPMetaDEx) (ho : o ∈ levelAt B p q) : o.property = p ∧ o.unitPrice = q := by
  obtain ⟨pm, hg, hm⟩ := levelAt_mem B p q o ho
  exact h (p, pm) (mapFind_mem hg) (q, levelAt B p q) hm o ho

/-- In an ordered level no other order has the time-priority key of a given
one. -/
theorem SetSorted_key_unique (pre post : List CMPMetaDEx) (c : CMPMetaDEx)
    (hs : SetSorted (pre ++ c :: post)) :
    ∀ o ∈ pre ++ post, ¬ (o.block = c.block ∧ o.idx = c.idx) := by
  intro o ho hk
  unfold SetSorted at hs
  rw [List.pairwise_append] at hs
  obtain ⟨-, h2, h3⟩ := hs
  have h2' := List.pairwise_cons.1 h2
  rcases List.mem_append.1 ho with h | h
  · have := h3 o h c (List.mem_cons_self _ _)
    rw [MetaDEx_compare_iff] at this
    omega
  · have := h2'.1 o h
    rw [MetaDEx_compare_iff] at this
    omega

/-- C34: in a book with ordered keys and ordered levels that keeps the
price-key invariant, let the maker `pold` rest in the level of the price
`sellersPrice` under the property `prop`, between the orders `pre` and `post`,
and let the loop body of `x_Trade` decide a fill of `bg` for `sg`. The level
after the erase and the insert of the replacement is `pre`, the replacement
if `seller_left > 0`, `post`. With `seller_left > 0` the maker is in the same
level, at the same place among the other orders, with all fields as before but
`amount_remaining = seller_left`. With `seller_left = 0` the level is `pre`
followed by `post`, and no order of the book has the maker's property, price
and time-priority key: the maker is no longer in the book. Every other level
of the book is as it was, and the orders of the book are the other orders of
before, unchanged, and the replacement. -/
theorem C34_partial_fill_keeps_place (B : md_PropertiesMap) (prop : Nat) (sellersPrice : ℚ)
    (pre post : List CMPMetaDEx) (pold pnew : CMPMetaDEx) (bg sg : Int)
    (hks : BookKeysSorted B) (hwf : BookWF B) (hpk : PriceKeyInv B)
    (hl : levelAt B prop sellersPrice = pre ++ pold :: post)
    (hf : x_Trade_outcome sellersPrice pold pnew = .fill bg sg) :
    0 ≤ pold.amount_remaining - bg ∧
    x_Trade_replace (pre ++ pold :: post) pold bg =
      (pre ++ if 0 < pold.amount_remaining - bg then
          [{ pold with amount_remaining := pold.amount_remaining - bg }] else []) ++ post ∧
    (0 < pold.amount_remaining - bg →
      levelAt (bookWithLevel B prop sellersPrice
          (x_Trade_replace (pre ++ pold :: post) pold bg)) prop sellersPrice =
        pre ++ { pold with amount_remaining := pold.amount_remaining - bg } :: post) ∧
    (pold.amount_remaining - bg = 0 →
      levelAt (bookWithLevel B prop sellersPrice
          (x_Trade_replace (pre ++ pold :: post) pold bg)) prop sellersPrice = pre ++ post ∧
      pold ∉ allOrders (bookWithLevel B prop sellersPrice
          (x_Trade_replace (pre ++ pold :: post) pold bg)) ∧
      ∀ o ∈ allOrders (bookWithLevel B prop sellersPrice
          (x_Trade_replace (pre ++ pold :: post) pold bg)),
        ¬ (o.property = pold.property ∧ o.unitPrice = pold.unitPrice ∧
          o.block = pold.block ∧ o.idx = pold.idx)) ∧
    (∀ p q, ¬ (p = prop ∧ q = sellersPrice) →
      levelAt (bookWithLevel B prop sellersPrice
          (x_Trade_replace (pre ++ pold :: post) pold bg)) p q = levelAt B p q) ∧
    (∀ o, o ∈ allOrders (bookWithLevel B prop sellersPrice
          (x_Trade_replace (pre ++ pold :: post) pold bg)) ↔
      (o ∈ allOrders B ∧ o ≠ pold) ∨
      (0 < pold.amount_remaining - bg ∧
        o = { pold with amount_remaining := pold.amount_remaining - bg })) := by
  have hmem : pold ∈ levelAt B prop sellersPrice := by
    rw [hl]
    exact List.mem_append_right _ (List.mem_cons_self _ _)
  obtain ⟨pm, hg, hm⟩ := levelAt_mem B prop sellersPrice pold hmem
  have hpmB : (prop, pm) ∈ B := mapFind_mem hg
  have hi : get_Indexes pm sellersPrice = some (levelAt B prop sellersPrice) :=
    mapFind_of_mem pm (hks.2 _ hpmB) sellersPrice _ hm
  have hsorted : SetSorted (pre ++ pold :: post) := by
    rw [← hl]
    exact hwf (prop, pm) hpmB (sellersPrice, levelAt B prop sellersPrice) hm
  have hleft : 0 ≤ pold.amount_remaining - bg :=
    (x_Trade_outcome_fill sellersPrice pold pnew bg sg hf).2.2.2.2.2.2.2.2.2.2.2.1
  have hrep := x_Trade_replace_mid pre post pold bg hsorted
  have hlev := levelAt_bookWithLevel B prop sellersPrice
    (x_Trade_replace (pre ++ pold :: post) pold bg) pm _ hg hi
  have hkey := SetSorted_key_unique pre post pold hsorted
  have hpoldkey := levelAt_priceKey B hpk prop sellersPrice pold hmem
  have hks2 := BookKeysSorted_bookWithLevel B prop sellersPrice
    (x_Trade_replace (pre ++ pold :: post) pold bg) hks
  have hiff : ∀ o, o ∈ allOrders (bookWithLevel B prop sellersPrice
          (x_Trade_replace (pre ++ pold :: post) pold bg)) ↔
      (o ∈ allOrders B ∧ o ≠ pold) ∨
      (0 < pold.amount_remaining - bg ∧
        o = { pold with amount_remaining := pold.amount_remaining - bg }) := by
    intro o
    rw [mem_allOrders_levelAt _ hks2]
    constructor
    · rintro ⟨p, q, ho⟩
      rw [hlev] at ho
      by_cases c : p = prop ∧ q = sellersPrice
      · rw [if_pos c, hrep] at ho
        rcases List.mem_append.1 ho with h1 | h1
        · rcases List.mem_append.1 h1 with h2 | h2
          · left
            have ho2 : o ∈ pre ++ post := List.mem_append_left _ h2
            refine ⟨(mem_allOrders_levelAt B hks o).2 ⟨prop, sellersPrice, ?_⟩, ?_⟩
            · rw [hl]
              exact List.mem_append_left _ h2
            · intro e
              exact hkey o ho2 (by rw [e]; exact ⟨rfl, rfl⟩)
          · right
            by_cases c2 : 0 < pold.amount_remaining - bg
            · rw [if_pos c2] at h2
              exact ⟨c2, List.mem_singleton.1 h2⟩
            · rw [if_neg c2] at h2
              cases h2
        · left
          have ho2 : o ∈ pre ++ post := List.mem_append_right _ h1
          refine ⟨(mem_allOrders_levelAt B hks o).2 ⟨prop, sellersPrice, ?_⟩, ?_⟩
          · rw [hl]
            exact List.mem_append_right _ (List.mem_cons_of_mem _ h1)
          · intro e
            exact hkey o ho2 (by rw [e]; exact ⟨rfl, rfl⟩)
      · rw [if_neg c] at ho
        left
        refine ⟨(mem_allOrders_levelAt B hks o).2 ⟨p, q, ho⟩, ?_⟩
        intro e
        have h1 := levelAt_priceKey B hpk p q o ho
        rw [e] at h1
        exact c ⟨h1.1.symm.trans hpoldkey.1, h1.2.symm.trans hpoldkey.2⟩
    · rintro (⟨ho, hne⟩ | ⟨c2, e⟩)
      · obtain ⟨p, q, hpq⟩ := (mem_allOrders_levelAt B hks o).1 ho
        refine ⟨p, q, ?_⟩
        rw [hlev]
        by_cases c : p = prop ∧ q = sellersPrice
        · rw [if_pos c, hrep]
          rw [c.1, c.2, hl] at hpq
          rcases List.mem_append.1 hpq with h1 | h1
          · exact List.mem_append_left _ (List.mem_append_left _ h1)
          · rcases List.mem_cons.1 h1 with h2 | h2
            · exact absurd h2 hne
            · exact List.mem_append_right _ h2
        · rw [if_neg c]
          exact hpq
      · refine ⟨prop, sellersPrice, ?_⟩
        rw [hlev, if_pos ⟨rfl, rfl⟩, hrep, if_pos c2, e]
        exact List.mem_append_left _ (List.mem_append_right _ (List.mem_singleton_self _))
  refine ⟨hleft, hrep, ?_, ?_, ?_, hiff⟩
  · intro c
    rw [hlev, if_pos ⟨rfl, rfl⟩, hrep, if_pos c]
    simp only [List.append_assoc, List.singleton_append]
    rfl
  · intro c
    have c2 : ¬ 0 < pold.amount_remaining - bg := by omega
    refine ⟨?_, ?_, ?_⟩
    · rw [hlev, if_pos ⟨rfl, rfl⟩, hrep, if_neg c2, List.append_nil]
    · intro h
      rcases (hiff pold).1 h with ⟨-, h1⟩ | ⟨h1, -⟩
      · exact h1 rfl
      · exact c2 h1
    · intro o ho hk
      rcases (hiff o).1 ho with ⟨h1, h2⟩ | ⟨h1, -⟩
      · obtain ⟨p, q, hpq⟩ := (mem_allOrders_levelAt B hks o).1 h1
        have h3 := levelAt_priceKey B hpk p q o hpq
        have hp : p = prop := h3.1.symm.trans (hk.1.trans hpoldkey.1)
        have hq : q = sellersPrice := h3.2.symm.trans (hk.2.1.trans hpoldkey.2)
        rw [hp, hq, hl] at hpq
        rcases List.mem_append.1 hpq with h4 | h4
        · exact hkey o (List.mem_append_left _ h4) hk.2.2
        · rcases List.mem_cons.1 h4 with h5 | h5
          · exact h2 h5
          · exact hkey o (List.mem_append_right _ h5) hk.2.2
      · exact c2 h1
  · intro p q c
    rw [hlev, if_neg c]

/-- The book of the first scenario has ordered keys. -/
theorem exState_BookKeysSorted : BookKeysSorted exState.metadex := by
  unfold BookKeysSorted KeysSorted exState
  simp

/-- The book of the first scenario keeps the price-key invariant. -/
theorem exState_PriceKeyInv : PriceKeyInv exState.metadex := by
  unfold PriceKeyInv EveryOrder
  decide!

/-- C34 on the first scenario: a taker that buys 50 of the maker's 100 leaves
the maker in its level with 50 remaining; the taker that buys all 100 leaves a
book without the maker. -/
theorem C34_partial_fill_keeps_place_witness :
    x_Trade_outcome 2 exMaker ex9Taker = .fill 50 100 ∧
    levelAt (bookWithLevel exState.metadex 3 2 (x_Trade_replace ([] ++ exMaker :: []) exMaker 50))
      3 2 = [] ++ { exMaker with amount_remaining := exMaker.amount_remaining - 50 } :: [] ∧
    x_Trade_outcome 2 exMaker exTaker = .fill 100 200 ∧
    exMaker ∉ allOrders
      (bookWithLevel exState.metadex 3 2 (x_Trade_replace ([] ++ exMaker :: []) exMaker 100)) :=
  ⟨by decide!,
   (C34_partial_fill_keeps_place exState.metadex 3 2 [] [] exMaker ex9Taker 50 100
      exState_BookKeysSorted exState_BookWF exState_PriceKeyInv (by decide!) (by decide!)).2.2.1
      (by decide),
   by decide!,
   ((C34_partial_fill_keeps_place exState.metadex 3 2 [] [] exMaker exTaker 100 200
      exState_BookKeysSorted exState_BookWF exState_PriceKeyInv (by decide!) (by decide!)).2.2.2.1
      (by decide)).2.1⟩

/-- What the matching loops keep for the taker: its address and property, the
rows added to the trade log, whose amounts paid add up, with the remaining
amount, to the remaining amount at the start, and, when no row is a trade with
the taker's own address, the taker's `BALANCE` of the property it sells,
reduced by the amounts paid, and its `METADEX_RESERVE` of that property,
unchanged. -/
theorem x_Trade_prices_accounting (pm : md_PricesMap) (st : TradeState)
    (res : md_PricesMap × TradeState) (h : x_Trade_prices pm st = .ok res) :
    res.2.pnew.addr = st.pnew.addr ∧ res.2.pnew.property = st.pnew.property ∧
    (0 ≤ st.pnew.amount_remaining → 0 ≤ res.2.pnew.amount_remaining) ∧
    ∃ rows, res.2.tradelist = st.tradelist ++ rows ∧
      (rows.map (fun row => row.amount1)).sum + res.2.pnew.amount_remaining =
        st.pnew.amount_remaining ∧
      (∀ row ∈ rows, row.address2 = st.pnew.addr ∧ row.txid2 = st.pnew.txid) ∧
      ((∀ row ∈ rows, row.address1 ≠ st.pnew.addr) →
        res.2.tally st.pnew.addr st.pnew.property .BALANCE =
          st.tally st.pnew.addr st.pnew.property .BALANCE -
            (rows.map (fun row => row.amount1)).sum ∧
        res.2.tally st.pnew.addr st.pnew.property .METADEX_RESERVE =
          st.tally st.pnew.addr st.pnew.property .METADEX_RESERVE) := by
  refine x_Trade_prices_inv (fun st1 =>
    st1.pnew.addr = st.pnew.addr ∧ st1.pnew.property = st.pnew.property ∧
    st1.pnew.txid = st.pnew.txid ∧
    (0 ≤ st.pnew.amount_remaining → 0 ≤ st1.pnew.amount_remaining) ∧
    ∃ rows, st1.tradelist = st.tradelist ++ rows ∧
      (rows.map (fun row => row.amount1)).sum + st1.pnew.amount_remaining =
        st.pnew.amount_remaining ∧
      (∀ row ∈ rows, row.address2 = st.pnew.addr ∧ row.txid2 = st.pnew.txid) ∧
      ((∀ row ∈ rows, row.address1 ≠ st.pnew.addr) →
        st1.tally st.pnew.addr st.pnew.property .BALANCE =
          st.tally st.pnew.addr st.pnew.property .BALANCE -
            (rows.map (fun row => row.amount1)).sum ∧
        st1.tally st.pnew.addr st.pnew.property .METADEX_RESERVE =
          st.tally st.pnew.addr st.pnew.property .METADEX_RESERVE))
    pm st res ?_ ?_ h |> fun x => ⟨x.1, x.2.1, x.2.2.2.1, x.2.2.2.2⟩
  · intro lvl _ pold _ st0 bg sg L hI hf ht
    obtain ⟨ha, hp, htx, hnn, rows, hrows, hsum, hrow, htal⟩ := hI
    obtain ⟨-, -, -, -, hne, -, -, -, -, -, -, -, hleft, -, -⟩ :=
      x_Trade_outcome_fill lvl.1 pold st0.pnew bg sg hf
    have hL := x_Trade_transfer_apply ht
    refine ⟨ha, hp, htx, fun _ => hleft, rows ++ [x_Trade_row pold st0.pnew bg sg], ?_, ?_, ?_, ?_⟩
    · show st0.tradelist ++ [x_Trade_row pold st0.pnew bg sg] = _
      rw [hrows, List.append_assoc]
    · rw [List.map_append, List.sum_append]
      show (rows.map (fun row => row.amount1)).sum + (sg + 0) +
        (st0.pnew.amount_remaining - sg) = _
      omega
    · intro row hr
      rcases List.mem_append.1 hr with h1 | h1
      · exact hrow row h1
      · rw [List.mem_singleton.1 h1]
        exact ⟨ha, htx⟩
    · intro hall
      have hold : pold.addr ≠ st.pnew.addr :=
        hall (x_Trade_row pold st0.pnew bg sg)
          (List.mem_append_right _ (List.mem_singleton_self _))
      obtain ⟨t1, t2⟩ := htal (fun row hr => hall row (List.mem_append_left _ hr))
      have hne2 : ¬ st.pnew.property = st0.pnew.desired_property := by
        rw [← hp]
        exact hne
      constructor
      · show L st.pnew.addr st.pnew.property .BALANCE = _
        rw [hL, t1, List.map_append, List.sum_append]
        rw [if_pos ⟨ha.symm, hp.symm, rfl⟩, if_neg (fun c => hold c.1.symm),
          if_neg (fun c => by cases c.2.2), if_neg (fun c => hne2 c.2.1)]
        show _ = _ - ((rows.map (fun row => row.amount1)).sum + (sg + 0))
        omega
      · show L st.pnew.addr st.pnew.property .METADEX_RESERVE = _
        rw [hL, t2]
        rw [if_neg (fun c => by cases c.2.2), if_neg (fun c => by cases c.2.2),
          if_neg (fun c => hold c.1.symm), if_neg (fun c => by cases c.2.2)]
        omega
  · exact ⟨rfl, rfl, rfl, fun h => h, [], (List.append_nil _).symm, by simp, by simp,
      fun _ => ⟨by simp, rfl⟩⟩

/-- The accounting of the taker over a run of `x_Trade`. -/
theorem x_Trade_accounting (s : State) (pnew : CMPMetaDEx) (r : TradeResult)
    (h : x_Trade s pnew = .ok r) :
    r.state.p_txlistdb = s.p_txlistdb ∧
    (0 ≤ pnew.amount_remaining → 0 ≤ r.pnew.amount_remaining) ∧
    ∃ rows, r.state.t_tradelistdb = s.t_tradelistdb ++ rows ∧
      (rows.map (fun row => row.amount1)).sum + r.pnew.amount_remaining =
        pnew.amount_remaining ∧
      (∀ row ∈ rows, row.address2 = pnew.addr ∧ row.txid2 = pnew.txid) ∧
      ((∀ row ∈ rows, row.address1 ≠ pnew.addr) →
        r.state.mp_tally_map pnew.addr pnew.property .BALANCE =
          s.mp_tally_map pnew.addr pnew.property .BALANCE -
            (rows.map (fun row => row.amount1)).sum ∧
        r.state.mp_tally_map pnew.addr pnew.property .METADEX_RESERVE =
          s.mp_tally_map pnew.addr pnew.property .METADEX_RESERVE) := by
  unfold x_Trade at h
  cases hg : get_Prices s.metadex pnew.desired_property with
  | none =>
    rw [hg] at h
    have e := Except.ok.inj h
    rw [← e]
    exact ⟨rfl, fun h => h, [], (List.append_nil _).symm, by simp, by simp,
      fun _ => ⟨by simp, rfl⟩⟩
  | some pm =>
    rw [hg] at h
    simp only [] at h
    cases hp : x_Trade_prices pm (x_Trade_init s pnew) with
    | error a =>
      rw [hp] at h
      cases h
    | ok res =>
      rw [hp] at h
      obtain ⟨newMap, st⟩ := res
      have e := Except.ok.inj h
      rw [← e]
      obtain ⟨-, -, h3, rows, h4, h5, h6, h7⟩ := x_Trade_prices_accounting pm _ _ hp
      exact ⟨rfl, h3, rows, h4, h5, h6, h7⟩

/-- An order that `MetaDEx_INSERT` accepts is among the resting orders
afterwards. -/
theorem MetaDEx_INSERT_mem (b : md_PropertiesMap) (o : CMPMetaDEx)
    (h : (MetaDEx_INSERT b o).2 = true) : o ∈ allOrders (MetaDEx_INSERT b o).1 := by
  have hl := levelAt_MetaDEx_INSERT b o h o.property o.unitPrice
  rw [if_pos ⟨rfl, rfl⟩] at hl
  have hs : (md_Set_insert o (levelAt b o.property o.unitPrice)).2 = true := by
    rw [← MetaDEx_INSERT_snd]
    exact h
  have hm : o ∈ (md_Set_insert o (levelAt b o.property o.unitPrice)).1 :=
    ((md_Set_insert_perm o _).1 hs).symm.subset (List.mem_cons_self _ _)
  rw [← hl] at hm
  obtain ⟨pm, hg, hq⟩ := levelAt_mem _ _ _ o hm
  exact mem_allOrders (mapFind_mem hg) hq hm

/-- C38: when `MetaDEx_ADD` returns 0 (the codes `METADEX_ERROR - 66` and
`- 70` not being 0), `x_Trade` has returned the taker with a final remaining
amount, the trade log has grown by the rows of the fills of this call (each
with the sender as second address), and the amounts `seller_got` of these rows
plus the final remaining amount are `amount_forsale`; a positive remainder
rests in the book. For a positive `amount_forsale` the remainder is not
negative, so the taker pays at most what it offered; and if no fill was with
an order of the sender's own address, the sender's `BALANCE` of the property
for sale has decreased by exactly `amount_forsale` and its `METADEX_RESERVE`
of that property has increased by exactly the final remaining amount. -/
theorem C38_taker_accounting (ME : Int) (s s1 : State) (sender : String) (prop : Nat)
    (amount block : Int) (pd : Nat) (ad : Int) (txid idx : Nat)
    (hME : ME - 66 ≠ 0 ∧ ME - 70 ≠ 0)
    (h : MetaDEx_ADD ME s sender prop amount block pd ad txid idx = .ok (0, s1)) :
    ∃ r rows,
      x_Trade s (CMPMetaDEx.create sender block prop amount pd ad txid idx .ADD) = .ok r ∧
      s1.t_tradelistdb = s.t_tradelistdb ++ rows ∧
      (∀ row ∈ rows, row.address2 = sender ∧ row.txid2 = txid) ∧
      (rows.map (fun row => row.amount1)).sum + r.pnew.amount_remaining = amount ∧
      (0 < r.pnew.amount_remaining → r.pnew ∈ allOrders s1.metadex) ∧
      (0 < amount →
        0 ≤ r.pnew.amount_remaining ∧
        (rows.map (fun row => row.amount1)).sum ≤ amount ∧
        ((∀ row ∈ rows, row.address1 ≠ sender) →
          s1.mp_tally_map sender prop .BALANCE =
            s.mp_tally_map sender prop .BALANCE - amount ∧
          s1.mp_tally_map sender prop .METADEX_RESERVE =
            s.mp_tally_map sender prop .METADEX_RESERVE + r.pnew.amount_remaining)) := by
  have h0 := h
  unfold MetaDEx_ADD at h
  simp only [] at h
  by_cases c : 0 ≥ (CMPMetaDEx.create sender block prop amount pd ad txid idx .ADD).unitPrice
  · rw [if_pos c] at h
    have e := congrArg Prod.fst (Except.ok.inj h)
    exact absurd e hME.1
  · rw [if_neg c] at h
    cases hx : x_Trade s (CMPMetaDEx.create sender block prop amount pd ad txid idx .ADD) with
    | error a =>
      rw [hx] at h
      cases h
    | ok r =>
      rw [hx] at h
      simp only [] at h
      obtain ⟨hcl, hnn, rows, hrows, hsum, hrow, htal⟩ := x_Trade_accounting s _ r hx
      have hsum2 : (rows.map (fun row => row.amount1)).sum + r.pnew.amount_remaining = amount :=
        hsum
      by_cases cr : 0 < r.pnew.amount_remaining
      · obtain ⟨i1, i2, i3, -, -, -, -, -⟩ :=
          MetaDEx_ADD_rest ME s s1 sender prop amount block pd ad txid idx r hME.1 hME.2 h0 hx cr
        rw [if_pos cr] at h
        have hins : ¬ (MetaDEx_INSERT r.state.metadex r.pnew).2 = false := by
          rw [i1]
          simp
        rw [if_neg hins] at h
        have htl : s1.t_tradelistdb = r.state.t_tradelistdb := by
          cases hu1 : update_tally_map r.state.mp_tally_map sender prop
              (-r.pnew.amount_remaining) .BALANCE with
          | none =>
            rw [hu1] at h
            cases h
          | some L1 =>
            rw [hu1] at h
            simp only [] at h
            cases hu2 : update_tally_map L1 sender prop r.pnew.amount_remaining
                .METADEX_RESERVE with
            | none =>
              rw [hu2] at h
              cases h
            | some L2 =>
              rw [hu2] at h
              have e : State.mk (MetaDEx_INSERT r.state.metadex r.pnew).1 L2
                  r.state.t_tradelistdb r.state.p_txlistdb = s1 :=
                congrArg Prod.snd (Except.ok.inj h)
              rw [← e]
        refine ⟨r, rows, rfl, by rw [htl, hrows], hrow, hsum2, ?_, ?_⟩
        · intro _
          rw [i2]
          exact MetaDEx_INSERT_mem _ _ i1
        · intro hpos
          refine ⟨le_of_lt cr, by omega, ?_⟩
          intro hall
          obtain ⟨t1, t2⟩ := htal hall
          have t1' : r.state.mp_tally_map sender prop .BALANCE =
              s.mp_tally_map sender prop .BALANCE - (rows.map (fun row => row.amount1)).sum := t1
          have t2' : r.state.mp_tally_map sender prop .METADEX_RESERVE =
              s.mp_tally_map sender prop .METADEX_RESERVE := t2
          constructor
          · rw [i3, t1', if_pos ⟨rfl, rfl, rfl⟩, if_neg (fun c => by cases c.2.2)]
            omega
          · rw [i3, t2', if_neg (fun c => by cases c.2.2), if_pos ⟨rfl, rfl, rfl⟩]
            omega
      · rw [if_neg cr] at h
        have e : r.state = s1 := congrArg Prod.snd (Except.ok.inj h)
        have e2 : s1 = r.state := e.symm
        refine ⟨r, rows, rfl, by rw [e2, hrows], hrow, hsum2, fun c => absurd c cr, ?_⟩
        intro hpos
        have hr0 : 0 ≤ r.pnew.amount_remaining := hnn (le_of_lt hpos)
        have hr1 : r.pnew.amount_remaining = 0 := by omega
        refine ⟨hr0, by omega, ?_⟩
        intro hall
        obtain ⟨t1, t2⟩ := htal hall
        have t1' : r.state.mp_tally_map sender prop .BALANCE =
            s.mp_tally_map sender prop .BALANCE - (rows.map (fun row => row.amount1)).sum := t1
        have t2' : r.state.mp_tally_map sender prop .METADEX_RESERVE =
            s.mp_tally_map sender prop .METADEX_RESERVE := t2
        rw [e2, t1', t2']
        constructor <;> omega

/-- C38 on a maker that sells 300 of property 3 at the price 1 and the taker
of the first scenario (200 of property 1 for 100 of property 3):
`MetaDEx_ADD` returns 0, the one fill pays 200, nothing remains, the taker's
`BALANCE` of property 1 goes from 200 to 0 and its reserve stays 0; the taker
receives 200 of property 3, twice the amount it asked for. -/
theorem C38_taker_accounting_witness :
    ∃ s1 r rows,
      MetaDEx_ADD (-80000) ex10State "taker" 1 200 11 3 100 78 1 = .ok (0, s1) ∧
      x_Trade ex10State exTaker = .ok r ∧
      s1.t_tradelistdb = ex10State.t_tradelistdb ++ rows ∧
      (rows.map (fun row => row.amount1)).sum + r.pnew.amount_remaining = 200 ∧
      rows.map (fun row => row.amount2) = [200] ∧
      s1.mp_tally_map "taker" 1 .BALANCE = ex10State.mp_tally_map "taker" 1 .BALANCE - 200 ∧
      s1.mp_tally_map "taker" 1 .METADEX_RESERVE =
        ex10State.mp_tally_map "taker" 1 .METADEX_RESERVE + r.pnew.amount_remaining := by
  obtain ⟨res, hres⟩ := except_ok_of_isSome
    (MetaDEx_ADD (-80000) ex10State "taker" 1 200 11 3 100 78 1) (by decide!)
  have hc : (MetaDEx_ADD (-80000) ex10State "taker" 1 200 11 3 100 78 1).toOption.map
      (fun r => r.1) = some 0 := by decide!
  have ha1 : (MetaDEx_ADD (-80000) ex10State "taker" 1 200 11 3 100 78 1).toOption.map
      (fun r => r.2.t_tradelistdb.map (fun row => row.address1)) = some ["maker"] := by decide!
  have ha2 : (MetaDEx_ADD (-80000) ex10State "taker" 1 200 11 3 100 78 1).toOption.map
      (fun r => r.2.t_tradelistdb.map (fun row => row.amount2)) = some [200] := by decide!
  rw [hres] at hc ha1 ha2
  have hc1 : res.1 = 0 := Option.some.inj hc
  have hb1 : res.2.t_tradelistdb.map (fun row => row.address1) = ["maker"] := Option.some.inj ha1
  have hb2 : res.2.t_tradelistdb.map (fun row => row.amount2) = [200] := Option.some.inj ha2
  have hres2 : MetaDEx_ADD (-80000) ex10State "taker" 1 200 11 3 100 78 1 = .ok (0, res.2) := by
    rw [hres, ← hc1]
  obtain ⟨r, rows, hx, hl, -, hsum, -, hpos⟩ :=
    C38_taker_accounting (-80000) ex10State res.2 "taker" 1 200 11 3 100 78 1
      (by decide) hres2
  have hl2 : res.2.t_tradelistdb = rows := by
    rw [hl]
    rfl
  rw [hl2] at hb1 hb2
  have hall : ∀ row ∈ rows, row.address1 ≠ "taker" := by
    intro row hr
    have : row.address1 ∈ rows.map (fun row => row.address1) := List.mem_map_of_mem _ hr
    rw [hb1] at this
    rw [List.mem_singleton.1 this]
    decide
  obtain ⟨-, -, htal⟩ := hpos (by decide)
  exact ⟨res.2, r, rows, hres2, hx, hl, hsum, hb2, (htal hall).1, (htal hall).2⟩

/-- The level after `std::set::insert` holds at most the old orders and the
new one. -/
theorem md_Set_insert_le (o : CMPMetaDEx) (s : md_Set) :
    (((md_Set_insert o s).1 : List CMPMetaDEx) : Multiset CMPMetaDEx) ≤
      Multiset.cons o (s : Multiset CMPMetaDEx) := by
  by_cases h : (md_Set_insert o s).2 = true
  · have p := (md_Set_insert_perm o s).1 h
    rw [Multiset.cons_coe]
    exact le_of_eq (Multiset.coe_eq_coe.2 p)
  · have e := (md_Set_insert_perm o s).2 (by simpa using h)
    rw [e]
    exact Multiset.le_cons_self _ _

/-- A fill of a candidate keeps the condition on the taker, and gets and pays
positive amounts. -/
theorem x_Trade_fill_TakerOK (sellersPrice : ℚ) (pold pnew : CMPMetaDEx) (bg sg : Int)
    (hT : TakerOK pnew) (hO : 0 < pold.amount_forsale ∧ 0 < pold.amount_desired)
    (hf : x_Trade_outcome sellersPrice pold pnew = .fill bg sg) :
    Candidate sellersPrice pold pnew ∧ 0 < bg ∧ 0 < sg ∧
    TakerOK (pnew.setAmountRemaining (pnew.amount_remaining - sg)) ∧
    0 ≤ pold.amount_remaining - bg := by
  obtain ⟨f1, f2, f3, f4, f5, f6, f7, f8, f9, f10, f11, f12, f13, f14, f15⟩ :=
    x_Trade_outcome_fill sellersPrice pold pnew bg sg hf
  obtain ⟨t1, t2, t3, t4⟩ := hT
  have hc : Candidate sellersPrice pold pnew :=
    ⟨f1, by rw [← f1]; exact f14, f5, f6, f2, hO.1, hO.2, f3, t1, t2, f4, t4⟩
  have hnn := nCouldBuy_nonneg pold pnew hO.1 hO.2 (le_of_lt f3) t3
  have hb : 0 < bg := by
    rw [f7] at f8 ⊢
    exact lt_of_le_of_ne hnn (Ne.symm f8)
  obtain ⟨e, h0, h1⟩ := nWouldPay_eq pold pnew hO.1 hO.2 t3 t4 (by rw [← f7]; exact hb)
  rw [f9] at e
  have hs : 0 < sg := by
    rw [Option.some.inj e]
    exact h0
  refine ⟨hc, hb, hs, ⟨t1, t2, f13, ?_⟩, f12⟩
  show pnew.amount_remaining - sg ≤ 2 ^ 63 - 1
  omega

/-- The inner loop of `x_Trade` over a level: the condition on the taker is
kept, and either every order of the level afterwards is an order of the level
before, or one maker was filled in part, as the last fill, and the taker's
remaining amount is below the price of the level. -/
theorem x_Trade_offers_shape (sellersPrice : ℚ) :
    ∀ (rest : List CMPMetaDEx) (cur : md_Set) (st : TradeState) (res : md_Set × TradeState),
      TakerOK st.pnew →
      (∀ o ∈ rest, 0 < o.amount_forsale ∧ 0 < o.amount_desired) →
      x_Trade_offers sellersPrice rest cur st = .ok res →
      TakerOK res.2.pnew ∧
      (((res.1 : List CMPMetaDEx) : Multiset CMPMetaDEx) ≤ (cur : Multiset CMPMetaDEx) ∨
       ∃ pold ∈ rest, ∃ x : Int, 0 < x ∧ x < pold.amount_remaining ∧
        ((res.1 : List CMPMetaDEx) : Multiset CMPMetaDEx) ≤
          Multiset.cons (pold.setAmountRemaining x) ((cur : Multiset CMPMetaDEx).erase pold) ∧
        0 < sellersPrice ∧ pold.unitPrice = sellersPrice ∧
        (res.2.pnew.amount_remaining : ℚ) < sellersPrice ∧
        ∃ init pn sg,
          res.2.tradelist = init ++ [x_Trade_row pold pn (pold.amount_remaining - x) sg]) := by
  intro rest
  induction rest with
  | nil =>
    intro cur st res hT _ h
    simp only [x_Trade_offers] at h
    cases h
    exact ⟨hT, Or.inl (le_refl _)⟩
  | cons c rest ih =>
    intro cur st res hT hO h
    have hOc := hO c (List.mem_cons_self _ _)
    have hOr : ∀ o ∈ rest, 0 < o.amount_forsale ∧ 0 < o.amount_desired :=
      fun o ho => hO o (List.mem_cons_of_mem _ ho)
    rw [x_Trade_offers] at h
    cases hout : x_Trade_outcome sellersPrice c st.pnew with
    | assertFailed a => rw [hout] at h; cases h
    | nextOffer =>
      rw [hout] at h
      obtain ⟨i1, i2⟩ := ih cur st res hT hOr h
      refine ⟨i1, ?_⟩
      rcases i2 with i2 | ⟨pold, hp, rest2⟩
      · exact Or.inl i2
      · exact Or.inr ⟨pold, List.mem_cons_of_mem _ hp, rest2⟩
    | fill bg sg =>
      rw [hout] at h
      simp only [] at h
      cases ht : x_Trade_transfer st.tally c st.pnew bg sg with
      | none => rw [ht] at h; cases h
      | some L =>
        rw [ht] at h
        simp only [] at h
        obtain ⟨hc, hb, hs, hT1, hleft⟩ := x_Trade_fill_TakerOK sellersPrice c st.pnew bg sg
          hT hOc hout
        have hT1' : TakerOK (x_Trade_after L c st bg sg).pnew := by
          rw [x_Trade_after_pnew]
          exact hT1
        by_cases hp : 0 < c.amount_remaining - bg
        · -- the maker is filled in part
          obtain ⟨p1, p2, p3⟩ := partial_fill_remainder sellersPrice c st.pnew bg sg hc hout hp
          have hrem : (x_Trade_after L c st bg sg).pnew.amount_remaining =
              st.pnew.amount_remaining - sg := by
            rw [x_Trade_after_pnew]
            rfl
          have hres : res = (x_Trade_replace cur c bg, x_Trade_after L c st bg sg) := by
            by_cases hsat : (x_Trade_after L c st bg sg).bBuyerSatisfied = true
            · rw [if_pos hsat] at h
              by_cases hz : (x_Trade_after L c st bg sg).pnew.amount_remaining = 0
              · rw [if_pos hz] at h
                exact (Except.ok.inj h).symm
              · rw [if_neg hz] at h
                cases h
            · rw [if_neg hsat] at h
              exact x_Trade_offers_no_fill sellersPrice p1 rest _ _ res
                (by rw [hrem]; exact p2) (by rw [hrem]; exact p3) h
          rw [hres]
          refine ⟨hT1', Or.inr ⟨c, List.mem_cons_self _ _, c.amount_remaining - bg, hp,
            by omega, ?_, p1, hc.1, ?_, ?_⟩⟩
          · show ((x_Trade_replace cur c bg : List CMPMetaDEx) : Multiset CMPMetaDEx) ≤ _
            unfold x_Trade_replace md_Set_erase
            simp only []
            rw [if_pos (by exact hp), Multiset.coe_erase]
            exact md_Set_insert_le _ _
          · show ((x_Trade_after L c st bg sg).pnew.amount_remaining : ℚ) < sellersPrice
            rw [hrem]
            exact p3
          · refine ⟨st.tradelist, st.pnew, sg, ?_⟩
            show st.tradelist ++ [x_Trade_row c st.pnew bg sg] = _
            have e : c.amount_remaining - (c.amount_remaining - bg) = bg := by ring
            rw [e]
        · -- the maker is filled completely
          have hnew : x_Trade_replace cur c bg = cur.erase c := by
            unfold x_Trade_replace md_Set_erase
            simp only []
            rw [if_neg (by exact hp)]
          have hle : ((cur.erase c : List CMPMetaDEx) : Multiset CMPMetaDEx) ≤
              (cur : Multiset CMPMetaDEx) := by
            rw [← Multiset.coe_erase]
            exact Multiset.erase_le _ _
          by_cases hsat : (x_Trade_after L c st bg sg).bBuyerSatisfied = true
          · rw [if_pos hsat] at h
            by_cases hz : (x_Trade_after L c st bg sg).pnew.amount_remaining = 0
            · rw [if_pos hz] at h
              rw [← Except.ok.inj h]
              refine ⟨hT1', Or.inl ?_⟩
              show ((x_Trade_replace cur c bg : List CMPMetaDEx) : Multiset CMPMetaDEx) ≤ _
              rw [hnew]
              exact hle
            · rw [if_neg hz] at h
              cases h
          · rw [if_neg hsat] at h
            obtain ⟨i1, i2⟩ := ih _ _ res hT1' hOr h
            refine ⟨i1, ?_⟩
            rw [hnew] at i2
            rcases i2 with i2 | ⟨pold, hpm, x, hx0, hx1, hle2, rest2⟩
            · exact Or.inl (le_trans i2 hle)
            · refine Or.inr ⟨pold, List.mem_cons_of_mem _ hpm, x, hx0, hx1, ?_, rest2⟩
              refine le_trans hle2 (Multiset.cons_le_cons _ ?_)
              rw [← Multiset.coe_erase, Multiset.erase_comm]
              exact Multiset.erase_le _ _

/-- A walk over levels whose prices all exceed the taker's remaining amount
executes no fill. -/
theorem x_Trade_prices_no_fill (pm : md_PricesMap) (st : TradeState)
    (res : md_PricesMap × TradeState)
    (h0 : 0 ≤ st.pnew.amount_remaining)
    (hp : ∀ lvl ∈ pm, 0 < lvl.1 ∧ (st.pnew.amount_remaining : ℚ) < lvl.1)
    (h : x_Trade_prices pm st = .ok res) : res = (pm, st) := by
  induction pm generalizing res with
  | nil =>
    simp only [x_Trade_prices] at h
    cases h
    rfl
  | cons lvl tl ih =>
    obtain ⟨q, l⟩ := lvl
    have hq := hp (q, l) (List.mem_cons_self _ _)
    have htl : ∀ lvl ∈ tl, 0 < lvl.1 ∧ (st.pnew.amount_remaining : ℚ) < lvl.1 :=
      fun lvl hl => hp lvl (List.mem_cons_of_mem _ hl)
    rw [x_Trade_prices] at h
    by_cases c : st.pnew.inversePrice < q
    · rw [if_pos c] at h
      cases hr : x_Trade_prices tl st with
      | error a => rw [hr] at h; cases h
      | ok r =>
        rw [hr] at h
        have e := ih r htl hr
        rw [e] at h
        exact (Except.ok.inj h).symm
    · rw [if_neg c] at h
      cases ho : x_Trade_offers q l l st with
      | error a => rw [ho] at h; cases h
      | ok r =>
        rw [ho] at h
        have e := x_Trade_offers_no_fill q hq.1 l l st r h0 hq.2 ho
        rw [e] at h
        simp only [] at h
        by_cases hsat : st.bBuyerSatisfied = true
        · rw [if_pos hsat] at h
          exact (Except.ok.inj h).symm
        · rw [if_neg hsat] at h
          cases hr : x_Trade_prices tl st with
          | error a => rw [hr] at h; cases h
          | ok r2 =>
            rw [hr] at h
            have e2 := ih r2 htl hr
            rw [e2] at h
            exact (Except.ok.inj h).symm

/-- The outer loop of `x_Trade` over a price map with ascending keys leaves
at most one maker partially filled, by the last fill. -/
theorem x_Trade_prices_shape :
    ∀ (pm : md_PricesMap) (st : TradeState) (res : md_PricesMap × TradeState),
      KeysSorted pm → TakerOK st.pnew →
      (∀ o ∈ pricesOrders pm, 0 < o.amount_forsale ∧ 0 < o.amount_desired) →
      x_Trade_prices pm st = .ok res →
      OnePartial (pricesOrders pm) (pricesOrders res.1) res.2.pnew res.2.tradelist := by
  intro pm
  induction pm with
  | nil =>
    intro st res _ _ _ h
    simp only [x_Trade_prices] at h
    cases h
    exact Or.inl (le_refl _)
  | cons lvl tl ih =>
    intro st res hs hT hO h
    obtain ⟨q, l⟩ := lvl
    have hs2 := List.pairwise_cons.1 hs
    have hOl : ∀ o ∈ l, 0 < o.amount_forsale ∧ 0 < o.amount_desired := by
      intro o ho
      apply hO
      rw [pricesOrders_cons]
      exact List.mem_append_left _ ho
    have hOt : ∀ o ∈ pricesOrders tl, 0 < o.amount_forsale ∧ 0 < o.amount_desired := by
      intro o ho
      apply hO
      rw [pricesOrders_cons]
      exact List.mem_append_right _ ho
    -- how the result for the rest of the levels gives the result for all
    have lift : ∀ (newSet : md_Set) (rest1 : md_PricesMap) (st2 : TradeState),
        ((newSet : List CMPMetaDEx) : Multiset CMPMetaDEx) ≤ (l : Multiset CMPMetaDEx) →
        OnePartial (pricesOrders tl) (pricesOrders rest1) st2.pnew st2.tradelist →
        OnePartial (pricesOrders ((q, l) :: tl)) (pricesOrders ((q, newSet) :: rest1))
          st2.pnew st2.tradelist := by
      intro newSet rest1 st2 hle hsh
      rw [pricesOrders_cons, pricesOrders_cons]
      show OnePartial (l ++ pricesOrders tl) (newSet ++ pricesOrders rest1) st2.pnew st2.tradelist
      unfold OnePartial at hsh ⊢
      rw [← Multiset.coe_add, ← Multiset.coe_add]
      rcases hsh with hsh | ⟨pold, hpm, x, hx0, hx1, hle2, rest2⟩
      · exact Or.inl (add_le_add hle hsh)
      · refine Or.inr ⟨pold, List.mem_append_right _ hpm, x, hx0, hx1, ?_, rest2⟩
        rw [Multiset.erase_add_right_pos _ (by exact hpm), ← Multiset.add_cons]
        exact add_le_add hle hle2
    -- the result when a maker of this level was filled in part
    have here : ∀ (newSet : md_Set) (st1 : TradeState),
        (∃ pold ∈ l, ∃ x : Int, 0 < x ∧ x < pold.amount_remaining ∧
          ((newSet : List CMPMetaDEx) : Multiset CMPMetaDEx) ≤
            Multiset.cons (pold.setAmountRemaining x) ((l : Multiset CMPMetaDEx).erase pold) ∧
          0 < q ∧ pold.unitPrice = q ∧ (st1.pnew.amount_remaining : ℚ) < q ∧
          ∃ init pn sg,
            st1.tradelist = init ++ [x_Trade_row pold pn (pold.amount_remaining - x) sg]) →
        TakerOK st1.pnew →
        OnePartial (pricesOrders ((q, l) :: tl)) (pricesOrders ((q, newSet) :: tl))
          st1.pnew st1.tradelist := by
      rintro newSet st1 ⟨pold, hpm, x, hx0, hx1, hle2, -, hu, hlt, rows⟩ hT1
      rw [pricesOrders_cons, pricesOrders_cons]
      show OnePartial (l ++ pricesOrders tl) (newSet ++ pricesOrders tl) st1.pnew st1.tradelist
      unfold OnePartial
      rw [← Multiset.coe_add, ← Multiset.coe_add]
      refine Or.inr ⟨pold, List.mem_append_left _ hpm, x, hx0, hx1, ?_, hT1.2.2.1,
        by rw [hu]; exact hlt, rows⟩
      rw [Multiset.erase_add_left_pos _ (by exact hpm), ← Multiset.cons_add]
      exact add_le_add hle2 (le_refl _)
    rw [x_Trade_prices] at h
    by_cases c : st.pnew.inversePrice < q
    · rw [if_pos c] at h
      cases hr : x_Trade_prices tl st with
      | error a => rw [hr] at h; cases h
      | ok r =>
        rw [hr] at h
        obtain ⟨rest1, st1⟩ := r
        rw [← Except.ok.inj h]
        exact lift l rest1 st1 (le_refl _) (ih st (rest1, st1) hs2.2 hT hOt hr)
    · rw [if_neg c] at h
      cases ho : x_Trade_offers q l l st with
      | error a => rw [ho] at h; cases h
      | ok r =>
        rw [ho] at h
        obtain ⟨newSet, st1⟩ := r
        simp only [] at h
        obtain ⟨hT1, hsh⟩ := x_Trade_offers_shape q l l st (newSet, st1) hT hOl ho
        by_cases hsat : st1.bBuyerSatisfied = true
        · rw [if_pos hsat] at h
          rw [← Except.ok.inj h]
          rcases hsh with hsh | hsh
          · exact lift newSet tl st1 hsh (Or.inl (le_refl _))
          · exact here newSet st1 hsh hT1
        · rw [if_neg hsat] at h
          cases hr : x_Trade_prices tl st1 with
          | error a => rw [hr] at h; cases h
          | ok r2 =>
            rw [hr] at h
            obtain ⟨rest1, st2⟩ := r2
            rw [← Except.ok.inj h]
            rcases hsh with hsh | hsh
            · exact lift newSet rest1 st2 hsh (ih st1 (rest1, st2) hs2.2 hT1 hOt hr)
            · obtain ⟨pold, hpm, x, hx0, hx1, hle2, hq0, hu, hlt, rows⟩ := hsh
              have e := x_Trade_prices_no_fill tl st1 (rest1, st2) hT1.2.2.1
                (fun lvl hl => by
                  have hlt2 : q < lvl.1 := hs2.1 lvl hl
                  exact ⟨lt_trans hq0 hlt2, lt_trans hlt hlt2⟩) hr
              have e1 : rest1 = tl := congrArg Prod.fst e
              have e2 : st2 = st1 := congrArg Prod.snd e
              rw [e1, e2]
              exact here newSet st1 ⟨pold, hpm, x, hx0, hx1, hle2, hq0, hu, hlt, rows⟩ hT1

/-- A run of `x_Trade` leaves at most one maker of the book partially filled,
by the last fill. -/
theorem x_Trade_shape (s : State) (pnew : CMPMetaDEx) (r : TradeResult)
    (hT : TakerOK pnew)
    (hB : ∀ pm, get_Prices s.metadex pnew.desired_property = some pm →
      KeysSorted pm ∧ ∀ o ∈ pricesOrders pm, 0 < o.amount_forsale ∧ 0 < o.amount_desired)
    (h : x_Trade s pnew = .ok r) :
    OnePartial (allOrders s.metadex) (allOrders r.state.metadex) r.pnew
      r.state.t_tradelistdb := by
  unfold x_Trade at h
  cases hg : get_Prices s.metadex pnew.desired_property with
  | none =>
    rw [hg] at h
    rw [← Except.ok.inj h]
    exact Or.inl (le_refl _)
  | some pm =>
    rw [hg] at h
    simp only [] at h
    cases hp : x_Trade_prices pm (x_Trade_init s pnew) with
    | error a => rw [hp] at h; cases h
    | ok res =>
      rw [hp] at h
      obtain ⟨newMap, st⟩ := res
      rw [← Except.ok.inj h]
      obtain ⟨hk, hO⟩ := hB pm hg
      have hsh := x_Trade_prices_shape pm (x_Trade_init s pnew) (newMap, st) hk hT hO hp
      obtain ⟨rest, p1, p2⟩ := allOrders_mapReplace_perm pnew.desired_property s.metadex pm hg
      have e1 : ((allOrders s.metadex : List CMPMetaDEx) : Multiset CMPMetaDEx) =
          (pricesOrders pm : Multiset CMPMetaDEx) + (rest : Multiset CMPMetaDEx) := by
        rw [Multiset.coe_add]
        exact Multiset.coe_eq_coe.2 p1
      have e2 : ((allOrders (mapReplace pnew.desired_property newMap s.metadex) :
          List CMPMetaDEx) : Multiset CMPMetaDEx) =
          (pricesOrders newMap : Multiset CMPMetaDEx) + (rest : Multiset CMPMetaDEx) := by
        rw [Multiset.coe_add]
        exact Multiset.coe_eq_coe.2 (p2 newMap)
      show OnePartial (allOrders s.metadex)
        (allOrders (mapReplace pnew.desired_property newMap s.metadex)) st.pnew st.tradelist
      unfold OnePartial at hsh ⊢
      rw [e1, e2]
      rcases hsh with hsh | ⟨pold, hpm, x, hx0, hx1, hle2, rest2⟩
      · exact Or.inl (add_le_add hsh (le_refl _))
      · refine Or.inr ⟨pold, ?_, x, hx0, hx1, ?_, rest2⟩
        · exact p1.symm.subset (List.mem_append_left _ hpm)
        · rw [Multiset.erase_add_left_pos _ (by exact hpm), ← Multiset.cons_add]
          exact add_le_add hle2 (le_refl _)

/-- C37: a fill that leaves the maker with `seller_left > 0` leaves the taker
with a remaining amount below the maker's unit price, and then no resting
order at the same or a higher price level can be filled. Hence, for a taker
with positive amounts (`amount_forsale <= 2^63-1`) and a price map of the
desired property with ascending keys and makers of positive amounts, a run of
`x_Trade` leaves at most one maker partially filled, by its last fill: either
every resting order afterwards is an unchanged order of before, or exactly one
maker `pold` has been replaced by its copy with a smaller positive remaining
amount, the fill of `pold` is the last row of the trade log, and the taker's
remaining amount is below the unit price of `pold`. The book `MetaDEx_ADD`
leaves holds the orders `x_Trade` left and at most the taker in addition. -/
theorem C37_partial_fill_is_last (s : State) (sender : String) (prop : Nat)
    (amount block : Int) (pd : Nat) (ad : Int) (txid idx : Nat) (r : TradeResult)
    (ha : 0 < amount) (ha2 : amount ≤ 2 ^ 63 - 1) (hd : 0 < ad)
    (hB : ∀ pm, get_Prices s.metadex pd = some pm →
      KeysSorted pm ∧ ∀ o ∈ pricesOrders pm, 0 < o.amount_forsale ∧ 0 < o.amount_desired)
    (h : x_Trade s (CMPMetaDEx.create sender block prop amount pd ad txid idx .ADD) = .ok r) :
    (∀ (sellersPrice : ℚ) (pold pn : CMPMetaDEx) (bg sg : Int),
      TakerOK pn → 0 < pold.amount_forsale → 0 < pold.amount_desired →
      x_Trade_outcome sellersPrice pold pn = .fill bg sg → 0 < pold.amount_remaining - bg →
      0 ≤ pn.amount_remaining - sg ∧
      ((pn.amount_remaining - sg : Int) : ℚ) < pold.unitPrice ∧
      ∀ (sp2 : ℚ) (o : CMPMetaDEx) (bg2 sg2 : Int), sellersPrice ≤ sp2 →
        x_Trade_outcome sp2 o (pn.setAmountRemaining (pn.amount_remaining - sg)) ≠
          .fill bg2 sg2) ∧
    OnePartial (allOrders s.metadex) (allOrders r.state.metadex) r.pnew
      r.state.t_tradelistdb ∧
    (∀ (ME : Int) (res : Int × State),
      MetaDEx_ADD ME s sender prop amount block pd ad txid idx = .ok res →
      ∀ o ∈ allOrders res.2.metadex, o ∈ allOrders r.state.metadex ∨ o = r.pnew) := by
  have hT : TakerOK (CMPMetaDEx.create sender block prop amount pd ad txid idx .ADD) :=
    ⟨ha, hd, le_of_lt ha, ha2⟩
  refine ⟨?_, x_Trade_shape s _ r hT hB h, ?_⟩
  · intro sellersPrice pold pn bg sg hT1 hf hdd hout hp
    obtain ⟨hc, -, -, -, -⟩ := x_Trade_fill_TakerOK sellersPrice pold pn bg sg hT1 ⟨hf, hdd⟩ hout
    obtain ⟨p1, p2, p3⟩ := partial_fill_remainder sellersPrice pold pn bg sg hc hout hp
    refine ⟨p2, by rw [hc.1]; exact p3, ?_⟩
    intro sp2 o bg2 sg2 hle
    exact x_Trade_outcome_no_fill sp2 o _ (lt_of_lt_of_le p1 hle) p2 (lt_of_lt_of_le p3 hle)
      bg2 sg2
  · intro ME res hadd o ho
    unfold MetaDEx_ADD at hadd
    simp only [] at hadd
    have hup : ¬ 0 ≥ (CMPMetaDEx.create sender block prop amount pd ad txid idx .ADD).unitPrice := by
      rw [unitPrice_pos_eq _ ha]
      have : (0 : ℚ) < ((ad : Int) : ℚ) / ((amount : Int) : ℚ) :=
        div_pos (by exact_mod_cast hd) (by exact_mod_cast ha)
      exact not_le.2 this
    rw [if_neg hup, h] at hadd
    simp only [] at hadd
    by_cases cr : 0 < r.pnew.amount_remaining
    · rw [if_pos cr] at hadd
      by_cases ci : (MetaDEx_INSERT r.state.metadex r.pnew).2 = false
      · rw [if_pos ci] at hadd
        have e : r.state = res.2 := congrArg Prod.snd (Except.ok.inj hadd)
        rw [← e] at ho
        exact Or.inl ho
      · rw [if_neg ci] at hadd
        cases hu1 : update_tally_map r.state.mp_tally_map sender prop
            (-r.pnew.amount_remaining) .BALANCE with
        | none => rw [hu1] at hadd; cases hadd
        | some L1 =>
          rw [hu1] at hadd
          simp only [] at hadd
          cases hu2 : update_tally_map L1 sender prop r.pnew.amount_remaining
              .METADEX_RESERVE with
          | none => rw [hu2] at hadd; cases hadd
          | some L2 =>
            rw [hu2] at hadd
            have e : State.mk (MetaDEx_INSERT r.state.metadex r.pnew).1 L2
                r.state.t_tradelistdb r.state.p_txlistdb = res.2 :=
              congrArg Prod.snd (Except.ok.inj hadd)
            rw [← e] at ho
            rcases mem_allOrders_MetaDEx_INSERT _ _ _ ho with h1 | h1
            · exact Or.inr h1
            · exact Or.inl h1
    · rw [if_neg cr] at hadd
      have e : r.state = res.2 := congrArg Prod.snd (Except.ok.inj hadd)
      rw [← e] at ho
      exact Or.inl ho

/-- C37 on the first scenario with a taker that buys 50 of the maker's 100:
`x_Trade` returns, the maker rests with 50 remaining, and it is the one maker
left partially filled. -/
theorem C37_partial_fill_is_last_witness :
    ∃ r, x_Trade exState ex9Taker = .ok r ∧
      allOrders r.state.metadex = [exMaker.setAmountRemaining 50] ∧
      r.pnew.amount_remaining = 0 ∧
      OnePartial (allOrders exState.metadex) (allOrders r.state.metadex) r.pnew
        r.state.t_tradelistdb := by
  obtain ⟨r, hr⟩ := except_ok_of_isSome (x_Trade exState ex9Taker) (by decide!)
  have h1 : (x_Trade exState ex9Taker).toOption.map (fun r => allOrders r.state.metadex) =
      some [exMaker.setAmountRemaining 50] := by decide!
  have h2 : (x_Trade exState ex9Taker).toOption.map (fun r => r.pnew.amount_remaining) =
      some 0 := by decide!
  rw [hr] at h1 h2
  have h := C37_partial_fill_is_last exState "taker" 1 100 11 3 50 78 1 r
    (by decide) (by decide) (by decide)
    (by
      intro pm hg
      have e : pm = [(2, [exMaker])] := (Option.some.inj hg).symm
      rw [e]
      constructor
      · unfold KeysSorted
        simp
      · intro o ho
        have : o = exMaker := by simpa [pricesOrders] using ho
        rw [this]
        decide)
    hr
  exact ⟨r, hr, Option.some.inj h1, Option.some.inj h2, h.2.1⟩

/-- Insertion of an absent key at its place keeps the order of the keys. -/
theorem KeysSorted_mapInsert {κ β : Type} [LinearOrder κ] [DecidableEq κ]
    [DecidableRel (fun (a b : κ) => a < b)] (k : κ) (v : β) (m : List (κ × β))
    (hs : KeysSorted m) (hn : mapFind k m = none) : KeysSorted (mapInsert k v m) := by
  induction m with
  | nil =>
    show List.Pairwise _ [(k, v)]
    exact List.pairwise_singleton _ _
  | cons e tl ih =>
    obtain ⟨k1, v1⟩ := e
    have hs2 := List.pairwise_cons.1 hs
    have hne : ¬ k1 = k := by
      intro c
      have : mapFind k ((k1, v1) :: tl) = some v1 := by
        show (if k1 = k then some v1 else mapFind k tl) = some v1
        rw [if_pos c]
      rw [this] at hn
      cases hn
    have hn2 : mapFind k tl = none := by
      have : mapFind k ((k1, v1) :: tl) = mapFind k tl := by
        show (if k1 = k then some v1 else mapFind k tl) = mapFind k tl
        rw [if_neg hne]
      rw [← this]
      exact hn
    by_cases c : k < k1
    · have e : mapInsert k v ((k1, v1) :: tl) = (k, v) :: (k1, v1) :: tl := by
        show (if k < k1 then (k, v) :: (k1, v1) :: tl else (k1, v1) :: mapInsert k v tl) = _
        rw [if_pos c]
      rw [e]
      refine List.pairwise_cons.2 ⟨?_, hs⟩
      intro x hx
      rcases List.mem_cons.1 hx with h1 | h1
      · rw [h1]
        exact c
      · exact lt_trans c (hs2.1 x h1)
    · have e : mapInsert k v ((k1, v1) :: tl) = (k1, v1) :: mapInsert k v tl := by
        show (if k < k1 then (k, v) :: (k1, v1) :: tl else (k1, v1) :: mapInsert k v tl) = _
        rw [if_neg c]
      rw [e]
      refine List.pairwise_cons.2 ⟨?_, ih hs2.2 hn2⟩
      intro x hx
      rcases mapInsert_mem k v tl x hx with h1 | h1
      · exact hs2.1 x h1
      · rw [h1]
        exact lt_of_le_of_ne (not_lt.1 c) hne

/-- The map assignment keeps the order of the keys. -/
theorem KeysSorted_mapAssign {κ β : Type} [LinearOrder κ] [DecidableEq κ]
    [DecidableRel (fun (a b : κ) => a < b)] (k : κ) (v : β) (m : List (κ × β))
    (hs : KeysSorted m) : KeysSorted (mapAssign k v m) := by
  unfold mapAssign
  cases hf : mapFind k m with
  | none => exact KeysSorted_mapInsert k v m hs hf
  | some x => exact KeysSorted_mapReplace k v m hs

/-- The outer loop of `x_Trade` leaves the price keys as they are. -/
theorem x_Trade_prices_keys (pm : md_PricesMap) (st : TradeState)
    (res : md_PricesMap × TradeState) (h : x_Trade_prices pm st = .ok res) :
    res.1.map Prod.fst = pm.map Prod.fst := by
  induction pm generalizing st res with
  | nil =>
    simp only [x_Trade_prices] at h
    cases h
    rfl
  | cons lvl tl ih =>
    obtain ⟨q, l⟩ := lvl
    rw [x_Trade_prices] at h
    by_cases c : st.pnew.inversePrice < q
    · rw [if_pos c] at h
      cases hr : x_Trade_prices tl st with
      | error a => rw [hr] at h; cases h
      | ok r =>
        rw [hr] at h
        rw [← Except.ok.inj h]
        show q :: r.1.map Prod.fst = q :: tl.map Prod.fst
        rw [ih st r hr]
    · rw [if_neg c] at h
      cases ho : x_Trade_offers q l l st with
      | error a => rw [ho] at h; cases h
      | ok r =>
        rw [ho] at h
        simp only [] at h
        by_cases hsat : r.2.bBuyerSatisfied = true
        · rw [if_pos hsat] at h
          rw [← Except.ok.inj h]
          rfl
        · rw [if_neg hsat] at h
          cases hr : x_Trade_prices tl r.2 with
          | error a => rw [hr] at h; cases h
          | ok r2 =>
            rw [hr] at h
            rw [← Except.ok.inj h]
            show q :: r2.1.map Prod.fst = q :: tl.map Prod.fst
            rw [ih r.2 r2 hr]

/-- Replacing the price map of a property by one with ordered keys keeps the
order of the keys of the book. -/
theorem BookKeysSorted_mapReplace (B : md_PropertiesMap) (prop : Nat) (pm : md_PricesMap)
    (h : BookKeysSorted B) (hp : KeysSorted pm) : BookKeysSorted (mapReplace prop pm B) := by
  refine ⟨KeysSorted_mapReplace _ _ _ h.1, ?_⟩
  intro e he
  rcases mapReplace_mem _ _ _ e he with h1 | h1
  · exact h.2 e h1
  · rw [h1]
    exact hp

/-- The price map of a property of a book with ordered keys has ordered
keys. -/
theorem BookKeysSorted_get_Prices (B : md_PropertiesMap) (h : BookKeysSorted B) (prop : Nat) :
    KeysSorted ((get_Prices B prop).getD []) := by
  cases hg : get_Prices B prop with
  | none => exact List.Pairwise.nil
  | some pm => exact h.2 (prop, pm) (mapFind_mem hg)

/-- `x_Trade` keeps the order of the keys of the book. -/
theorem x_Trade_BookKeysSorted (s : State) (pnew : CMPMetaDEx) (r : TradeResult)
    (hk : BookKeysSorted s.metadex) (h : x_Trade s pnew = .ok r) :
    BookKeysSorted r.state.metadex := by
  unfold x_Trade at h
  cases hg : get_Prices s.metadex pnew.desired_property with
  | none =>
    rw [hg] at h
    rw [← Except.ok.inj h]
    exact hk
  | some pm =>
    rw [hg] at h
    simp only [] at h
    cases hp : x_Trade_prices pm (x_Trade_init s pnew) with
    | error a => rw [hp] at h; cases h
    | ok res =>
      rw [hp] at h
      rw [← Except.ok.inj h]
      apply BookKeysSorted_mapReplace _ _ _ hk
      exact KeysSorted_of_keys _ _ (x_Trade_prices_keys pm _ res hp)
        (hk.2 (pnew.desired_property, pm) (mapFind_mem hg))

/-- `MetaDEx_INSERT` keeps the order of the keys of the book. -/
theorem MetaDEx_INSERT_BookKeysSorted (B : md_PropertiesMap) (o : CMPMetaDEx)
    (hk : BookKeysSorted B) : BookKeysSorted (MetaDEx_INSERT B o).1 := by
  rw [MetaDEx_INSERT_eq]
  split
  · exact hk
  · refine ⟨KeysSorted_mapAssign _ _ _ hk.1, ?_⟩
    intro e he
    rcases mapAssign_mem _ _ _ e he with h1 | h1
    · exact hk.2 e h1
    · rw [h1]
      exact KeysSorted_mapAssign _ _ _ (BookKeysSorted_get_Prices B hk o.property)

/-- `MetaDEx_ADD` keeps the order of the keys of the book. -/
theorem MetaDEx_ADD_BookKeysSorted (ME : Int) (s : State) (sender : String) (prop : Nat)
    (amount block : Int) (pd : Nat) (ad : Int) (txid idx : Nat) (res : Int × State)
    (hk : BookKeysSorted s.metadex)
    (h : MetaDEx_ADD ME s sender prop amount block pd ad txid idx = .ok res) :
    BookKeysSorted res.2.metadex := by
  unfold MetaDEx_ADD at h
  simp only [] at h
  split at h
  · rw [← Except.ok.inj h]
    exact hk
  · cases hx : x_Trade s (CMPMetaDEx.create sender block prop amount pd ad txid idx .ADD) with
    | error a => rw [hx] at h; cases h
    | ok r =>
      rw [hx] at h
      simp only [] at h
      have hr := x_Trade_BookKeysSorted s _ r hk hx
      by_cases cr : 0 < r.pnew.amount_remaining
      · rw [if_pos cr] at h
        by_cases ci : (MetaDEx_INSERT r.state.metadex r.pnew).2 = false
        · rw [if_pos ci] at h
          rw [← Except.ok.inj h]
          exact hr
        · rw [if_neg ci] at h
          cases hu1 : update_tally_map r.state.mp_tally_map sender prop
              (-r.pnew.amount_remaining) .BALANCE with
          | none => rw [hu1] at h; cases h
          | some L1 =>
            rw [hu1] at h
            simp only [] at h
            cases hu2 : update_tally_map L1 sender prop r.pnew.amount_remaining
                .METADEX_RESERVE with
            | none => rw [hu2] at h; cases h
            | some L2 =>
              rw [hu2] at h
              rw [← Except.ok.inj h]
              exact MetaDEx_INSERT_BookKeysSorted _ _ hr
      · rw [if_neg cr] at h
        rw [← Except.ok.inj h]
        exact hr

/-- A cancel loop leaves the price keys as they are. -/
theorem keptPrices_keys (skipLevel : ℚ → Bool) (skip : CMPMetaDEx → Bool) (pm : md_PricesMap) :
    (keptPrices skipLevel skip pm).map Prod.fst = pm.map Prod.fst := by
  unfold keptPrices
  rw [List.map_map]
  apply List.map_congr_left
  intro lvl _
  show (if skipLevel lvl.1 then lvl else (lvl.1, lvl.2.filter skip)).1 = lvl.1
  split <;> rfl

/-- The book `MetaDEx_CANCEL_EVERYTHING` leaves has its keys in order. -/
theorem keptProperties_BookKeysSorted (skipProp : Nat → Bool) (skip : CMPMetaDEx → Bool)
    (B : md_PropertiesMap) (hk : BookKeysSorted B) :
    BookKeysSorted (keptProperties skipProp skip B) := by
  constructor
  · apply KeysSorted_of_keys _ B _ hk.1
    unfold keptProperties
    rw [List.map_map]
    apply List.map_congr_left
    intro e _
    show (if skipProp e.1 then e else (e.1, keptPrices (fun _ => false) skip e.2)).1 = e.1
    split <;> rfl
  · intro e he
    unfold keptProperties at he
    obtain ⟨e0, he0, rfl⟩ := List.mem_map.1 he
    by_cases c : skipProp e0.1 = true
    · rw [if_pos c]
      exact hk.2 e0 he0
    · rw [if_neg c]
      show KeysSorted (keptPrices (fun _ => false) skip e0.2)
      exact KeysSorted_of_keys _ _ (keptPrices_keys _ _ _) (hk.2 e0 he0)

/-- Every reachable state has the keys of its book in order. -/
theorem Reachable_BookKeysSorted (isMain isTest : Nat → Bool) (ME : Int) (s : State)
    (h : Reachable isMain isTest ME s) : BookKeysSorted s.metadex := by
  induction h with
  | init L tl cl h0 =>
    exact ⟨List.Pairwise.nil, fun e he => absurd he (List.not_mem_nil _)⟩
  | other s L _ h0 ih => exact ih
  | add s sender prop amount block pd ad txid idx res _ h0 ih =>
    exact MetaDEx_ADD_BookKeysSorted ME s sender prop amount block pd ad txid idx res ih h0
  | cancelAtPrice s txid block sender prop amount pd ad res _ h0 ih =>
    rcases MetaDEx_CANCEL_AT_PRICE_effect ME s txid block sender prop amount pd ad res h0 with
      ⟨-, hr⟩ | ⟨pm, removed, hg, -, hm, -⟩
    · rw [hr]
      exact ih
    · rw [hm]
      exact BookKeysSorted_mapReplace _ _ _ ih
        (KeysSorted_of_keys _ _ (keptPrices_keys _ _ _) (ih.2 (prop, pm) (mapFind_mem hg)))
  | cancelAllForPair s txid block sender prop pd res _ h0 ih =>
    rcases MetaDEx_CANCEL_ALL_FOR_PAIR_effect ME s txid block sender prop pd res h0 with
      ⟨-, hr⟩ | ⟨pm, removed, hg, -, hm, -⟩
    · rw [hr]
      exact ih
    · rw [hm]
      exact BookKeysSorted_mapReplace _ _ _ ih
        (KeysSorted_of_keys _ _ (keptPrices_keys _ _ _) (ih.2 (prop, pm) (mapFind_mem hg)))
  | cancelEverything s txid block sender ecosystem res _ h0 ih =>
    obtain ⟨removed, -, hm, -⟩ :=
      MetaDEx_CANCEL_EVERYTHING_effect isMain isTest ME s txid block sender ecosystem res h0
    rw [hm]
    exact keptProperties_BookKeysSorted _ _ _ ih

end Omni
